import Mathlib

/-!
# llvm-cookbook, chapter 3: the toy front end

A shallow embedding of `chapter3/toy.cpp`: the lexer (`get_token`), the
recursive-descent parser with its mutable precedence table, and the code
generator together with the part of the LLVM IR builder interface it drives.

Conventions of the embedding

* A C `char`/`int` holding a character or a token is a `Nat`; the value `EOF`
  of `fgetc` (the only negative `int` the program handles) is `none`.
* A `std::string` is the list of its bytes.
* A nullable pointer result is an `Option`.
* The program state is the record `State` of the file-scope statics.
* A procedure `x_parser` of the source is `x_parse` here; the other names are
  those of the source.
* Recursive procedures whose recursion is not structural take a recursion
  budget; `Res.fuel` is the answer of an exhausted budget, so a run that gives
  `Res.fuel` for every budget is a run that never returns.
* A function, a block or an instruction of the IR is known by a number drawn
  from the counter `State.fresh`, as the object is known by its address.
* What the execution engine does with an emitted function is the machine
  `step`, one instruction at a time; the call in `HandleTopLevelExpression`
  runs it within the budget of the driver.
-/

namespace Chapter3

/-! ## Outcomes -/

/-- Outcome of running a procedure from a state: a normal return with a value
and the new state, an uncaught C++ exception (`std::terminate`), undefined
behaviour (`ub`: use of a null or dangling pointer), or an exhausted budget. -/
inductive Res (σ α : Type) where
  | ret (a : α) (s : σ)
  | throws
  | ub
  | fuel
  deriving DecidableEq

/-- The value of a normal return. -/
def Res.val? {σ α : Type} : Res σ α → Option α
  | .ret a _ => some a
  | _ => none

/-- The state of a normal return. -/
def Res.state? {σ α : Type} : Res σ α → Option σ
  | .ret _ s => some s
  | _ => none

/-- Sequencing: run the continuation on a normal return, pass any other
outcome through. -/
def Res.bind {σ α β : Type} (r : Res σ α) (f : α → σ → Res σ β) : Res σ β :=
  match r with
  | .ret a s => f a s
  | .throws => .throws
  | .ub => .ub
  | .fuel => .fuel

/-! ## Tokens (`enum Token_Type`) -/

abbrev EOF_TOKEN : Nat := 0
abbrev NUMERIC_TOKEN : Nat := 1
abbrev IDENTIFIER_TOKEN : Nat := 2
abbrev PARAN_TOKEN : Nat := 3
abbrev DEF_TOKEN : Nat := 4
abbrev IF_TOKEN : Nat := 5
abbrev THEN_TOKEN : Nat := 6
abbrev ELSE_TOKEN : Nat := 7
abbrev FOR_TOKEN : Nat := 8
abbrev IN_TOKEN : Nat := 9
abbrev BINARY_TOKEN : Nat := 10
abbrev UNARY_TOKEN : Nat := 11

/-! ## `<cctype>` in the "C" locale, and the string conversions -/

/-- The function `isspace` on the result of `fgetc`. -/
def isspace : Option Nat → Bool
  | some c => c == 32 || (9 ≤ c && c ≤ 13)
  | none => false

/-- The function `isalpha`. -/
def isalpha (c : Nat) : Bool := (65 ≤ c && c ≤ 90) || (97 ≤ c && c ≤ 122)

/-- The function `isdigit`. -/
def isdigit (c : Nat) : Bool := 48 ≤ c && c ≤ 57

/-- The function `isalnum`. -/
def isalnum (c : Nat) : Bool := isalpha c || isdigit c

/-- The function `isascii` on a token. -/
def isascii (c : Nat) : Bool := c < 128

/-- Value of a run of decimal digits, most significant first. -/
def digitsVal (ds : List Nat) : Nat := ds.foldl (fun acc d => 10 * acc + (d - 48)) 0

/-- `std::stoi(str, 0, 10)`: skip leading white space, read an optional sign
and the longest run of digits; `none` is the exception thrown when there is no
digit (`std::invalid_argument`) or the value does not fit an `int`
(`std::out_of_range`). -/
def stoi (str : List Nat) : Option Int :=
  let s := str.dropWhile (fun c => isspace (some c))
  let neg := s.head? == some 45
  let s := if s.head? == some 45 || s.head? == some 43 then s.tail else s
  let ds := s.takeWhile isdigit
  if ds.isEmpty then none
  else
    let v : Int := if neg then - (digitsVal ds : Int) else (digitsVal ds : Int)
    if v < -2147483648 ∨ 2147483647 < v then none else some v

/-- Decimal digits of `n`, most significant first, prepended to `acc`; the
first argument bounds the number of digits. -/
def to_string_aux : Nat → Nat → List Nat → List Nat
  | 0, _, acc => acc
  | k + 1, n, acc =>
    if n < 10 then (48 + n) :: acc else to_string_aux k (n / 10) ((48 + n % 10) :: acc)

/-- `std::to_string` on a non-negative `int`. -/
def to_string (n : Nat) : List Nat := to_string_aux (n + 1) n []

/-! ## Lexer -/

/-- The statics of the lexer: the open `file` (its unread bytes), the
function-local static `LastChar` of `get_token`, `Numeric_Val` and
`Identifier_string`. -/
structure Lexer where
  file : List Nat
  LastChar : Option Nat
  Numeric_Val : Int
  Identifier_string : List Nat
  deriving DecidableEq

/-- The lexer before the first call of `get_token` on the given input. -/
def Lexer.init (input : List Nat) : Lexer :=
  { file := input, LastChar := some 32, Numeric_Val := 0, Identifier_string := [] }

/-- `fgetc(file)`: the next byte as an `unsigned char`, or `EOF`. -/
def fgetc : List Nat → Option Nat × List Nat
  | [] => (none, [])
  | c :: rest => (some (c % 256), rest)

/-- The loop `while (isspace(LastChar)) { LastChar = fgetc(file); if (LastChar
== EOF) return EOF_TOKEN; }`: gives `LastChar` and the unread bytes when the
loop is left; `LastChar = EOF` then stands for the `return` inside it. -/
def skip_space : Option Nat → List Nat → Option Nat × List Nat
  | lc, [] => if isspace lc then (none, []) else (lc, [])
  | lc, c :: rest => if isspace lc then skip_space (some (c % 256)) rest else (lc, c :: rest)

/-- The loop `while (isalnum((LastChar = fgetc(file)))) Identifier_string +=
LastChar;`: gives `Identifier_string`, `LastChar` and the unread bytes. -/
def read_alnum : List Nat → List Nat → List Nat × Option Nat × List Nat
  | [], acc => (acc, none, [])
  | c :: rest, acc =>
    if isalnum (c % 256) then read_alnum rest (acc ++ [c % 256]) else (acc, some (c % 256), rest)

/-- The loop `do { NumStr += LastChar; LastChar = fgetc(file); } while
(isdigit(LastChar));` after its first `NumStr += LastChar`. -/
def read_digits : List Nat → List Nat → List Nat × Option Nat × List Nat
  | [], acc => (acc, none, [])
  | c :: rest, acc =>
    if isdigit (c % 256) then read_digits rest (acc ++ [c % 256]) else (acc, some (c % 256), rest)

/-- The loop `do LastChar = fgetc(file); while (LastChar != EOF && LastChar !=
'\n' && LastChar != '\r');`. -/
def skip_comment : List Nat → Option Nat × List Nat
  | [] => (none, [])
  | c :: rest => if c % 256 = 10 ∨ c % 256 = 13 then (some (c % 256), rest) else skip_comment rest

/-- The chain of string comparisons that ends the identifier branch. -/
def keyword (id : List Nat) : Nat :=
  if id = [100, 101, 102] then DEF_TOKEN
  else if id = [105, 102] then IF_TOKEN
  else if id = [116, 104, 101, 110] then THEN_TOKEN
  else if id = [101, 108, 115, 101] then ELSE_TOKEN
  else if id = [102, 111, 114] then FOR_TOKEN
  else if id = [105, 110] then IN_TOKEN
  else if id = [98, 105, 110, 97, 114, 121] then BINARY_TOKEN
  else if id = [117, 110, 97, 114, 121] then UNARY_TOKEN
  else IDENTIFIER_TOKEN

/-- The body of `get_token`; the budget pays for the recursive call after a
comment. -/
def get_token_aux : Nat → Lexer → Res Lexer Nat
  | 0, _ => .fuel
  | n + 1, l =>
    match skip_space l.LastChar l.file with
    | (none, f) => .ret EOF_TOKEN { l with LastChar := none, file := f }
    | (some c, f) =>
      if isalpha c then
        match read_alnum f [c] with
        | (id, lc, f) =>
          .ret (keyword id) { l with Identifier_string := id, LastChar := lc, file := f }
      else if isdigit c then
        match read_digits f [c] with
        | (NumStr, lc, f) =>
          match stoi NumStr with
          | none => .throws
          | some v => .ret NUMERIC_TOKEN { l with Numeric_Val := v, LastChar := lc, file := f }
      else if c = 35 then
        match skip_comment f with
        | (some lc, f) => get_token_aux n { l with LastChar := some lc, file := f }
        | (none, f) => .ret EOF_TOKEN { l with LastChar := none, file := f }
      else
        match fgetc f with
        | (lc, f) => .ret c { l with LastChar := lc, file := f }

/-- `get_token()`. Each recursive call follows the reading of a line end, so a
budget of one more than the unread bytes is never exhausted. -/
def get_token (l : Lexer) : Res Lexer Nat := get_token_aux (l.file.length + 1) l

/-! ## AST -/

/-- The classes derived from `BaseAST`, one constructor a class, the fields in
the order of the constructor's parameters. `Step` of `ExprForAST` is the only
child pointer that may be null. -/
inductive BaseAST where
  | NumericAST (numeric_val : Int)
  | VariableAST (Var_Name : List Nat)
  | ExprUnaryAST (Opcode : Nat) (Operand : BaseAST)
  | BinaryAST (Bin_Operator : List Nat) (LHS RHS : BaseAST)
  | ExprIfAST (Cond Then Else : BaseAST)
  | ExprForAST (Var_Name : List Nat) (Start End : BaseAST) (Step : Option BaseAST)
      (Body : BaseAST)
  | FunctionCallAST (Function_Callee : List Nat) (Function_Arguments : List BaseAST)

/-- The class `FunctionDeclAST`. -/
structure FunctionDeclAST where
  Func_Name : List Nat
  Arguments : List (List Nat)
  isOperator : Bool
  Precedence : Nat
  deriving DecidableEq

/-- `FunctionDeclAST::isUnaryOp`. -/
def FunctionDeclAST.isUnaryOp (d : FunctionDeclAST) : Bool :=
  d.isOperator && d.Arguments.length == 1

/-- `FunctionDeclAST::isBinaryOp`. -/
def FunctionDeclAST.isBinaryOp (d : FunctionDeclAST) : Bool :=
  d.isOperator && d.Arguments.length == 2

/-- `FunctionDeclAST::getOperatorName`: the last byte of the name; `none` when
the name is empty (the index `size() - 1` is then out of bounds). -/
def FunctionDeclAST.getOperatorName (d : FunctionDeclAST) : Option Nat :=
  d.Func_Name.getLast?

/-- `FunctionDeclAST::getBinaryPrecedence`. -/
def FunctionDeclAST.getBinaryPrecedence (d : FunctionDeclAST) : Nat := d.Precedence

/-- The class `FunctionDefnAST`. -/
structure FunctionDefnAST where
  Func_Decl : FunctionDeclAST
  Body : BaseAST

/-! ## The IR held by the backend

What the program can observe of the LLVM objects it creates. Functions, basic
blocks and instructions are known by the identity of the object (a number
drawn from one counter); the names given to SSA values and blocks are hints
to the printer and are not kept, except the label a block was asked for. -/

/-- An `llvm::Value` an expression can lower to: an integer constant of a bit
width, the poison constant, a parameter of a function, or the result of an
instruction. -/
inductive Value where
  | ConstantInt (bits : Nat) (val : Nat)
  | Poison (bits : Nat)
  | Argument (F : Nat) (idx : Nat)
  | Instruction (id : Nat)
  deriving DecidableEq

/-- The label asked for when a block is created. -/
inductive Label where
  | entry | then_ | else_ | ifcont | loop | afterloop
  deriving DecidableEq

/-- The opcodes of `Instruction::BinaryOps` the program uses. -/
inductive BinaryOps where
  | Add | Sub | Mul | SDiv
  deriving DecidableEq

/-- The predicates of `CmpInst::Predicate` the program uses. -/
inductive Predicate where
  | ICMP_ULT | ICMP_NE
  deriving DecidableEq

/-- The instructions the builder is asked for. Blocks and callees are named by
identity; a phi node lists its incoming (value, block) pairs in the order of
the `addIncoming` calls. -/
inductive Inst where
  | BinaryOperator (Opc : BinaryOps) (L R : Value)
  | ICmp (P : Predicate) (L R : Value)
  | ZExt (V : Value)
  | Call (Callee : Nat) (Args : List Value)
  | PHI (incoming : List (Value × Nat))
  | Br (Dest : Nat)
  | CondBr (Cond : Value) (IfTrue IfFalse : Nat)
  | Ret (V : Value)
  deriving DecidableEq

/-- An instruction placed in a block, with its identity. -/
structure Instr where
  id : Nat
  inst : Inst
  deriving DecidableEq

/-- An `llvm::BasicBlock`. -/
structure BasicBlock where
  id : Nat
  label : Label
  insts : List Instr
  deriving DecidableEq

/-- An `llvm::Function` of type `i32 (i32, ..., i32)`: its identity, its name
in the module, its parameter count and its blocks in order. -/
structure Function where
  id : Nat
  Name : List Nat
  arg_size : Nat
  blocks : List BasicBlock
  deriving DecidableEq

/-! ## Program state -/

/-- The file-scope statics of the program: the lexer, `Current_token`,
`Operator_Precedence` (a `std::map<char, int>`, kept as its entries),
`TheModule` (its functions in order), the insertion block of `Builder`,
`Named_Values` (a `std::map<std::string, Value *>`, kept as its entries), and
the counter that hands out object identities. -/
structure State where
  lex : Lexer
  Current_token : Nat
  Operator_Precedence : List (Nat × Int)
  TheModule : List Function
  Builder : Option Nat
  Named_Values : List (List Nat × Option Value)
  fresh : Nat
  deriving DecidableEq

/-- Lookup in the entries of a `std::map` (`find`). -/
def map_find {κ β : Type} [DecidableEq κ] : List (κ × β) → κ → Option β
  | [], _ => none
  | (k', v) :: rest, k => if k' = k then some v else map_find rest k

/-- `m[k]` as an rvalue: the stored value, and the map, which has gained the
value-initialised entry `(k, dflt)` when the key was absent. -/
def map_index {κ β : Type} [DecidableEq κ] (dflt : β) (m : List (κ × β)) (k : κ) :
    β × List (κ × β) :=
  match map_find m k with
  | some v => (v, m)
  | none => (dflt, (k, dflt) :: m)

/-- `m.erase(k)`. -/
def map_erase {κ β : Type} [DecidableEq κ] (m : List (κ × β)) (k : κ) : List (κ × β) :=
  m.filter (fun e => !decide (e.1 = k))

/-- `m[k] = v`. -/
def map_assign {κ β : Type} [DecidableEq κ] (m : List (κ × β)) (k : κ) (v : β) :
    List (κ × β) :=
  (k, v) :: map_erase m k

/-- Value stored for a key of `Operator_Precedence`, 0 for an absent key (the
value `operator[]` gives a new entry). -/
def precOf (m : List (Nat × Int)) (k : Nat) : Int :=
  match map_find m k with
  | some v => v
  | none => 0

/-- `init_operator_precedence()`. -/
def init_operator_precedence (s : State) : State :=
  let m := map_assign s.Operator_Precedence 60 10
  let m := map_assign m 45 20
  let m := map_assign m 43 30
  let m := map_assign m 47 40
  let m := map_assign m 42 50
  { s with Operator_Precedence := m }

/-- The state in which `main` calls `next_token` for the first time. -/
def State.init (input : List Nat) : State :=
  init_operator_precedence
    { lex := Lexer.init input, Current_token := 0, Operator_Precedence := [],
      TheModule := [], Builder := none, Named_Values := [], fresh := 0 }

/-- The statics of the lexer and the parser: what the code generator of
expressions has no access to. -/
def State.front (s : State) : Lexer × Nat × List (Nat × Int) :=
  (s.lex, s.Current_token, s.Operator_Precedence)

/-- The state in which `main` calls `Driver`, after its first `next_token()`
(the state before it when that call does not return). -/
def State.start (input : List Nat) : State :=
  match get_token (Lexer.init input) with
  | .ret t l => { State.init input with lex := l, Current_token := t }
  | _ => State.init input

/-! ## Parser -/

/-- `next_token()`. -/
def next_token (s : State) : Res State Nat :=
  match get_token s.lex with
  | .ret t l => .ret t { s with lex := l, Current_token := t }
  | .throws => .throws
  | .ub => .ub
  | .fuel => .fuel

/-- `getBinOpPrecedence()`. -/
def getBinOpPrecedence (s : State) : Int × State :=
  if !isascii s.Current_token then (-1, s)
  else
    match map_index 0 s.Operator_Precedence s.Current_token with
    | (TokPrec, m) =>
      if TokPrec ≤ 0 then (-1, { s with Operator_Precedence := m })
      else (TokPrec, { s with Operator_Precedence := m })

/-- `numeric_parser()`. -/
def numeric_parse (s : State) : Res State (Option BaseAST) :=
  let Result := BaseAST.NumericAST s.lex.Numeric_Val
  (next_token s).bind fun _ s => .ret (some Result) s

mutual

/-- `identifier_parser()`. -/
def identifier_parse : Nat → State → Res State (Option BaseAST)
  | 0, _ => .fuel
  | n + 1, s =>
    let IdName := s.lex.Identifier_string
    (next_token s).bind fun _ s =>
    if s.Current_token ≠ 40 then .ret (some (.VariableAST IdName)) s
    else
      (next_token s).bind fun _ s =>
      if s.Current_token ≠ 41 then
        (identifier_args n [] s).bind fun Args s =>
        match Args with
        | none => .ret none s
        | some Args => (next_token s).bind fun _ s => .ret (some (.FunctionCallAST IdName Args)) s
      else
        (next_token s).bind fun _ s => .ret (some (.FunctionCallAST IdName [])) s

/-- The loop `while (true)` of `identifier_parser` entered with the arguments
read so far: `none` when the loop is left by `return nullptr`, the arguments
when it is left by `break`. -/
def identifier_args : Nat → List BaseAST → State → Res State (Option (List BaseAST))
  | 0, _, _ => .fuel
  | n + 1, Args, s =>
    (expression_parse n s).bind fun Arg s =>
    match Arg with
    | none => .ret none s
    | some Arg =>
      let Args := Args ++ [Arg]
      if s.Current_token = 41 then .ret (some Args) s
      else if s.Current_token ≠ 44 then .ret none s
      else (next_token s).bind fun _ s => identifier_args n Args s

/-- `paran_parser()`. -/
def paran_parse : Nat → State → Res State (Option BaseAST)
  | 0, _ => .fuel
  | n + 1, s =>
    (next_token s).bind fun _ s =>
    (expression_parse n s).bind fun V s =>
    match V with
    | none => .ret none s
    | some V =>
      if s.Current_token ≠ 41 then .ret none s
      else (next_token s).bind fun _ s => .ret (some V) s

/-- `if_parser()`. -/
def if_parse : Nat → State → Res State (Option BaseAST)
  | 0, _ => .fuel
  | n + 1, s =>
    (next_token s).bind fun _ s =>
    (expression_parse n s).bind fun Cond s =>
    match Cond with
    | none => .ret none s
    | some Cond =>
      if s.Current_token ≠ THEN_TOKEN then .ret none s
      else
        (next_token s).bind fun _ s =>
        (expression_parse n s).bind fun Then s =>
        match Then with
        | none => .ret none s
        | some Then =>
          if s.Current_token ≠ ELSE_TOKEN then .ret none s
          else
            (next_token s).bind fun _ s =>
            (expression_parse n s).bind fun Else s =>
            match Else with
            | none => .ret none s
            | some Else => .ret (some (.ExprIfAST Cond Then Else)) s

/-- `for_parser()`. -/
def for_parse : Nat → State → Res State (Option BaseAST)
  | 0, _ => .fuel
  | n + 1, s =>
    (next_token s).bind fun _ s =>
    if s.Current_token ≠ IDENTIFIER_TOKEN then .ret none s
    else
      let IdName := s.lex.Identifier_string
      (next_token s).bind fun _ s =>
      if s.Current_token ≠ 61 then .ret none s
      else
        (next_token s).bind fun _ s =>
        (expression_parse n s).bind fun Start s =>
        match Start with
        | none => .ret none s
        | some Start =>
          if s.Current_token ≠ 44 then .ret none s
          else
            (next_token s).bind fun _ s =>
            (expression_parse n s).bind fun End s =>
            match End with
            | none => .ret none s
            | some End =>
              if s.Current_token = 44 then
                (next_token s).bind fun _ s =>
                (expression_parse n s).bind fun Step s =>
                match Step with
                | none => .ret none s
                | some Step => for_body n IdName Start End (some Step) s
              else for_body n IdName Start End none s

/-- The end of `for_parser`, from `if (Current_token != IN_TOKEN)` on, which
both paths of the optional step reach. -/
def for_body : Nat → List Nat → BaseAST → BaseAST → Option BaseAST → State →
    Res State (Option BaseAST)
  | 0, _, _, _, _, _ => .fuel
  | n + 1, IdName, Start, End, Step, s =>
    if s.Current_token ≠ IN_TOKEN then .ret none s
    else
      (next_token s).bind fun _ s =>
      (expression_parse n s).bind fun Body s =>
      match Body with
      | none => .ret none s
      | some Body => .ret (some (.ExprForAST IdName Start End Step Body)) s

/-- `base_parser()`. -/
def base_parse : Nat → State → Res State (Option BaseAST)
  | 0, _ => .fuel
  | n + 1, s =>
    if s.Current_token = IDENTIFIER_TOKEN then identifier_parse n s
    else if s.Current_token = NUMERIC_TOKEN then numeric_parse s
    else if s.Current_token = 40 then paran_parse n s
    else if s.Current_token = IF_TOKEN then if_parse n s
    else if s.Current_token = FOR_TOKEN then for_parse n s
    else .ret none s

/-- `unary_parser()`. -/
def unary_parse : Nat → State → Res State (Option BaseAST)
  | 0, _ => .fuel
  | n + 1, s =>
    if !isascii s.Current_token || s.Current_token = 40 || s.Current_token = 44 then
      base_parse n s
    else if s.Current_token = IF_TOKEN || s.Current_token = FOR_TOKEN ||
        s.Current_token = IDENTIFIER_TOKEN || s.Current_token = NUMERIC_TOKEN then
      base_parse n s
    else
      let Op := s.Current_token
      (next_token s).bind fun _ s =>
      (unary_parse n s).bind fun Operand s =>
      match Operand with
      | some Operand => .ret (some (.ExprUnaryAST Op Operand)) s
      | none => .ret none s

/-- `binary_op_parser(Old_Prec, LHS)`; one call of the embedding is one turn of
the loop `while (true)`, the next turn being the call at its end. -/
def binary_op_parse : Nat → Int → BaseAST → State → Res State (Option BaseAST)
  | 0, _, _, _ => .fuel
  | n + 1, Old_Prec, LHS, s =>
    match getBinOpPrecedence s with
    | (Operator_Prec, s) =>
      if Operator_Prec < Old_Prec then .ret (some LHS) s
      else
        let BinOp := s.Current_token
        (next_token s).bind fun _ s =>
        (unary_parse n s).bind fun RHS s =>
        match RHS with
        | none => .ret none s
        | some RHS =>
          match getBinOpPrecedence s with
          | (Next_Prec, s) =>
            if Operator_Prec < Next_Prec then
              (binary_op_parse n (Operator_Prec + 1) RHS s).bind fun RHS s =>
              match RHS with
              | none => .ret none s
              | some RHS => binary_op_parse n Old_Prec (.BinaryAST (to_string BinOp) LHS RHS) s
            else binary_op_parse n Old_Prec (.BinaryAST (to_string BinOp) LHS RHS) s

/-- `expression_parser()`. -/
def expression_parse : Nat → State → Res State (Option BaseAST)
  | 0, _ => .fuel
  | n + 1, s =>
    (unary_parse n s).bind fun LHS s =>
    match LHS with
    | none => .ret none s
    | some LHS => binary_op_parse n 0 LHS s

end

/-- The loop `while (next_token() == IDENTIFIER_TOKEN)
Function_Argument_Names.push_back(Identifier_string);` entered with the names
read so far. -/
def func_decl_args : Nat → List (List Nat) → State → Res State (List (List Nat))
  | 0, _, _ => .fuel
  | n + 1, Function_Argument_Names, s =>
    (next_token s).bind fun t s =>
    if t = IDENTIFIER_TOKEN then
      func_decl_args n (Function_Argument_Names ++ [s.lex.Identifier_string]) s
    else .ret Function_Argument_Names s

/-- The part of `func_decl_parser` that follows the `switch`. -/
def func_decl_tail (n : Nat) (Function_Name : List Nat) (Kind : Nat) (BinaryPrecedence : Nat)
    (s : State) : Res State (Option FunctionDeclAST) :=
  if s.Current_token ≠ 40 then .ret none s
  else
    (func_decl_args n [] s).bind fun Function_Argument_Names s =>
    if s.Current_token ≠ 41 then .ret none s
    else
      (next_token s).bind fun _ s =>
      if Kind ≠ 0 ∧ Function_Argument_Names.length ≠ Kind then .ret none s
      else
        .ret (some ⟨Function_Name, Function_Argument_Names, decide (Kind ≠ 0), BinaryPrecedence⟩) s

/-- `func_decl_parser()`; the budget is that of the parameter loop. -/
def func_decl_parse (n : Nat) (s : State) : Res State (Option FunctionDeclAST) :=
  if s.Current_token = IDENTIFIER_TOKEN then
    let Function_Name := s.lex.Identifier_string
    (next_token s).bind fun _ s => func_decl_tail n Function_Name 0 30 s
  else if s.Current_token = UNARY_TOKEN then
    (next_token s).bind fun _ s =>
    if !isascii s.Current_token then .ret none s
    else
      let Function_Name := [117, 110, 97, 114, 121] ++ [s.Current_token]
      (next_token s).bind fun _ s => func_decl_tail n Function_Name 1 30 s
  else if s.Current_token = BINARY_TOKEN then
    (next_token s).bind fun _ s =>
    if !isascii s.Current_token then .ret none s
    else
      let Function_Name := [98, 105, 110, 97, 114, 121] ++ [s.Current_token]
      (next_token s).bind fun _ s =>
      if s.Current_token = NUMERIC_TOKEN then
        if s.lex.Numeric_Val < 1 ∨ s.lex.Numeric_Val > 100 then .ret none s
        else
          let BinaryPrecedence := s.lex.Numeric_Val.toNat
          (next_token s).bind fun _ s => func_decl_tail n Function_Name 2 BinaryPrecedence s
      else func_decl_tail n Function_Name 2 30 s
  else .ret none s

/-- `func_defn_parser()`. -/
def func_defn_parse (n : Nat) (s : State) : Res State (Option FunctionDefnAST) :=
  (next_token s).bind fun _ s =>
  (func_decl_parse n s).bind fun Decl s =>
  match Decl with
  | none => .ret none s
  | some Decl =>
    (expression_parse n s).bind fun Body s =>
    match Body with
    | some Body => .ret (some ⟨Decl, Body⟩) s
    | none => .ret none s

/-- `top_level_parser()`. -/
def top_level_parse (n : Nat) (s : State) : Res State (Option FunctionDefnAST) :=
  (expression_parse n s).bind fun E s =>
  match E with
  | some E => .ret (some ⟨⟨[], [], false, 0⟩, E⟩) s
  | none => .ret none s

/-! ## The IR builder interface

The calls the code generator makes on `llvm::Module`, `llvm::Function`,
`llvm::BasicBlock` and `llvm::IRBuilder<>` (with its default
`ConstantFolder`), as far as the program can observe them. A null or dangling
pointer handed to the library is undefined behaviour. -/

/-- `TheModule->getFunction(Name)`: the function the symbol table of the module
holds under the name; a function without a name is in no symbol table. -/
def getFunction (m : List Function) (Name : List Nat) : Option Function :=
  if Name = [] then none else m.find? (fun F => decide (F.Name = Name))

/-- `BB->getParent()` for an inserted block: the function whose list of blocks
holds the block. -/
def getParent (m : List Function) (BB : Nat) : Option Function :=
  m.find? (fun F => F.blocks.any (fun B => decide (B.id = BB)))

/-- The function with one instruction more at the end of the block `BB`. -/
def Function.append (BB : Nat) (i : Instr) (F : Function) : Function :=
  { F with blocks := F.blocks.map fun B =>
      if B.id = BB then { B with insts := B.insts ++ [i] } else B }

/-- `Builder.Insert(I)`: the new instruction goes to the end of the insertion
block (every `SetInsertPoint` of the program names a block, not a position in
it); with no insertion block the instruction is created and left out of every
block. -/
def Insert (inst : Inst) (s : State) : Res State Value :=
  match s.Builder with
  | none => .ret (.Instruction s.fresh) { s with fresh := s.fresh + 1 }
  | some BB =>
    match getParent s.TheModule BB with
    | none => .ub
    | some _ =>
      .ret (.Instruction s.fresh)
        { s with TheModule := s.TheModule.map (Function.append BB ⟨s.fresh, inst⟩),
                 fresh := s.fresh + 1 }

/-- The signed reading of a bit pattern. -/
def signed (bits v : Nat) : Int := if v < 2 ^ (bits - 1) then (v : Int) else (v : Int) - 2 ^ bits

/-- The bit pattern of an integer. -/
def wrap (bits : Nat) (v : Int) : Nat := (v % 2 ^ bits).toNat

/-- Constant folding of a binary operator on two integers of one width; `none`
is poison (division by zero, and the overflowing signed division). -/
def evalBinOp (Opc : BinaryOps) (bits x y : Nat) : Option Nat :=
  match Opc with
  | .Add => some (wrap bits ((x : Int) + y))
  | .Sub => some (wrap bits ((x : Int) - y))
  | .Mul => some (wrap bits ((x : Int) * y))
  | .SDiv =>
    if y = 0 then none
    else if signed bits x = - 2 ^ (bits - 1) ∧ signed bits y = -1 then none
    else some (wrap bits (Int.tdiv (signed bits x) (signed bits y)))

/-- `ConstantFolder::FoldBinOp`: a constant when both operands are constants,
`none` (an instruction is needed) otherwise. -/
def FoldBinOp (Opc : BinaryOps) : Value → Value → Option Value
  | .ConstantInt bits x, .ConstantInt _ y =>
    match evalBinOp Opc bits x y with
    | some v => some (.ConstantInt bits v)
    | none => some (.Poison bits)
  | .Poison bits, .ConstantInt _ _ => some (.Poison bits)
  | .ConstantInt bits _, .Poison _ => some (.Poison bits)
  | .Poison bits, .Poison _ => some (.Poison bits)
  | _, _ => none

/-- `ConstantFolder::FoldCmp`. -/
def FoldCmp (P : Predicate) : Value → Value → Option Value
  | .ConstantInt _ x, .ConstantInt _ y =>
    match P with
    | .ICMP_ULT => some (.ConstantInt 1 (if x < y then 1 else 0))
    | .ICMP_NE => some (.ConstantInt 1 (if x ≠ y then 1 else 0))
  | .Poison _, .ConstantInt _ _ => some (.Poison 1)
  | .ConstantInt _ _, .Poison _ => some (.Poison 1)
  | .Poison _, .Poison _ => some (.Poison 1)
  | _, _ => none

/-- `Builder.CreateAdd`, `CreateSub`, `CreateMul`, `CreateSDiv`. -/
def CreateBinOp (Opc : BinaryOps) (L R : Option Value) (s : State) : Res State Value :=
  match L, R with
  | some L, some R =>
    match FoldBinOp Opc L R with
    | some C => .ret C s
    | none => Insert (.BinaryOperator Opc L R) s
  | _, _ => .ub

/-- `Builder.CreateICmpULT`, `CreateICmpNE`. -/
def CreateICmp (P : Predicate) (L R : Option Value) (s : State) : Res State Value :=
  match L, R with
  | some L, some R =>
    match FoldCmp P L R with
    | some C => .ret C s
    | none => Insert (.ICmp P L R) s
  | _, _ => .ub

/-- `Builder.CreateZExt(V, Type::getInt32Ty(TheContext))` on a value of type
`i1`. -/
def CreateZExt (V : Value) (s : State) : Res State Value :=
  match V with
  | .ConstantInt _ x => .ret (.ConstantInt 32 x) s
  | .Poison _ => .ret (.Poison 32) s
  | V => Insert (.ZExt V) s

/-- `Builder.CreateCall(F, Args)`. The library checks the number of arguments
against the callee only by an `assert`, which a release build leaves out: the
call is emitted whatever the number. -/
def CreateCall (F : Option Function) (Args : List (Option Value)) (s : State) :
    Res State Value :=
  match F with
  | none => .ub
  | some F =>
    if Args.all Option.isSome then Insert (.Call F.id (Args.filterMap id)) s else .ub

/-- `Builder.CreatePHI(Type::getInt32Ty(TheContext), 2, Name)`. -/
def CreatePHI (s : State) : Res State Value := Insert (.PHI []) s

/-- `Builder.CreateBr(Dest)`. -/
def CreateBr (Dest : Nat) (s : State) : Res State Value := Insert (.Br Dest) s

/-- `Builder.CreateCondBr(Cond, True, False)`. -/
def CreateCondBr (Cond : Value) (IfTrue IfFalse : Nat) (s : State) : Res State Value :=
  Insert (.CondBr Cond IfTrue IfFalse) s

/-- `Builder.CreateRet(V)`. -/
def CreateRet (V : Value) (s : State) : Res State Value := Insert (.Ret V) s

/-- The instruction, with one more incoming pair when it is the phi node
`PN`. -/
def Instr.addIncoming (PN : Nat) (V : Value) (BB : Nat) (i : Instr) : Instr :=
  if i.id = PN then
    match i.inst with
    | .PHI incoming => { i with inst := .PHI (incoming ++ [(V, BB)]) }
    | _ => i
  else i

/-- `PN->addIncoming(V, BB)` on the value `CreatePHI` returned. -/
def addIncoming (PN : Value) (V : Value) (BB : Nat) (s : State) : Res State Unit :=
  match PN with
  | .Instruction id =>
    .ret () { s with TheModule := s.TheModule.map fun F =>
      { F with blocks := F.blocks.map fun B =>
          { B with insts := B.insts.map (Instr.addIncoming id V BB) } } }
  | _ => .ub

/-- `BasicBlock::Create(TheContext, Name)`: a new block that belongs to no
function yet. -/
def BasicBlock_Create (label : Label) (s : State) : BasicBlock × State :=
  (⟨s.fresh, label, []⟩, { s with fresh := s.fresh + 1 })

/-- `TheFunc->insert(TheFunc->end(), BB)`. -/
def Function_insert (TheFunc : Nat) (BB : BasicBlock) (s : State) : State :=
  { s with TheModule := s.TheModule.map fun F =>
      if F.id = TheFunc then { F with blocks := F.blocks ++ [BB] } else F }

/-- `BasicBlock::Create(TheContext, Name, TheFunc)`: a new block at the end of
the function. -/
def BasicBlock_Create_in (label : Label) (TheFunc : Nat) (s : State) : BasicBlock × State :=
  match BasicBlock_Create label s with
  | (BB, s) => (BB, Function_insert TheFunc BB s)

/-- `Builder.SetInsertPoint(BB)`. -/
def SetInsertPoint (BB : Nat) (s : State) : State := { s with Builder := some BB }

/-- `F->eraseFromParent()`. -/
def eraseFromParent (F : Nat) (s : State) : State :=
  { s with TheModule := s.TheModule.filter (fun G => !decide (G.id = F)) }

/-- `ConstantInt::get(Type::getInt32Ty(TheContext), numeric_val)`. -/
def ConstantInt_get (numeric_val : Int) : Value := .ConstantInt 32 (wrap 32 numeric_val)

/-! ## Code generation -/

/-- `unsigned` to `int`. -/
def unsigned_to_int (u : Nat) : Int := signed 32 (u % 2 ^ 32)

mutual

/-- The methods `Codegen` of the classes derived from `BaseAST`. -/
def Codegen : BaseAST → State → Res State (Option Value)
  | .NumericAST numeric_val, s => .ret (some (ConstantInt_get numeric_val)) s
  | .VariableAST Var_Name, s =>
    match map_index none s.Named_Values Var_Name with
    | (V, m) => .ret V { s with Named_Values := m }
  | .ExprUnaryAST Opcode Operand, s =>
    (Codegen Operand s).bind fun OperandV s =>
    match OperandV with
    | none => .ret none s
    | some OperandV =>
      match getFunction s.TheModule ([117, 110, 97, 114, 121] ++ [Opcode]) with
      | none => .ret none s
      | some F => (CreateCall (some F) [some OperandV] s).bind fun V s => .ret (some V) s
  | .BinaryAST Bin_Operator LHS RHS, s =>
    (Codegen LHS s).bind fun L s =>
    (Codegen RHS s).bind fun R s =>
    match stoi Bin_Operator with
    | none => .throws
    | some op =>
      if op = 43 then (CreateBinOp .Add L R s).bind fun V s => .ret (some V) s
      else if op = 45 then (CreateBinOp .Sub L R s).bind fun V s => .ret (some V) s
      else if op = 42 then (CreateBinOp .Mul L R s).bind fun V s => .ret (some V) s
      else if op = 47 then (CreateBinOp .SDiv L R s).bind fun V s => .ret (some V) s
      else if op = 60 then
        (CreateICmp .ICMP_ULT L R s).bind fun L s =>
        (CreateZExt L s).bind fun V s => .ret (some V) s
      else
        let F := getFunction s.TheModule ([98, 105, 110, 97, 114, 121] ++ Bin_Operator)
        (CreateCall F [L, R] s).bind fun V s => .ret (some V) s
  | .ExprIfAST Cond Then Else, s =>
    (Codegen Cond s).bind fun Condtn s =>
    match Condtn with
    | none => .ret none s
    | some Condtn =>
      (CreateICmp .ICMP_NE (some Condtn) (some (.ConstantInt 32 0)) s).bind fun Condtn s =>
      match s.Builder.bind (getParent s.TheModule) with
      | none => .ub
      | some TheFunc =>
        match BasicBlock_Create_in .then_ TheFunc.id s with
        | (ThenBB, s) =>
        match BasicBlock_Create .else_ s with
        | (ElseBB, s) =>
        match BasicBlock_Create .ifcont s with
        | (MergeBB, s) =>
          (CreateCondBr Condtn ThenBB.id ElseBB.id s).bind fun _ s =>
          (Codegen Then (SetInsertPoint ThenBB.id s)).bind fun ThenVal s =>
          match ThenVal with
          | none => .ret none s
          | some ThenVal =>
            (CreateBr MergeBB.id s).bind fun _ s =>
            match s.Builder with
            | none => .ub
            | some ThenBB =>
              (Codegen Else (SetInsertPoint ElseBB.id (Function_insert TheFunc.id ElseBB s))).bind
                fun ElseVal s =>
              match ElseVal with
              | none => .ret none s
              | some ElseVal =>
                (CreateBr MergeBB.id s).bind fun _ s =>
                match s.Builder with
                | none => .ub
                | some ElseBB =>
                  (CreatePHI (SetInsertPoint MergeBB.id
                      (Function_insert TheFunc.id MergeBB s))).bind fun PN s =>
                  (addIncoming PN ThenVal ThenBB s).bind fun _ s =>
                  (addIncoming PN ElseVal ElseBB s).bind fun _ s => .ret (some PN) s
  | .ExprForAST Var_Name Start End Step Body, s =>
    (Codegen Start s).bind fun StartVal s =>
    match StartVal with
    | none => .ret none s
    | some StartVal =>
      match s.Builder.bind (getParent s.TheModule), s.Builder with
      | some TheFunction, some PreheaderBB =>
        match BasicBlock_Create_in .loop TheFunction.id s with
        | (LoopBB, s) =>
          (CreateBr LoopBB.id s).bind fun _ s =>
          (CreatePHI (SetInsertPoint LoopBB.id s)).bind fun Var s =>
          (addIncoming Var StartVal PreheaderBB s).bind fun _ s =>
          match map_index none s.Named_Values Var_Name with
          | (OldVal, m) =>
            (Codegen Body { s with Named_Values := map_assign m Var_Name (some Var) }).bind
              fun BodyVal s =>
            match BodyVal with
            | none => .ret none s
            | some _ =>
              (Codegen_Step Step s).bind fun StepVal s =>
              match StepVal with
              | none => .ret none s
              | some StepVal =>
                (CreateBinOp .Add (some Var) (some StepVal) s).bind fun NextVar s =>
                (Codegen End s).bind fun EndCond s =>
                match EndCond with
                | none => .ret none s
                | some EndCond =>
                  (CreateICmp .ICMP_NE (some EndCond) (some (.ConstantInt 32 0)) s).bind
                    fun EndCond s =>
                  match s.Builder with
                  | none => .ub
                  | some LoopEndBB =>
                    match BasicBlock_Create_in .afterloop TheFunction.id s with
                    | (AfterBB, s) =>
                      (CreateCondBr EndCond LoopBB.id AfterBB.id s).bind fun _ s =>
                      (addIncoming Var NextVar LoopEndBB (SetInsertPoint AfterBB.id s)).bind
                        fun _ s =>
                      match OldVal with
                      | some OldVal =>
                        .ret (some (.ConstantInt 32 0))
                          { s with Named_Values :=
                              map_assign s.Named_Values Var_Name (some OldVal) }
                      | none =>
                        .ret (some (.ConstantInt 32 0))
                          { s with Named_Values := map_erase s.Named_Values Var_Name }
      | _, _ => .ub
  | .FunctionCallAST Function_Callee Function_Arguments, s =>
    let CalleeF := getFunction s.TheModule Function_Callee
    (Codegen_args Function_Arguments [] s).bind fun ArgsV s =>
    match ArgsV with
    | none => .ret none s
    | some ArgsV => (CreateCall CalleeF ArgsV s).bind fun V s => .ret (some V) s

/-- The statement `if (Step) { StepVal = Step->Codegen(); ... } else { StepVal
= ConstantInt::get(Type::getInt32Ty(TheContext), 1); }` of
`ExprForAST::Codegen`, up to the test of `StepVal`. -/
def Codegen_Step : Option BaseAST → State → Res State (Option Value)
  | some Step, s => Codegen Step s
  | none, s => .ret (some (ConstantInt_get 1)) s

/-- The loop of `FunctionCallAST::Codegen` over the arguments not yet lowered,
entered with `ArgsV`: `none` when it is left by `return nullptr`. -/
def Codegen_args : List BaseAST → List (Option Value) → State →
    Res State (Option (List (Option Value)))
  | [], ArgsV, s => .ret (some ArgsV) s
  | Arg :: rest, ArgsV, s =>
    (Codegen Arg s).bind fun V s =>
    match V with
    | none => .ret none s
    | some V => Codegen_args rest (ArgsV ++ [some V]) s

end

/-- The loop of `FunctionDeclAST::Codegen` that binds the parameters, from
index `Idx` on. -/
def bind_arguments (F : Nat) :
    List (List Nat) → Nat → List (List Nat × Option Value) → List (List Nat × Option Value)
  | [], _, m => m
  | a :: rest, Idx, m => bind_arguments F rest (Idx + 1) (map_assign m a (some (.Argument F Idx)))

/-- `FunctionDeclAST::Codegen`. `Function::Create` gives the new function
another name when `Func_Name` is taken, so `F->getName() != Func_Name` holds
exactly when the module already holds a function of that name; the function
just created is then erased at once and the module is as it was. -/
def FunctionDeclAST.Codegen (d : FunctionDeclAST) (s : State) : Res State (Option Nat) :=
  match getFunction s.TheModule d.Func_Name with
  | some F =>
    if !F.blocks.isEmpty then .ret none s
    else if F.arg_size ≠ d.Arguments.length then .ret none s
    else .ret (some F.id) { s with Named_Values := bind_arguments F.id d.Arguments 0 s.Named_Values }
  | none =>
    let F : Function := ⟨s.fresh, d.Func_Name, d.Arguments.length, []⟩
    .ret (some F.id)
      { s with TheModule := s.TheModule ++ [F], fresh := s.fresh + 1,
               Named_Values := bind_arguments F.id d.Arguments 0 s.Named_Values }

/-- The statement `if (Func_Decl->isBinaryOp())
Operator_Precedence[Func_Decl->getOperatorName()] =
Func_Decl->getBinaryPrecedence();` of `FunctionDefnAST::Codegen`. The key is
the last byte of the name; the parser only reads keys below 128, where the
byte and the `char` agree. -/
def register_precedence (d : FunctionDeclAST) (s : State) : Res State Unit :=
  if d.isBinaryOp then
    match d.getOperatorName with
    | none => .ub
    | some c =>
      let m := map_assign s.Operator_Precedence c (unsigned_to_int d.getBinaryPrecedence)
      .ret () { s with Operator_Precedence := m }
  else .ret () s

/-- `FunctionDefnAST::Codegen`; `verifyFunction` only reports, and its report
is dropped. -/
def FunctionDefnAST.Codegen (d : FunctionDefnAST) (s : State) : Res State (Option Nat) :=
  (d.Func_Decl.Codegen { s with Named_Values := [] }).bind fun TheFunction s =>
  match TheFunction with
  | none => .ret none s
  | some TheFunction =>
    (register_precedence d.Func_Decl s).bind fun _ s =>
    match BasicBlock_Create_in .entry TheFunction s with
    | (BB, s) =>
      (Chapter3.Codegen d.Body (SetInsertPoint BB.id s)).bind fun RetVal s =>
      match RetVal with
      | some RetVal => (CreateRet RetVal s).bind fun _ s => .ret (some TheFunction) s
      | none => .ret none (eraseFromParent TheFunction s)

/-! ## The execution engine

What `TheExecutionEngine` computes when `HandleTopLevelExpression` calls the
function it has lowered: the meaning of the instructions the code generator
emits, on values of the type `i32` (and `i1` for a comparison) held as bit
patterns. Poison is given no value, and the machine stops where the IR has
undefined behaviour or reads what is not there. -/

/-- One activation of a function: the function, its arguments, the block in
control and the place in it, the block control came from, and the values of
the instructions executed so far. -/
structure Frame where
  F : Function
  args : List Nat
  block : Nat
  prev : Option Nat
  pc : Nat
  env : List (Nat × Nat)
  deriving DecidableEq

/-- The machine: running (the activation on top and those of its callers),
returned from the outermost function with a value, or stopped. -/
inductive Machine where
  | running (top : Frame) (callers : List Frame)
  | returned (v : Nat)
  | stuck
  deriving DecidableEq

/-- The value of an operand. -/
def Frame.operand (fr : Frame) : Value → Option Nat
  | .ConstantInt _ v => some v
  | .Poison _ => none
  | .Argument _ idx => fr.args[idx]?
  | .Instruction id => map_find fr.env id

/-- The instruction in control. -/
def Frame.fetch (fr : Frame) : Option Instr :=
  (fr.F.blocks.find? fun B => decide (B.id = fr.block)).bind fun B => B.insts[fr.pc]?

/-- The instruction in control has the value `v`: on to the next one. -/
def Frame.assign (fr : Frame) (id v : Nat) : Frame :=
  { fr with env := map_assign fr.env id v, pc := fr.pc + 1 }

/-- Control goes to the start of the block `Dest`. -/
def Frame.jump (fr : Frame) (Dest : Nat) : Frame :=
  { fr with prev := some fr.block, block := Dest, pc := 0 }

/-- The activation that starts a function with a body at its first block. -/
def Function.enter (F : Function) (args : List Nat) : Option Frame :=
  match F.blocks with
  | [] => none
  | B :: _ => some ⟨F, args, B.id, none, 0, []⟩

/-- The operands of a call, all of them or none. -/
def Frame.operands (fr : Frame) : List Value → Option (List Nat)
  | [] => some []
  | V :: rest =>
    match fr.operand V, Frame.operands fr rest with
    | some v, some vs => some (v :: vs)
    | _, _ => none

/-- One instruction of the machine on the module `m`. -/
def step (m : List Function) : Machine → Machine
  | .running fr callers =>
    match fr.fetch with
    | none => .stuck
    | some i =>
      match i.inst with
      | .BinaryOperator Opc L R =>
        match fr.operand L, fr.operand R with
        | some x, some y =>
          match evalBinOp Opc 32 x y with
          | some v => .running (fr.assign i.id v) callers
          | none => .stuck
        | _, _ => .stuck
      | .ICmp P L R =>
        match fr.operand L, fr.operand R with
        | some x, some y =>
          match P with
          | .ICMP_ULT => .running (fr.assign i.id (if x < y then 1 else 0)) callers
          | .ICMP_NE => .running (fr.assign i.id (if x ≠ y then 1 else 0)) callers
        | _, _ => .stuck
      | .ZExt V =>
        match fr.operand V with
        | some x => .running (fr.assign i.id x) callers
        | none => .stuck
      | .Call Callee Args =>
        match m.find? (fun G => decide (G.id = Callee)), fr.operands Args with
        | some G, some vs =>
          match G.enter vs with
          | some top => .running top (fr :: callers)
          | none => .stuck
        | _, _ => .stuck
      | .PHI incoming =>
        match fr.prev with
        | none => .stuck
        | some BB =>
          match incoming.find? fun e => decide (e.2 = BB) with
          | some (V, _) =>
            match fr.operand V with
            | some x => .running (fr.assign i.id x) callers
            | none => .stuck
          | none => .stuck
      | .Br Dest => .running (fr.jump Dest) callers
      | .CondBr Cond IfTrue IfFalse =>
        match fr.operand Cond with
        | some c => .running (fr.jump (if c ≠ 0 then IfTrue else IfFalse)) callers
        | none => .stuck
      | .Ret V =>
        match fr.operand V with
        | some v =>
          match callers with
          | [] => .returned v
          | caller :: rest =>
            match caller.fetch with
            | some call => .running (caller.assign call.id v) rest
            | none => .stuck
        | none => .stuck
  | .returned v => .returned v
  | .stuck => .stuck

/-- The machine `n` instructions after the call `Int()` of the function `F` of
the module. -/
def exec (m : List Function) (F : Nat) (n : Nat) : Machine :=
  match (m.find? fun G => decide (G.id = F)).bind fun G => G.enter [] with
  | some top => (step m)^[n] (.running top [])
  | none => .stuck

/-! ## Driver -/

/-- `HandleDefn()`. -/
def HandleDefn (n : Nat) (s : State) : Res State Unit :=
  (func_defn_parse n s).bind fun F s =>
  match F with
  | some F => (F.Codegen s).bind fun _ s => .ret () s
  | none => (next_token s).bind fun _ s => .ret () s

/-- `HandleTopLevelExpression()`. The call `Int()` of the lowered function
through `TheExecutionEngine` is the run of the machine on the module as it is
then, within the budget: the procedure goes on when the function returns (the
line printed with its result is no part of the state) and does not return
when the function does not; where the machine stops the call has undefined
behaviour. -/
def HandleTopLevelExpression (n : Nat) (s : State) : Res State Unit :=
  (top_level_parse n s).bind fun F s =>
  match F with
  | some F =>
    (F.Codegen s).bind fun LF s =>
    match LF with
    | some LF =>
      match exec s.TheModule LF n with
      | .returned _ => .ret () s
      | .running _ _ => .fuel
      | .stuck => .ub
    | none => .ret () s
  | none => (next_token s).bind fun _ s => .ret () s

/-- `Driver()`; one call of the embedding is one turn of the loop `while
(true)`, and the budget is also the budget of the parser calls of that turn. -/
def Driver : Nat → State → Res State Unit
  | 0, _ => .fuel
  | n + 1, s =>
    if s.Current_token = EOF_TOKEN then .ret () s
    else if s.Current_token = 59 then (next_token s).bind fun _ s => Driver n s
    else if s.Current_token = DEF_TOKEN then (HandleDefn n s).bind fun _ s => Driver n s
    else (HandleTopLevelExpression n s).bind fun _ s => Driver n s

/-- The part of `main` from `init_operator_precedence()` to the return of
`Driver()`, on the bytes of the input file. -/
def run (n : Nat) (input : List Nat) : Res State Unit :=
  (next_token (State.init input)).bind fun _ s => Driver n s

/-! ## Describing inputs and parse trees

The vocabulary of the statements below: what the lexer is about to deliver,
flat operator sequences, and the shape of the trees the parser builds. -/

/-- A token as the parser sees it: a number with the value left in
`Numeric_Val`, an identifier with the text left in `Identifier_string`, or any
token known by its code alone (a character, a keyword, the end of input). -/
inductive Tok where
  | num (v : Int)
  | ident (x : List Nat)
  | other (t : Nat)
  deriving DecidableEq

/-- The value `get_token` returns for the token. -/
def Tok.code : Tok → Nat
  | .num _ => NUMERIC_TOKEN
  | .ident _ => IDENTIFIER_TOKEN
  | .other t => t

/-- The lexer statics hold the payload of the token. -/
def Tok.loaded : Tok → Lexer → Bool
  | .num v, l => decide (l.Numeric_Val = v)
  | .ident x, l => decide (l.Identifier_string = x)
  | .other _, _ => true

/-- The lexer reached by successive calls of `get_token` when they deliver
exactly the given tokens, `none` when they do not. -/
def feeds : Lexer → List Tok → Option Lexer
  | l, [] => some l
  | l, tk :: rest =>
    match get_token l with
    | .ret c l1 => if c = tk.code ∧ tk.loaded l1 = true then feeds l1 rest else none
    | _ => none

/-- The state has the first token of the list as its current token and the
lexer will deliver the others, ending in the lexer `l1`. -/
def At (s : State) (toks : List Tok) (l1 : Lexer) : Prop :=
  match toks with
  | [] => False
  | tk :: rest =>
    s.Current_token = tk.code ∧ tk.loaded s.lex = true ∧ feeds s.lex rest = some l1

/-- An operand of a flat sequence: a number or an identifier. -/
inductive Atom where
  | num (v : Int)
  | var (x : List Nat)
  deriving DecidableEq

/-- The token of an operand. -/
def Atom.tok : Atom → Tok
  | .num v => .num v
  | .var x => .ident x

/-- The leaf the parser builds for an operand. -/
def Atom.ast : Atom → BaseAST
  | .num v => .NumericAST v
  | .var x => .VariableAST x

/-- The operand is not the callee of a call: an identifier is not followed by
an opening parenthesis. -/
def Atom.bare : Atom → Nat → Prop
  | .num _, _ => True
  | .var _, next => next ≠ 40

/-- The tokens `op1 a1 ... opn an` of a list of (operator, operand) pairs. -/
def flatToks : List (Nat × Atom) → List Tok
  | [] => []
  | (c, a) :: rest => .other c :: a.tok :: flatToks rest

/-- The tokens `op1 a1 ... opn an t`. -/
def flat (rest : List (Nat × Atom)) (t : Nat) : List Tok := flatToks rest ++ [.other t]

/-- The code of the first token of `op1 a1 ... opn an t`. -/
def nextCode (rest : List (Nat × Atom)) (t : Nat) : Nat :=
  match rest with
  | [] => t
  | (c, _) :: _ => c

/-- Every identifier among `a1 ... an` is bare in `op1 a1 ... opn an t`. -/
def BareRest : List (Nat × Atom) → Nat → Prop
  | [], _ => True
  | (_, a) :: rest, t => a.bare (nextCode rest t) ∧ BareRest rest t

/-- Every identifier among `a0 a1 ... an` is bare in `a0 op1 a1 ... opn an
t`. -/
def BareSeq (a : Atom) (rest : List (Nat × Atom)) (t : Nat) : Prop :=
  a.bare (nextCode rest t) ∧ BareRest rest t

/-- The precedence `getBinOpPrecedence` reports for a token under a table given
by its values: the stored value when the token is ASCII and the value is
positive, -1 otherwise. -/
def binPrec (prec : Nat → Int) (c : Nat) : Int :=
  if c < 128 ∧ 0 < prec c then prec c else -1

/-- The character a `BinaryAST` node was built for, read back from
`Bin_Operator` the way `BinaryAST::Codegen` reads it. -/
def opChar (Bin_Operator : List Nat) : Nat :=
  match stoi Bin_Operator with
  | some c => c.toNat
  | none => 0

/-- The precedence of the operator of the root when the root is a `BinaryAST`
node. -/
def rootPrec (prec : Nat → Int) : BaseAST → Option Int
  | .BinaryAST Bin_Operator _ _ => some (binPrec prec (opChar Bin_Operator))
  | _ => none

mutual

/-- Every `BinaryAST` node of the tree has a left child that is no `BinaryAST`
or has precedence at least the precedence of the node, and a right child that
is no `BinaryAST` or has precedence greater than the precedence of the node. -/
def PrecOrdered (prec : Nat → Int) : BaseAST → Prop
  | .NumericAST _ => True
  | .VariableAST _ => True
  | .ExprUnaryAST _ Operand => PrecOrdered prec Operand
  | .BinaryAST Bin_Operator LHS RHS =>
    (∀ p, rootPrec prec LHS = some p → binPrec prec (opChar Bin_Operator) ≤ p) ∧
    (∀ p, rootPrec prec RHS = some p → binPrec prec (opChar Bin_Operator) < p) ∧
    PrecOrdered prec LHS ∧ PrecOrdered prec RHS
  | .ExprIfAST Cond Then Else =>
    PrecOrdered prec Cond ∧ PrecOrdered prec Then ∧ PrecOrdered prec Else
  | .ExprForAST _ Start End Step Body =>
    PrecOrdered prec Start ∧ PrecOrdered prec End ∧
    (match Step with
      | some Step => PrecOrdered prec Step
      | none => True) ∧
    PrecOrdered prec Body
  | .FunctionCallAST _ Function_Arguments => PrecOrdered_args prec Function_Arguments

/-- The trees of the list are `PrecOrdered`. -/
def PrecOrdered_args (prec : Nat → Int) : List BaseAST → Prop
  | [] => True
  | Arg :: rest => PrecOrdered prec Arg ∧ PrecOrdered_args prec rest

end

mutual

/-- The tokens of the tree from left to right. -/
def inorder : BaseAST → List Tok
  | .NumericAST v => [.num v]
  | .VariableAST x => [.ident x]
  | .ExprUnaryAST Opcode Operand => .other Opcode :: inorder Operand
  | .BinaryAST Bin_Operator LHS RHS =>
    inorder LHS ++ .other (opChar Bin_Operator) :: inorder RHS
  | .ExprIfAST Cond Then Else =>
    .other IF_TOKEN :: inorder Cond ++ .other THEN_TOKEN :: inorder Then ++
      .other ELSE_TOKEN :: inorder Else
  | .ExprForAST Var_Name Start End Step Body =>
    .other FOR_TOKEN :: .ident Var_Name :: .other 61 :: inorder Start ++
      .other 44 :: inorder End ++
      (match Step with
        | some Step => .other 44 :: inorder Step
        | none => []) ++
      .other IN_TOKEN :: inorder Body
  | .FunctionCallAST Function_Callee Function_Arguments =>
    .ident Function_Callee :: .other 40 :: inorder_args Function_Arguments ++ [.other 41]

/-- The tokens of the trees of an argument list, a comma before each tree but
the first. -/
def inorder_args : List BaseAST → List Tok
  | [] => []
  | Arg :: rest =>
    inorder Arg ++
      (match rest with
        | [] => []
        | _ :: _ => .other 44 :: inorder_args rest)

end

/-- Every normal return of the outcome leaves a state with the property. -/
def Res.Sat {α : Type} (I : State → Prop) (r : Res State α) : Prop :=
  ∀ a s1, r = .ret a s1 → I s1

/-- The state in which `FunctionDefnAST::Codegen` calls `Body->Codegen()` for
the first anonymous expression of a run: the function and its block `entry`
exist, and the builder inserts into the block. -/
def State.body : State :=
  { State.init [] with
    TheModule := [⟨0, [], 0, [⟨1, .entry, []⟩]⟩]
    Builder := some 1
    fresh := 2 }

/-- The characters the lexer has still to deliver: `LastChar`, when it is not
`EOF`, and after it the unread bytes of the file as `fgetc` returns them. -/
def Lexer.pending (l : Lexer) : List Nat :=
  match l.LastChar with
  | some c => c :: l.file.map (· % 256)
  | none => []

/-- The eight reserved words, as `get_token` compares them. -/
def reserved : List (List Nat) :=
  [[100, 101, 102], [105, 102], [116, 104, 101, 110], [101, 108, 115, 101], [102, 111, 114],
    [105, 110], [98, 105, 110, 97, 114, 121], [117, 110, 97, 114, 121]]

/-- The statics of the code generator: what the lexer and the parser have no
access to. -/
def State.back (s : State) : List Function × Option Nat × List (List Nat × Option Value) × Nat :=
  (s.TheModule, s.Builder, s.Named_Values, s.fresh)

/-- The label of the block in control. -/
def Frame.label (fr : Frame) : Option Label :=
  (fr.F.blocks.find? fun B => decide (B.id = fr.block)).map fun B => B.label

/-- The function the program emits for the anonymous expression `for i = 0, 10
in i` at the start of a run: `entry: br loop`, `loop: %4 = phi [0, entry], [%5,
loop]; %5 = add %4, 1; br i1 true, loop, afterloop`, `afterloop: ret 0`. -/
def forIR : Function :=
  ⟨0, [], 0,
    [⟨1, .entry, [⟨3, .Br 2⟩]⟩,
      ⟨2, .loop,
        [⟨4, .PHI [(.ConstantInt 32 0, 1), (.Instruction 5, 2)]⟩,
          ⟨5, .BinaryOperator .Add (.Instruction 4) (.ConstantInt 32 1)⟩,
          ⟨7, .CondBr (.ConstantInt 1 1) 2 6⟩]⟩,
      ⟨6, .afterloop, [⟨8, .Ret (.ConstantInt 32 0)⟩]⟩]⟩

/-- The function the program emits for the anonymous expression `if c then t
else e` on literals, when the counter is at `N`; `c`, `t` and `e` are the bit
patterns of the literals. `entry: br i1 (c != 0), then, else`, `then: br
ifcont`, `else: br ifcont`, `ifcont: %p = phi [t, then], [e, else]; ret %p`. -/
def ifIR (N c t e : Nat) : Function :=
  ⟨N, [], 0,
    [⟨N + 1, .entry, [⟨N + 5, .CondBr (.ConstantInt 1 (if c ≠ 0 then 1 else 0)) (N + 2) (N + 3)⟩]⟩,
      ⟨N + 2, .then_, [⟨N + 6, .Br (N + 4)⟩]⟩,
      ⟨N + 3, .else_, [⟨N + 7, .Br (N + 4)⟩]⟩,
      ⟨N + 4, .ifcont,
        [⟨N + 8, .PHI [(.ConstantInt 32 t, N + 2), (.ConstantInt 32 e, N + 3)]⟩,
          ⟨N + 9, .Ret (.Instruction (N + 8))⟩]⟩]⟩

/-! ## Objects and their identities

A function, a block or an instruction of the embedding is known by a number,
as the object of the program is known by its address; the counter `fresh` is
the allocator. What the allocator guarantees the program, that a new object
is none of the live ones, is a property of states here. -/

/-- The function and all it holds were created before the counter reached
`N`. -/
def Function.below (N : Nat) (G : Function) : Prop :=
  G.id < N ∧ ∀ B ∈ G.blocks, B.id < N ∧ ∀ i ∈ B.insts, i.id < N

/-- No two functions of the module are the same object, and every object of
the module was created before the counter reached its value. -/
def State.wf (s : State) : Prop :=
  (s.TheModule.map fun G => G.id).Nodup ∧ ∀ G ∈ s.TheModule, G.below s.fresh

/-- The functions of a module that have a body, with their bodies. -/
def bodied (m : List Function) : List Function := m.filter fun G => !G.blocks.isEmpty

/-- The functions of a module other than the function `F`. -/
def others (F : Nat) (m : List Function) : List Function :=
  m.filter fun G => !decide (G.id = F)

/-- The situation while the body of the function `F` is lowered: the other
functions of the module are `M0`, all created before the counter reached
`N0`; the counter is there or beyond, and so is the block the builder inserts
into. -/
def Building (F N0 : Nat) (M0 : List Function) (s : State) : Prop :=
  (∀ G ∈ M0, G.below N0) ∧ others F s.TheModule = M0 ∧ N0 ≤ s.fresh ∧
    ∀ BB, s.Builder = some BB → N0 ≤ BB

/-- The objects of the state are distinct and older than the counter, which
has reached `K`. -/
def Allocated (K : Nat) (s : State) : Prop := s.wf ∧ K ≤ s.fresh

/-- The test `isa<Constant>(V)` of the constant folder. -/
def Value.isConstant : Value → Bool
  | .ConstantInt _ _ => true
  | .Poison _ => true
  | _ => false

/-- The value of `Named_Values[x]`: the value bound to the name, null when the
map holds no entry for it or holds a null one. -/
def State.binding (s : State) (x : List Nat) : Option Value :=
  (map_index none s.Named_Values x).1

/-- Every return of the outcome with a result that is not null leaves a state
with the property. -/
def Res.SatSome {α : Type} (I : State → Prop) (r : Res State (Option α)) : Prop :=
  ∀ a s1, r = .ret (some a) s1 → I s1

/-- The names have in the state the values `L0` gives them. -/
def Bound (L0 : List Nat → Option Value) (s : State) : Prop := ∀ x, s.binding x = L0 x

/-! ## Comments and the token stream -/

/-- The text without its comments, read from left to right; `inside` says
that the place is in a comment. A comment is a `#` and the characters after
it up to, and not including, the next line feed or carriage return, or up to
the end of the text. -/
def strip : Bool → List Nat → List Nat
  | _, [] => []
  | true, c :: rest => if c = 10 ∨ c = 13 then c :: strip false rest else strip true rest
  | false, c :: rest => if c = 35 then strip true rest else c :: strip false rest

/-- The text with every comment deleted. -/
def strip_comments (text : List Nat) : List Nat := strip false text

/-- An outcome without the state it leaves. -/
def Res.result {σ α : Type} : Res σ α → Res Unit α
  | .ret a _ => .ret a ()
  | .throws => .throws
  | .ub => .ub
  | .fuel => .fuel

/-- The first `k` tokens that successive calls of `get_token` deliver, each
with `Numeric_Val` and `Identifier_string` as the call leaves them. -/
def get_tokens : Nat → Lexer → Res Lexer (List (Nat × Int × List Nat))
  | 0, l => .ret [] l
  | k + 1, l =>
    (get_token l).bind fun t l1 =>
    (get_tokens k l1).bind fun ts l2 =>
    .ret ((t, l1.Numeric_Val, l1.Identifier_string) :: ts) l2

/-- The characters to come from the first that is no white space. -/
def Lexer.rest (l : Lexer) : List Nat := l.pending.dropWhile fun c => isspace (some c)

/-- The lexer `l1` is, in the text without its comments, where the lexer `l`
is in the text: apart from white space it has the characters of `l` to come
without their comments, and the same `Numeric_Val` and `Identifier_string`. -/
def Uncommented (l l1 : Lexer) : Prop :=
  l1.rest = (strip false l.pending).dropWhile (fun c => isspace (some c)) ∧
    l1.Numeric_Val = l.Numeric_Val ∧ l1.Identifier_string = l.Identifier_string

/-! ## Control-flow graphs

The vocabulary of the statements about the shape of an emitted function. -/

/-- The instruction ends a block: `ret`, `br`. -/
def Inst.isTerminator : Inst → Bool
  | .Br _ => true
  | .CondBr _ _ _ => true
  | .Ret _ => true
  | _ => false

/-- The instruction is a phi node. -/
def Inst.isPHI : Inst → Bool
  | .PHI _ => true
  | _ => false

/-- The blocks the instruction passes control to. -/
def Inst.successors : Inst → List Nat
  | .Br Dest => [Dest]
  | .CondBr _ IfTrue IfFalse => [IfTrue, IfFalse]
  | _ => []

/-- The block holds no terminator, and no phi node after its first
instruction: the builder can go on inserting at its end. -/
def BasicBlock.unterminated (B : BasicBlock) : Bool :=
  B.insts.all (fun i => !i.inst.isTerminator) && B.insts.tail.all (fun i => !i.inst.isPHI)

/-- The block holds exactly one terminator, which is its last instruction, and
no phi node after its first instruction. -/
def BasicBlock.terminated (B : BasicBlock) : Bool :=
  (match B.insts.getLast? with
    | some t => t.inst.isTerminator
    | none => false) &&
  B.insts.dropLast.all (fun i => !i.inst.isTerminator) &&
  B.insts.tail.all (fun i => !i.inst.isPHI)

/-- Every block of the function holds exactly one terminator, at its end, and
phi nodes at its start only. -/
def Function.wellformed (G : Function) : Bool := G.blocks.all BasicBlock.terminated

/-- The predecessors of the block `b` in the function: the blocks that hold an
instruction passing control to `b`. -/
def Function.preds (G : Function) (b : Nat) : List Nat :=
  (G.blocks.filter fun B => B.insts.any fun i => decide (b ∈ i.inst.successors)).map
    fun B => B.id

/-- Every phi node of the function lists as its incoming blocks exactly the
predecessors of the block that holds it: no block twice, and a block if and
only if it is a predecessor. -/
def Function.phis_agree (G : Function) : Prop :=
  ∀ B ∈ G.blocks, ∀ i ∈ B.insts, ∀ incoming, i.inst = .PHI incoming →
    (incoming.map Prod.snd).Nodup ∧ ∀ P, P ∈ incoming.map Prod.snd ↔ P ∈ G.preds B.id

/-- The function with one block more at its end. -/
def Function.addBlock (BB : BasicBlock) (G : Function) : Function :=
  { G with blocks := G.blocks ++ [BB] }

/-- The function after `PN->addIncoming(V, BB)`. -/
def Function.addIncoming (PN : Nat) (V : Value) (BB : Nat) (G : Function) : Function :=
  { G with blocks := G.blocks.map fun B =>
      { B with insts := B.insts.map (Instr.addIncoming PN V BB) } }

/-- The function holds the instruction in a block of the given identity. -/
def Function.Has (G : Function) (b : Nat) (i : Instr) : Prop :=
  ∃ B ∈ G.blocks, B.id = b ∧ i ∈ B.insts

/-- The function holds a block of the given identity. -/
def Function.hasBlock (G : Function) (b : Nat) : Prop := ∃ B ∈ G.blocks, B.id = b

/-- The blocks and instructions of the function, and the blocks its
instructions pass control to, were created before the counter reached `N`. -/
def Function.older (N : Nat) (G : Function) : Prop :=
  (∀ b, G.hasBlock b → b < N) ∧
    ∀ b i, G.Has b i → i.id < N ∧ ∀ d ∈ i.inst.successors, d < N

/-- The blocks whose identity is in `O` are unterminated, the others are
terminated. -/
def Function.shaped (O : Nat → Prop) (G : Function) : Prop :=
  ∀ B ∈ G.blocks, (O B.id → B.unterminated = true) ∧ (¬ O B.id → B.terminated = true)

/-- The function as lowering finds and leaves it while the builder inserts at
the end of the block `BB` and the counter is at `N`: the block `BB` is the one
unterminated block. -/
def Function.under_construction (N BB : Nat) (G : Function) : Prop :=
  G.older N ∧ G.hasBlock BB ∧ G.shaped (fun b => b = BB) ∧ G.phis_agree

/-- Every phi node lists as incoming blocks the predecessors of its block,
apart from the pairs `D` of a phi node and a block still to be added to
it. -/
def Function.phis_pending (D : Nat → Nat → Prop) (G : Function) : Prop :=
  ∀ b i incoming, G.Has b i → i.inst = .PHI incoming →
    (incoming.map Prod.snd).Nodup ∧ (∀ P, D i.id P → P ∉ incoming.map Prod.snd) ∧
      ∀ P, (P ∈ incoming.map Prod.snd ∨ D i.id P) ↔ P ∈ G.preds b

/-- The function `G1` is the function `G` after lowering that started when
the counter was at `K`: what `G1` holds in a block is held by `G` in a block
of the same identity, or was created since and passes control only to blocks
created since; what `G` holds and was created before is held by `G1`; no
block created before was added, and no phi node was added to such a
block. -/
def Function.grows (K : Nat) (G G1 : Function) : Prop :=
  (∀ b i, G1.Has b i → G.Has b i ∨ (K ≤ i.id ∧ ∀ d ∈ i.inst.successors, K ≤ d)) ∧
  (∀ b i, G.Has b i → i.id < K → G1.Has b i) ∧
  (∀ b, G1.hasBlock b → b < K → G.hasBlock b) ∧
  (∀ b i, G1.Has b i → b < K → i.inst.isPHI = true → G.Has b i) ∧
  (∀ b, G.hasBlock b → G1.hasBlock b)

/-- The phi nodes of the block `k` are the node `Var`, which is in no other
block. -/
def Function.phi_of (k Var : Nat) (G : Function) : Prop :=
  (∀ i, G.Has k i → i.inst.isPHI = true → i.id = Var) ∧ ∀ b i, G.Has b i → i.id = Var → b = k

/-- The property holds of the function `F` of the module. -/
def State.each (F : Nat) (P : Function → Prop) (s : State) : Prop :=
  ∀ G ∈ s.TheModule, G.id = F → P G

/-- The function `F` of the module of `s1` is in the relation `R` to the
function `F` of the module of `s`, and is in the module of `s1` when it is in
the module of `s`. -/
def Rebuilt (F : Nat) (R : Function → Function → Prop) (s s1 : State) : Prop :=
  (∀ G1 ∈ s1.TheModule, G1.id = F → ∃ G ∈ s.TheModule, G.id = F ∧ R G G1) ∧
    ((∃ G ∈ s.TheModule, G.id = F) → ∃ G1 ∈ s1.TheModule, G1.id = F)

/-- The builder is in a block of the function `F`, which is under
construction there. -/
def Ready (F : Nat) (s : State) : Prop :=
  ∃ BB, s.Builder = some BB ∧ s.each F (Function.under_construction s.fresh BB)

/-- The state `s1` is the state `s` after lowering into the function `F` that
created nothing older than `K`, and left the function under construction. -/
def Lowered (K F : Nat) (s s1 : State) : Prop :=
  ∃ BB1, s1.Builder = some BB1 ∧ s.fresh ≤ s1.fresh ∧
    Rebuilt F (fun G G1 => G.grows K G1 ∧ G1.under_construction s1.fresh BB1) s s1

/-! # Theorems -/

@[simp] theorem Res.bind_ret {σ α β : Type} (a : α) (s : σ) (f : α → σ → Res σ β) :
    (Res.ret a s).bind f = f a s := rfl

theorem stoi_to_string : ∀ c < 128, stoi (to_string c) = some (c : Int) := by decide

theorem opChar_to_string (c : Nat) (h : c < 128) : opChar (to_string c) = c := by
  simp [opChar, stoi_to_string c h]

/-- What `next_token` does when the lexer is known to deliver a token next. -/
theorem next_token_feeds {s : State} {tk : Tok} {rest : List Tok} {l1 : Lexer}
    (h : feeds s.lex (tk :: rest) = some l1) :
    ∃ l, next_token s = .ret tk.code { s with lex := l, Current_token := tk.code } ∧
      tk.loaded l = true ∧ feeds l rest = some l1 := by
  simp only [feeds] at h
  cases hg : get_token s.lex with
  | ret c l =>
    rw [hg] at h
    simp only at h
    split at h
    · rename_i hc
      exact ⟨l, by simp [next_token, hg, hc.1], hc.2, h⟩
    · cases h
  | throws => rw [hg] at h; cases h
  | ub => rw [hg] at h; cases h
  | fuel => rw [hg] at h; cases h

/-- Consuming the current token moves the state to the next token. -/
theorem next_token_At {s : State} {tk tk2 : Tok} {rest : List Tok} {l1 : Lexer}
    (h : At s (tk :: tk2 :: rest) l1) :
    ∃ s1, next_token s = .ret tk2.code s1 ∧ At s1 (tk2 :: rest) l1 ∧
      s1.Operator_Precedence = s.Operator_Precedence := by
  obtain ⟨l, h1, h2, h3⟩ := next_token_feeds h.2.2
  exact ⟨_, h1, ⟨rfl, h2, h3⟩, rfl⟩

theorem precOf_map_index (m : List (Nat × Int)) (k c : Nat) :
    precOf (map_index 0 m k).2 c = precOf m c := by
  unfold map_index
  cases h : map_find m k with
  | some v => rfl
  | none =>
    simp only [precOf, map_find]
    by_cases hk : k = c
    · subst hk; simp [h]
    · simp [hk]

theorem map_index_fst (m : List (Nat × Int)) (k : Nat) : (map_index 0 m k).1 = precOf m k := by
  unfold map_index precOf
  cases h : map_find m k <;> rfl

/-- The value of `getBinOpPrecedence`. -/
theorem getBinOpPrecedence_fst (s : State) :
    (getBinOpPrecedence s).1 = binPrec (precOf s.Operator_Precedence) s.Current_token := by
  unfold getBinOpPrecedence binPrec isascii
  by_cases h : s.Current_token < 128
  · have h1 := map_index_fst s.Operator_Precedence s.Current_token
    rcases hm : map_index 0 s.Operator_Precedence s.Current_token with ⟨v, m⟩
    rw [hm] at h1
    simp only at h1
    subst h1
    by_cases hv : precOf s.Operator_Precedence s.Current_token ≤ 0
    · simp [h, hv, not_lt.mpr hv]
    · simp [h, hv, not_le.mp hv]
  · simp [h]

/-- The state `getBinOpPrecedence` leaves differs from the one it found at most
by entries of value 0 for keys that had none. -/
theorem getBinOpPrecedence_snd (s : State) :
    ∃ m, (getBinOpPrecedence s).2 = { s with Operator_Precedence := m } ∧
      ∀ c, precOf m c = precOf s.Operator_Precedence c := by
  unfold getBinOpPrecedence
  by_cases h : isascii s.Current_token = true
  · have h1 := precOf_map_index s.Operator_Precedence s.Current_token
    rcases hm : map_index 0 s.Operator_Precedence s.Current_token with ⟨v, m⟩
    rw [hm] at h1
    refine ⟨m, ?_, h1⟩
    simp only [h, Bool.not_true, Bool.false_eq_true, if_false]
    split <;> rfl
  · exact ⟨s.Operator_Precedence, by simp [h], fun _ => rfl⟩

/-- The operand parser on a number or a bare identifier. -/
theorem unary_parse_atom {s : State} {a : Atom} {tk2 : Tok} {rest : List Tok} {l1 : Lexer}
    (n : Nat) (h : At s (a.tok :: tk2 :: rest) l1) (hb : a.bare tk2.code) :
    ∃ s1, unary_parse (n + 3) s = .ret (some a.ast) s1 ∧ At s1 (tk2 :: rest) l1 ∧
      s1.Operator_Precedence = s.Operator_Precedence := by
  obtain ⟨s1, h1, h2, h3⟩ := next_token_At h
  have hc := h.1
  have hl := h.2.1
  cases a with
  | num v =>
    simp only [Atom.tok, Tok.code] at hc
    simp only [Atom.tok, Tok.loaded, decide_eq_true_eq] at hl
    refine ⟨s1, ?_, h2, h3⟩
    simp [unary_parse, base_parse, numeric_parse, hc, isascii, h1, hl, Atom.ast]
  | var x =>
    simp only [Atom.tok, Tok.code] at hc
    simp only [Atom.tok, Tok.loaded, decide_eq_true_eq] at hl
    refine ⟨s1, ?_, h2, h3⟩
    have hne : s1.Current_token ≠ 40 := by rw [h2.1]; exact hb
    simp [unary_parse, base_parse, identifier_parse, hc, isascii, h1, hl, Atom.ast, hne]

theorem At_congr {s s1 : State} (toks : List Tok) (l1 : Lexer) (h1 : s1.lex = s.lex)
    (h2 : s1.Current_token = s.Current_token) : At s1 toks l1 ↔ At s toks l1 := by
  cases toks with
  | nil => simp [At]
  | cons tk rest => simp [At, h1, h2]

theorem flat_cons (c : Nat) (a : Atom) (rest : List (Nat × Atom)) (t : Nat) :
    flat ((c, a) :: rest) t = .other c :: a.tok :: flat rest t := by
  simp [flat, flatToks]

theorem flat_head (rest : List (Nat × Atom)) (t : Nat) :
    ∃ tl, flat rest t = .other (nextCode rest t) :: tl := by
  cases rest with
  | nil => exact ⟨[], rfl⟩
  | cons e rest => exact ⟨_, flat_cons e.1 e.2 rest t⟩

theorem At_flat_code {s : State} {rest : List (Nat × Atom)} {t : Nat} {l1 : Lexer}
    (h : At s (flat rest t) l1) : s.Current_token = nextCode rest t := by
  obtain ⟨tl, htl⟩ := flat_head rest t
  rw [htl] at h
  exact h.1

/-- The pair `getBinOpPrecedence` returns, under a table known by its values. -/
theorem getBinOpPrecedence_eq {s : State} {prec : Nat → Int}
    (hp : precOf s.Operator_Precedence = prec) :
    ∃ s1, getBinOpPrecedence s = (binPrec prec s.Current_token, s1) ∧ s1.lex = s.lex ∧
      s1.Current_token = s.Current_token ∧ precOf s1.Operator_Precedence = prec := by
  obtain ⟨m, hm, hm2⟩ := getBinOpPrecedence_snd s
  refine ⟨(getBinOpPrecedence s).2, ?_, ?_, ?_, ?_⟩
  · rw [← hp, ← getBinOpPrecedence_fst]
  · rw [hm]
  · rw [hm]
  · rw [hm, ← hp]; exact funext hm2

theorem binPrec_ge (prec : Nat → Int) (c : Nat) : -1 ≤ binPrec prec c := by
  unfold binPrec; split <;> omega

theorem binPrec_of_op {prec : Nat → Int} {c : Nat} (h : c < 128 ∧ 0 < prec c) :
    binPrec prec c = prec c := by
  simp [binPrec, h]

theorem flatToks_append (d1 d2 : List (Nat × Atom)) :
    flatToks (d1 ++ d2) = flatToks d1 ++ flatToks d2 := by
  induction d1 with
  | nil => rfl
  | cons e d1 ih => obtain ⟨c, a⟩ := e; simp [flatToks, ih]

/-- One turn of the loop of `binary_op_parser` that takes an operator. -/
theorem binary_op_parse_turn {n : Nat} {Old_Prec q q2 : Int} {LHS RHS : BaseAST}
    {s sA sB sC sD : State} {t : Nat}
    (hg : getBinOpPrecedence s = (q, sA)) (hlt : ¬ q < Old_Prec)
    (hn : next_token sA = .ret t sB) (hu : unary_parse n sB = .ret (some RHS) sC)
    (hg2 : getBinOpPrecedence sC = (q2, sD)) :
    binary_op_parse (n + 1) Old_Prec LHS s =
      if q < q2 then
        (binary_op_parse n (q + 1) RHS sD).bind fun RHS s =>
          match RHS with
          | none => .ret none s
          | some RHS =>
            binary_op_parse n Old_Prec (.BinaryAST (to_string sA.Current_token) LHS RHS) s
      else binary_op_parse n Old_Prec (.BinaryAST (to_string sA.Current_token) LHS RHS) sD := by
  rw [binary_op_parse]
  simp only [hg, hlt, if_false, hn, Res.bind_ret, hu, hg2]

/-- The precedence loop on a flat sequence. -/
theorem binary_op_parse_flat (prec : Nat → Int) (t : Nat) (l1 : Lexer)
    (ht : binPrec prec t = -1) :
    ∀ (k : Nat) (rest : List (Nat × Atom)), rest.length ≤ k →
    ∀ (fuel : Nat) (Old_Prec : Int) (LHS : BaseAST) (s : State),
      rest.length + 3 ≤ fuel → 0 ≤ Old_Prec →
      precOf s.Operator_Precedence = prec →
      At s (flat rest t) l1 →
      (∀ e ∈ rest, e.1 < 128 ∧ 0 < prec e.1) →
      BareRest rest t →
      ∃ tree s1 done rest1,
        binary_op_parse fuel Old_Prec LHS s = .ret (some tree) s1 ∧
        rest = done ++ rest1 ∧
        precOf s1.Operator_Precedence = prec ∧
        At s1 (flat rest1 t) l1 ∧
        binPrec prec (nextCode rest1 t) < Old_Prec ∧
        (tree = LHS ∧ done = [] ∨
          ∃ op l r, tree = .BinaryAST op l r ∧ Old_Prec ≤ binPrec prec (opChar op)) ∧
        (PrecOrdered prec LHS →
          (∀ p, rootPrec prec LHS = some p → binPrec prec (nextCode rest t) ≤ p) →
          PrecOrdered prec tree) ∧
        inorder tree = inorder LHS ++ flatToks done := by
  -- the turn of the loop that leaves it
  have stop : ∀ (rest : List (Nat × Atom)) (n : Nat) (Old_Prec : Int) (LHS : BaseAST)
      (s : State), precOf s.Operator_Precedence = prec → At s (flat rest t) l1 →
      binPrec prec (nextCode rest t) < Old_Prec →
      ∃ tree s1 done rest1,
        binary_op_parse (n + 1) Old_Prec LHS s = .ret (some tree) s1 ∧
        rest = done ++ rest1 ∧
        precOf s1.Operator_Precedence = prec ∧
        At s1 (flat rest1 t) l1 ∧
        binPrec prec (nextCode rest1 t) < Old_Prec ∧
        (tree = LHS ∧ done = [] ∨
          ∃ op l r, tree = .BinaryAST op l r ∧ Old_Prec ≤ binPrec prec (opChar op)) ∧
        (PrecOrdered prec LHS →
          (∀ p, rootPrec prec LHS = some p → binPrec prec (nextCode rest t) ≤ p) →
          PrecOrdered prec tree) ∧
        inorder tree = inorder LHS ++ flatToks done := by
    intro rest n Old_Prec LHS s hp hat hlt
    obtain ⟨sA, hg, hl, hc, hpA⟩ := getBinOpPrecedence_eq hp
    rw [At_flat_code hat] at hg
    refine ⟨LHS, sA, [], rest, ?_, rfl, hpA, (At_congr _ _ hl hc).mpr hat, hlt,
      Or.inl ⟨rfl, rfl⟩, fun h _ => h, by simp [flatToks]⟩
    simp [binary_op_parse, hg, hlt]
  intro k
  induction k with
  | zero =>
    intro rest hk fuel Old_Prec LHS s hfuel hOld hp hat _ _
    have hr : rest = [] := List.length_eq_zero.mp (Nat.le_zero.mp hk)
    subst hr
    obtain ⟨n, rfl⟩ : ∃ n, fuel = n + 1 := ⟨fuel - 1, by simp at hfuel; omega⟩
    exact stop [] n Old_Prec LHS s hp hat (by simp only [nextCode]; omega)
  | succ k ih =>
    intro rest hk fuel Old_Prec LHS s hfuel hOld hp hat hops hbare
    cases rest with
    | nil =>
      obtain ⟨n, rfl⟩ : ∃ n, fuel = n + 1 := ⟨fuel - 1, by simp at hfuel; omega⟩
      exact stop [] n Old_Prec LHS s hp hat (by simp only [nextCode]; omega)
    | cons e r =>
      obtain ⟨c, a⟩ := e
      obtain ⟨n, rfl⟩ : ∃ n, fuel = n + 4 := ⟨fuel - 4, by simp at hfuel; omega⟩
      have hlen : r.length ≤ k := by simpa using hk
      have hfr : r.length ≤ n := by simp at hfuel; omega
      have hc : c < 128 ∧ 0 < prec c := hops (c, a) (List.mem_cons_self _ _)
      have hq : binPrec prec c = prec c := binPrec_of_op hc
      by_cases hlt : binPrec prec c < Old_Prec
      · exact stop ((c, a) :: r) (n + 3) Old_Prec LHS s hp hat hlt
      · -- the operator is taken
        obtain ⟨sA, hg, hlA, hcA, hpA⟩ := getBinOpPrecedence_eq hp
        have hcur : s.Current_token = c := At_flat_code hat
        rw [hcur] at hg
        have hatA : At sA (.other c :: a.tok :: flat r t) l1 := by
          rw [← flat_cons]; exact (At_congr _ _ hlA hcA).mpr hat
        obtain ⟨sB, hnB, hatB, hpB⟩ := next_token_At hatA
        obtain ⟨tl, htl⟩ := flat_head r t
        rw [htl] at hatB
        obtain ⟨sC, huC, hatC, hpC⟩ := unary_parse_atom n hatB hbare.1
        rw [← htl] at hatC
        have hpC' : precOf sC.Operator_Precedence = prec := by rw [hpC, hpB, hpA]
        obtain ⟨sD, hgD, hlD, hcD, hpD⟩ := getBinOpPrecedence_eq hpC'
        rw [At_flat_code hatC] at hgD
        have hatD : At sD (flat r t) l1 := (At_congr _ _ hlD hcD).mpr hatC
        have hopsr : ∀ e ∈ r, e.1 < 128 ∧ 0 < prec e.1 :=
          fun e he => hops e (List.mem_cons_of_mem _ he)
        have hcA' : sA.Current_token = c := by rw [hcA, hcur]
        by_cases hnest : binPrec prec c < binPrec prec (nextCode r t)
        · -- the next operator binds tighter: the inner call comes first
          obtain ⟨tree1, s1, done1, rest1, hrun1, hsplit1, hp1, hat1, hstop1, hroot1, hord1,
            hin1⟩ := ih r hlen (n + 3) (binPrec prec c + 1) a.ast sD (by omega)
              (by have := binPrec_ge prec c; omega) hpD hatD hopsr hbare.2
          have hlen1 : rest1.length ≤ r.length := by
            have : r.length = done1.length + rest1.length := by rw [hsplit1]; simp
            omega
          obtain ⟨tree2, s2, done2, rest2, hrun2, hsplit2, hp2, hat2, hstop2, hroot2, hord2,
            hin2⟩ := ih rest1 (by omega) (n + 3) Old_Prec (.BinaryAST (to_string c) LHS tree1) s1
              (by omega) hOld hp1 hat1
              (fun e he => hopsr e (by rw [hsplit1]; exact List.mem_append_right _ he))
              (by
                have : ∀ (d : List (Nat × Atom)), BareRest (d ++ rest1) t → BareRest rest1 t := by
                  intro d
                  induction d with
                  | nil => exact id
                  | cons x d ihd => intro h; exact ihd h.2
                exact this done1 (hsplit1 ▸ hbare.2))
          refine ⟨tree2, s2, (c, a) :: done1 ++ done2, rest2, ?_, ?_, hp2, hat2, hstop2, ?_, ?_,
            ?_⟩
          · rw [binary_op_parse_turn hg hlt hnB huC hgD]
            simp only [hnest, if_true, hrun1, Res.bind_ret, hcA', hrun2]
          · rw [hsplit1, hsplit2]; simp
          · rcases hroot2 with ⟨h, _⟩ | h
            · refine Or.inr ⟨_, _, _, h, ?_⟩
              rw [opChar_to_string c hc.1]; omega
            · exact Or.inr h
          · intro hL hH
            apply hord2
            · refine ⟨?_, ?_, hL, hord1 (by cases a <;> simp [Atom.ast, PrecOrdered])
                (by intro p hp; cases a <;> simp [Atom.ast, rootPrec] at hp)⟩
              · intro p hp
                rw [opChar_to_string c hc.1]
                exact hH p hp
              · intro p hp
                rw [opChar_to_string c hc.1]
                rcases hroot1 with ⟨h, _⟩ | ⟨op, l, r', h, hle⟩
                · rw [h] at hp; cases a <;> simp [Atom.ast, rootPrec] at hp
                · rw [h] at hp
                  simp only [rootPrec, Option.some.injEq] at hp
                  omega
            · intro p hp
              simp only [rootPrec, Option.some.injEq] at hp
              rw [opChar_to_string c hc.1] at hp
              omega
          · rw [hin2]
            simp only [inorder, hin1, opChar_to_string c hc.1]
            cases a <;> simp [Atom.ast, inorder, flatToks, Atom.tok, flatToks_append]
        · -- the next operator does not bind tighter: the loop goes on
          obtain ⟨tree2, s2, done2, rest2, hrun2, hsplit2, hp2, hat2, hstop2, hroot2, hord2,
            hin2⟩ := ih r hlen (n + 3) Old_Prec (.BinaryAST (to_string c) LHS a.ast) sD
              (by omega) hOld hpD hatD hopsr hbare.2
          refine ⟨tree2, s2, (c, a) :: done2, rest2, ?_, ?_, hp2, hat2, hstop2, ?_, ?_, ?_⟩
          · rw [binary_op_parse_turn hg hlt hnB huC hgD]
            simp only [hnest, if_false, hcA', hrun2]
          · rw [hsplit2]; simp
          · rcases hroot2 with ⟨h, _⟩ | h
            · refine Or.inr ⟨_, _, _, h, ?_⟩
              rw [opChar_to_string c hc.1]; omega
            · exact Or.inr h
          · intro hL hH
            apply hord2
            · refine ⟨?_, ?_, hL, by cases a <;> simp [Atom.ast, PrecOrdered]⟩
              · intro p hp
                rw [opChar_to_string c hc.1]
                exact hH p hp
              · intro p hp
                cases a <;> simp [Atom.ast, rootPrec] at hp
            · intro p hp
              simp only [rootPrec, Option.some.injEq] at hp
              rw [opChar_to_string c hc.1] at hp
              omega
          · rw [hin2]
            simp only [inorder, opChar_to_string c hc.1]
            cases a <;> simp [Atom.ast, inorder, flatToks, Atom.tok]

/-- The expression parser on a flat sequence `a0 op1 a1 ... opn an t`: it
returns a tree whose operators are ordered by precedence and whose tokens from
left to right are the sequence, and stops at `t`. -/
theorem expression_parse_flat (s : State) (a0 : Atom) (rest : List (Nat × Atom)) (t : Nat)
    (l1 : Lexer) (fuel : Nat)
    (hat : At s (a0.tok :: flat rest t) l1)
    (hops : ∀ e ∈ rest, e.1 < 128 ∧ 0 < precOf s.Operator_Precedence e.1)
    (ht : binPrec (precOf s.Operator_Precedence) t = -1)
    (hbare : BareSeq a0 rest t)
    (hfuel : rest.length + 4 ≤ fuel) :
    ∃ tree s1, expression_parse fuel s = .ret (some tree) s1 ∧
      PrecOrdered (precOf s.Operator_Precedence) tree ∧
      inorder tree = a0.tok :: flatToks rest ∧
      s1.Current_token = t ∧ s1.lex = l1 ∧
      precOf s1.Operator_Precedence = precOf s.Operator_Precedence := by
  obtain ⟨n, rfl⟩ : ∃ n, fuel = n + 4 := ⟨fuel - 4, by omega⟩
  obtain ⟨tl, htl⟩ := flat_head rest t
  rw [htl] at hat
  obtain ⟨sC, huC, hatC, hpC⟩ := unary_parse_atom n hat hbare.1
  rw [← htl] at hatC
  obtain ⟨tree, s1, done, rest1, hrun, hsplit, hp1, hat1, hstop, -, hord, hin⟩ :=
    binary_op_parse_flat (precOf s.Operator_Precedence) t l1 ht rest.length rest le_rfl
      (n + 3) 0 a0.ast sC (by omega) le_rfl (by rw [hpC]) hatC hops hbare.2
  have hrest1 : rest1 = [] := by
    cases rest1 with
    | nil => rfl
    | cons e r1 =>
      exfalso
      have he : e.1 < 128 ∧ 0 < precOf s.Operator_Precedence e.1 :=
        hops e (by rw [hsplit]; simp)
      have : binPrec (precOf s.Operator_Precedence) e.1 = precOf s.Operator_Precedence e.1 :=
        binPrec_of_op he
      simp only [nextCode] at hstop
      omega
  subst hrest1
  refine ⟨tree, s1, ?_, ?_, ?_, ?_, ?_, hp1⟩
  · rw [expression_parse]
    simp only [huC, Res.bind_ret, hrun]
  · refine hord (by cases a0 <;> simp [Atom.ast, PrecOrdered]) ?_
    intro p hp
    cases a0 <;> simp [Atom.ast, rootPrec] at hp
  · rw [hin, hsplit]
    cases a0 <;> simp [Atom.ast, inorder, Atom.tok]
  · exact At_flat_code hat1
  · have := hat1.2.2
    simpa [feeds] using this

/-- C1: for every Operator Table and every flat token sequence `a0 op1 a1 ...
opn an` of numbers and bare identifiers joined by characters of positive
precedence and followed by a token that is no binary operator,
`expression_parser` returns a tree (for every budget of at least n + 4) in
which a left child that is a `BinaryAST` has precedence at least that of its
parent and a right child that is a `BinaryAST` has precedence greater than that
of its parent. -/
theorem C1_precedence_ordered (s : State) (a0 : Atom) (rest : List (Nat × Atom))
    (t : Nat) (l1 : Lexer) (fuel : Nat)
    (hat : At s (a0.tok :: flat rest t) l1)
    (hops : ∀ e ∈ rest, e.1 < 128 ∧ 0 < precOf s.Operator_Precedence e.1)
    (ht : binPrec (precOf s.Operator_Precedence) t = -1)
    (hbare : BareSeq a0 rest t)
    (hfuel : rest.length + 4 ≤ fuel) :
    ∃ tree s1, expression_parse fuel s = .ret (some tree) s1 ∧
      PrecOrdered (precOf s.Operator_Precedence) tree := by
  obtain ⟨tree, s1, h1, h2, -⟩ := expression_parse_flat s a0 rest t l1 fuel hat hops ht hbare hfuel
  exact ⟨tree, s1, h1, h2⟩

/-- The hypotheses of C1 hold of the input `1+2*3-4;`, and so does its
conclusion. -/
theorem C1_precedence_ordered_witness :
    ∃ tree s1, expression_parse 7 (State.start [49, 43, 50, 42, 51, 45, 52, 59]) =
        .ret (some tree) s1 ∧
      PrecOrdered (precOf (State.start [49, 43, 50, 42, 51, 45, 52, 59]).Operator_Precedence)
        tree :=
  C1_precedence_ordered (State.start [49, 43, 50, 42, 51, 45, 52, 59]) (.num 1)
    [(43, .num 2), (42, .num 3), (45, .num 4)] 59 ⟨[], none, 4, []⟩ 7
    ⟨rfl, rfl, rfl⟩ (by decide) (by decide) (by simp [BareSeq, BareRest, Atom.bare]) (by decide)

theorem Sat_ret {α : Type} {I : State → Prop} {a : α} {s : State} (h : I s) :
    (Res.ret a s).Sat I := by
  intro b s1 e
  cases e
  exact h

theorem Sat_bind {α β : Type} {I : State → Prop} {r : Res State α}
    {k : α → State → Res State β} (h1 : r.Sat I) (h2 : ∀ a s, I s → (k a s).Sat I) :
    (r.bind k).Sat I := by
  intro b s1 e
  cases r with
  | ret a s => exact h2 a s (h1 a s rfl) b s1 e
  | throws => cases e
  | ub => cases e
  | fuel => cases e

theorem Sat_fuel {α : Type} {I : State → Prop} : (Res.fuel : Res State α).Sat I := by
  intro b s1 e; cases e

/-- A property of the state that `next_token` and `getBinOpPrecedence` keep is
kept by every procedure of the expression parser. -/
theorem parse_inv (I : State → Prop) (hnext : ∀ s, I s → (next_token s).Sat I)
    (hget : ∀ s, I s → I (getBinOpPrecedence s).2) (n : Nat) :
    (∀ s, I s → (identifier_parse n s).Sat I) ∧
    (∀ Args s, I s → (identifier_args n Args s).Sat I) ∧
    (∀ s, I s → (paran_parse n s).Sat I) ∧
    (∀ s, I s → (if_parse n s).Sat I) ∧
    (∀ s, I s → (for_parse n s).Sat I) ∧
    (∀ IdName Start End Step s, I s → (for_body n IdName Start End Step s).Sat I) ∧
    (∀ s, I s → (base_parse n s).Sat I) ∧
    (∀ s, I s → (unary_parse n s).Sat I) ∧
    (∀ Old_Prec LHS s, I s → (binary_op_parse n Old_Prec LHS s).Sat I) ∧
    (∀ s, I s → (expression_parse n s).Sat I) := by
  induction n with
  | zero =>
    refine ⟨?_, ?_, ?_, ?_, ?_, ?_, ?_, ?_, ?_, ?_⟩ <;> intros <;>
      simp only [identifier_parse, identifier_args, paran_parse, if_parse, for_parse, for_body,
        base_parse, unary_parse, binary_op_parse, expression_parse] <;> exact Sat_fuel
  | succ n ih =>
    obtain ⟨ih1, ih2, ih3, ih4, ih5, ih6, ih7, ih8, ih9, ih10⟩ := ih
    have hnum : ∀ s, I s → (numeric_parse s).Sat I := by
      intro s hs
      unfold numeric_parse
      exact Sat_bind (hnext s hs) fun _ _ h => Sat_ret h
    refine ⟨?_, ?_, ?_, ?_, ?_, ?_, ?_, ?_, ?_, ?_⟩
    · intro s hs
      rw [identifier_parse]
      refine Sat_bind (hnext s hs) fun _ s hs => ?_
      split
      · exact Sat_ret hs
      · refine Sat_bind (hnext s hs) fun _ s hs => ?_
        split
        · refine Sat_bind (ih2 _ s hs) fun Args s hs => ?_
          split
          · exact Sat_ret hs
          · exact Sat_bind (hnext s hs) fun _ _ h => Sat_ret h
        · exact Sat_bind (hnext s hs) fun _ _ h => Sat_ret h
    · intro Args s hs
      rw [identifier_args]
      refine Sat_bind (ih10 s hs) fun Arg s hs => ?_
      split
      · exact Sat_ret hs
      · split
        · exact Sat_ret hs
        · split
          · exact Sat_ret hs
          · exact Sat_bind (hnext s hs) fun _ s hs => ih2 _ s hs
    · intro s hs
      rw [paran_parse]
      refine Sat_bind (hnext s hs) fun _ s hs => ?_
      refine Sat_bind (ih10 s hs) fun V s hs => ?_
      split
      · exact Sat_ret hs
      · split
        · exact Sat_ret hs
        · exact Sat_bind (hnext s hs) fun _ _ h => Sat_ret h
    · intro s hs
      rw [if_parse]
      refine Sat_bind (hnext s hs) fun _ s hs => ?_
      refine Sat_bind (ih10 s hs) fun V s hs => ?_
      split
      · exact Sat_ret hs
      · split
        · exact Sat_ret hs
        · refine Sat_bind (hnext s hs) fun _ s hs => ?_
          refine Sat_bind (ih10 s hs) fun V s hs => ?_
          split
          · exact Sat_ret hs
          · split
            · exact Sat_ret hs
            · refine Sat_bind (hnext s hs) fun _ s hs => ?_
              refine Sat_bind (ih10 s hs) fun V s hs => ?_
              split <;> exact Sat_ret hs
    · intro s hs
      rw [for_parse]
      refine Sat_bind (hnext s hs) fun _ s hs => ?_
      split
      · exact Sat_ret hs
      · refine Sat_bind (hnext s hs) fun _ s hs => ?_
        split
        · exact Sat_ret hs
        · refine Sat_bind (hnext s hs) fun _ s hs => ?_
          refine Sat_bind (ih10 s hs) fun V s hs => ?_
          split
          · exact Sat_ret hs
          · split
            · exact Sat_ret hs
            · refine Sat_bind (hnext s hs) fun _ s hs => ?_
              refine Sat_bind (ih10 s hs) fun V s hs => ?_
              split
              · exact Sat_ret hs
              · split
                · refine Sat_bind (hnext s hs) fun _ s hs => ?_
                  refine Sat_bind (ih10 s hs) fun V s hs => ?_
                  split
                  · exact Sat_ret hs
                  · exact ih6 _ _ _ _ s hs
                · exact ih6 _ _ _ _ s hs
    · intro IdName Start End Step s hs
      rw [for_body]
      split
      · exact Sat_ret hs
      · refine Sat_bind (hnext s hs) fun _ s hs => ?_
        refine Sat_bind (ih10 s hs) fun V s hs => ?_
        split <;> exact Sat_ret hs
    · intro s hs
      rw [base_parse]
      split
      · exact ih1 s hs
      · split
        · exact hnum s hs
        · split
          · exact ih3 s hs
          · split
            · exact ih4 s hs
            · split
              · exact ih5 s hs
              · exact Sat_ret hs
    · intro s hs
      rw [unary_parse]
      split
      · exact ih7 s hs
      · split
        · exact ih7 s hs
        · refine Sat_bind (hnext s hs) fun _ s hs => ?_
          refine Sat_bind (ih8 s hs) fun V s hs => ?_
          split <;> exact Sat_ret hs
    · intro Old_Prec LHS s hs
      rw [binary_op_parse]
      have h1 := hget s hs
      rcases hg : getBinOpPrecedence s with ⟨p, s1⟩
      rw [hg] at h1
      simp only at h1 ⊢
      split
      · exact Sat_ret h1
      · refine Sat_bind (hnext _ h1) fun _ s hs => ?_
        refine Sat_bind (ih8 s hs) fun V s hs => ?_
        split
        · exact Sat_ret hs
        · have h2 := hget s hs
          rcases hg2 : getBinOpPrecedence s with ⟨p2, s2⟩
          rw [hg2] at h2
          simp only at h2 ⊢
          split
          · refine Sat_bind (ih9 _ _ _ h2) fun V s hs => ?_
            split
            · exact Sat_ret hs
            · exact ih9 _ _ s hs
          · exact ih9 _ _ _ h2
    · intro s hs
      rw [expression_parse]
      refine Sat_bind (ih8 s hs) fun V s hs => ?_
      split
      · exact Sat_ret hs
      · exact ih9 _ _ s hs

theorem Codegen_Numeric (numeric_val : Int) (s : State) :
    Codegen (.NumericAST numeric_val) s =
  .ret (some (ConstantInt_get numeric_val)) s :=
  rfl

theorem Codegen_Variable (Var_Name : List Nat) (s : State) :
    Codegen (.VariableAST Var_Name) s =
  match map_index none s.Named_Values Var_Name with
      | (V, m) => .ret V { s with Named_Values := m } :=
  rfl

theorem Codegen_ExprUnary (Opcode : Nat) (Operand : BaseAST) (s : State) :
    Codegen (.ExprUnaryAST Opcode Operand) s =
  (Codegen Operand s).bind fun OperandV s =>
      match OperandV with
      | none => .ret none s
      | some OperandV =>
        match getFunction s.TheModule ([117, 110, 97, 114, 121] ++ [Opcode]) with
        | none => .ret none s
        | some F => (CreateCall (some F) [some OperandV] s).bind fun V s => .ret (some V) s :=
  rfl

theorem Codegen_Binary (Bin_Operator : List Nat) (LHS : BaseAST) (RHS : BaseAST)
    (s : State) :
    Codegen (.BinaryAST Bin_Operator LHS RHS) s =
  (Codegen LHS s).bind fun L s =>
      (Codegen RHS s).bind fun R s =>
      match stoi Bin_Operator with
      | none => .throws
      | some op =>
        if op = 43 then (CreateBinOp .Add L R s).bind fun V s => .ret (some V) s
        else if op = 45 then (CreateBinOp .Sub L R s).bind fun V s => .ret (some V) s
        else if op = 42 then (CreateBinOp .Mul L R s).bind fun V s => .ret (some V) s
        else if op = 47 then (CreateBinOp .SDiv L R s).bind fun V s => .ret (some V) s
        else if op = 60 then
          (CreateICmp .ICMP_ULT L R s).bind fun L s =>
          (CreateZExt L s).bind fun V s => .ret (some V) s
        else
          let F := getFunction s.TheModule ([98, 105, 110, 97, 114, 121] ++ Bin_Operator)
          (CreateCall F [L, R] s).bind fun V s => .ret (some V) s :=
  rfl

theorem Codegen_ExprIf (Cond : BaseAST) (Then : BaseAST) (Else : BaseAST) (s : State) :
    Codegen (.ExprIfAST Cond Then Else) s =
  (Codegen Cond s).bind fun Condtn s =>
      match Condtn with
      | none => .ret none s
      | some Condtn =>
        (CreateICmp .ICMP_NE (some Condtn) (some (.ConstantInt 32 0)) s).bind fun Condtn s =>
        match s.Builder.bind (getParent s.TheModule) with
        | none => .ub
        | some TheFunc =>
          match BasicBlock_Create_in .then_ TheFunc.id s with
          | (ThenBB, s) =>
          match BasicBlock_Create .else_ s with
          | (ElseBB, s) =>
          match BasicBlock_Create .ifcont s with
          | (MergeBB, s) =>
            (CreateCondBr Condtn ThenBB.id ElseBB.id s).bind fun _ s =>
            (Codegen Then (SetInsertPoint ThenBB.id s)).bind fun ThenVal s =>
            match ThenVal with
            | none => .ret none s
            | some ThenVal =>
              (CreateBr MergeBB.id s).bind fun _ s =>
              match s.Builder with
              | none => .ub
              | some ThenBB =>
                (Codegen Else (SetInsertPoint ElseBB.id (Function_insert TheFunc.id ElseBB s))).bind
                  fun ElseVal s =>
                match ElseVal with
                | none => .ret none s
                | some ElseVal =>
                  (CreateBr MergeBB.id s).bind fun _ s =>
                  match s.Builder with
                  | none => .ub
                  | some ElseBB =>
                    (CreatePHI (SetInsertPoint MergeBB.id
                        (Function_insert TheFunc.id MergeBB s))).bind fun PN s =>
                    (addIncoming PN ThenVal ThenBB s).bind fun _ s =>
                    (addIncoming PN ElseVal ElseBB s).bind fun _ s => .ret (some PN) s :=
  rfl

theorem Codegen_ExprFor (Var_Name : List Nat) (Start : BaseAST) (End : BaseAST)
    (Step : Option BaseAST) (Body : BaseAST) (s : State) :
    Codegen (.ExprForAST Var_Name Start End Step Body) s =
  (Codegen Start s).bind fun StartVal s =>
      match StartVal with
      | none => .ret none s
      | some StartVal =>
        match s.Builder.bind (getParent s.TheModule), s.Builder with
        | some TheFunction, some PreheaderBB =>
          match BasicBlock_Create_in .loop TheFunction.id s with
          | (LoopBB, s) =>
            (CreateBr LoopBB.id s).bind fun _ s =>
            (CreatePHI (SetInsertPoint LoopBB.id s)).bind fun Var s =>
            (addIncoming Var StartVal PreheaderBB s).bind fun _ s =>
            match map_index none s.Named_Values Var_Name with
            | (OldVal, m) =>
              (Codegen Body { s with Named_Values := map_assign m Var_Name (some Var) }).bind
                fun BodyVal s =>
              match BodyVal with
              | none => .ret none s
              | some _ =>
                (Codegen_Step Step s).bind fun StepVal s =>
                match StepVal with
                | none => .ret none s
                | some StepVal =>
                  (CreateBinOp .Add (some Var) (some StepVal) s).bind fun NextVar s =>
                  (Codegen End s).bind fun EndCond s =>
                  match EndCond with
                  | none => .ret none s
                  | some EndCond =>
                    (CreateICmp .ICMP_NE (some EndCond) (some (.ConstantInt 32 0)) s).bind
                      fun EndCond s =>
                    match s.Builder with
                    | none => .ub
                    | some LoopEndBB =>
                      match BasicBlock_Create_in .afterloop TheFunction.id s with
                      | (AfterBB, s) =>
                        (CreateCondBr EndCond LoopBB.id AfterBB.id s).bind fun _ s =>
                        (addIncoming Var NextVar LoopEndBB (SetInsertPoint AfterBB.id s)).bind
                          fun _ s =>
                        match OldVal with
                        | some OldVal =>
                          .ret (some (.ConstantInt 32 0))
                            { s with Named_Values :=
                                map_assign s.Named_Values Var_Name (some OldVal) }
                        | none =>
                          .ret (some (.ConstantInt 32 0))
                            { s with Named_Values := map_erase s.Named_Values Var_Name }
        | _, _ => .ub :=
  rfl

theorem Codegen_FunctionCall (Function_Callee : List Nat) (Function_Arguments : List BaseAST)
    (s : State) :
    Codegen (.FunctionCallAST Function_Callee Function_Arguments) s =
      (Codegen_args Function_Arguments [] s).bind fun ArgsV s1 =>
      match ArgsV with
      | none => .ret none s1
      | some ArgsV =>
        (CreateCall (getFunction s.TheModule Function_Callee) ArgsV s1).bind
          fun V s => .ret (some V) s :=
  rfl

theorem Codegen_Step_some (Step : BaseAST) (s : State) :
    Codegen_Step (some Step) s = Codegen Step s :=
  rfl

theorem Codegen_Step_none (s : State) :
    Codegen_Step none s = .ret (some (ConstantInt_get 1)) s :=
  rfl

theorem Codegen_args_nil (ArgsV : List (Option Value)) (s : State) :
    Codegen_args [] ArgsV s = .ret (some ArgsV) s :=
  rfl

theorem Codegen_args_cons (Arg : BaseAST) (rest : List BaseAST) (ArgsV : List (Option Value))
    (s : State) :
    Codegen_args (Arg :: rest) ArgsV s =
      (Codegen Arg s).bind fun V s =>
      match V with
      | none => .ret none s
      | some V => Codegen_args rest (ArgsV ++ [some V]) s :=
  rfl

theorem Sat_of_front {α : Type} {f0 : Lexer × Nat × List (Nat × Int)} {r : Res State α}
    {s : State} (h : ∀ a s1, r = .ret a s1 → s1.front = s.front) (hs : s.front = f0) :
    r.Sat (fun s1 => s1.front = f0) := by
  intro a s1 e
  rw [h a s1 e, hs]

theorem Insert_front {inst : Inst} {s s1 : State} {v : Value} (h : Insert inst s = .ret v s1) :
    s1.front = s.front := by
  unfold Insert at h
  split at h
  · cases h; rfl
  · split at h
    · cases h
    · cases h; rfl

theorem CreateBinOp_front {Opc : BinaryOps} {L R : Option Value} {s s1 : State} {v : Value}
    (h : CreateBinOp Opc L R s = .ret v s1) : s1.front = s.front := by
  unfold CreateBinOp at h
  split at h
  · split at h
    · cases h; rfl
    · exact Insert_front h
  · cases h

theorem CreateICmp_front {P : Predicate} {L R : Option Value} {s s1 : State} {v : Value}
    (h : CreateICmp P L R s = .ret v s1) : s1.front = s.front := by
  unfold CreateICmp at h
  split at h
  · split at h
    · cases h; rfl
    · exact Insert_front h
  · cases h

theorem CreateZExt_front {V : Value} {s s1 : State} {v : Value}
    (h : CreateZExt V s = .ret v s1) : s1.front = s.front := by
  unfold CreateZExt at h
  split at h
  · cases h; rfl
  · cases h; rfl
  · exact Insert_front h

theorem CreateCall_front {F : Option Function} {Args : List (Option Value)} {s s1 : State}
    {v : Value} (h : CreateCall F Args s = .ret v s1) : s1.front = s.front := by
  unfold CreateCall at h
  split at h
  · cases h
  · split at h
    · exact Insert_front h
    · cases h

theorem addIncoming_front {PN V : Value} {BB : Nat} {s s1 : State} {u : Unit}
    (h : addIncoming PN V BB s = .ret u s1) : s1.front = s.front := by
  unfold addIncoming at h
  split at h
  · cases h; rfl
  · cases h

theorem Sat_bind_front {α β : Type} {f0 : Lexer × Nat × List (Nat × Int)} {r : Res State α}
    {k : α → State → Res State β} {s : State}
    (h1 : ∀ a s1, r = .ret a s1 → s1.front = s.front) (hs : s.front = f0)
    (h2 : ∀ a s1, s1.front = f0 → (k a s1).Sat (fun s1 => s1.front = f0)) :
    (r.bind k).Sat (fun s1 => s1.front = f0) :=
  Sat_bind (Sat_of_front h1 hs) h2

mutual

/-- Lowering an expression leaves the statics of the lexer and the parser as
they were. -/
theorem Codegen_front_Sat : ∀ (e : BaseAST) (s : State) (f0 : Lexer × Nat × List (Nat × Int)),
    s.front = f0 → (Codegen e s).Sat (fun s1 => s1.front = f0)
  | .NumericAST _, s, f0, hs => by
    rw [Codegen_Numeric]; exact Sat_ret hs
  | .VariableAST _, s, f0, hs => by
    rw [Codegen_Variable]; exact Sat_ret hs
  | .ExprUnaryAST _ Operand, s, f0, hs => by
    rw [Codegen_ExprUnary]
    refine Sat_bind (Codegen_front_Sat Operand s f0 hs) fun V s hs => ?_
    split
    · exact Sat_ret hs
    · split
      · exact Sat_ret hs
      · exact Sat_bind_front (fun _ _ h => CreateCall_front h) hs fun _ _ h => Sat_ret h
  | .BinaryAST _ LHS RHS, s, f0, hs => by
    rw [Codegen_Binary]
    refine Sat_bind (Codegen_front_Sat LHS s f0 hs) fun L s hs => ?_
    refine Sat_bind (Codegen_front_Sat RHS s f0 hs) fun R s hs => ?_
    split
    · intro _ _ e; cases e
    · split
      · exact Sat_bind_front (fun _ _ h => CreateBinOp_front h) hs fun _ _ h => Sat_ret h
      · split
        · exact Sat_bind_front (fun _ _ h => CreateBinOp_front h) hs fun _ _ h => Sat_ret h
        · split
          · exact Sat_bind_front (fun _ _ h => CreateBinOp_front h) hs fun _ _ h => Sat_ret h
          · split
            · exact Sat_bind_front (fun _ _ h => CreateBinOp_front h) hs fun _ _ h => Sat_ret h
            · split
              · refine Sat_bind_front (fun _ _ h => CreateICmp_front h) hs fun _ s hs => ?_
                exact Sat_bind_front (fun _ _ h => CreateZExt_front h) hs fun _ _ h => Sat_ret h
              · exact Sat_bind_front (fun _ _ h => CreateCall_front h) hs fun _ _ h => Sat_ret h
  | .ExprIfAST Cond Then Else, s, f0, hs => by
    rw [Codegen_ExprIf]
    refine Sat_bind (Codegen_front_Sat Cond s f0 hs) fun V s hs => ?_
    split
    · exact Sat_ret hs
    · refine Sat_bind_front (fun _ _ h => CreateICmp_front h) hs fun _ s hs => ?_
      split
      · intro _ _ e; cases e
      · simp only [BasicBlock_Create_in, BasicBlock_Create]
        refine Sat_bind_front (fun _ _ h => Insert_front h) hs fun _ s hs => ?_
        refine Sat_bind (Codegen_front_Sat Then _ f0 hs) fun V s hs => ?_
        split
        · exact Sat_ret hs
        · refine Sat_bind_front (fun _ _ h => Insert_front h) hs fun _ s hs => ?_
          split
          · intro _ _ e; cases e
          · refine Sat_bind (Codegen_front_Sat Else _ f0 hs) fun V s hs => ?_
            split
            · exact Sat_ret hs
            · refine Sat_bind_front (fun _ _ h => Insert_front h) hs fun _ s hs => ?_
              split
              · intro _ _ e; cases e
              · refine Sat_bind_front (s := SetInsertPoint _ (Function_insert _ _ s))
                  (fun _ _ h => Insert_front h) hs fun _ s hs => ?_
                refine Sat_bind_front (fun _ _ h => addIncoming_front h) hs fun _ s hs => ?_
                exact Sat_bind_front (fun _ _ h => addIncoming_front h) hs fun _ _ h => Sat_ret h
  | .ExprForAST _ Start End Step Body, s, f0, hs => by
    rw [Codegen_ExprFor]
    refine Sat_bind (Codegen_front_Sat Start s f0 hs) fun V s hs => ?_
    split
    · exact Sat_ret hs
    · split
      · simp only [BasicBlock_Create_in, BasicBlock_Create]
        refine Sat_bind_front (fun _ _ h => Insert_front h) hs fun _ s hs => ?_
        refine Sat_bind_front (s := SetInsertPoint _ s) (fun _ _ h => Insert_front h) hs
          fun _ s hs => ?_
        refine Sat_bind_front (fun _ _ h => addIncoming_front h) hs fun _ s hs => ?_
        refine Sat_bind (Codegen_front_Sat Body _ f0 hs) fun V s hs => ?_
        split
        · exact Sat_ret hs
        · refine Sat_bind ?_ fun StepVal s hs => ?_
          · cases Step with
            | none => rw [Codegen_Step_none]; exact Sat_ret hs
            | some Step => rw [Codegen_Step_some]; exact Codegen_front_Sat Step s f0 hs
          · split
            · exact Sat_ret hs
            · refine Sat_bind_front (fun _ _ h => CreateBinOp_front h) hs fun _ s hs => ?_
              refine Sat_bind (Codegen_front_Sat End s f0 hs) fun V s hs => ?_
              split
              · exact Sat_ret hs
              · refine Sat_bind_front (fun _ _ h => CreateICmp_front h) hs fun _ s hs => ?_
                split
                · intro _ _ e; cases e
                · refine Sat_bind_front (s := Function_insert _ _ _)
                    (fun _ _ h => Insert_front h) hs fun _ s hs => ?_
                  refine Sat_bind_front (s := SetInsertPoint _ s)
                    (fun _ _ h => addIncoming_front h) hs fun _ s hs => ?_
                  split <;> exact Sat_ret hs
      · intro _ _ e; cases e
  | .FunctionCallAST _ Function_Arguments, s, f0, hs => by
    rw [Codegen_FunctionCall]
    refine Sat_bind (Codegen_args_front_Sat Function_Arguments [] s f0 hs) fun V s hs => ?_
    split
    · exact Sat_ret hs
    · exact Sat_bind_front (fun _ _ h => CreateCall_front h) hs fun _ _ h => Sat_ret h

/-- Lowering the arguments of a call leaves the statics of the lexer and the
parser as they were. -/
theorem Codegen_args_front_Sat : ∀ (args : List BaseAST) (ArgsV : List (Option Value))
    (s : State) (f0 : Lexer × Nat × List (Nat × Int)),
    s.front = f0 → (Codegen_args args ArgsV s).Sat (fun s1 => s1.front = f0)
  | [], _, s, f0, hs => by
    rw [Codegen_args_nil]; exact Sat_ret hs
  | Arg :: rest, ArgsV, s, f0, hs => by
    rw [Codegen_args_cons]
    refine Sat_bind (Codegen_front_Sat Arg s f0 hs) fun V s hs => ?_
    split
    · exact Sat_ret hs
    · exact Codegen_args_front_Sat rest _ s f0 hs

end

theorem Codegen_front {e : BaseAST} {s s1 : State} {v : Option Value}
    (h : Codegen e s = .ret v s1) : s1.front = s.front :=
  Codegen_front_Sat e s s.front rfl v s1 h

theorem FunctionDeclAST_Codegen_front {d : FunctionDeclAST} {s s1 : State} {r : Option Nat}
    (h : d.Codegen s = .ret r s1) : s1.front = s.front := by
  unfold FunctionDeclAST.Codegen at h
  split at h
  · split at h
    · cases h; rfl
    · split at h <;> cases h <;> rfl
  · cases h; rfl

theorem register_precedence_eq {d : FunctionDeclAST} {s s1 : State} {u : Unit}
    (h : register_precedence d s = .ret u s1) :
    s1.lex = s.lex ∧ s1.Current_token = s.Current_token ∧ s1.TheModule = s.TheModule ∧
    s1.Builder = s.Builder ∧ s1.Named_Values = s.Named_Values ∧ s1.fresh = s.fresh ∧
    ((d.isBinaryOp = false ∧ s1.Operator_Precedence = s.Operator_Precedence) ∨
      (d.isBinaryOp = true ∧ ∃ c, d.getOperatorName = some c ∧
        s1.Operator_Precedence =
          map_assign s.Operator_Precedence c (unsigned_to_int d.getBinaryPrecedence))) := by
  unfold register_precedence at h
  split at h
  · rename_i hb
    split at h
    · cases h
    · rename_i c hc
      cases h
      exact ⟨rfl, rfl, rfl, rfl, rfl, rfl, Or.inr ⟨hb, c, hc, rfl⟩⟩
  · rename_i hb
    cases h
    exact ⟨rfl, rfl, rfl, rfl, rfl, rfl, Or.inl ⟨by simpa using hb, rfl⟩⟩

/-- What `FunctionDefnAST::Codegen` does to the statics of the lexer and the
parser: nothing when the signature is refused; otherwise the only change is
the entry written to `Operator_Precedence` for the signature of a binary
operator, whether the body lowers or not. -/
theorem FunctionDefnAST_Codegen_front {d : FunctionDefnAST} {s s1 : State} {r : Option Nat}
    (h : d.Codegen s = .ret r s1) :
    s1.lex = s.lex ∧ s1.Current_token = s.Current_token ∧
    ((r = none ∧ s1.Operator_Precedence = s.Operator_Precedence ∧
        ∃ sA, d.Func_Decl.Codegen { s with Named_Values := [] } = .ret none sA) ∨
      ((∃ F sA, d.Func_Decl.Codegen { s with Named_Values := [] } = .ret (some F) sA) ∧
        ((d.Func_Decl.isBinaryOp = false ∧ s1.Operator_Precedence = s.Operator_Precedence) ∨
          (d.Func_Decl.isBinaryOp = true ∧ ∃ c, d.Func_Decl.getOperatorName = some c ∧
            s1.Operator_Precedence = map_assign s.Operator_Precedence c
              (unsigned_to_int d.Func_Decl.getBinaryPrecedence))))) := by
  unfold FunctionDefnAST.Codegen at h
  cases hd : d.Func_Decl.Codegen { s with Named_Values := [] } with
  | ret F sA =>
    have hfA := FunctionDeclAST_Codegen_front hd
    rw [hd] at h
    simp only [Res.bind_ret] at h
    cases F with
    | none =>
      simp only at h
      cases h
      simp only [State.front, Prod.mk.injEq] at hfA
      exact ⟨hfA.1, hfA.2.1, Or.inl ⟨rfl, hfA.2.2, _, rfl⟩⟩
    | some F =>
      simp only at h
      cases hr : register_precedence d.Func_Decl sA with
      | ret u sB =>
        obtain ⟨hB1, hB2, -, -, -, -, hB3⟩ := register_precedence_eq hr
        rw [hr] at h
        simp only [Res.bind_ret, BasicBlock_Create_in, BasicBlock_Create] at h
        cases hb : Codegen d.Body
            (SetInsertPoint sB.fresh (Function_insert F ⟨sB.fresh, .entry, []⟩
              { sB with fresh := sB.fresh + 1 })) with
        | ret RetVal sC =>
          have hfC := Codegen_front hb
          rw [hb] at h
          simp only [Res.bind_ret] at h
          have key : ∀ sD : State, sD.front = sC.front →
              sD.lex = s.lex ∧ sD.Current_token = s.Current_token ∧
              ((d.Func_Decl.isBinaryOp = false ∧
                  sD.Operator_Precedence = s.Operator_Precedence) ∨
                (d.Func_Decl.isBinaryOp = true ∧ ∃ c, d.Func_Decl.getOperatorName = some c ∧
                  sD.Operator_Precedence = map_assign s.Operator_Precedence c
                    (unsigned_to_int d.Func_Decl.getBinaryPrecedence))) := by
            intro sD hD
            rw [hfC] at hD
            simp only [State.front, Prod.mk.injEq, SetInsertPoint, Function_insert] at hD hfA
            refine ⟨by rw [hD.1, hB1, hfA.1], by rw [hD.2.1, hB2, hfA.2.1], ?_⟩
            rcases hB3 with ⟨hb1, hb2⟩ | ⟨hb1, c, hc, hb2⟩
            · exact Or.inl ⟨hb1, by rw [hD.2.2, hb2, hfA.2.2]⟩
            · exact Or.inr ⟨hb1, c, hc, by rw [hD.2.2, hb2, hfA.2.2]⟩
          cases RetVal with
          | none =>
            simp only at h
            cases h
            obtain ⟨k1, k2, k3⟩ := key (eraseFromParent F sC) rfl
            exact ⟨k1, k2, Or.inr ⟨⟨F, sA, rfl⟩, k3⟩⟩
          | some RetVal =>
            simp only at h
            cases hret : CreateRet RetVal sC with
            | ret v sD =>
              rw [hret] at h
              simp only [Res.bind_ret] at h
              cases h
              obtain ⟨k1, k2, k3⟩ := key s1 (Insert_front hret)
              exact ⟨k1, k2, Or.inr ⟨⟨F, sA, rfl⟩, k3⟩⟩
            | throws => rw [hret] at h; cases h
            | ub => rw [hret] at h; cases h
            | fuel => rw [hret] at h; cases h
        | throws => rw [hb] at h; cases h
        | ub => rw [hb] at h; cases h
        | fuel => rw [hb] at h; cases h
      | throws => rw [hr] at h; cases h
      | ub => rw [hr] at h; cases h
      | fuel => rw [hr] at h; cases h
  | throws => rw [hd] at h; cases h
  | ub => rw [hd] at h; cases h
  | fuel => rw [hd] at h; cases h

/-- The parameter loop on a run of identifiers followed by another token. -/
theorem func_decl_args_idents : ∀ (xs : List (List Nat)) (n : Nat) (acc : List (List Nat))
    (s : State) (tk0 tk : Tok) (rest : List Tok) (l1 : Lexer),
    At s (tk0 :: xs.map Tok.ident ++ tk :: rest) l1 → tk.code ≠ IDENTIFIER_TOKEN →
    xs.length + 1 ≤ n →
    ∃ s1, func_decl_args n acc s = .ret (acc ++ xs) s1 ∧ At s1 (tk :: rest) l1 ∧
      s1.Operator_Precedence = s.Operator_Precedence := by
  intro xs
  induction xs with
  | nil =>
    intro n acc s tk0 tk rest l1 hat htk hn
    obtain ⟨m, rfl⟩ : ∃ m, n = m + 1 := ⟨n - 1, by simp at hn; omega⟩
    obtain ⟨s1, h1, h2, h3⟩ := @next_token_At s tk0 tk rest l1 (by simpa using hat)
    refine ⟨s1, ?_, h2, h3⟩
    rw [func_decl_args]
    simp [h1, htk]
  | cons x xs ih =>
    intro n acc s tk0 tk rest l1 hat htk hn
    obtain ⟨m, rfl⟩ : ∃ m, n = m + 1 := ⟨n - 1, by simp at hn; omega⟩
    obtain ⟨s1, h1, h2, h3⟩ :=
      @next_token_At s tk0 (.ident x) (xs.map Tok.ident ++ tk :: rest) l1
        (by simpa using hat)
    have hl : s1.lex.Identifier_string = x := by
      have := h2.2.1
      simpa [Tok.loaded] using this
    obtain ⟨s2, h4, h5, h6⟩ := ih m (acc ++ [x]) s1 (.ident x) tk rest l1 h2 htk
      (by simp at hn; omega)
    refine ⟨s2, ?_, h5, by rw [h6, h3]⟩
    rw [func_decl_args]
    simp [h1, Tok.code, hl, h4]

/-- The part of `func_decl_parser` after the `switch`, on a parenthesised run
of identifiers. -/
theorem func_decl_tail_idents (xs : List (List Nat)) (n : Nat) (Function_Name : List Nat)
    (Kind BinaryPrecedence : Nat) (s : State) (t : Tok) (l1 : Lexer)
    (hat : At s (.other 40 :: xs.map Tok.ident ++ [.other 41, t]) l1)
    (hn : xs.length + 1 ≤ n) :
    ∃ s1, func_decl_tail n Function_Name Kind BinaryPrecedence s =
        .ret (if Kind ≠ 0 ∧ xs.length ≠ Kind then none
          else some ⟨Function_Name, xs, decide (Kind ≠ 0), BinaryPrecedence⟩) s1 ∧
      At s1 [t] l1 ∧ s1.Operator_Precedence = s.Operator_Precedence := by
  obtain ⟨s1, h1, h2, h3⟩ := func_decl_args_idents xs n [] s (.other 40) (.other 41) [t] l1
    (by simpa using hat) (by decide) hn
  obtain ⟨s2, h4, h5, h6⟩ := next_token_At h2
  refine ⟨s2, ?_, h5, by rw [h6, h3]⟩
  have hc : s.Current_token = 40 := hat.1
  have hc1 : s1.Current_token = 41 := h2.1
  unfold func_decl_tail
  simp only [hc, ne_eq, not_true_eq_false, if_false, h1, Res.bind_ret, hc1, h4, List.nil_append]
  split <;> simp_all

/-- The signature parser on `unary c ( xs )`. -/
theorem func_decl_parse_unary (xs : List (List Nat)) (c : Nat) (t : Tok) (fuel : Nat)
    (hc : c < 128) (hfuel : xs.length + 1 ≤ fuel) (s : State) (l1 : Lexer)
    (hat : At s ([.other UNARY_TOKEN, .other c, .other 40] ++ xs.map Tok.ident ++
      [.other 41, t]) l1) :
    ∃ s1, func_decl_parse fuel s =
      .ret (if xs.length = 1 then some ⟨[117, 110, 97, 114, 121] ++ [c], xs, true, 30⟩
        else none) s1 := by
  have hat1 : At s (.other UNARY_TOKEN :: .other c :: .other 40 ::
      (xs.map Tok.ident ++ [.other 41, t])) l1 := by simpa using hat
  obtain ⟨sA, hA1, hA2, -⟩ := next_token_At hat1
  obtain ⟨sB, hB1, hB2, -⟩ := next_token_At hA2
  obtain ⟨s1, h1, -, -⟩ := func_decl_tail_idents xs fuel ([117, 110, 97, 114, 121] ++ [c])
    1 30 sB t l1 hB2 hfuel
  have hcur : s.Current_token = 11 := hat1.1
  have hcA : sA.Current_token = c := hA2.1
  refine ⟨s1, ?_⟩
  unfold func_decl_parse
  simp only [hcur, hA1, hB1, hcA, isascii, Res.bind_ret, h1]
  by_cases hx : xs.length = 1 <;> simp [hx, hc]

/-- The signature parser on `binary c ( xs )`. -/
theorem func_decl_parse_binary (xs : List (List Nat)) (c : Nat) (t : Tok) (fuel : Nat)
    (hc : c < 128) (hfuel : xs.length + 1 ≤ fuel) (s : State) (l1 : Lexer)
    (hat : At s ([.other BINARY_TOKEN, .other c, .other 40] ++ xs.map Tok.ident ++
      [.other 41, t]) l1) :
    ∃ s1, func_decl_parse fuel s =
      .ret (if xs.length = 2 then some ⟨[98, 105, 110, 97, 114, 121] ++ [c], xs, true, 30⟩
        else none) s1 := by
  have hat1 : At s (.other BINARY_TOKEN :: .other c :: .other 40 ::
      (xs.map Tok.ident ++ [.other 41, t])) l1 := by simpa using hat
  obtain ⟨sA, hA1, hA2, -⟩ := next_token_At hat1
  obtain ⟨sB, hB1, hB2, -⟩ := next_token_At hA2
  obtain ⟨s1, h1, -, -⟩ := func_decl_tail_idents xs fuel ([98, 105, 110, 97, 114, 121] ++ [c])
    2 30 sB t l1 hB2 hfuel
  have hcur : s.Current_token = 10 := hat1.1
  have hcA : sA.Current_token = c := hA2.1
  have hcB : sB.Current_token = 40 := hB2.1
  refine ⟨s1, ?_⟩
  unfold func_decl_parse
  simp only [hcur, hA1, hB1, hcA, hcB, isascii, Res.bind_ret, h1]
  by_cases hx : xs.length = 2 <;> simp [hx, hc]

/-- The signature parser on `name ( xs )`. -/
theorem func_decl_parse_plain (xs : List (List Nat)) (name : List Nat) (t : Tok) (fuel : Nat)
    (hfuel : xs.length + 1 ≤ fuel) (s : State) (l1 : Lexer)
    (hat : At s ([.ident name, .other 40] ++ xs.map Tok.ident ++ [.other 41, t]) l1) :
    ∃ s1, func_decl_parse fuel s = .ret (some ⟨name, xs, false, 30⟩) s1 := by
  have hat1 : At s (.ident name :: .other 40 :: (xs.map Tok.ident ++ [.other 41, t])) l1 := by
    simpa using hat
  obtain ⟨sA, hA1, hA2, -⟩ := next_token_At hat1
  obtain ⟨s1, h1, -, -⟩ := func_decl_tail_idents xs fuel name 0 30 sA t l1 hA2 hfuel
  have hcur : s.Current_token = 2 := hat1.1
  have hl : s.lex.Identifier_string = name := by
    have := hat1.2.1
    simpa [Tok.loaded] using this
  refine ⟨s1, ?_⟩
  unfold func_decl_parse
  simp only [hcur, hA1, Res.bind_ret, hl, h1]
  simp

/-- The signature parser on `binary c N`, the number out of range. -/
theorem func_decl_parse_binary_range (c : Nat) (N : Int) (fuel : Nat) (hc : c < 128)
    (s : State) (l1 : Lexer) (hat : At s [.other BINARY_TOKEN, .other c, .num N] l1)
    (hN : N < 1 ∨ 100 < N) :
    ∃ s1, func_decl_parse fuel s = .ret none s1 := by
  obtain ⟨sA, hA1, hA2, -⟩ := next_token_At hat
  obtain ⟨sB, hB1, hB2, -⟩ := next_token_At hA2
  have hcur : s.Current_token = 10 := hat.1
  have hcA : sA.Current_token = c := hA2.1
  have hcB : sB.Current_token = 1 := hB2.1
  have hl : sB.lex.Numeric_Val = N := by
    have := hB2.2.1
    simpa [Tok.loaded] using this
  refine ⟨sB, ?_⟩
  unfold func_decl_parse
  simp only [hcur, hA1, hB1, hcA, hcB, isascii, Res.bind_ret, hl]
  simp [hc, hN]

/-- The signature parser on `binary c N ( xs )`, the number in range. -/
theorem func_decl_parse_binary_num (xs : List (List Nat)) (c : Nat) (N : Int) (t : Tok)
    (fuel : Nat) (hc : c < 128) (hfuel : xs.length + 1 ≤ fuel) (s : State) (l1 : Lexer)
    (hat : At s ([.other BINARY_TOKEN, .other c, .num N, .other 40] ++ xs.map Tok.ident ++
      [.other 41, t]) l1) (h1 : 1 ≤ N) (h100 : N ≤ 100) :
    ∃ s1, func_decl_parse fuel s =
      .ret (if xs.length = 2 then
          some ⟨[98, 105, 110, 97, 114, 121] ++ [c], xs, true, N.toNat⟩
        else none) s1 := by
  have hat1 : At s (.other BINARY_TOKEN :: .other c :: .num N :: .other 40 ::
      (xs.map Tok.ident ++ [.other 41, t])) l1 := by simpa using hat
  obtain ⟨sA, hA1, hA2, -⟩ := next_token_At hat1
  obtain ⟨sB, hB1, hB2, -⟩ := next_token_At hA2
  obtain ⟨sC, hC1, hC2, -⟩ := next_token_At hB2
  obtain ⟨s1, h1', -, -⟩ := func_decl_tail_idents xs fuel
    ([98, 105, 110, 97, 114, 121] ++ [c]) 2 N.toNat sC t l1 hC2 hfuel
  have hcur : s.Current_token = 10 := hat1.1
  have hcA : sA.Current_token = c := hA2.1
  have hcB : sB.Current_token = 1 := hB2.1
  have hl : sB.lex.Numeric_Val = N := by
    have := hB2.2.1
    simpa [Tok.loaded] using this
  refine ⟨s1, ?_⟩
  unfold func_decl_parse
  simp only [hcur, hA1, hB1, hcA, hcB, isascii, Res.bind_ret, hl, hC1, h1']
  by_cases hx : xs.length = 2 <;> simp [hx, hc, not_lt.mpr h1, not_lt.mpr h100]

/-- C7: on a signature whose parameter list holds the identifiers `xs`,
`func_decl_parser` (with a budget above their number) returns a signature for
`unary c ( xs )` exactly when there is one identifier and for `binary c ( xs
)` exactly when there are two, and a parse failure otherwise; for `name ( xs
)` it returns a signature whatever their number; the signature carries the
identifiers in source order. -/
theorem C7_parameter_count (xs : List (List Nat)) (c : Nat) (name : List Nat) (t : Tok)
    (fuel : Nat) (hc : c < 128) (hfuel : xs.length + 1 ≤ fuel) :
    (∀ s l1, At s ([.other UNARY_TOKEN, .other c, .other 40] ++ xs.map Tok.ident ++
        [.other 41, t]) l1 →
      ∃ s1, func_decl_parse fuel s =
        .ret (if xs.length = 1 then some ⟨[117, 110, 97, 114, 121] ++ [c], xs, true, 30⟩
          else none) s1) ∧
    (∀ s l1, At s ([.other BINARY_TOKEN, .other c, .other 40] ++ xs.map Tok.ident ++
        [.other 41, t]) l1 →
      ∃ s1, func_decl_parse fuel s =
        .ret (if xs.length = 2 then some ⟨[98, 105, 110, 97, 114, 121] ++ [c], xs, true, 30⟩
          else none) s1) ∧
    (∀ s l1, At s ([.ident name, .other 40] ++ xs.map Tok.ident ++ [.other 41, t]) l1 →
      ∃ s1, func_decl_parse fuel s = .ret (some ⟨name, xs, false, 30⟩) s1) :=
  ⟨func_decl_parse_unary xs c t fuel hc hfuel, func_decl_parse_binary xs c t fuel hc hfuel,
    func_decl_parse_plain xs name t fuel hfuel⟩

/-- C6: on `binary c N (a b)` with a number `N`, `func_decl_parser` returns a
parse failure when `N` is below 1 or above 100 and a signature of precedence
`N` otherwise; on `binary c (a b)` it returns a signature of precedence 30. -/
theorem C6_declared_precedence_range (c : Nat) (N : Int) (a b : List Nat) (t : Tok)
    (fuel : Nat) (hc : c < 128) (hfuel : 3 ≤ fuel) :
    (∀ s l1, At s [.other BINARY_TOKEN, .other c, .num N] l1 → (N < 1 ∨ 100 < N) →
      ∃ s1, func_decl_parse fuel s = .ret none s1) ∧
    (∀ s l1, At s [.other BINARY_TOKEN, .other c, .num N, .other 40, .ident a, .ident b,
        .other 41, t] l1 → 1 ≤ N → N ≤ 100 →
      ∃ s1, func_decl_parse fuel s =
        .ret (some ⟨[98, 105, 110, 97, 114, 121] ++ [c], [a, b], true, N.toNat⟩) s1 ∧
        (N.toNat : Int) = N) ∧
    (∀ s l1, At s [.other BINARY_TOKEN, .other c, .other 40, .ident a, .ident b,
        .other 41, t] l1 →
      ∃ s1, func_decl_parse fuel s =
        .ret (some ⟨[98, 105, 110, 97, 114, 121] ++ [c], [a, b], true, 30⟩) s1) := by
  refine ⟨?_, ?_, ?_⟩
  · intro s l1 hat hN
    exact func_decl_parse_binary_range c N fuel hc s l1 hat hN
  · intro s l1 hat h1 h100
    obtain ⟨s1, h⟩ := func_decl_parse_binary_num [a, b] c N t fuel hc (by simpa using hfuel)
      s l1 (by simpa using hat) h1 h100
    exact ⟨s1, by simpa using h, by omega⟩
  · intro s l1 hat
    obtain ⟨s1, h⟩ := func_decl_parse_binary [a, b] c t fuel hc (by simpa using hfuel)
      s l1 (by simpa using hat)
    exact ⟨s1, by simpa using h⟩

/-- At the end of input `next_token` returns the end token and leaves the
lexer at the end of input. -/
theorem next_token_eof (s : State) (h1 : s.lex.LastChar = none) (h2 : s.lex.file = []) :
    ∃ s1, next_token s = .ret EOF_TOKEN s1 ∧ s1.Current_token = EOF_TOKEN ∧
      s1.lex.LastChar = none ∧ s1.lex.file = [] := by
  refine ⟨{ s with lex := { s.lex with LastChar := none, file := [] },
                   Current_token := EOF_TOKEN }, ?_, rfl, rfl, rfl⟩
  simp [next_token, get_token, get_token_aux, h1, h2, skip_space, isspace]

/-- When the current token is the end token and the input is at its end, the
operand parser exhausts every budget: `unary_parser` takes the end token for a
unary operator and calls itself on the next token, the end token again. -/
theorem unary_parse_eof : ∀ (n : Nat) (s : State), s.Current_token = EOF_TOKEN →
    s.lex.LastChar = none → s.lex.file = [] → unary_parse n s = .fuel := by
  intro n
  induction n with
  | zero => intro s _ _ _; rw [unary_parse]
  | succ n ih =>
    intro s hc h1 h2
    obtain ⟨s1, hn, hc1, h11, h12⟩ := next_token_eof s h1 h2
    rw [unary_parse]
    simp [hc, isascii, hn, ih s1 hc1 h11 h12, Res.bind]

/-- The expression parser on `1 +` exhausts every budget. -/
theorem expression_parse_one_plus :
    ∀ fuel, expression_parse fuel (State.start [49, 32, 43]) = .fuel := by
  intro fuel
  have hs : ∀ n, expression_parse (n + 4) (State.start [49, 32, 43]) = .fuel := by
    intro n
    have hu : unary_parse (n + 3) (State.start [49, 32, 43]) =
        .ret (some (.NumericAST 1))
          { State.start [49, 32, 43] with
            lex := ⟨[], none, 1, []⟩, Current_token := 43 } := by
      rw [unary_parse, base_parse]
      rfl
    rw [expression_parse, hu]
    simp only [Res.bind_ret]
    rw [binary_op_parse]
    have hg : getBinOpPrecedence { State.start [49, 32, 43] with
        lex := ⟨[], none, 1, []⟩, Current_token := 43 } =
        (30, { State.start [49, 32, 43] with
          lex := ⟨[], none, 1, []⟩, Current_token := 43 }) := by decide!
    rw [hg]
    simp only
    obtain ⟨s1, hn, hc1, h11, h12⟩ := next_token_eof { State.start [49, 32, 43] with
        lex := ⟨[], none, 1, []⟩, Current_token := 43 } rfl rfl
    rw [hn]
    simp [unary_parse_eof (n + 2) s1 hc1 h11 h12, Res.bind]
  rcases fuel with _ | _ | _ | _ | n
  · rfl
  · rfl
  · rfl
  · rfl
  · exact hs n

/-- The expression parser exhausts every budget when it is entered at the end
of input. -/
theorem expression_parse_eof (n : Nat) (s : State) (hc : s.Current_token = EOF_TOKEN)
    (h1 : s.lex.LastChar = none) (h2 : s.lex.file = []) : expression_parse n s = .fuel := by
  cases n with
  | zero => rw [expression_parse]
  | succ n => rw [expression_parse, unary_parse_eof n s hc h1 h2]; rfl

/-- The expression parser on `(` exhausts every budget. -/
theorem expression_parse_open_paren :
    ∀ fuel, expression_parse fuel (State.start [40]) = .fuel := by
  intro fuel
  rcases fuel with _ | _ | _ | _ | n
  · rfl
  · rfl
  · rfl
  · rfl
  · have hu : unary_parse (n + 3) (State.start [40]) =
        paran_parse (n + 1) (State.start [40]) := by
      rw [unary_parse, base_parse]
      rfl
    obtain ⟨s1, hn, hc1, h11, h12⟩ := next_token_eof (State.start [40]) rfl rfl
    rw [expression_parse, hu, paran_parse, hn]
    simp [expression_parse_eof n s1 hc1 h11 h12, Res.bind]

/-- C8 (the code departs from it): where the end of input stands in the place
of an operand, after the operator of `1 +` or after `(`, the expression parser
exhausts every budget, that is, it never returns: `unary_parser` takes the end
token for a unary operator and calls itself on the next token, which is the end
token again. -/
theorem C8_eof_operand_never_returns :
    (∀ fuel, expression_parse fuel (State.start [49, 32, 43]) = .fuel) ∧
    (∀ fuel, expression_parse fuel (State.start [40]) = .fuel) :=
  ⟨expression_parse_one_plus, expression_parse_open_paren⟩

theorem map_find_erase_same {κ β : Type} [DecidableEq κ] (m : List (κ × β)) (k : κ) :
    map_find (map_erase m k) k = none := by
  induction m with
  | nil => rfl
  | cons e m ih =>
    obtain ⟨k', v⟩ := e
    by_cases h : k' = k
    · simpa [map_erase, List.filter, h] using ih
    · simpa [map_erase, List.filter, h, map_find] using ih

theorem map_find_erase_other {κ β : Type} [DecidableEq κ] (m : List (κ × β)) (k k2 : κ)
    (hk : k ≠ k2) : map_find (map_erase m k) k2 = map_find m k2 := by
  induction m with
  | nil => rfl
  | cons e m ih =>
    obtain ⟨k', v⟩ := e
    by_cases h : k' = k
    · subst h
      simpa [map_erase, List.filter, map_find, hk] using ih
    · have hf : map_erase ((k', v) :: m) k = (k', v) :: map_erase m k := by
        simp [map_erase, List.filter, h]
      rw [hf]
      by_cases h2 : k' = k2
      · simp [map_find, h2]
      · simpa [map_find, h2] using ih

theorem precOf_map_assign_same (m : List (Nat × Int)) (k : Nat) (v : Int) :
    precOf (map_assign m k v) k = v := by
  simp [precOf, map_assign, map_find]

theorem precOf_map_assign_other (m : List (Nat × Int)) (k k2 : Nat) (v : Int) (hk : k ≠ k2) :
    precOf (map_assign m k v) k2 = precOf m k2 := by
  simp [precOf, map_assign, map_find, hk, map_find_erase_other m k k2 hk]

/-- A property of the state that `next_token` and `getBinOpPrecedence` keep is
kept by the parsers of signatures, definitions and top-level expressions. -/
theorem decl_parse_inv (I : State → Prop) (hnext : ∀ s, I s → (next_token s).Sat I)
    (hget : ∀ s, I s → I (getBinOpPrecedence s).2) (n : Nat) :
    (∀ s, I s → (func_decl_parse n s).Sat I) ∧
    (∀ s, I s → (func_defn_parse n s).Sat I) ∧
    (∀ s, I s → (top_level_parse n s).Sat I) := by
  have hargs : ∀ m names s, I s → (func_decl_args m names s).Sat I := by
    intro m
    induction m with
    | zero => intro names s _; rw [func_decl_args]; exact Sat_fuel
    | succ m ih =>
      intro names s hs
      rw [func_decl_args]
      refine Sat_bind (hnext s hs) fun _ s hs => ?_
      split
      · exact ih _ s hs
      · exact Sat_ret hs
  have htail : ∀ name Kind prec s, I s → (func_decl_tail n name Kind prec s).Sat I := by
    intro name Kind prec s hs
    unfold func_decl_tail
    split
    · exact Sat_ret hs
    · refine Sat_bind (hargs n [] s hs) fun _ s hs => ?_
      split
      · exact Sat_ret hs
      · refine Sat_bind (hnext s hs) fun _ s hs => ?_
        split <;> exact Sat_ret hs
  have hdecl : ∀ s, I s → (func_decl_parse n s).Sat I := by
    intro s hs
    unfold func_decl_parse
    split
    · exact Sat_bind (hnext s hs) fun _ s hs => htail _ _ _ s hs
    · split
      · refine Sat_bind (hnext s hs) fun _ s hs => ?_
        split
        · exact Sat_ret hs
        · exact Sat_bind (hnext s hs) fun _ s hs => htail _ _ _ s hs
      · split
        · refine Sat_bind (hnext s hs) fun _ s hs => ?_
          split
          · exact Sat_ret hs
          · refine Sat_bind (hnext s hs) fun _ s hs => ?_
            split
            · split
              · exact Sat_ret hs
              · exact Sat_bind (hnext s hs) fun _ s hs => htail _ _ _ s hs
            · exact htail _ _ _ s hs
        · exact Sat_ret hs
  have hexpr := (parse_inv I hnext hget n).2.2.2.2.2.2.2.2.2
  refine ⟨hdecl, ?_, ?_⟩
  · intro s hs
    unfold func_defn_parse
    refine Sat_bind (hnext s hs) fun _ s hs => ?_
    refine Sat_bind (hdecl s hs) fun D s hs => ?_
    split
    · exact Sat_ret hs
    · refine Sat_bind (hexpr s hs) fun B s hs => ?_
      split <;> exact Sat_ret hs
  · intro s hs
    unfold top_level_parse
    refine Sat_bind (hexpr s hs) fun B s hs => ?_
    split <;> exact Sat_ret hs

/-- `next_token` leaves everything but the lexer and the current token. -/
theorem next_token_rest {s s1 : State} {t : Nat} (h : next_token s = .ret t s1) :
    s1.Operator_Precedence = s.Operator_Precedence ∧ s1.TheModule = s.TheModule ∧
    s1.Builder = s.Builder ∧ s1.Named_Values = s.Named_Values ∧ s1.fresh = s.fresh := by
  unfold next_token at h
  split at h <;> cases h
  exact ⟨rfl, rfl, rfl, rfl, rfl⟩

/-- The value the table holds for a character is the same after every parser
procedure. -/
theorem parse_keeps_prec (c : Nat) (v : Int) :
    (∀ s, precOf s.Operator_Precedence c = v →
      (next_token s).Sat fun s1 => precOf s1.Operator_Precedence c = v) ∧
    (∀ s, precOf s.Operator_Precedence c = v →
      precOf (getBinOpPrecedence s).2.Operator_Precedence c = v) := by
  refine ⟨?_, ?_⟩
  · intro s hs t s1 h
    rw [(next_token_rest h).1]; exact hs
  · intro s hs
    obtain ⟨m, hm, hm2⟩ := getBinOpPrecedence_snd s
    rw [hm]
    simp only
    rw [hm2 c]; exact hs

/-- The signature of a definition parsed from `def binary c p (a b) ...`. -/
theorem func_defn_parse_binary_decl (c p : Nat) (a b : List Nat) (t : Tok) (s s1 : State)
    (l1 : Lexer) (n : Nat) (d : FunctionDefnAST) (hc : c < 128) (hp1 : 1 ≤ p)
    (hp2 : p ≤ 100) (hn : 3 ≤ n)
    (hat : At s [.other DEF_TOKEN, .other BINARY_TOKEN, .other c, .num p, .other 40,
      .ident a, .ident b, .other 41, t] l1)
    (hparse : func_defn_parse n s = .ret (some d) s1) :
    d.Func_Decl = ⟨[98, 105, 110, 97, 114, 121] ++ [c], [a, b], true, p⟩ := by
  obtain ⟨sA, hA1, hA2, -⟩ := next_token_At hat
  obtain ⟨sB, hB⟩ := func_decl_parse_binary_num [a, b] c p t n hc (by simpa using hn) sA l1
    (by simpa using hA2) (by omega) (by omega)
  unfold func_defn_parse at hparse
  simp only [hA1, Res.bind_ret, hB, List.length_cons, List.length_nil, if_true] at hparse
  cases he : expression_parse n sB with
  | ret Body sC =>
    rw [he] at hparse
    cases Body with
    | none => cases hparse
    | some Body =>
      simp only [Res.bind_ret] at hparse
      cases hparse
      simp
  | throws => rw [he] at hparse; cases hparse
  | ub => rw [he] at hparse; cases hparse
  | fuel => rw [he] at hparse; cases hparse

theorem unsigned_to_int_small (p : Nat) (h : p ≤ 100) : unsigned_to_int p = p := by
  have h1 : p % 2 ^ 32 = p := Nat.mod_eq_of_lt (by omega)
  unfold unsigned_to_int signed
  rw [h1]
  have : p < 2 ^ (32 - 1) := by norm_num; omega
  rw [if_pos this]

/-- C2: once `def binary c p (a b) body` with `1 <= p <= 100` has been parsed
and lowered with success, the table holds `p` for `c`; `getBinOpPrecedence`
returns `p` whenever the current token is `c` and the table holds `p` for it;
and the table goes on holding `p` for `c` through every later call of the
lexer and of the parsers and through the lowering of every definition that is
not a binary operator definition for `c`. -/
theorem C2_declared_precedence_in_force (c p : Nat) (a b : List Nat) (t : Tok)
    (s s1 s2 : State) (l1 : Lexer) (n : Nat) (d : FunctionDefnAST) (F : Nat)
    (hc : c < 128) (hp1 : 1 ≤ p) (hp2 : p ≤ 100) (hn : 3 ≤ n)
    (hat : At s [.other DEF_TOKEN, .other BINARY_TOKEN, .other c, .num p, .other 40,
      .ident a, .ident b, .other 41, t] l1)
    (hparse : func_defn_parse n s = .ret (some d) s1)
    (hlower : d.Codegen s1 = .ret (some F) s2) :
    precOf s2.Operator_Precedence c = p ∧
    (∀ s3, precOf s3.Operator_Precedence c = p → s3.Current_token = c →
      (getBinOpPrecedence s3).1 = p ∧
      precOf (getBinOpPrecedence s3).2.Operator_Precedence c = p) ∧
    (∀ s3, precOf s3.Operator_Precedence c = p →
      (next_token s3).Sat (fun s4 => precOf s4.Operator_Precedence c = p) ∧
      (∀ m, (expression_parse m s3).Sat (fun s4 => precOf s4.Operator_Precedence c = p)) ∧
      (∀ m, (func_defn_parse m s3).Sat (fun s4 => precOf s4.Operator_Precedence c = p)) ∧
      (∀ m, (top_level_parse m s3).Sat (fun s4 => precOf s4.Operator_Precedence c = p)) ∧
      (∀ d2 : FunctionDefnAST,
        ¬ (d2.Func_Decl.isBinaryOp = true ∧ d2.Func_Decl.getOperatorName = some c) →
        (d2.Codegen s3).Sat (fun s4 => precOf s4.Operator_Precedence c = p))) := by
  have hd := func_defn_parse_binary_decl c p a b t s s1 l1 n d hc hp1 hp2 hn hat hparse
  obtain ⟨hnext, hget⟩ := parse_keeps_prec c p
  refine ⟨?_, ?_, ?_⟩
  · obtain ⟨-, -, h⟩ := FunctionDefnAST_Codegen_front hlower
    rcases h with ⟨h, -⟩ | ⟨-, h⟩
    · cases h
    · rcases h with ⟨h, -⟩ | ⟨-, c2, h1, h2⟩
      · rw [hd] at h
        simp [FunctionDeclAST.isBinaryOp] at h
      · rw [hd] at h1 h2
        simp [FunctionDeclAST.getOperatorName] at h1
        subst h1
        rw [h2, precOf_map_assign_same]
        exact unsigned_to_int_small p hp2
  · intro s3 h3 hcur
    refine ⟨?_, hget s3 h3⟩
    rw [getBinOpPrecedence_fst, hcur, binPrec, h3]
    simp [hc]
    omega
  · intro s3 h3
    refine ⟨hnext s3 h3, ?_, ?_, ?_, ?_⟩
    · intro m
      exact (parse_inv _ hnext hget m).2.2.2.2.2.2.2.2.2 s3 h3
    · intro m
      exact (decl_parse_inv _ hnext hget m).2.1 s3 h3
    · intro m
      exact (decl_parse_inv _ hnext hget m).2.2 s3 h3
    · intro d2 hd2 r s4 h4
      obtain ⟨-, -, h⟩ := FunctionDefnAST_Codegen_front h4
      rcases h with ⟨-, h, -⟩ | ⟨-, h⟩
      · rw [h]; exact h3
      · rcases h with ⟨-, h⟩ | ⟨hb, c2, h1, h2⟩
        · rw [h]; exact h3
        · have hne : c2 ≠ c := by
            intro e
            subst e
            exact hd2 ⟨hb, h1⟩
          rw [h2, precOf_map_assign_other _ _ _ _ hne]
          exact h3

theorem expression_parse_zero {s : State} {r : Option BaseAST} {s1 : State}
    (h : expression_parse 0 s = .ret r s1) : False := by
  rw [expression_parse] at h; cases h

/-- `paran_parser` fails when the inner expression fails or is not followed by
`)`. -/
theorem paran_parse_fails (n : Nat) (s sA sB : State) (t : Nat)
    (h1 : next_token s = .ret t sA) :
    (expression_parse n sA = .ret none sB → paran_parse (n + 1) s = .ret none sB) ∧
    (∀ V, expression_parse n sA = .ret (some V) sB → sB.Current_token ≠ 41 →
      paran_parse (n + 1) s = .ret none sB) := by
  refine ⟨?_, ?_⟩
  · intro h2
    rw [paran_parse]; simp only [h1, Res.bind_ret, h2]
  · intro V h2 h3
    rw [paran_parse]; simp only [h1, Res.bind_ret, h2, h3, ne_eq, not_false_eq_true, if_true]

/-- `if_parser` fails when one of its three expressions fails, when the
condition is not followed by `then`, and when the first branch is not followed
by `else`. -/
theorem if_parse_fails (n : Nat) (s sA sB sC sD sE sF : State) (t t2 t3 : Nat)
    (Cond Then : BaseAST) (h1 : next_token s = .ret t sA) :
    (expression_parse n sA = .ret none sB → if_parse (n + 1) s = .ret none sB) ∧
    (expression_parse n sA = .ret (some Cond) sB →
      (sB.Current_token ≠ THEN_TOKEN → if_parse (n + 1) s = .ret none sB) ∧
      (sB.Current_token = THEN_TOKEN → next_token sB = .ret t2 sC →
        (expression_parse n sC = .ret none sD → if_parse (n + 1) s = .ret none sD) ∧
        (expression_parse n sC = .ret (some Then) sD →
          (sD.Current_token ≠ ELSE_TOKEN → if_parse (n + 1) s = .ret none sD) ∧
          (sD.Current_token = ELSE_TOKEN → next_token sD = .ret t3 sE →
            expression_parse n sE = .ret none sF → if_parse (n + 1) s = .ret none sF)))) := by
  refine ⟨?_, ?_⟩
  · intro h2
    rw [if_parse]; simp only [h1, Res.bind_ret, h2]
  · intro h2
    refine ⟨?_, ?_⟩
    · intro h3
      rw [if_parse]; simp only [h1, Res.bind_ret, h2, h3, ne_eq, not_false_eq_true, if_true]
    · intro h3 h4
      refine ⟨?_, ?_⟩
      · intro h5
        rw [if_parse]
        simp only [h1, Res.bind_ret, h2, h3, ne_eq, not_true_eq_false, if_false, h4, h5]
      · intro h5
        refine ⟨?_, ?_⟩
        · intro h6
          rw [if_parse]
          simp only [h1, Res.bind_ret, h2, h3, ne_eq, not_true_eq_false, if_false, h4, h5, h6,
            not_false_eq_true, if_true]
        · intro h6 h7 h8
          rw [if_parse]
          simp only [h1, Res.bind_ret, h2, h3, ne_eq, not_true_eq_false, if_false, h4, h5, h6,
            h7, h8]

/-- The end of `for_parser` fails when `in` is missing or the body fails. -/
theorem for_body_fails (n : Nat) (IdName : List Nat) (Start End : BaseAST)
    (Step : Option BaseAST) (s sA sB : State) (t : Nat) :
    (s.Current_token ≠ IN_TOKEN → for_body (n + 1) IdName Start End Step s = .ret none s) ∧
    (s.Current_token = IN_TOKEN → next_token s = .ret t sA →
      expression_parse n sA = .ret none sB →
      for_body (n + 1) IdName Start End Step s = .ret none sB) := by
  refine ⟨?_, ?_⟩
  · intro h
    rw [for_body]; simp only [h, ne_eq, not_false_eq_true, if_true]
  · intro h h1 h2
    rw [for_body]; simp only [h, ne_eq, not_true_eq_false, if_false, h1, Res.bind_ret, h2]

/-- `for_parser` fails when the loop identifier, `=`, the first `,` or `in` is
missing at its place, and when one of its expressions fails. -/
theorem for_parse_fails (n : Nat) (s sA sB sC sD sE sF sG sH sI sJ : State)
    (t t2 t3 t4 t5 t6 : Nat) (Start End Step : BaseAST)
    (h1 : next_token s = .ret t sA) :
    (sA.Current_token ≠ IDENTIFIER_TOKEN → for_parse (n + 1) s = .ret none sA) ∧
    (sA.Current_token = IDENTIFIER_TOKEN → next_token sA = .ret t2 sB →
      (sB.Current_token ≠ 61 → for_parse (n + 1) s = .ret none sB) ∧
      (sB.Current_token = 61 → next_token sB = .ret t3 sC →
        (expression_parse n sC = .ret none sD → for_parse (n + 1) s = .ret none sD) ∧
        (expression_parse n sC = .ret (some Start) sD →
          (sD.Current_token ≠ 44 → for_parse (n + 1) s = .ret none sD) ∧
          (sD.Current_token = 44 → next_token sD = .ret t4 sE →
            (expression_parse n sE = .ret none sF → for_parse (n + 1) s = .ret none sF) ∧
            (expression_parse n sE = .ret (some End) sF →
              (sF.Current_token ≠ 44 → sF.Current_token ≠ IN_TOKEN →
                for_parse (n + 1) s = .ret none sF) ∧
              (sF.Current_token ≠ 44 → sF.Current_token = IN_TOKEN →
                next_token sF = .ret t6 sI → expression_parse (n - 1) sI = .ret none sJ →
                for_parse (n + 1) s = .ret none sJ) ∧
              (sF.Current_token = 44 → next_token sF = .ret t5 sG →
                (expression_parse n sG = .ret none sH → for_parse (n + 1) s = .ret none sH) ∧
                (expression_parse n sG = .ret (some Step) sH →
                  (sH.Current_token ≠ IN_TOKEN → for_parse (n + 1) s = .ret none sH) ∧
                  (sH.Current_token = IN_TOKEN → next_token sH = .ret t6 sI →
                    expression_parse (n - 1) sI = .ret none sJ →
                    for_parse (n + 1) s = .ret none sJ)))))))) := by
  refine ⟨?_, ?_⟩
  · intro h2
    rw [for_parse]; simp only [h1, Res.bind_ret, h2, ne_eq, not_false_eq_true, if_true]
  · intro h2 h3
    refine ⟨?_, ?_⟩
    · intro h4
      rw [for_parse]
      simp only [h1, Res.bind_ret, h2, ne_eq, not_true_eq_false, if_false, h3, h4,
        not_false_eq_true, if_true]
    · intro h4 h5
      refine ⟨?_, ?_⟩
      · intro h6
        rw [for_parse]
        simp only [h1, Res.bind_ret, h2, ne_eq, not_true_eq_false, if_false, h3, h4, h5, h6]
      · intro h6
        refine ⟨?_, ?_⟩
        · intro h7
          rw [for_parse]
          simp only [h1, Res.bind_ret, h2, ne_eq, not_true_eq_false, if_false, h3, h4, h5, h6,
            h7, not_false_eq_true, if_true]
        · intro h7 h8
          refine ⟨?_, ?_⟩
          · intro h9
            rw [for_parse]
            simp only [h1, Res.bind_ret, h2, ne_eq, not_true_eq_false, if_false, h3, h4, h5,
              h6, h7, h8, h9]
          · intro h9
            obtain ⟨m, rfl⟩ : ∃ m, n = m + 1 := by
              cases n with
              | zero => exact (expression_parse_zero h9).elim
              | succ m => exact ⟨m, rfl⟩
            refine ⟨?_, ?_, ?_⟩
            · intro h10 h11
              rw [for_parse]
              simp only [h1, Res.bind_ret, h2, ne_eq, not_true_eq_false, if_false, h3, h4, h5,
                h6, h7, h8, h9, h10]
              exact (for_body_fails m _ _ _ _ sF sF sF 0).1 h11
            · intro h10 h11 h12 h13
              rw [for_parse]
              simp only [h1, Res.bind_ret, h2, ne_eq, not_true_eq_false, if_false, h3, h4, h5,
                h6, h7, h8, h9, h10]
              exact (for_body_fails m _ _ _ _ sF sI sJ t6).2 h11 h12 h13
            · intro h10 h11
              refine ⟨?_, ?_⟩
              · intro h12
                rw [for_parse]
                simp only [h1, Res.bind_ret, h2, ne_eq, not_true_eq_false, if_false, h3, h4,
                  h5, h6, h7, h8, h9, h10, if_true, h11, h12]
              · intro h12
                refine ⟨?_, ?_⟩
                · intro h13
                  rw [for_parse]
                  simp only [h1, Res.bind_ret, h2, ne_eq, not_true_eq_false, if_false, h3, h4,
                    h5, h6, h7, h8, h9, h10, if_true, h11, h12]
                  exact (for_body_fails m _ _ _ _ sH sH sH 0).1 h13
                · intro h13 h14 h15
                  rw [for_parse]
                  simp only [h1, Res.bind_ret, h2, ne_eq, not_true_eq_false, if_false, h3, h4,
                    h5, h6, h7, h8, h9, h10, if_true, h11, h12]
                  exact (for_body_fails m _ _ _ _ sH sI sJ t6).2 h13 h14 h15

/-- A failure of an operand or of the operator loop is the result of
`expression_parser`, of `binary_op_parser` and of `unary_parser`; a failure of
an argument is the result of `identifier_parser`. -/
theorem subexpression_fails (n : Nat) (s sA sB sC sD sE : State) (t t2 : Nat)
    (LHS RHS : BaseAST) (Old_Prec p q : Int) (Args : List BaseAST) :
    (unary_parse n s = .ret none sA → expression_parse (n + 1) s = .ret none sA) ∧
    (unary_parse n s = .ret (some LHS) sA → binary_op_parse n 0 LHS sA = .ret none sB →
      expression_parse (n + 1) s = .ret none sB) ∧
    (getBinOpPrecedence s = (p, sA) → ¬ p < Old_Prec → next_token sA = .ret t sB →
      (unary_parse n sB = .ret none sC →
        binary_op_parse (n + 1) Old_Prec LHS s = .ret none sC) ∧
      (unary_parse n sB = .ret (some RHS) sC → getBinOpPrecedence sC = (q, sD) → p < q →
        binary_op_parse n (p + 1) RHS sD = .ret none sE →
        binary_op_parse (n + 1) Old_Prec LHS s = .ret none sE)) ∧
    (isascii s.Current_token = true → s.Current_token ≠ 40 → s.Current_token ≠ 44 →
      s.Current_token ≠ IF_TOKEN → s.Current_token ≠ FOR_TOKEN →
      s.Current_token ≠ IDENTIFIER_TOKEN → s.Current_token ≠ NUMERIC_TOKEN →
      next_token s = .ret t sA → unary_parse n sA = .ret none sB →
      unary_parse (n + 1) s = .ret none sB) ∧
    (expression_parse n s = .ret none sA → identifier_args (n + 1) Args s = .ret none sA) ∧
    (next_token s = .ret t sA → sA.Current_token = 40 → next_token sA = .ret t2 sB →
      sB.Current_token ≠ 41 → identifier_args n [] sB = .ret none sC →
      identifier_parse (n + 1) s = .ret none sC) := by
  refine ⟨?_, ?_, ?_, ?_, ?_, ?_⟩
  · intro h
    rw [expression_parse]; simp only [h, Res.bind_ret]
  · intro h h2
    rw [expression_parse]; simp only [h, Res.bind_ret, h2]
  · intro h h2 h3
    refine ⟨?_, ?_⟩
    · intro h4
      rw [binary_op_parse]; simp only [h, h2, if_false, h3, Res.bind_ret, h4]
    · intro h4 h5 h6 h7
      rw [binary_op_parse]
      simp only [h, h2, if_false, h3, Res.bind_ret, h4, h5, h6, if_true, h7]
  · intro h0 h1 h2 h3 h4 h5 h6 h7 h8
    rw [unary_parse]
    simp [h0, h1, h2, h3, h4, h5, h6, h7, h8]
  · intro h
    rw [identifier_args]; simp only [h, Res.bind_ret]
  · intro h h2 h3 h4 h5
    rw [identifier_parse]
    simp only [h, Res.bind_ret, h2, ne_eq, not_true_eq_false, if_false, h3, h4,
      not_false_eq_true, if_true, h5]

/-- C9: a missing required token yields a parse failure and no tree:
`paran_parser` fails when the inner expression is not followed by `)`;
`if_parser` fails when the condition is not followed by `then` or the first
branch is not followed by `else`; `for_parser` fails when the loop identifier,
`=`, the first `,` or `in` is missing at its place; and a parse failure of an
operand, an inner expression, a branch, a bound, a step, a body or an argument
is the result of the enclosing parser call, up to `expression_parser`. -/
theorem C9_missing_token_fails :
    (∀ (n : Nat) (s sA sB : State) (t : Nat),
      next_token s = .ret t sA →
        (expression_parse n sA = .ret none sB → paran_parse (n + 1) s = .ret none sB) ∧
        (∀ V, expression_parse n sA = .ret (some V) sB → sB.Current_token ≠ 41 →
          paran_parse (n + 1) s = .ret none sB)) ∧
    (∀ (n : Nat) (s sA sB sC sD sE sF : State) (t t2 t3 : Nat) (Cond Then : BaseAST),
      next_token s = .ret t sA →
        (expression_parse n sA = .ret none sB → if_parse (n + 1) s = .ret none sB) ∧
        (expression_parse n sA = .ret (some Cond) sB →
          (sB.Current_token ≠ THEN_TOKEN → if_parse (n + 1) s = .ret none sB) ∧
          (sB.Current_token = THEN_TOKEN → next_token sB = .ret t2 sC →
            (expression_parse n sC = .ret none sD → if_parse (n + 1) s = .ret none sD) ∧
            (expression_parse n sC = .ret (some Then) sD →
              (sD.Current_token ≠ ELSE_TOKEN → if_parse (n + 1) s = .ret none sD) ∧
              (sD.Current_token = ELSE_TOKEN → next_token sD = .ret t3 sE →
                expression_parse n sE = .ret none sF → if_parse (n + 1) s = .ret none sF))))) ∧
    (∀ (n : Nat) (s sA sB sC sD sE sF sG sH sI sJ : State) (t t2 t3 t4 t5 t6 : Nat)
      (Start End Step : BaseAST),
      next_token s = .ret t sA →
        (sA.Current_token ≠ IDENTIFIER_TOKEN → for_parse (n + 1) s = .ret none sA) ∧
        (sA.Current_token = IDENTIFIER_TOKEN → next_token sA = .ret t2 sB →
          (sB.Current_token ≠ 61 → for_parse (n + 1) s = .ret none sB) ∧
          (sB.Current_token = 61 → next_token sB = .ret t3 sC →
            (expression_parse n sC = .ret none sD → for_parse (n + 1) s = .ret none sD) ∧
            (expression_parse n sC = .ret (some Start) sD →
              (sD.Current_token ≠ 44 → for_parse (n + 1) s = .ret none sD) ∧
              (sD.Current_token = 44 → next_token sD = .ret t4 sE →
                (expression_parse n sE = .ret none sF → for_parse (n + 1) s = .ret none sF) ∧
                (expression_parse n sE = .ret (some End) sF →
                  (sF.Current_token ≠ 44 → sF.Current_token ≠ IN_TOKEN →
                    for_parse (n + 1) s = .ret none sF) ∧
                  (sF.Current_token ≠ 44 → sF.Current_token = IN_TOKEN →
                    next_token sF = .ret t6 sI → expression_parse (n - 1) sI = .ret none sJ →
                    for_parse (n + 1) s = .ret none sJ) ∧
                  (sF.Current_token = 44 → next_token sF = .ret t5 sG →
                    (expression_parse n sG = .ret none sH → for_parse (n + 1) s = .ret none sH) ∧
                    (expression_parse n sG = .ret (some Step) sH →
                      (sH.Current_token ≠ IN_TOKEN → for_parse (n + 1) s = .ret none sH) ∧
                      (sH.Current_token = IN_TOKEN → next_token sH = .ret t6 sI →
                        expression_parse (n - 1) sI = .ret none sJ →
                        for_parse (n + 1) s = .ret none sJ))))))))) ∧
    (∀ (n : Nat) (s sA sB sC sD sE : State) (t t2 : Nat) (LHS RHS : BaseAST)
      (Old_Prec p q : Int) (Args : List BaseAST),
        (unary_parse n s = .ret none sA → expression_parse (n + 1) s = .ret none sA) ∧
        (unary_parse n s = .ret (some LHS) sA → binary_op_parse n 0 LHS sA = .ret none sB →
          expression_parse (n + 1) s = .ret none sB) ∧
        (getBinOpPrecedence s = (p, sA) → ¬ p < Old_Prec → next_token sA = .ret t sB →
          (unary_parse n sB = .ret none sC →
            binary_op_parse (n + 1) Old_Prec LHS s = .ret none sC) ∧
          (unary_parse n sB = .ret (some RHS) sC → getBinOpPrecedence sC = (q, sD) → p < q →
            binary_op_parse n (p + 1) RHS sD = .ret none sE →
            binary_op_parse (n + 1) Old_Prec LHS s = .ret none sE)) ∧
        (isascii s.Current_token = true → s.Current_token ≠ 40 → s.Current_token ≠ 44 →
          s.Current_token ≠ IF_TOKEN → s.Current_token ≠ FOR_TOKEN →
          s.Current_token ≠ IDENTIFIER_TOKEN → s.Current_token ≠ NUMERIC_TOKEN →
          next_token s = .ret t sA → unary_parse n sA = .ret none sB →
          unary_parse (n + 1) s = .ret none sB) ∧
        (expression_parse n s = .ret none sA → identifier_args (n + 1) Args s = .ret none sA) ∧
        (next_token s = .ret t sA → sA.Current_token = 40 → next_token sA = .ret t2 sB →
          sB.Current_token ≠ 41 → identifier_args n [] sB = .ret none sC →
          identifier_parse (n + 1) s = .ret none sC)) :=
  ⟨fun n s sA sB t h1 => paran_parse_fails n s sA sB t h1,
    fun n s sA sB sC sD sE sF t t2 t3 Cond Then h1 =>
      if_parse_fails n s sA sB sC sD sE sF t t2 t3 Cond Then h1,
    fun n s sA sB sC sD sE sF sG sH sI sJ t t2 t3 t4 t5 t6 Start End Step h1 =>
      for_parse_fails n s sA sB sC sD sE sF sG sH sI sJ t t2 t3 t4 t5 t6 Start End Step h1,
    fun n s sA sB sC sD sE t t2 LHS RHS Old_Prec p q Args =>
      subexpression_fails n s sA sB sC sD sE t t2 LHS RHS Old_Prec p q Args⟩

/-- `ExprUnaryAST::Codegen` by the result of lowering the operand: a failure
of the operand is passed on; without a function `unary<Opcode>` in the module
the result is a failure; otherwise one call of that function on the lowered
operand is created and inserted, and is the result. -/
theorem ExprUnaryAST_Codegen_cases (Opcode : Nat) (Operand : BaseAST) (s sA : State)
    (r : Option Value) (h : Codegen Operand s = .ret r sA) :
    (r = none → Codegen (.ExprUnaryAST Opcode Operand) s = .ret none sA) ∧
    (∀ v, r = some v → getFunction sA.TheModule ([117, 110, 97, 114, 121] ++ [Opcode]) = none →
      Codegen (.ExprUnaryAST Opcode Operand) s = .ret none sA) ∧
    (∀ v F, r = some v →
      getFunction sA.TheModule ([117, 110, 97, 114, 121] ++ [Opcode]) = some F →
      (Codegen (.ExprUnaryAST Opcode Operand) s =
          (Insert (.Call F.id [v]) sA).bind fun V s => .ret (some V) s) ∧
      ∀ BB P, sA.Builder = some BB → getParent sA.TheModule BB = some P →
        Codegen (.ExprUnaryAST Opcode Operand) s =
          .ret (some (.Instruction sA.fresh))
            { sA with
              TheModule := sA.TheModule.map (Function.append BB ⟨sA.fresh, .Call F.id [v]⟩),
              fresh := sA.fresh + 1 }) := by
  refine ⟨?_, ?_, ?_⟩
  · intro hr
    subst hr
    rw [Codegen_ExprUnary, h]
    rfl
  · intro v hr hF
    subst hr
    rw [Codegen_ExprUnary, h]
    simp only [Res.bind_ret, hF]
  · intro v F hr hF
    subst hr
    have h1 : Codegen (.ExprUnaryAST Opcode Operand) s =
        (Insert (.Call F.id [v]) sA).bind fun V s => .ret (some V) s := by
      rw [Codegen_ExprUnary, h]
      simp only [Res.bind_ret, hF, CreateCall]
      rfl
    refine ⟨h1, ?_⟩
    intro BB P hB hP
    rw [h1]
    simp only [Insert, hB, hP, Res.bind_ret]

/-- C5 (the code departs from it): `func_decl_parser` does not refuse an
identifier, a keyword or a number after `binary` or `unary`. The test
`!isascii(Current_token)` meant to refuse them never fires, the values of
`Token_Type` being ASCII codes themselves: `def binary foo (a b) a;`, `def
unary if (a) a;` and `def binary 7 (a b) a;` each give a signature, whose name
ends in the byte that is the code of the token (2, 5 and 1). -/
theorem C5_non_operator_token_accepted :
    (func_defn_parse 5 (State.start
        [100, 101, 102, 32, 98, 105, 110, 97, 114, 121, 32, 102, 111, 111, 32, 40, 97, 32, 98,
          41, 32, 97, 59])).val?.map (Option.map FunctionDefnAST.Func_Decl) =
      some (some ⟨[98, 105, 110, 97, 114, 121, 2], [[97], [98]], true, 30⟩) ∧
    (func_defn_parse 5 (State.start
        [100, 101, 102, 32, 117, 110, 97, 114, 121, 32, 105, 102, 32, 40, 97, 41, 32, 97,
          59])).val?.map (Option.map FunctionDefnAST.Func_Decl) =
      some (some ⟨[117, 110, 97, 114, 121, 5], [[97]], true, 30⟩) ∧
    (func_defn_parse 5 (State.start
        [100, 101, 102, 32, 98, 105, 110, 97, 114, 121, 32, 55, 32, 40, 97, 32, 98, 41, 32,
          97, 59])).val?.map (Option.map FunctionDefnAST.Func_Decl) =
      some (some ⟨[98, 105, 110, 97, 114, 121, 1], [[97], [98]], true, 30⟩) := by
  decide!

/-- C3 (the code departs from it): after `def binary | 5 (a b) a+b;` the
expression `1 | 2` does not lower to a call of the function `binary|`:
`BinaryAST` keeps the operator as the decimal text of its code, so the name
looked up is `binary124`; no such function exists, and the null callee reaches
`CreateCall`. When the program also defines a function `binary124`, that
function (of identity 0 below) is the one called. -/
theorem C3_user_operator_lookup_misses :
    run 20 [100, 101, 102, 32, 98, 105, 110, 97, 114, 121, 32, 124, 32, 53, 32, 40, 97, 32,
      98, 41, 32, 97, 43, 98, 59, 32, 49, 32, 124, 32, 50, 59] = .ub ∧
    [98, 105, 110, 97, 114, 121] ++ to_string 124 = [98, 105, 110, 97, 114, 121, 49, 50, 52] ∧
    (run 20 [100, 101, 102, 32, 98, 105, 110, 97, 114, 121, 49, 50, 52, 40, 97, 32, 98, 41,
      32, 97, 59, 32, 100, 101, 102, 32, 98, 105, 110, 97, 114, 121, 32, 124, 32, 53, 32, 40,
      97, 32, 98, 41, 32, 97, 43, 98, 59, 32, 49, 32, 124, 32, 50, 59]).state?.map
        State.TheModule =
      some [⟨0, [98, 105, 110, 97, 114, 121, 49, 50, 52], 2,
          [⟨1, .entry, [⟨2, .Ret (.Argument 0 0)⟩]⟩]⟩,
        ⟨3, [98, 105, 110, 97, 114, 121, 124], 2,
          [⟨4, .entry, [⟨5, .BinaryOperator .Add (.Argument 3 0) (.Argument 3 1)⟩,
            ⟨6, .Ret (.Instruction 5)⟩]⟩]⟩,
        ⟨7, [], 0,
          [⟨8, .entry, [⟨9, .Call 0 [.ConstantInt 32 1, .ConstantInt 32 2]⟩,
            ⟨10, .Ret (.Instruction 9)⟩]⟩]⟩] := by
  decide!

/-- `BinaryAST::Codegen` when an operand lowers to null: whatever the
operator, the null pointer is handed to the builder. -/
theorem BinaryAST_Codegen_null_operand (Bin_Operator : List Nat) (LHS RHS : BaseAST)
    (s sA sB : State) (L R : Option Value) (op : Int)
    (hL : Codegen LHS s = .ret L sA) (hR : Codegen RHS sA = .ret R sB)
    (hnull : L = none ∨ R = none) (hop : stoi Bin_Operator = some op) :
    Codegen (.BinaryAST Bin_Operator LHS RHS) s = .ub := by
  have hB : ∀ Opc, CreateBinOp Opc L R sB = .ub := by
    intro Opc
    cases L <;> cases R <;> first | rfl | simp at hnull
  have hI : ∀ P, CreateICmp P L R sB = .ub := by
    intro P
    cases L <;> cases R <;> first | rfl | simp at hnull
  have hC : ∀ F, CreateCall F [L, R] sB = .ub := by
    intro F
    cases F with
    | none => rfl
    | some F => cases L <;> cases R <;> first | rfl | simp at hnull
  rw [Codegen_Binary, hL]
  simp only [Res.bind_ret, hR, hop, hB, hI, hC, Res.bind]
  split_ifs <;> rfl

/-- C10 (the code departs from it): `BinaryAST::Codegen` does not turn the
failure of an operand into a lowering failure: whenever the left or the right
operand lowers to null, the null pointer is handed to the builder, which is
undefined behaviour; so it is for the body of `def f(a) a + b;`, where `b` is
unbound. -/
theorem C10_unbound_operand_reaches_builder :
    (∀ (Bin_Operator : List Nat) (LHS RHS : BaseAST) (s sA sB : State) (L R : Option Value)
      (op : Int), Codegen LHS s = .ret L sA → Codegen RHS sA = .ret R sB →
      (L = none ∨ R = none) → stoi Bin_Operator = some op →
      Codegen (.BinaryAST Bin_Operator LHS RHS) s = .ub) ∧
    run 20 [100, 101, 102, 32, 102, 40, 97, 41, 32, 97, 32, 43, 32, 98, 59] = .ub :=
  ⟨fun Bin_Operator LHS RHS s sA sB L R op hL hR hnull hop =>
      BinaryAST_Codegen_null_operand Bin_Operator LHS RHS s sA sB L R op hL hR hnull hop,
    by decide!⟩

/-- C4: lowering `UnaryOp(c, e)` passes on a failure of the operand, fails when
the module holds no function `unary<c>`, and otherwise inserts exactly one
call of that function on the lowered operand and returns it; so for `def
unary!(a) 0-a; !5;` the module ends with the function `unary!`, whose body is
the subtraction `0 - a`, and an anonymous function that calls it on the
constant 5. -/
theorem C4_unary_operator_lowering :
    (∀ (Opcode : Nat) (Operand : BaseAST) (s sA : State) (r : Option Value),
      Codegen Operand s = .ret r sA →
      (r = none → Codegen (.ExprUnaryAST Opcode Operand) s = .ret none sA) ∧
      (∀ v, r = some v →
        getFunction sA.TheModule ([117, 110, 97, 114, 121] ++ [Opcode]) = none →
        Codegen (.ExprUnaryAST Opcode Operand) s = .ret none sA) ∧
      (∀ v F, r = some v →
        getFunction sA.TheModule ([117, 110, 97, 114, 121] ++ [Opcode]) = some F →
        (Codegen (.ExprUnaryAST Opcode Operand) s =
            (Insert (.Call F.id [v]) sA).bind fun V s => .ret (some V) s) ∧
        ∀ BB P, sA.Builder = some BB → getParent sA.TheModule BB = some P →
          Codegen (.ExprUnaryAST Opcode Operand) s =
            .ret (some (.Instruction sA.fresh))
              { sA with
                TheModule := sA.TheModule.map (Function.append BB ⟨sA.fresh, .Call F.id [v]⟩),
                fresh := sA.fresh + 1 })) ∧
    (run 20 [100, 101, 102, 32, 117, 110, 97, 114, 121, 33, 40, 97, 41, 32, 48, 45, 97, 59,
      32, 33, 53, 59]).state?.map State.TheModule =
      some [⟨0, [117, 110, 97, 114, 121, 33], 1,
          [⟨1, .entry, [⟨2, .BinaryOperator .Sub (.ConstantInt 32 0) (.Argument 0 0)⟩,
            ⟨3, .Ret (.Instruction 2)⟩]⟩]⟩,
        ⟨4, [], 0,
          [⟨5, .entry, [⟨6, .Call 0 [.ConstantInt 32 5]⟩, ⟨7, .Ret (.Instruction 6)⟩]⟩]⟩] :=
  ⟨fun Opcode Operand s sA r h => ExprUnaryAST_Codegen_cases Opcode Operand s sA r h,
    by decide!⟩

/-- The hypotheses of C6 hold of the input `binary | 5 (a b) a`: the signature
carries precedence 5. -/
theorem C6_declared_precedence_range_witness :
    ∃ s1, func_decl_parse 3 (State.start
        [98, 105, 110, 97, 114, 121, 32, 124, 32, 53, 32, 40, 97, 32, 98, 41, 32, 97]) =
      .ret (some ⟨[98, 105, 110, 97, 114, 121, 124], [[97], [98]], true, 5⟩) s1 := by
  obtain ⟨s1, h, -⟩ := (C6_declared_precedence_range 124 5 [97] [98] (.ident [97]) 3
    (by decide) (by decide)).2.1
    (State.start [98, 105, 110, 97, 114, 121, 32, 124, 32, 53, 32, 40, 97, 32, 98, 41, 32, 97])
    ⟨[], none, 5, [97]⟩ ⟨by decide!, by decide!, by decide!⟩ (by decide) (by decide)
  exact ⟨s1, h⟩

/-- The hypotheses of C7 hold of the input `unary!(a) 0`: the signature has the
one parameter `a`. -/
theorem C7_parameter_count_witness :
    ∃ s1, func_decl_parse 2 (State.start [117, 110, 97, 114, 121, 33, 40, 97, 41, 32, 48]) =
      .ret (some ⟨[117, 110, 97, 114, 121, 33], [[97]], true, 30⟩) s1 :=
  (C7_parameter_count [[97]] 33 [] (.num 0) 2 (by decide) (by decide)).1
    (State.start [117, 110, 97, 114, 121, 33, 40, 97, 41, 32, 48])
    ⟨[], none, 0, [97]⟩ ⟨by decide!, by decide!, by decide!⟩

/-- The hypotheses of C2 hold of the input `def binary | 5 (a b) a+b;`: it
parses, it lowers, and the table then holds 5 for the character `|`. -/
theorem C2_declared_precedence_in_force_witness :
    ∃ d s1 F s2,
      func_defn_parse 5 (State.start [100, 101, 102, 32, 98, 105, 110, 97, 114, 121, 32, 124,
        32, 53, 32, 40, 97, 32, 98, 41, 32, 97, 43, 98, 59]) = .ret (some d) s1 ∧
      d.Codegen s1 = .ret (some F) s2 ∧ precOf s2.Operator_Precedence 124 = 5 := by
  have hv : ((func_defn_parse 5 (State.start [100, 101, 102, 32, 98, 105, 110, 97, 114, 121,
      32, 124, 32, 53, 32, 40, 97, 32, 98, 41, 32, 97, 43, 98, 59])).bind fun d s =>
      match d with
      | some d => d.Codegen s
      | none => .ub).val? = some (some 0) := by decide!
  cases hp : func_defn_parse 5 (State.start [100, 101, 102, 32, 98, 105, 110, 97, 114, 121,
      32, 124, 32, 53, 32, 40, 97, 32, 98, 41, 32, 97, 43, 98, 59]) with
  | ret d s1 =>
    rw [hp] at hv
    cases d with
    | none => simp [Res.val?] at hv
    | some d =>
      simp only [Res.bind_ret] at hv
      cases hl : d.Codegen s1 with
      | ret F s2 =>
        rw [hl] at hv
        simp only [Res.val?, Option.some.injEq] at hv
        subst hv
        exact ⟨d, s1, 0, s2, rfl, hl,
          (C2_declared_precedence_in_force 124 5 [97] [98] (.ident [97]) _ s1 s2
            ⟨[98, 59], some 43, 5, [97]⟩ 5 d 0 (by decide) (by decide) (by decide) (by decide)
            ⟨by decide!, by decide!, by decide!⟩ hp hl).1⟩
      | throws => rw [hl] at hv; simp [Res.val?] at hv
      | ub => rw [hl] at hv; simp [Res.val?] at hv
      | fuel => rw [hl] at hv; simp [Res.val?] at hv
  | throws => rw [hp] at hv; simp [Res.val?, Res.bind] at hv
  | ub => rw [hp] at hv; simp [Res.val?, Res.bind] at hv
  | fuel => rw [hp] at hv; simp [Res.val?, Res.bind] at hv

/-- The first case of C9 on the input `(1 2`: the token after the inner
expression is a number, and `paran_parser` fails. -/
theorem C9_missing_token_fails_witness :
    paran_parse 5 (State.start [40, 49, 32, 50]) =
      .ret none { State.start [40, 49, 32, 50] with
        lex := ⟨[], none, 2, []⟩, Current_token := 1,
        Operator_Precedence := [(1, 0), (42, 50), (47, 40), (43, 30), (45, 20), (60, 10)] } := by
  have h1 : next_token (State.start [40, 49, 32, 50]) =
      .ret 1 { State.start [40, 49, 32, 50] with
        lex := ⟨[50], some 32, 1, []⟩, Current_token := 1 } := by decide!
  have hv : (expression_parse 4 { State.start [40, 49, 32, 50] with
        lex := ⟨[50], some 32, 1, []⟩, Current_token := 1 }).state? =
      some { State.start [40, 49, 32, 50] with
        lex := ⟨[], none, 2, []⟩, Current_token := 1,
        Operator_Precedence := [(1, 0), (42, 50), (47, 40), (43, 30), (45, 20), (60, 10)] } ∧
      ((expression_parse 4 { State.start [40, 49, 32, 50] with
        lex := ⟨[50], some 32, 1, []⟩, Current_token := 1 }).val?.bind id).isSome = true := by
    decide!
  cases he : expression_parse 4 { State.start [40, 49, 32, 50] with
        lex := ⟨[50], some 32, 1, []⟩, Current_token := 1 } with
  | ret V sB =>
    rw [he] at hv
    simp only [Res.state?, Option.some.injEq, Res.val?, Option.some_bind, id_eq] at hv
    obtain ⟨hs, hV⟩ := hv
    subst hs
    cases V with
    | none => simp at hV
    | some V => exact ((C9_missing_token_fails.1 4 _ _ _ 1 h1).2 V he (by decide))
  | throws => rw [he] at hv; simp [Res.state?] at hv
  | ub => rw [he] at hv; simp [Res.state?] at hv
  | fuel => rw [he] at hv; simp [Res.state?] at hv

theorem FunctionCallAST_Codegen_null_callee (Function_Callee : List Nat)
    (Function_Arguments : List BaseAST) (s s1 : State) (ArgsV : List (Option Value))
    (hF : getFunction s.TheModule Function_Callee = none)
    (hA : Codegen_args Function_Arguments [] s = .ret (some ArgsV) s1) :
    Codegen (.FunctionCallAST Function_Callee Function_Arguments) s = .ub := by
  rw [Codegen_FunctionCall, hA]
  simp only [Res.bind_ret, hF]
  rfl

/-- C11 (the code departs from it): `FunctionCallAST::Codegen` does not test
the result of `TheModule->getFunction(Function_Callee)`: whenever the module
holds no function of the name and every argument lowers, the null callee is
handed to `Builder.CreateCall`, which is undefined behaviour and no lowering
failure; so it is for `g(1);` on the empty module. -/
theorem C11_unknown_callee_reaches_builder :
    (∀ (Function_Callee : List Nat) (Function_Arguments : List BaseAST) (s s1 : State)
      (ArgsV : List (Option Value)), getFunction s.TheModule Function_Callee = none →
      Codegen_args Function_Arguments [] s = .ret (some ArgsV) s1 →
      Codegen (.FunctionCallAST Function_Callee Function_Arguments) s = .ub) ∧
    run 20 [103, 40, 49, 41, 59] = .ub :=
  ⟨fun Function_Callee Function_Arguments s s1 ArgsV hF hA =>
      FunctionCallAST_Codegen_null_callee Function_Callee Function_Arguments s s1 ArgsV hF hA,
    by decide!⟩

/-- C12: `FunctionDeclAST::Codegen` for the name `f` and `n` parameters returns
a function exactly when the module holds no function named `f`, or holds one
with no block and `n` parameters. In the first case one function `f` with `n`
parameters and no block is added at the end of the module; in the second the
function found is returned and the module is the same; when the function
found has a block or another number of parameters the result is null and the
whole state, with the module and `Named_Values`, is the same. -/
theorem C12_declaration_lowering (d : FunctionDeclAST) (s : State) :
    ((∃ F s1, d.Codegen s = .ret (some F) s1) ↔
      (getFunction s.TheModule d.Func_Name = none ∨
        ∃ G, getFunction s.TheModule d.Func_Name = some G ∧ G.blocks = [] ∧
          G.arg_size = d.Arguments.length)) ∧
    (getFunction s.TheModule d.Func_Name = none →
      ∃ s1, d.Codegen s = .ret (some s.fresh) s1 ∧
        s1.TheModule = s.TheModule ++ [⟨s.fresh, d.Func_Name, d.Arguments.length, []⟩]) ∧
    (∀ G, getFunction s.TheModule d.Func_Name = some G → G.blocks = [] →
      G.arg_size = d.Arguments.length →
      ∃ s1, d.Codegen s = .ret (some G.id) s1 ∧ s1.TheModule = s.TheModule) ∧
    (∀ G, getFunction s.TheModule d.Func_Name = some G →
      (G.blocks ≠ [] ∨ G.arg_size ≠ d.Arguments.length) → d.Codegen s = .ret none s) := by
  unfold FunctionDeclAST.Codegen
  cases hG : getFunction s.TheModule d.Func_Name with
  | none => simp
  | some G =>
    by_cases hb : G.blocks = []
    · by_cases ha : G.arg_size = d.Arguments.length
      · simp [hb, ha]
      · simp [hb, ha]
    · have hb2 : G.blocks.isEmpty = false := by
        cases hbl : G.blocks with
        | nil => exact absurd hbl hb
        | cons b r => rfl
      simp [hb, hb2]

/-- A failed `FunctionDefnAST::Codegen` of a binary operator whose signature
was accepted leaves the entry it wrote to `Operator_Precedence`. -/
theorem FunctionDefnAST_Codegen_failure_table {d : FunctionDefnAST} {s s1 sA : State} {F : Nat}
    (h : d.Codegen s = .ret none s1) (hb : d.Func_Decl.isBinaryOp = true)
    (hd : d.Func_Decl.Codegen { s with Named_Values := [] } = .ret (some F) sA) :
    ∃ c, d.Func_Decl.getOperatorName = some c ∧
      s1.Operator_Precedence = map_assign s.Operator_Precedence c
        (unsigned_to_int d.Func_Decl.getBinaryPrecedence) := by
  obtain ⟨-, -, h3⟩ := FunctionDefnAST_Codegen_front h
  rcases h3 with ⟨-, -, sB, hB⟩ | ⟨-, h4⟩
  · rw [hd] at hB; cases hB
  · rcases h4 with ⟨h5, -⟩ | ⟨-, h6⟩
    · rw [hb] at h5; cases h5
    · exact h6

/-- C14 (the code departs from it): `FunctionDefnAST::Codegen` writes the
precedence of a binary operator to `Operator_Precedence` before it lowers the
body and does not take it back when the body fails, though it erases the
function: after every failed call on a binary definition whose signature was
accepted the table holds the declared precedence. For `def binary | 5 (a b)
c;`, whose body is an unbound name, the call returns null, and
`getBinOpPrecedence` at `|` returns -1 before the call and 5 after it. -/
theorem C14_failed_definition_keeps_precedence :
    (∀ (d : FunctionDefnAST) (s s1 sA : State) (F : Nat), d.Codegen s = .ret none s1 →
      d.Func_Decl.isBinaryOp = true →
      d.Func_Decl.Codegen { s with Named_Values := [] } = .ret (some F) sA →
      ∃ c, d.Func_Decl.getOperatorName = some c ∧
        s1.Operator_Precedence = map_assign s.Operator_Precedence c
          (unsigned_to_int d.Func_Decl.getBinaryPrecedence)) ∧
    ((func_defn_parse 20 (State.start [100, 101, 102, 32, 98, 105, 110, 97, 114, 121, 32, 124,
        32, 53, 32, 40, 97, 32, 98, 41, 32, 99, 59])).bind fun F s =>
      match F with
      | some F => (F.Codegen s).bind fun r s1 =>
          .ret (r, (getBinOpPrecedence { s with Current_token := 124 }).1,
            (getBinOpPrecedence { s1 with Current_token := 124 }).1, s1.TheModule) s1
      | none => .throws).val? = some (none, -1, 5, []) :=
  ⟨fun _ _ _ _ _ h hb hd => FunctionDefnAST_Codegen_failure_table h hb hd, by decide!⟩

/-- A property of the value every continuation returns holds of the value the
sequence returns. -/
theorem Res.bind_val {σ α β : Type} {P : β → Prop} {r : Res σ α} {f : α → σ → Res σ β}
    (h : ∀ a s b s1, f a s = .ret b s1 → P b) :
    ∀ b s1, r.bind f = .ret b s1 → P b := by
  intro b s1 hb
  cases r with
  | ret a s => exact h a s b s1 hb
  | throws => cases hb
  | ub => cases hb
  | fuel => cases hb

/-- C17: whenever `ExprForAST::Codegen` returns a value that is not null, the
value is the constant 0 of type `i32`, whatever the loop variable, the start,
the end, the step and the body are. -/
theorem C17_loop_value_is_zero (Var_Name : List Nat) (Start End : BaseAST)
    (Step : Option BaseAST) (Body : BaseAST) (s s1 : State) (v : Value)
    (h : Codegen (.ExprForAST Var_Name Start End Step Body) s = .ret (some v) s1) :
    v = .ConstantInt 32 0 := by
  have key : ∀ (b : Option Value) (s1 : State),
      Codegen (.ExprForAST Var_Name Start End Step Body) s = .ret b s1 →
      b = none ∨ b = some (.ConstantInt 32 0) := by
    rw [Codegen_ExprFor]
    refine Res.bind_val ?_
    intro StartVal sA b s1 h
    split at h
    · cases h; exact Or.inl rfl
    · split at h
      · revert b s1
        simp only
        refine Res.bind_val ?_
        intro _ sB
        refine Res.bind_val ?_
        intro Var sC
        refine Res.bind_val ?_
        intro _ sD
        refine Res.bind_val ?_
        intro BodyVal sE b s1 h
        split at h
        · cases h; exact Or.inl rfl
        · revert b s1
          refine Res.bind_val ?_
          intro StepVal sF b s1 h
          split at h
          · cases h; exact Or.inl rfl
          · revert b s1
            refine Res.bind_val ?_
            intro NextVar sG
            refine Res.bind_val ?_
            intro EndCond sH b s1 h
            split at h
            · cases h; exact Or.inl rfl
            · revert b s1
              refine Res.bind_val ?_
              intro EndCond2 sI b s1 h
              split at h
              · cases h
              · revert b s1
                refine Res.bind_val ?_
                intro _ sJ
                refine Res.bind_val ?_
                intro _ sK b s1 h
                split at h <;> cases h <;> exact Or.inr rfl
      · cases h
  rcases key _ _ h with h1 | h1
  · cases h1
  · cases h1; rfl

/-- The loop `for i = 0, 10 in i` lowered at the entry block of a function:
the value returned is the constant 0. -/
theorem C17_loop_value_is_zero_witness :
    ∃ v s1, Codegen (.ExprForAST [105] (.NumericAST 0) (.NumericAST 10) none (.VariableAST [105]))
        State.body = .ret (some v) s1 ∧ v = .ConstantInt 32 0 := by
  have hv : ((Codegen (.ExprForAST [105] (.NumericAST 0) (.NumericAST 10) none
      (.VariableAST [105]))
        State.body).val?.bind id).isSome = true := by decide!
  cases hc : Codegen (.ExprForAST [105] (.NumericAST 0) (.NumericAST 10) none
      (.VariableAST [105]))
        State.body with
  | ret v s1 =>
    rw [hc] at hv
    cases v with
    | none => simp [Res.val?] at hv
    | some v => exact ⟨v, s1, rfl, C17_loop_value_is_zero _ _ _ _ _ _ _ v hc⟩
  | throws => rw [hc] at hv; simp [Res.val?] at hv
  | ub => rw [hc] at hv; simp [Res.val?] at hv
  | fuel => rw [hc] at hv; simp [Res.val?] at hv

/-- The loop over white space stops at the first character that is none. -/
theorem skip_space_pending : ∀ (ws : List Nat) (f : List Nat) (lc c : Nat) (rest : List Nat),
    lc :: f.map (· % 256) = ws ++ c :: rest → (∀ w ∈ ws, isspace (some w) = true) →
    isspace (some c) = false →
    ∃ f1, skip_space (some lc) f = (some c, f1) ∧ f1.map (· % 256) = rest := by
  intro ws
  induction ws with
  | nil =>
    intro f lc c rest h _ hc
    simp only [List.nil_append, List.cons.injEq] at h
    obtain ⟨h1, h2⟩ := h
    subst h1
    refine ⟨f, ?_, h2⟩
    cases f <;> simp [skip_space, hc]
  | cons w ws ih =>
    intro f lc c rest h hws hc
    simp only [List.cons_append, List.cons.injEq] at h
    obtain ⟨h1, h2⟩ := h
    subst h1
    have hw : isspace (some lc) = true := hws lc (List.mem_cons_self _ _)
    cases f with
    | nil => cases ws <;> simp at h2
    | cons x f =>
      simp only [List.map_cons] at h2
      obtain ⟨f1, hf1, hf2⟩ := ih f (x % 256) c rest h2
        (fun w hwm => hws w (List.mem_cons_of_mem _ hwm)) hc
      exact ⟨f1, by simp [skip_space, hw, hf1], hf2⟩

/-- The loop that collects an identifier takes the whole run of letters and
digits and stops at the character after it. -/
theorem read_alnum_pending : ∀ (run : List Nat) (f acc rest : List Nat),
    f.map (· % 256) = run ++ rest → (∀ x ∈ run, isalnum x = true) →
    (∀ x, rest.head? = some x → isalnum x = false) →
    ∃ lc f1, read_alnum f acc = (acc ++ run, lc, f1) ∧
      Lexer.pending ⟨f1, lc, 0, []⟩ = rest := by
  intro run
  induction run with
  | nil =>
    intro f acc rest h _ hrest
    simp only [List.nil_append] at h
    cases f with
    | nil =>
      simp only [List.map_nil] at h
      subst h
      exact ⟨none, [], by simp [read_alnum], rfl⟩
    | cons x f =>
      simp only [List.map_cons] at h
      subst h
      have hx := hrest (x % 256) rfl
      exact ⟨some (x % 256), f, by simp [read_alnum, hx], rfl⟩
  | cons y run ih =>
    intro f acc rest h hrun hrest
    cases f with
    | nil => simp at h
    | cons x f =>
      simp only [List.map_cons, List.cons_append, List.cons.injEq] at h
      obtain ⟨h1, h2⟩ := h
      subst h1
      have hx : isalnum (x % 256) = true := hrun _ (List.mem_cons_self _ _)
      obtain ⟨lc, f1, hr, hp⟩ := ih f (acc ++ [x % 256]) rest h2
        (fun z hz => hrun z (List.mem_cons_of_mem _ hz)) hrest
      refine ⟨lc, f1, ?_, hp⟩
      simp only [read_alnum, hx, if_true, hr, List.append_assoc, List.singleton_append]

/-- The comparisons with the reserved words give `IDENTIFIER_TOKEN` exactly
for the other strings. -/
theorem keyword_reserved (id : List Nat) :
    (keyword id = IDENTIFIER_TOKEN ↔ id ∉ reserved) ∧
    (id ∈ reserved → 4 ≤ keyword id ∧ keyword id ≤ 11) := by
  unfold keyword reserved
  simp only [List.mem_cons, List.mem_singleton, List.not_mem_nil, or_false]
  split_ifs <;> simp_all <;> decide

/-- C20: when the characters to come are white space, then a letter, then a
run of letters and digits that ends before a character that is neither (or at
the end of the file), `get_token` consumes exactly the letter and the run,
leaves them in `Identifier_string`, and returns the token `keyword` gives for
them: `IDENTIFIER_TOKEN` exactly when they are none of `def`, `if`, `then`,
`else`, `for`, `in`, `binary`, `unary`, and the token of the reserved word
otherwise. -/
theorem C20_letter_run_token (l : Lexer) (ws run rest : List Nat) (c : Nat)
    (hp : l.pending = ws ++ c :: run ++ rest) (hws : ∀ w ∈ ws, isspace (some w) = true)
    (hc : isalpha c = true) (hrun : ∀ x ∈ run, isalnum x = true)
    (hrest : ∀ x, rest.head? = some x → isalnum x = false) :
    ∃ l1, get_token l = .ret (keyword (c :: run)) l1 ∧ l1.Identifier_string = c :: run ∧
      l1.pending = rest ∧
      (keyword (c :: run) = IDENTIFIER_TOKEN ↔ c :: run ∉ reserved) ∧
      (c :: run ∈ reserved → 4 ≤ keyword (c :: run) ∧ keyword (c :: run) ≤ 11) ∧
      reserved.map keyword = [DEF_TOKEN, IF_TOKEN, THEN_TOKEN, ELSE_TOKEN, FOR_TOKEN, IN_TOKEN,
        BINARY_TOKEN, UNARY_TOKEN] := by
  have hsp : isspace (some c) = false := by
    simp only [isalpha, Bool.or_eq_true, Bool.and_eq_true, decide_eq_true_eq] at hc
    simp only [isspace, Bool.or_eq_false_iff, beq_eq_false_iff_ne, Bool.and_eq_false_iff,
      decide_eq_false_iff_not]
    omega
  cases hl : l.LastChar with
  | none => simp [Lexer.pending, hl] at hp
  | some lc =>
    simp only [Lexer.pending, hl, List.cons_append, List.append_assoc] at hp
    obtain ⟨f1, hs, hf1⟩ := skip_space_pending ws l.file lc c (run ++ rest)
      (by simpa using hp) hws hsp
    obtain ⟨lc2, f2, hr, hp2⟩ := read_alnum_pending run f1 [c] rest hf1 hrun hrest
    refine ⟨{ l with Identifier_string := c :: run, LastChar := lc2, file := f2 }, ?_, rfl, hp2,
      (keyword_reserved (c :: run)).1, (keyword_reserved (c :: run)).2, rfl⟩
    simp only [get_token, get_token_aux, hl, hs, hc, if_true, hr, List.singleton_append]

/-- The words `iffy` and `binary124` are identifiers. -/
theorem C20_letter_run_token_witness :
    (∃ l1, get_token (Lexer.init [105, 102, 102, 121]) = .ret IDENTIFIER_TOKEN l1 ∧
      l1.Identifier_string = [105, 102, 102, 121]) ∧
    (∃ l1, get_token (Lexer.init [98, 105, 110, 97, 114, 121, 49, 50, 52, 40]) =
        .ret IDENTIFIER_TOKEN l1 ∧
      l1.Identifier_string = [98, 105, 110, 97, 114, 121, 49, 50, 52] ∧ l1.pending = [40]) := by
  constructor
  · obtain ⟨l1, h1, h2, -⟩ := C20_letter_run_token (Lexer.init [105, 102, 102, 121]) [32]
      [102, 102, 121] [] 105 (by decide) (by decide) (by decide) (by decide) (by simp)
    exact ⟨l1, h1, h2⟩
  · obtain ⟨l1, h1, h2, h3, -⟩ := C20_letter_run_token
      (Lexer.init [98, 105, 110, 97, 114, 121, 49, 50, 52, 40]) [32]
      [105, 110, 97, 114, 121, 49, 50, 52] [40] 98 (by decide) (by decide) (by decide)
      (by decide) (by simp; decide)
    exact ⟨l1, h1, h2, h3⟩

/-- The last branch of `get_token`: a character that is no white space, letter,
digit or `#` is consumed and returned as it is. -/
theorem get_token_other (l : Lexer) (ws rest : List Nat) (c : Nat)
    (hp : l.pending = ws ++ c :: rest) (hws : ∀ w ∈ ws, isspace (some w) = true)
    (hsp : isspace (some c) = false) (ha : isalpha c = false) (hd : isdigit c = false)
    (hc : c ≠ 35) :
    ∃ l1, get_token l = .ret c l1 ∧ l1.pending = rest := by
  cases hl : l.LastChar with
  | none => simp [Lexer.pending, hl] at hp
  | some lc =>
    simp only [Lexer.pending, hl] at hp
    obtain ⟨f1, hs, hf1⟩ := skip_space_pending ws l.file lc c rest hp hws hsp
    refine ⟨{ l with LastChar := (fgetc f1).1, file := (fgetc f1).2 }, ?_, ?_⟩
    · simp [get_token, get_token_aux, hl, hs, ha, hd, hc]
    · cases f1 with
      | nil => simpa [Lexer.pending, fgetc] using hf1
      | cons x f => simpa [Lexer.pending, fgetc] using hf1

/-- C19 (the code departs from it): `get_token` does return every character
that is no white space, letter, digit or `#` as it is, but the token is an
`int` that shares its values with `enum Token_Type`, whose members are 0 to
11: the characters 0 to 8 come back as `EOF_TOKEN`, `NUMERIC_TOKEN`, ...,
`FOR_TOKEN`. The byte 1 gives the token of the number `7`, and `\x01;` is
lowered as the number in `Numeric_Val`; the byte 0 gives the end token, and
the driver stops before the `4;` that follows it. -/
theorem C19_character_tokens_collide :
    (∀ (l : Lexer) (ws rest : List Nat) (c : Nat), l.pending = ws ++ c :: rest →
      (∀ w ∈ ws, isspace (some w) = true) → isspace (some c) = false → isalpha c = false →
      isdigit c = false → c ≠ 35 → ∃ l1, get_token l = .ret c l1 ∧ l1.pending = rest) ∧
    (∀ c ≤ 8, ∀ rest : List Nat,
      (get_token ⟨rest, some c, 0, []⟩).val? = some c ∧
      c ∈ [EOF_TOKEN, NUMERIC_TOKEN, IDENTIFIER_TOKEN, PARAN_TOKEN, DEF_TOKEN, IF_TOKEN,
        THEN_TOKEN, ELSE_TOKEN, FOR_TOKEN]) ∧
    (get_token (Lexer.init [1])).val? = some NUMERIC_TOKEN ∧
    (get_token (Lexer.init [55])).val? = some NUMERIC_TOKEN ∧
    (get_token (Lexer.init [0, 52, 59])).val? = some EOF_TOKEN ∧
    (run 20 [1, 59]).state?.map State.TheModule =
      some [⟨0, [], 0, [⟨1, .entry, [⟨2, .Ret (.ConstantInt 32 0)⟩]⟩]⟩] ∧
    (run 20 [0, 52, 59]).state?.map State.TheModule = some [] ∧
    (run 20 [52, 59]).state?.map State.TheModule =
      some [⟨0, [], 0, [⟨1, .entry, [⟨2, .Ret (.ConstantInt 32 4)⟩]⟩]⟩] := by
  refine ⟨fun l ws rest c hp hws hsp ha hd hc => get_token_other l ws rest c hp hws hsp ha hd hc,
    ?_, by decide!, by decide!, by decide!, by decide!, by decide!, by decide!⟩
  intro c hc rest
  obtain ⟨l1, h1, -⟩ := get_token_other ⟨rest, some c, 0, []⟩ [] (rest.map (· % 256)) c rfl
    (by simp) (by interval_cases c <;> rfl) (by interval_cases c <;> rfl)
    (by interval_cases c <;> rfl) (by omega)
  rw [h1]
  exact ⟨rfl, by interval_cases c <;> decide⟩

/-- The lexer and the precedence lookup leave the statics of the code
generator. -/
theorem parse_keeps_back (b : List Function × Option Nat × List (List Nat × Option Value) × Nat) :
    (∀ s, s.back = b → (next_token s).Sat fun s1 => s1.back = b) ∧
    (∀ s, s.back = b → (getBinOpPrecedence s).2.back = b) := by
  refine ⟨?_, ?_⟩
  · intro s hs t s1 h
    obtain ⟨-, h2, h3, h4, h5⟩ := next_token_rest h
    rw [← hs]
    simp only [State.back, h2, h3, h4, h5]
  · intro s hs
    obtain ⟨m, hm, -⟩ := getBinOpPrecedence_snd s
    rw [hm]
    exact hs

/-- C15, counterexample: on the input `(1 2 3; 4;` the parse fails at the token
`2`; the driver skips that one token and lowers both `3` and `4` as anonymous
expressions. -/
theorem C15_failed_form_tail_is_lowered :
    (run 20 [40, 49, 32, 50, 32, 51, 59, 32, 52, 59]).state?.map State.TheModule =
      some [⟨0, [], 0, [⟨1, .entry, [⟨2, .Ret (.ConstantInt 32 3)⟩]⟩]⟩,
        ⟨3, [], 0, [⟨4, .entry, [⟨5, .Ret (.ConstantInt 32 4)⟩]⟩]⟩] := by
  decide!

/-- C15, amended: when the parse of a top-level form (a definition after
`def`, an expression otherwise) fails, nothing has been emitted: the module,
the insertion point, the environment and the counter of the builder are as
before; the driver then skips exactly one token, the one at which the parse
stopped, and goes on from the token after it, whether or not that token
belongs to the failed form. -/
theorem C15_failed_parse_skips_one_token (n : Nat) (s sA : State)
    (hp : (s.Current_token = DEF_TOKEN ∧ func_defn_parse n s = .ret none sA) ∨
      (s.Current_token ≠ EOF_TOKEN ∧ s.Current_token ≠ 59 ∧ s.Current_token ≠ DEF_TOKEN ∧
        top_level_parse n s = .ret none sA)) :
    sA.back = s.back ∧
    Driver (n + 1) s = (next_token sA).bind (fun _ s1 => Driver n s1) ∧
    ∀ t s1, next_token sA = .ret t s1 → s1.back = s.back := by
  obtain ⟨hnext, hget⟩ := parse_keeps_back s.back
  obtain ⟨-, hdefn, htop⟩ := decl_parse_inv (fun s1 => s1.back = s.back) hnext hget n
  have hA : sA.back = s.back := by
    rcases hp with ⟨-, h⟩ | ⟨-, -, -, h⟩
    · exact hdefn s rfl none sA h
    · exact htop s rfl none sA h
  refine ⟨hA, ?_, fun t s1 h => hnext sA hA t s1 h⟩
  rcases hp with ⟨h1, h⟩ | ⟨h1, h2, h3, h⟩
  · have h0 : s.Current_token ≠ EOF_TOKEN := by rw [h1]; decide
    have h59 : s.Current_token ≠ 59 := by rw [h1]; decide
    rw [Driver]
    simp only [h0, h59, h1, if_false, if_true, HandleDefn, h, Res.bind_ret]
    cases next_token sA <;> rfl
  · rw [Driver]
    simp only [h1, h2, h3, if_false, HandleTopLevelExpression, h, Res.bind_ret]
    cases next_token sA <;> rfl

/-- The input `(1 2 3; 4;`: the parse of the expression fails at the token `2`,
and the driver goes on from the token after it. -/
theorem C15_failed_parse_skips_one_token_witness :
    ∃ sA, top_level_parse 19 (State.start [40, 49, 32, 50, 32, 51, 59, 32, 52, 59]) =
        .ret none sA ∧
      (sA.Current_token, sA.lex.Numeric_Val) = (NUMERIC_TOKEN, 2) ∧
      sA.back = (State.start [40, 49, 32, 50, 32, 51, 59, 32, 52, 59]).back ∧
      Driver 20 (State.start [40, 49, 32, 50, 32, 51, 59, 32, 52, 59]) =
        (next_token sA).bind (fun _ s1 => Driver 19 s1) := by
  have hv : (top_level_parse 19 (State.start [40, 49, 32, 50, 32, 51, 59, 32, 52, 59])).val?.map
        Option.isSome = some false ∧
      (top_level_parse 19 (State.start [40, 49, 32, 50, 32, 51, 59, 32, 52, 59])).state?.map
        (fun s => (s.Current_token, s.lex.Numeric_Val)) = some (NUMERIC_TOKEN, 2) := by
    decide!
  cases hp : top_level_parse 19 (State.start [40, 49, 32, 50, 32, 51, 59, 32, 52, 59]) with
  | ret F sA =>
    rw [hp] at hv
    simp only [Res.val?, Res.state?, Option.map_some', Option.some.injEq] at hv
    cases F with
    | some F => simp at hv
    | none =>
      have h := C15_failed_parse_skips_one_token 19
        (State.start [40, 49, 32, 50, 32, 51, 59, 32, 52, 59]) sA
        (Or.inr ⟨by decide!, by decide!, by decide!, hp⟩)
      exact ⟨sA, rfl, hv.2, h.1, h.2.1⟩
  | throws => rw [hp] at hv; simp [Res.val?] at hv
  | ub => rw [hp] at hv; simp [Res.val?] at hv
  | fuel => rw [hp] at hv; simp [Res.val?] at hv

/-- A change of the functions of the module that keeps their identities and
leaves the functions other than `F` is not seen in them. -/
theorem others_map (F : Nat) (f : Function → Function) (m : List Function)
    (hid : ∀ G, (f G).id = G.id) (hf : ∀ G ∈ others F m, f G = G) :
    others F (m.map f) = others F m := by
  induction m with
  | nil => rfl
  | cons G m ih =>
    have ih2 := ih fun H hH => hf H (by
      unfold others at hH ⊢
      rw [List.filter_cons]
      split
      · exact List.mem_cons_of_mem _ hH
      · exact hH)
    unfold others at ih2 hf ⊢
    simp only [List.map_cons, List.filter_cons, hid]
    by_cases hG : G.id = F
    · simp only [hG, decide_True, Bool.not_true, Bool.false_eq_true, if_false]
      exact ih2
    · simp only [hG, decide_False, Bool.not_false, if_true]
      rw [ih2, hf G (by simp [List.filter_cons, hG])]

theorem Function_append_below {N BB : Nat} {i : Instr} {G : Function} (hG : G.below N)
    (hBB : N ≤ BB) : Function.append BB i G = G := by
  unfold Function.append
  have : (G.blocks.map fun B => if B.id = BB then { B with insts := B.insts ++ [i] } else B) =
      G.blocks := by
    conv_rhs => rw [← List.map_id G.blocks]
    refine List.map_congr_left fun B hB => ?_
    have := (hG.2 B hB).1
    rw [if_neg (by omega)]
    rfl
  rw [this]

theorem addIncoming_below {N id BB : Nat} {V : Value} {G : Function} (hG : G.below N)
    (hid : N ≤ id) :
    { G with blocks := G.blocks.map fun B =>
        { B with insts := B.insts.map (Instr.addIncoming id V BB) } } = G := by
  have : (G.blocks.map fun B =>
      { B with insts := B.insts.map (Instr.addIncoming id V BB) }) = G.blocks := by
    conv_rhs => rw [← List.map_id G.blocks]
    refine List.map_congr_left fun B hB => ?_
    have hi : B.insts.map (Instr.addIncoming id V BB) = B.insts := by
      conv_rhs => rw [← List.map_id B.insts]
      refine List.map_congr_left fun i hi => ?_
      have := (hG.2 B hB).2 i hi
      unfold Instr.addIncoming
      rw [if_neg (by omega)]
      rfl
    rw [hi]
    rfl
  rw [this]

/-- The block the builder inserts into belongs to the function that is being
lowered. -/
theorem Building_getParent {F N0 BB : Nat} {M0 : List Function} {s : State} {TheFunc : Function}
    (hI : Building F N0 M0 s) (hB : s.Builder = some BB)
    (hP : getParent s.TheModule BB = some TheFunc) : TheFunc.id = F := by
  obtain ⟨h0, h1, h2, h3⟩ := hI
  by_contra hne
  unfold getParent at hP
  have hmem := List.mem_of_find?_eq_some hP
  have hany := List.find?_some hP
  have hin : TheFunc ∈ M0 := by
    rw [← h1]
    unfold others
    simp [List.mem_filter, hmem, hne]
  have hb := (h0 TheFunc hin).2
  simp only [List.any_eq_true, decide_eq_true_eq] at hany
  obtain ⟨B, hBm, hBid⟩ := hany
  have := (hb B hBm).1
  have := h3 BB hB
  omega

theorem Sat_bind_val {α β : Type} {I : State → Prop} {Q : α → Prop} {r : Res State α}
    {k : α → State → Res State β} (h1 : ∀ a s1, r = .ret a s1 → I s1 ∧ Q a)
    (h2 : ∀ a s, I s → Q a → (k a s).Sat I) : (r.bind k).Sat I := by
  intro b s1 e
  cases r with
  | ret a s => exact h2 a s (h1 a s rfl).1 (h1 a s rfl).2 b s1 e
  | throws => cases e
  | ub => cases e
  | fuel => cases e

theorem Building_fresh {F N0 : Nat} {M0 : List Function} {s : State}
    (hI : Building F N0 M0 s) : Building F N0 M0 { s with fresh := s.fresh + 1 } :=
  ⟨hI.1, hI.2.1, Nat.le_succ_of_le hI.2.2.1, hI.2.2.2⟩

theorem Building_Named_Values {F N0 : Nat} {M0 : List Function} {s : State}
    (hI : Building F N0 M0 s) (m : List (List Nat × Option Value)) :
    Building F N0 M0 { s with Named_Values := m } :=
  ⟨hI.1, hI.2.1, hI.2.2.1, hI.2.2.2⟩

theorem Building_SetInsertPoint {F N0 BB : Nat} {M0 : List Function} {s : State}
    (hI : Building F N0 M0 s) (hBB : N0 ≤ BB) : Building F N0 M0 (SetInsertPoint BB s) :=
  ⟨hI.1, hI.2.1, hI.2.2.1, fun B hB => by
    simp only [SetInsertPoint, Option.some.injEq] at hB
    omega⟩

theorem Building_Function_insert {F N0 : Nat} {M0 : List Function} {s : State}
    (hI : Building F N0 M0 s) (BB : BasicBlock) : Building F N0 M0 (Function_insert F BB s) := by
  refine ⟨hI.1, ?_, hI.2.2.1, hI.2.2.2⟩
  rw [← hI.2.1]
  unfold Function_insert
  refine others_map F _ s.TheModule (fun G => ?_) fun G hG => ?_
  · split <;> rfl
  · unfold others at hG
    simp only [List.mem_filter, Bool.not_eq_true', decide_eq_false_iff_not] at hG
    rw [if_neg hG.2]

/-- An instruction inserted while the function `F` is lowered goes to none of
the other functions, and is a new object. -/
theorem Insert_building {F N0 : Nat} {M0 : List Function} {inst : Inst} {s : State}
    (hI : Building F N0 M0 s) :
    ∀ v s1, Insert inst s = .ret v s1 →
      Building F N0 M0 s1 ∧ ∃ id, v = .Instruction id ∧ N0 ≤ id := by
  intro v s1 h
  unfold Insert at h
  split at h
  · cases h
    exact ⟨Building_fresh hI, s.fresh, rfl, hI.2.2.1⟩
  · rename_i BB hB
    split at h
    · cases h
    · cases h
      refine ⟨⟨hI.1, ?_, Nat.le_succ_of_le hI.2.2.1, hI.2.2.2⟩, s.fresh, rfl, hI.2.2.1⟩
      rw [← hI.2.1]
      refine others_map F _ s.TheModule (fun G => rfl) fun G hG => ?_
      rw [hI.2.1] at hG
      exact Function_append_below (hI.1 G hG) (hI.2.2.2 BB hB)

theorem Insert_Sat {F N0 : Nat} {M0 : List Function} {inst : Inst} {s : State}
    (hI : Building F N0 M0 s) : (Insert inst s).Sat (Building F N0 M0) :=
  fun v s1 h => (Insert_building hI v s1 h).1

theorem CreateBinOp_Sat {F N0 : Nat} {M0 : List Function} {Opc : BinaryOps}
    {L R : Option Value} {s : State} (hI : Building F N0 M0 s) :
    (CreateBinOp Opc L R s).Sat (Building F N0 M0) := by
  unfold CreateBinOp
  split
  · split
    · exact Sat_ret hI
    · exact Insert_Sat hI
  · intro _ _ e; cases e

theorem CreateICmp_Sat {F N0 : Nat} {M0 : List Function} {P : Predicate}
    {L R : Option Value} {s : State} (hI : Building F N0 M0 s) :
    (CreateICmp P L R s).Sat (Building F N0 M0) := by
  unfold CreateICmp
  split
  · split
    · exact Sat_ret hI
    · exact Insert_Sat hI
  · intro _ _ e; cases e

theorem CreateZExt_Sat {F N0 : Nat} {M0 : List Function} {V : Value} {s : State}
    (hI : Building F N0 M0 s) : (CreateZExt V s).Sat (Building F N0 M0) := by
  unfold CreateZExt
  split
  · exact Sat_ret hI
  · exact Sat_ret hI
  · exact Insert_Sat hI

theorem CreateCall_Sat {F N0 : Nat} {M0 : List Function} {G : Option Function}
    {Args : List (Option Value)} {s : State} (hI : Building F N0 M0 s) :
    (CreateCall G Args s).Sat (Building F N0 M0) := by
  unfold CreateCall
  split
  · intro _ _ e; cases e
  · split
    · exact Insert_Sat hI
    · intro _ _ e; cases e

theorem addIncoming_Sat {F N0 : Nat} {M0 : List Function} {PN V : Value} {BB : Nat}
    {s : State} (hI : Building F N0 M0 s) (hPN : ∃ id, PN = .Instruction id ∧ N0 ≤ id) :
    (addIncoming PN V BB s).Sat (Building F N0 M0) := by
  obtain ⟨id, rfl, hid⟩ := hPN
  intro u s1 h
  simp only [addIncoming] at h
  cases h
  refine ⟨hI.1, ?_, hI.2.2.1, hI.2.2.2⟩
  rw [← hI.2.1]
  refine others_map F _ s.TheModule (fun G => rfl) fun G hG => ?_
  rw [hI.2.1] at hG
  exact addIncoming_below (hI.1 G hG) hid

/-- The function the builder is in, when it is in one. -/
theorem Building_parent {F N0 : Nat} {M0 : List Function} {s : State} {TheFunc : Function}
    (hI : Building F N0 M0 s) (h : s.Builder.bind (getParent s.TheModule) = some TheFunc) :
    TheFunc.id = F := by
  cases hB : s.Builder with
  | none => rw [hB] at h; cases h
  | some BB =>
    rw [hB] at h
    exact Building_getParent hI hB h

mutual

/-- Lowering an expression of the body of the function `F` leaves the other
functions of the module as they were. -/
theorem Codegen_building : ∀ (e : BaseAST) (s : State) (F N0 : Nat) (M0 : List Function),
    Building F N0 M0 s → (Codegen e s).Sat (Building F N0 M0)
  | .NumericAST _, s, F, N0, M0, hs => by
    rw [Codegen_Numeric]; exact Sat_ret hs
  | .VariableAST _, s, F, N0, M0, hs => by
    rw [Codegen_Variable]; exact Sat_ret (Building_Named_Values hs _)
  | .ExprUnaryAST _ Operand, s, F, N0, M0, hs => by
    rw [Codegen_ExprUnary]
    refine Sat_bind (Codegen_building Operand s F N0 M0 hs) fun V s hs => ?_
    split
    · exact Sat_ret hs
    · split
      · exact Sat_ret hs
      · exact Sat_bind (CreateCall_Sat hs) fun _ _ h => Sat_ret h
  | .BinaryAST _ LHS RHS, s, F, N0, M0, hs => by
    rw [Codegen_Binary]
    refine Sat_bind (Codegen_building LHS s F N0 M0 hs) fun L s hs => ?_
    refine Sat_bind (Codegen_building RHS s F N0 M0 hs) fun R s hs => ?_
    split
    · intro _ _ e; cases e
    · split
      · exact Sat_bind (CreateBinOp_Sat hs) fun _ _ h => Sat_ret h
      · split
        · exact Sat_bind (CreateBinOp_Sat hs) fun _ _ h => Sat_ret h
        · split
          · exact Sat_bind (CreateBinOp_Sat hs) fun _ _ h => Sat_ret h
          · split
            · exact Sat_bind (CreateBinOp_Sat hs) fun _ _ h => Sat_ret h
            · split
              · refine Sat_bind (CreateICmp_Sat hs) fun _ s hs => ?_
                exact Sat_bind (CreateZExt_Sat hs) fun _ _ h => Sat_ret h
              · exact Sat_bind (CreateCall_Sat hs) fun _ _ h => Sat_ret h
  | .ExprIfAST Cond Then Else, s, F, N0, M0, hs => by
    rw [Codegen_ExprIf]
    refine Sat_bind (Codegen_building Cond s F N0 M0 hs) fun V s hs => ?_
    split
    · exact Sat_ret hs
    · refine Sat_bind (CreateICmp_Sat hs) fun _ s hs => ?_
      split
      · intro _ _ e; cases e
      · rename_i TheFunc hTheFunc
        have hF : TheFunc.id = F := Building_parent hs hTheFunc
        simp only [BasicBlock_Create_in, BasicBlock_Create, hF]
        have h1 : Building F N0 M0 (Function_insert F ⟨s.fresh, .then_, []⟩
            { s with fresh := s.fresh + 1 }) :=
          Building_Function_insert (Building_fresh hs) _
        have h2 := Building_fresh (Building_fresh h1)
        refine Sat_bind (Insert_Sat h2) fun _ s2 hs2 => ?_
        refine Sat_bind (Codegen_building Then _ F N0 M0
          (Building_SetInsertPoint hs2 hs.2.2.1)) fun V s3 hs3 => ?_
        split
        · exact Sat_ret hs3
        · refine Sat_bind (Insert_Sat hs3) fun _ s4 hs4 => ?_
          split
          · intro _ _ e; cases e
          · refine Sat_bind (Codegen_building Else _ F N0 M0
              (Building_SetInsertPoint (Building_Function_insert hs4 _)
                (Nat.le_succ_of_le hs.2.2.1))) fun V s5 hs5 => ?_
            split
            · exact Sat_ret hs5
            · refine Sat_bind (Insert_Sat hs5) fun _ s6 hs6 => ?_
              split
              · intro _ _ e; cases e
              · refine Sat_bind_val (Insert_building
                  (Building_SetInsertPoint (Building_Function_insert hs6 _)
                    (Nat.le_succ_of_le (Nat.le_succ_of_le hs.2.2.1)))) fun PN s7 hs7 hPN => ?_
                refine Sat_bind (addIncoming_Sat hs7 hPN) fun _ s8 hs8 => ?_
                exact Sat_bind (addIncoming_Sat hs8 hPN) fun _ _ h => Sat_ret h
  | .ExprForAST _ Start End Step Body, s, F, N0, M0, hs => by
    rw [Codegen_ExprFor]
    refine Sat_bind (Codegen_building Start s F N0 M0 hs) fun V s hs => ?_
    split
    · exact Sat_ret hs
    · split
      · rename_i TheFunction PreheaderBB hTheFunction hPre
        have hF : TheFunction.id = F := Building_parent hs hTheFunction
        simp only [BasicBlock_Create_in, BasicBlock_Create, hF]
        have h1 : Building F N0 M0 (Function_insert F ⟨s.fresh, .loop, []⟩
            { s with fresh := s.fresh + 1 }) :=
          Building_Function_insert (Building_fresh hs) _
        refine Sat_bind (Insert_Sat h1) fun _ s2 hs2 => ?_
        refine Sat_bind_val (Insert_building (Building_SetInsertPoint hs2 hs.2.2.1))
          fun Var s3 hs3 hVar => ?_
        refine Sat_bind (addIncoming_Sat hs3 hVar) fun _ s4 hs4 => ?_
        refine Sat_bind (Codegen_building Body _ F N0 M0 (Building_Named_Values hs4 _))
          fun V s5 hs5 => ?_
        split
        · exact Sat_ret hs5
        · refine Sat_bind ?_ fun StepVal s6 hs6 => ?_
          · cases Step with
            | none => rw [Codegen_Step_none]; exact Sat_ret hs5
            | some Step => rw [Codegen_Step_some]; exact Codegen_building Step s5 F N0 M0 hs5
          · split
            · exact Sat_ret hs6
            · refine Sat_bind (CreateBinOp_Sat hs6) fun _ s7 hs7 => ?_
              refine Sat_bind (Codegen_building End s7 F N0 M0 hs7) fun V s8 hs8 => ?_
              split
              · exact Sat_ret hs8
              · refine Sat_bind (CreateICmp_Sat hs8) fun _ s9 hs9 => ?_
                split
                · intro _ _ e; cases e
                · refine Sat_bind (Insert_Sat
                    (Building_Function_insert (Building_fresh hs9) _)) fun _ s10 hs10 => ?_
                  refine Sat_bind (addIncoming_Sat
                    (Building_SetInsertPoint hs10 hs9.2.2.1) hVar) fun _ s11 hs11 => ?_
                  split <;> exact Sat_ret (Building_Named_Values hs11 _)
      · intro _ _ e; cases e
  | .FunctionCallAST _ Function_Arguments, s, F, N0, M0, hs => by
    rw [Codegen_FunctionCall]
    refine Sat_bind (Codegen_args_building Function_Arguments [] s F N0 M0 hs) fun V s hs => ?_
    split
    · exact Sat_ret hs
    · exact Sat_bind (CreateCall_Sat hs) fun _ _ h => Sat_ret h

/-- Lowering the arguments of a call in the body of the function `F` leaves
the other functions of the module as they were. -/
theorem Codegen_args_building : ∀ (args : List BaseAST) (ArgsV : List (Option Value))
    (s : State) (F N0 : Nat) (M0 : List Function),
    Building F N0 M0 s → (Codegen_args args ArgsV s).Sat (Building F N0 M0)
  | [], _, s, F, N0, M0, hs => by
    rw [Codegen_args_nil]; exact Sat_ret hs
  | Arg :: rest, ArgsV, s, F, N0, M0, hs => by
    rw [Codegen_args_cons]
    refine Sat_bind (Codegen_building Arg s F N0 M0 hs) fun V s hs => ?_
    split
    · exact Sat_ret hs
    · exact Codegen_args_building rest _ s F N0 M0 hs

end

/-- Erasing a function that has no body changes nothing in the functions that
have one. -/
theorem bodied_others (F : Nat) (m : List Function)
    (h : ∀ H ∈ m, H.id = F → H.blocks.isEmpty = true) : bodied (others F m) = bodied m := by
  unfold bodied others
  rw [List.filter_filter]
  refine List.filter_congr fun H hH => ?_
  by_cases hF : H.id = F
  · simp [hF, h H hH hF]
  · simp [hF]

/-- What a returning `FunctionDeclAST::Codegen` does to the module: nothing when
it returns null; otherwise the function it returns is the one function of
the module it may have added, and a function of that identity that was there
has no body. -/
theorem FunctionDeclAST_Codegen_module {d : FunctionDeclAST} {s s1 : State} {r : Option Nat}
    (hwf : s.wf) (h : d.Codegen s = .ret r s1) :
    (r = none → s1 = s) ∧
    (∀ F, r = some F → others F s1.TheModule = others F s.TheModule ∧ s.fresh ≤ s1.fresh ∧
      ∀ H ∈ s.TheModule, H.id = F → H.blocks.isEmpty = true) := by
  unfold FunctionDeclAST.Codegen at h
  split at h
  · rename_i G hG
    have hmem : G ∈ s.TheModule := by
      unfold getFunction at hG
      split at hG
      · cases hG
      · exact List.mem_of_find?_eq_some hG
    split at h
    · cases h
      exact ⟨fun _ => rfl, fun F hF => by cases hF⟩
    · rename_i hb
      split at h
      · cases h
        exact ⟨fun _ => rfl, fun F hF => by cases hF⟩
      · cases h
        refine ⟨fun hr => (by cases hr), fun F hF => ?_⟩
        cases hF
        refine ⟨rfl, le_refl _, fun H hH hid => ?_⟩
        have : H = G := List.inj_on_of_nodup_map hwf.1 hH hmem hid
        subst this
        simpa using hb
  · cases h
    refine ⟨fun hr => (by cases hr), fun F hF => ?_⟩
    cases hF
    refine ⟨?_, Nat.le_succ _, fun H hH hid => ?_⟩
    · unfold others
      simp [List.filter_append]
    · have h1 := (hwf.2 H hH).1
      simp only at hid
      omega

theorem others_Function_insert (F : Nat) (BB : BasicBlock) (s : State) :
    others F (Function_insert F BB s).TheModule = others F s.TheModule := by
  unfold Function_insert
  refine others_map F _ s.TheModule (fun G => ?_) fun G hG => ?_
  · split <;> rfl
  · unfold others at hG
    simp only [List.mem_filter, Bool.not_eq_true', decide_eq_false_iff_not] at hG
    rw [if_neg hG.2]

/-- C13: in a state whose objects are distinct and older than the counter,
whenever `FunctionDefnAST::Codegen` returns null the functions of the module
that have a body, and their bodies, are the ones from before the call, and
every function of the module was in it, as it is, before the call: what the
call built is gone. -/
theorem C13_failed_definition_leaves_no_body (d : FunctionDefnAST) (s s1 : State)
    (hwf : s.wf) (h : d.Codegen s = .ret none s1) :
    bodied s1.TheModule = bodied s.TheModule ∧ ∀ G ∈ s1.TheModule, G ∈ s.TheModule := by
  unfold FunctionDefnAST.Codegen at h
  cases hd : d.Func_Decl.Codegen { s with Named_Values := [] } with
  | ret r sA =>
    obtain ⟨hnone, hsome⟩ := FunctionDeclAST_Codegen_module (s := { s with Named_Values := [] })
      hwf hd
    rw [hd] at h
    simp only [Res.bind_ret] at h
    cases r with
    | none =>
      simp only at h
      cases h
      rw [hnone rfl]
      exact ⟨rfl, fun G hG => hG⟩
    | some F =>
      obtain ⟨ho, hfr, hbody⟩ := hsome F rfl
      simp only at h
      cases hr : register_precedence d.Func_Decl sA with
      | ret u sB =>
        obtain ⟨-, -, hB3, -, -, hB6, -⟩ := register_precedence_eq hr
        rw [hr] at h
        simp only [Res.bind_ret, BasicBlock_Create_in, BasicBlock_Create] at h
        have hI : Building F s.fresh (others F s.TheModule)
            (SetInsertPoint sB.fresh (Function_insert F ⟨sB.fresh, .entry, []⟩
              { sB with fresh := sB.fresh + 1 })) := by
          refine ⟨fun G hG => hwf.2 G (List.mem_of_mem_filter hG), ?_, ?_, fun BB hBB => ?_⟩
          · show others F (Function_insert F _ _).TheModule = _
            rw [others_Function_insert]
            show others F sB.TheModule = _
            rw [hB3, ho]
          · show s.fresh ≤ sB.fresh + 1
            rw [hB6]
            exact Nat.le_succ_of_le hfr
          · simp only [SetInsertPoint, Option.some.injEq] at hBB
            rw [← hBB, hB6]
            exact hfr
        cases hb : Codegen d.Body
            (SetInsertPoint sB.fresh (Function_insert F ⟨sB.fresh, .entry, []⟩
              { sB with fresh := sB.fresh + 1 })) with
        | ret RetVal sC =>
          have hC := Codegen_building d.Body _ F s.fresh _ hI RetVal sC hb
          rw [hb] at h
          simp only [Res.bind_ret] at h
          cases RetVal with
          | none =>
            simp only at h
            cases h
            have hm : (eraseFromParent F sC).TheModule = others F s.TheModule := hC.2.1
            rw [hm]
            exact ⟨bodied_others F s.TheModule hbody, fun G hG => List.mem_of_mem_filter hG⟩
          | some RetVal =>
            simp only at h
            cases hret : CreateRet RetVal sC with
            | ret v sD => rw [hret] at h; cases h
            | throws => rw [hret] at h; cases h
            | ub => rw [hret] at h; cases h
            | fuel => rw [hret] at h; cases h
        | throws => rw [hb] at h; cases h
        | ub => rw [hb] at h; cases h
        | fuel => rw [hb] at h; cases h
      | throws => rw [hr] at h; cases h
      | ub => rw [hr] at h; cases h
      | fuel => rw [hr] at h; cases h
  | throws => rw [hd] at h; cases h
  | ub => rw [hd] at h; cases h
  | fuel => rw [hd] at h; cases h

/-- The definition `def g(a) b`, whose body is an unbound name, lowered when
the module holds one function with a body: the call returns null and the
functions with a body are as before. -/
theorem C13_failed_definition_leaves_no_body_witness :
    ∃ s1, FunctionDefnAST.Codegen ⟨⟨[103], [[97]], false, 0⟩, .VariableAST [98]⟩ State.body =
        .ret none s1 ∧
      bodied s1.TheModule = bodied State.body.TheModule ∧
      bodied State.body.TheModule = [⟨0, [], 0, [⟨1, .entry, []⟩]⟩] := by
  have hwf : State.body.wf := by
    unfold State.wf Function.below
    simp [State.body, State.init, init_operator_precedence]
  have hv : (FunctionDefnAST.Codegen ⟨⟨[103], [[97]], false, 0⟩, .VariableAST [98]⟩
      State.body).val? = some none := by decide!
  cases hc : FunctionDefnAST.Codegen ⟨⟨[103], [[97]], false, 0⟩, .VariableAST [98]⟩
      State.body with
  | ret r s1 =>
    rw [hc] at hv
    simp only [Res.val?, Option.some.injEq] at hv
    subst hv
    exact ⟨s1, rfl, (C13_failed_definition_leaves_no_body _ State.body s1 hwf hc).1, by decide!⟩
  | throws => rw [hc] at hv; simp [Res.val?] at hv
  | ub => rw [hc] at hv; simp [Res.val?] at hv
  | fuel => rw [hc] at hv; simp [Res.val?] at hv

/-- The 32-bit sum of a bit pattern and 1. -/
theorem evalBinOp_add_one (k : Nat) :
    evalBinOp .Add 32 (k % 2 ^ 32) 1 = some ((k + 1) % 2 ^ 32) := by
  simp only [evalBinOp, wrap, Option.some.injEq]
  have h : ((k % 2 ^ 32 : Nat) : Int) + ((1 : Nat) : Int) = (((k % 2 ^ 32 + 1 : Nat)) : Int) := by
    push_cast; rfl
  rw [h]
  have h2 : ((2 : Int) ^ 32) = ((2 ^ 32 : Nat) : Int) := by norm_num
  rw [h2, ← Int.natCast_mod, Int.toNat_natCast]
  omega

/-- The phi node of the loop, entered from the loop block. -/
theorem forIR_phi (x y : Nat) :
    step [forIR] (.running ⟨forIR, [], 2, some 2, 0, [(5, x), (4, y)]⟩ []) =
      .running ⟨forIR, [], 2, some 2, 1, [(4, x), (5, x)]⟩ [] := by
  simp [step, Frame.fetch, forIR, Frame.operand, Frame.assign, map_find, map_assign, map_erase]

/-- The addition of the step. -/
theorem forIR_add (x v : Nat) (p : Option Nat) (e : List (Nat × Nat))
    (hv : evalBinOp .Add 32 x 1 = some v) (he : map_erase e 5 = []) :
    step [forIR] (.running ⟨forIR, [], 2, p, 1, (4, x) :: e⟩ []) =
      .running ⟨forIR, [], 2, p, 2, [(5, v), (4, x)]⟩ [] := by
  simp [step, Frame.fetch, forIR, Frame.operand, Frame.assign, map_find, map_assign, map_erase,
    hv] at he ⊢
  exact he

/-- The branch on the end condition, which the builder folded to true. -/
theorem forIR_condbr (p : Option Nat) (e : List (Nat × Nat)) :
    step [forIR] (.running ⟨forIR, [], 2, p, 2, e⟩ []) =
      .running ⟨forIR, [], 2, some 2, 0, e⟩ [] := by
  simp [step, Frame.fetch, forIR, Frame.operand, Frame.jump]

/-- The machine at the head of the loop block after `k + 1` turns. -/
theorem forIR_turns (k : Nat) :
    exec [forIR] 0 (3 * (k + 1) + 1) =
      .running ⟨forIR, [], 2, some 2, 0, [(5, (k + 1) % 2 ^ 32), (4, k % 2 ^ 32)]⟩ [] := by
  induction k with
  | zero => decide!
  | succ k ih =>
    have hn : 3 * (k + 1 + 1) + 1 = (3 * (k + 1) + 1) + 1 + 1 + 1 := by ring
    have hx : exec [forIR] 0 ((3 * (k + 1) + 1) + 1 + 1 + 1) =
        step [forIR] (step [forIR] (step [forIR] (exec [forIR] 0 (3 * (k + 1) + 1)))) := by
      simp only [exec, forIR, List.find?, decide_True, Option.bind, Function.enter,
        Function.iterate_succ_apply']
    rw [hn, hx, ih, forIR_phi,
      forIR_add _ _ _ _ (evalBinOp_add_one (k + 1)) (by simp [map_erase]), forIR_condbr]

/-- The machine just after the phi node, in turn `k + 1` of the loop. -/
theorem forIR_body (k : Nat) :
    exec [forIR] 0 (3 * k + 2) =
      .running ⟨forIR, [], 2, some (if k = 0 then 1 else 2), 1,
        if k = 0 then [(4, 0)] else [(4, k % 2 ^ 32), (5, k % 2 ^ 32)]⟩ [] := by
  cases k with
  | zero => decide!
  | succ k =>
    have hn : 3 * (k + 1) + 2 = (3 * (k + 1) + 1) + 1 := by ring
    have hx : exec [forIR] 0 ((3 * (k + 1) + 1) + 1) =
        step [forIR] (exec [forIR] 0 (3 * (k + 1) + 1)) := by
      simp only [exec, forIR, List.find?, decide_True, Option.bind, Function.enter,
        Function.iterate_succ_apply']
    rw [hn, hx, forIR_turns, forIR_phi]
    simp

/-- The loop of `forIR` is never left. -/
theorem forIR_stays (n : Nat) :
    ∃ fr, exec [forIR] 0 n = .running fr [] ∧ (fr.label = some .entry ∨ fr.label = some .loop) := by
  have hstep : ∀ n, exec [forIR] 0 (n + 1) = step [forIR] (exec [forIR] 0 n) := by
    intro n
    simp only [exec, forIR, List.find?, decide_True, Option.bind, Function.enter,
      Function.iterate_succ_apply']
  have hk : n = 0 ∨ n = 1 ∨ ∃ k, n = 3 * k + 2 ∨ n = (3 * k + 2) + 1 ∨ n = 3 * (k + 1) + 1 := by
    rcases Nat.lt_or_ge n 2 with h | h
    · omega
    · refine Or.inr (Or.inr ⟨(n - 2) / 3, ?_⟩)
      omega
  rcases hk with rfl | rfl | ⟨k, rfl | rfl | rfl⟩
  · exact ⟨⟨forIR, [], 1, none, 0, []⟩, by decide!, Or.inl (by decide!)⟩
  · exact ⟨⟨forIR, [], 2, some 1, 0, []⟩, by decide!, Or.inr (by decide!)⟩
  · exact ⟨_, forIR_body k, Or.inr rfl⟩
  · rw [hstep, forIR_body]
    by_cases h0 : k = 0
    · subst h0
      exact ⟨⟨forIR, [], 2, some 1, 2, [(5, 1), (4, 0)]⟩, by decide!, Or.inr (by decide!)⟩
    · simp only [h0, if_false]
      rw [forIR_add _ _ _ _ (evalBinOp_add_one k) (by simp [map_erase])]
      exact ⟨_, rfl, Or.inr rfl⟩
  · exact ⟨_, forIR_turns k, Or.inr rfl⟩

/-- C16, counterexample: `top_level_parser` on `for i = 0, 10 in i;` at the
start of a run returns a definition, `FunctionDefnAST::Codegen` lowers it to
the function 0, and the module then holds the function `forIR` alone; 32
instructions after the call of that function the loop block is in control
for the eleventh time, the loop variable (the phi node 4) having the value
10. -/
theorem C16_loop_takes_an_eleventh_turn :
    ((top_level_parse 20 (State.start [102, 111, 114, 32, 105, 32, 61, 32, 48, 44, 32, 49, 48,
        32, 105, 110, 32, 105, 59])).bind fun F s =>
      match F with
      | some F => (F.Codegen s).bind fun LF s1 => .ret (LF, s1.TheModule) s1
      | none => .throws).val? = some (some 0, [forIR]) ∧
    exec [forIR] 0 32 = .running ⟨forIR, [], 2, some 2, 1, [(4, 10), (5, 10)]⟩ [] :=
  ⟨by decide!, by decide!⟩

/-- C16, amended: in the IR emitted for `for i = 0, 10 in i;` the end
expression `10` is the condition of the back edge, which the builder folds to
true: the loop is never left. `top_level_parser` and
`FunctionDefnAST::Codegen` on the text at the start of a run give the
function `forIR`; for every `k` the loop block is in control for the turn `k
+ 1` after `3 * k + 2` instructions, with the loop variable equal to `k`
modulo `2 ^ 32`; and after any number of instructions the function is still
running, in its block `entry` or `loop`. -/
theorem C16_loop_never_left :
    ((top_level_parse 20 (State.start [102, 111, 114, 32, 105, 32, 61, 32, 48, 44, 32, 49, 48,
        32, 105, 110, 32, 105, 59])).bind fun F s =>
      match F with
      | some F => (F.Codegen s).bind fun LF s1 => .ret (LF, s1.TheModule) s1
      | none => .throws).val? = some (some 0, [forIR]) ∧
    (∀ k, ∃ fr, exec [forIR] 0 (3 * k + 2) = .running fr [] ∧ fr.label = some .loop ∧
      fr.pc = 1 ∧ map_find fr.env 4 = some (k % 2 ^ 32)) ∧
    (∀ n, ∃ fr, exec [forIR] 0 n = .running fr [] ∧
      (fr.label = some .entry ∨ fr.label = some .loop)) := by
  refine ⟨by decide!, fun k => ⟨_, forIR_body k, rfl, rfl, ?_⟩, forIR_stays⟩
  by_cases h0 : k = 0
  · subst h0; rfl
  · simp [h0, map_find]

/-- The driver does not come back from the call of `forIR`: whatever the
budget, a top-level expression lowered to the function `forIR` alone leaves
`HandleTopLevelExpression` without a return. -/
theorem HandleTopLevelExpression_forIR (n : Nat) (s sA s1 : State) (F : FunctionDefnAST)
    (hp : top_level_parse n s = .ret (some F) sA) (hc : F.Codegen sA = .ret (some 0) s1)
    (hm : s1.TheModule = [forIR]) : HandleTopLevelExpression n s = .fuel := by
  obtain ⟨fr, hfr, -⟩ := forIR_stays n
  unfold HandleTopLevelExpression
  rw [hp]
  simp only [Res.bind_ret, hc, hm, hfr]

/-- The run of the program on `for i = 0, 10 in i;` with the budget 20 is not
over when the budget is spent. -/
theorem run_forIR :
    run 20 [102, 111, 114, 32, 105, 32, 61, 32, 48, 44, 32, 49, 48, 32, 105, 110, 32, 105,
      59] = .fuel := by decide!

theorem map_below {N : Nat} {M : List Function} (f : Function → Function)
    (hM : ∀ G ∈ M, G.below N) (hf : ∀ G, G.below N → f G = G) : M.map f = M := by
  conv_rhs => rw [← List.map_id M]
  exact List.map_congr_left fun G hG => hf G (hM G hG)

/-- The parent of a new block is looked for in the last function, when the
functions before it are older. -/
theorem getParent_last {N BB : Nat} {M : List Function} (hM : ∀ G ∈ M, G.below N)
    (F : Function) (hN : N ≤ BB) :
    getParent (M ++ [F]) BB =
      if F.blocks.any (fun B => decide (B.id = BB)) then some F else none := by
  unfold getParent
  rw [List.find?_append]
  have : M.find? (fun G => G.blocks.any fun B => decide (B.id = BB)) = none := by
    rw [List.find?_eq_none]
    intro G hG
    simp only [List.any_eq_true, decide_eq_true_eq, not_exists, not_and]
    intro B hB
    have := ((hM G hG).2 B hB).1
    omega
  rw [this]
  simp only [Option.none_or, List.find?_cons, List.find?_nil]
  cases F.blocks.any fun B => decide (B.id = BB) <;> rfl

/-- An instruction inserted into a new block of the last function of the
module. -/
theorem Insert_last {N BB : Nat} {M : List Function} (hM : ∀ G ∈ M, G.below N)
    (F : Function) (inst : Inst) (lex : Lexer) (tok : Nat) (prec : List (Nat × Int))
    (nv : List (List Nat × Option Value)) (k : Nat) (hN : N ≤ BB) :
    Insert inst ⟨lex, tok, prec, M ++ [F], some BB, nv, k⟩ =
      if F.blocks.any (fun B => decide (B.id = BB)) then
        .ret (.Instruction k) ⟨lex, tok, prec, M ++ [Function.append BB ⟨k, inst⟩ F], some BB,
          nv, k + 1⟩
      else .ub := by
  unfold Insert
  simp only [getParent_last hM F hN]
  cases F.blocks.any fun B => decide (B.id = BB)
  · rfl
  · simp only [if_true, List.map_append, List.map_cons, List.map_nil]
    rw [map_below _ hM fun G hG => Function_append_below hG hN]

theorem Function_insert_last {N T : Nat} {M : List Function} (hM : ∀ G ∈ M, G.below N)
    (F : Function) (BB : BasicBlock) (lex : Lexer) (tok : Nat) (prec : List (Nat × Int))
    (b : Option Nat) (nv : List (List Nat × Option Value)) (k : Nat) (hT : F.id = T)
    (hN : N ≤ T) :
    Function_insert T BB ⟨lex, tok, prec, M ++ [F], b, nv, k⟩ =
      ⟨lex, tok, prec, M ++ [{ F with blocks := F.blocks ++ [BB] }], b, nv, k⟩ := by
  unfold Function_insert
  simp only [List.map_append, List.map_cons, List.map_nil, hT, if_true]
  rw [map_below _ hM fun G hG => by
    have := hG.1
    rw [if_neg (by omega)]]

theorem addIncoming_last {N id : Nat} {M : List Function} (hM : ∀ G ∈ M, G.below N)
    (F : Function) (V : Value) (BB : Nat) (lex : Lexer) (tok : Nat) (prec : List (Nat × Int))
    (b : Option Nat) (nv : List (List Nat × Option Value)) (k : Nat) (hN : N ≤ id) :
    addIncoming (.Instruction id) V BB ⟨lex, tok, prec, M ++ [F], b, nv, k⟩ =
      .ret () ⟨lex, tok, prec, M ++ [{ F with blocks := F.blocks.map fun B =>
        { B with insts := B.insts.map (Instr.addIncoming id V BB) } }], b, nv, k⟩ := by
  simp only [addIncoming, List.map_append, List.map_cons, List.map_nil]
  rw [map_below _ hM fun G hG => addIncoming_below hG hN]

set_option maxHeartbeats 1000000 in
/-- The function emitted for a conditional on literals. -/
theorem ifIR_emitted (c t e : Int) (s : State) (hM : ∀ G ∈ s.TheModule, G.below s.fresh) :
    FunctionDefnAST.Codegen
        ⟨⟨[], [], false, 0⟩, .ExprIfAST (.NumericAST c) (.NumericAST t) (.NumericAST e)⟩ s =
      .ret (some s.fresh) ⟨s.lex, s.Current_token, s.Operator_Precedence,
        s.TheModule ++ [ifIR s.fresh (wrap 32 c) (wrap 32 t) (wrap 32 e)], some (s.fresh + 4), [],
        s.fresh + 10⟩ := by
  simp only [FunctionDefnAST.Codegen, FunctionDeclAST.Codegen, getFunction, if_true,
    bind_arguments, register_precedence, FunctionDeclAST.isBinaryOp, Bool.false_and,
    Bool.false_eq_true, if_false, Res.bind_ret, BasicBlock_Create_in, BasicBlock_Create,
    List.length_nil]
  simp (disch := first | rfl | omega) [Function_insert_last hM, Insert_last hM,
    getParent_last hM, addIncoming_last hM,
    Codegen_ExprIf, Codegen_Numeric, Res.bind_ret, CreateICmp, FoldCmp, ConstantInt_get,
    SetInsertPoint, CreateCondBr, CreateBr, CreatePHI, CreateRet,
    BasicBlock_Create_in, BasicBlock_Create, Function.append, Instr.addIncoming, ifIR,
    Nat.add_assoc]

/-- The run of the conditional on literals: four instructions, then the
value of the arm chosen. -/
theorem ifIR_exec (N c t e : Nat) (M : List Function) (hM : ∀ G ∈ M, G.below N) :
    exec (M ++ [ifIR N c t e]) N 4 = .returned (if c ≠ 0 then t else e) := by
  have hfind : (M ++ [ifIR N c t e]).find? (fun G => decide (G.id = N)) =
      some (ifIR N c t e) := by
    rw [List.find?_append]
    have : M.find? (fun G => decide (G.id = N)) = none := by
      rw [List.find?_eq_none]
      intro G hG
      have := (hM G hG).1
      simp only [decide_eq_true_eq]
      omega
    rw [this]
    simp [ifIR]
  unfold exec
  rw [hfind]
  by_cases hc : c = 0
  · simp [hc, ifIR, Function.enter, Function.iterate_succ, step, Frame.fetch, Frame.operand,
      Frame.jump, Frame.assign, map_find, map_assign, map_erase]
  · simp [hc, ifIR, Function.enter, Function.iterate_succ, step, Frame.fetch, Frame.operand,
      Frame.jump, Frame.assign, map_find, map_assign, map_erase]

theorem signed_wrap (x : Int) (h1 : -2 ^ 31 ≤ x) (h2 : x < 2 ^ 31) :
    signed 32 (wrap 32 x) = x := by
  unfold signed wrap
  norm_num at h1 h2 ⊢
  split <;> omega

theorem wrap_eq_zero (x : Int) (h1 : -2 ^ 31 ≤ x) (h2 : x < 2 ^ 31) : wrap 32 x = 0 ↔ x = 0 := by
  unfold wrap
  norm_num at h1 h2 ⊢
  omega

/-- C18: for all values `c`, `t`, `e` of the type `int`, and in every state
whose objects are older than the counter, lowering the anonymous expression
`if c then t else e` on these literals returns a function whose call returns,
after four instructions, `t` when `c` is not 0 and `e` when it is. -/
theorem C18_conditional_on_literals (c t e : Int) (s : State) (hwf : s.wf)
    (hc : -2 ^ 31 ≤ c ∧ c < 2 ^ 31) (ht : -2 ^ 31 ≤ t ∧ t < 2 ^ 31)
    (he : -2 ^ 31 ≤ e ∧ e < 2 ^ 31) :
    ∃ F s1 v, FunctionDefnAST.Codegen
        ⟨⟨[], [], false, 0⟩, .ExprIfAST (.NumericAST c) (.NumericAST t) (.NumericAST e)⟩ s =
        .ret (some F) s1 ∧
      exec s1.TheModule F 4 = .returned v ∧ signed 32 v = if c ≠ 0 then t else e := by
  refine ⟨_, _, _, ifIR_emitted c t e s hwf.2, ifIR_exec _ _ _ _ _ hwf.2, ?_⟩
  have h0 := wrap_eq_zero c hc.1 hc.2
  by_cases hz : c = 0
  · simp only [h0.mpr hz, hz, ne_eq, not_true_eq_false, if_false]
    exact signed_wrap e he.1 he.2
  · have : wrap 32 c ≠ 0 := fun h => hz (h0.mp h)
    simp only [this, hz, ne_eq, not_false_eq_true, if_true]
    exact signed_wrap t ht.1 ht.2

/-- The two examples: `if 5 then 1 else 2` evaluates to 1 and `if 0 then 1 else
2` to 2, in the lowering of the tree and in the run of the program on the
text. -/
theorem C18_conditional_on_literals_witness :
    (∃ F s1 v, FunctionDefnAST.Codegen
        ⟨⟨[], [], false, 0⟩, .ExprIfAST (.NumericAST 5) (.NumericAST 1) (.NumericAST 2)⟩
        (State.init []) = .ret (some F) s1 ∧
      exec s1.TheModule F 4 = .returned v ∧ signed 32 v = 1) ∧
    ((run 20 [105, 102, 32, 53, 32, 116, 104, 101, 110, 32, 49, 32, 101, 108, 115, 101, 32, 50,
        59]).state?.map State.TheModule = some [ifIR 0 5 1 2] ∧
      exec [ifIR 0 5 1 2] 0 4 = .returned 1) ∧
    ((run 20 [105, 102, 32, 48, 32, 116, 104, 101, 110, 32, 49, 32, 101, 108, 115, 101, 32, 50,
        59]).state?.map State.TheModule = some [ifIR 0 0 1 2] ∧
      exec [ifIR 0 0 1 2] 0 4 = .returned 2) := by
  have hwf : (State.init []).wf := by
    unfold State.wf Function.below
    simp [State.init, init_operator_precedence]
  refine ⟨?_, ⟨by decide!, by decide!⟩, ⟨by decide!, by decide!⟩⟩
  simpa using C18_conditional_on_literals 5 1 2 (State.init []) hwf (by decide) (by decide)
    (by decide)

theorem Sat_mono {α : Type} {I J : State → Prop} {r : Res State α} (h : r.Sat I)
    (hIJ : ∀ s, I s → J s) : r.Sat J :=
  fun a s1 e => hIJ s1 (h a s1 e)

theorem below_mono {N K : Nat} {G : Function} (hG : G.below N) (hNK : N ≤ K) : G.below K :=
  ⟨by have := hG.1; omega, fun B hB =>
    ⟨by have := (hG.2 B hB).1; omega, fun i hi => by have := (hG.2 B hB).2 i hi; omega⟩⟩

/-- A change of the functions of a module that keeps their identities and
what they hold below the counter keeps the state well formed. -/
theorem wf_map {s : State} (f : Function → Function) (K : Nat) (hwf : s.wf)
    (hid : ∀ G, (f G).id = G.id) (hf : ∀ G, G.below s.fresh → (f G).below K)
    (lex : Lexer) (tok : Nat) (prec : List (Nat × Int)) (b : Option Nat)
    (nv : List (List Nat × Option Value)) :
    State.wf ⟨lex, tok, prec, s.TheModule.map f, b, nv, K⟩ := by
  refine ⟨?_, fun G hG => ?_⟩
  · have : (s.TheModule.map f).map (fun G => G.id) = s.TheModule.map fun G => G.id := by
      rw [List.map_map]
      exact List.map_congr_left fun G _ => hid G
    show ((s.TheModule.map f).map fun G => G.id).Nodup
    rw [this]
    exact hwf.1
  · obtain ⟨H, hH, rfl⟩ := List.mem_map.mp hG
    exact hf H (hwf.2 H hH)

theorem Function_append_below_succ {N BB : Nat} {inst : Inst} {G : Function}
    (hG : G.below N) : (Function.append BB ⟨N, inst⟩ G).below (N + 1) := by
  refine ⟨by have := hG.1; show G.id < N + 1; omega, fun B hB => ?_⟩
  simp only [Function.append, List.mem_map] at hB
  obtain ⟨B0, hB0, rfl⟩ := hB
  have h0 := hG.2 B0 hB0
  split
  · refine ⟨by show B0.id < N + 1; omega, fun i hi => ?_⟩
    simp only [List.mem_append, List.mem_singleton] at hi
    rcases hi with hi | rfl
    · have := h0.2 i hi; omega
    · show N < N + 1; omega
  · exact ⟨by omega, fun i hi => by have := h0.2 i hi; omega⟩

theorem Allocated_fresh {K : Nat} {s : State} (hs : Allocated K s) :
    Allocated K { s with fresh := s.fresh + 1 } :=
  ⟨⟨hs.1.1, fun G hG => below_mono (hs.1.2 G hG) (Nat.le_succ _)⟩, Nat.le_succ_of_le hs.2⟩

theorem Allocated_Named_Values {K : Nat} {s : State} (hs : Allocated K s)
    (m : List (List Nat × Option Value)) : Allocated K { s with Named_Values := m } := hs

theorem Allocated_SetInsertPoint {K : Nat} {s : State} (hs : Allocated K s) (BB : Nat) :
    Allocated K (SetInsertPoint BB s) := hs

theorem Allocated_Function_insert {K : Nat} {s : State} (hs : Allocated K s) (F : Nat)
    (BB : BasicBlock) (hBB : BB.id < s.fresh) (hi : BB.insts = []) :
    Allocated K (Function_insert F BB s) := by
  refine ⟨?_, hs.2⟩
  unfold Function_insert
  refine wf_map _ s.fresh hs.1 (fun G => ?_) (fun G hG => ?_) _ _ _ _ _
  · split <;> rfl
  · split
    · refine ⟨hG.1, fun B hB => ?_⟩
      simp only [List.mem_append, List.mem_singleton] at hB
      rcases hB with hB | rfl
      · exact hG.2 B hB
      · exact ⟨hBB, fun i hi2 => by rw [hi] at hi2; cases hi2⟩
    · exact hG

theorem Insert_Allocated {K : Nat} {inst : Inst} {s : State} (hs : Allocated K s) :
    (Insert inst s).Sat (Allocated K) := by
  intro v s1 h
  unfold Insert at h
  split at h
  · cases h
    exact Allocated_fresh hs
  · rename_i BB hB
    split at h
    · cases h
    · cases h
      exact ⟨wf_map (Function.append BB ⟨s.fresh, inst⟩) (s.fresh + 1) hs.1 (fun G => rfl)
        (fun G hG => Function_append_below_succ hG) _ _ _ _ _, Nat.le_succ_of_le hs.2⟩

theorem CreateBinOp_Allocated {K : Nat} {Opc : BinaryOps} {L R : Option Value} {s : State}
    (hs : Allocated K s) : (CreateBinOp Opc L R s).Sat (Allocated K) := by
  unfold CreateBinOp
  split
  · split
    · exact Sat_ret hs
    · exact Insert_Allocated hs
  · intro _ _ e; cases e

theorem CreateICmp_Allocated {K : Nat} {P : Predicate} {L R : Option Value} {s : State}
    (hs : Allocated K s) : (CreateICmp P L R s).Sat (Allocated K) := by
  unfold CreateICmp
  split
  · split
    · exact Sat_ret hs
    · exact Insert_Allocated hs
  · intro _ _ e; cases e

theorem CreateZExt_Allocated {K : Nat} {V : Value} {s : State} (hs : Allocated K s) :
    (CreateZExt V s).Sat (Allocated K) := by
  unfold CreateZExt
  split
  · exact Sat_ret hs
  · exact Sat_ret hs
  · exact Insert_Allocated hs

theorem CreateCall_Allocated {K : Nat} {G : Option Function} {Args : List (Option Value)}
    {s : State} (hs : Allocated K s) : (CreateCall G Args s).Sat (Allocated K) := by
  unfold CreateCall
  split
  · intro _ _ e; cases e
  · split
    · exact Insert_Allocated hs
    · intro _ _ e; cases e

theorem addIncoming_Allocated {K : Nat} {PN V : Value} {BB : Nat} {s : State}
    (hs : Allocated K s) : (addIncoming PN V BB s).Sat (Allocated K) := by
  intro u s1 h
  unfold addIncoming at h
  split at h
  · rename_i id
    cases h
    refine ⟨wf_map (fun F => { F with blocks := F.blocks.map fun B =>
      { B with insts := B.insts.map (Instr.addIncoming id V BB) } }) s.fresh hs.1
      (fun G => rfl) (fun G hG => ?_) _ _ _ _ _, hs.2⟩
    refine ⟨hG.1, fun B hB => ?_⟩
    simp only [List.mem_map] at hB
    obtain ⟨B0, hB0, rfl⟩ := hB
    refine ⟨(hG.2 B0 hB0).1, fun i hi => ?_⟩
    simp only [List.mem_map] at hi
    obtain ⟨i0, hi0, rfl⟩ := hi
    have := (hG.2 B0 hB0).2 i0 hi0
    unfold Instr.addIncoming
    split
    · split <;> exact this
    · exact this
  · cases h

mutual

/-- Lowering an expression keeps the objects of the state distinct and older
than the counter, and does not turn the counter back. -/
theorem Codegen_Allocated : ∀ (e : BaseAST) (s : State) (K : Nat),
    Allocated K s → (Codegen e s).Sat (Allocated K)
  | .NumericAST _, s, K, hs => by
    rw [Codegen_Numeric]; exact Sat_ret hs
  | .VariableAST _, s, K, hs => by
    rw [Codegen_Variable]; exact Sat_ret (Allocated_Named_Values hs _)
  | .ExprUnaryAST _ Operand, s, K, hs => by
    rw [Codegen_ExprUnary]
    refine Sat_bind (Codegen_Allocated Operand s K hs) fun V s hs => ?_
    split
    · exact Sat_ret hs
    · split
      · exact Sat_ret hs
      · exact Sat_bind (CreateCall_Allocated hs) fun _ _ h => Sat_ret h
  | .BinaryAST _ LHS RHS, s, K, hs => by
    rw [Codegen_Binary]
    refine Sat_bind (Codegen_Allocated LHS s K hs) fun L s hs => ?_
    refine Sat_bind (Codegen_Allocated RHS s K hs) fun R s hs => ?_
    split
    · intro _ _ e; cases e
    · split
      · exact Sat_bind (CreateBinOp_Allocated hs) fun _ _ h => Sat_ret h
      · split
        · exact Sat_bind (CreateBinOp_Allocated hs) fun _ _ h => Sat_ret h
        · split
          · exact Sat_bind (CreateBinOp_Allocated hs) fun _ _ h => Sat_ret h
          · split
            · exact Sat_bind (CreateBinOp_Allocated hs) fun _ _ h => Sat_ret h
            · split
              · refine Sat_bind (CreateICmp_Allocated hs) fun _ s hs => ?_
                exact Sat_bind (CreateZExt_Allocated hs) fun _ _ h => Sat_ret h
              · exact Sat_bind (CreateCall_Allocated hs) fun _ _ h => Sat_ret h
  | .ExprIfAST Cond Then Else, s, K, hs => by
    rw [Codegen_ExprIf]
    refine Sat_bind (Codegen_Allocated Cond s K hs) fun V s hs => ?_
    split
    · exact Sat_ret hs
    · refine Sat_bind (CreateICmp_Allocated hs) fun _ s hs => ?_
      split
      · intro _ _ e; cases e
      · rename_i TheFunc hTheFunc
        simp only [BasicBlock_Create_in, BasicBlock_Create]
        refine Sat_mono (I := Allocated (s.fresh + 3)) ?_ fun s1 h => ⟨h.1, by
          have := h.2; have := hs.2; omega⟩
        have h1 : Allocated (s.fresh + 1) (Function_insert TheFunc.id ⟨s.fresh, .then_, []⟩
            { s with fresh := s.fresh + 1 }) :=
          Allocated_Function_insert ⟨(Allocated_fresh hs).1, le_refl _⟩ _ _ (Nat.lt_succ_self _) rfl
        have h2 : Allocated (s.fresh + 3) _ := ⟨(Allocated_fresh (Allocated_fresh h1)).1, le_refl _⟩
        refine Sat_bind (Insert_Allocated h2) fun _ s2 hs2 => ?_
        refine Sat_bind (Codegen_Allocated Then _ _ (Allocated_SetInsertPoint hs2 _))
          fun V s3 hs3 => ?_
        split
        · exact Sat_ret hs3
        · refine Sat_bind (Insert_Allocated hs3) fun _ s4 hs4 => ?_
          split
          · intro _ _ e; cases e
          · refine Sat_bind (Codegen_Allocated Else _ _
              (Allocated_SetInsertPoint (Allocated_Function_insert hs4 _ _
                (by have := hs4.2; show s.fresh + 1 < s4.fresh; omega) rfl) _)) fun V s5 hs5 => ?_
            split
            · exact Sat_ret hs5
            · refine Sat_bind (Insert_Allocated hs5) fun _ s6 hs6 => ?_
              split
              · intro _ _ e; cases e
              · refine Sat_bind (Insert_Allocated
                  (Allocated_SetInsertPoint (Allocated_Function_insert hs6 _ _
                    (by have := hs6.2; show s.fresh + 1 + 1 < s6.fresh; omega) rfl) _))
                  fun PN s7 hs7 => ?_
                refine Sat_bind (addIncoming_Allocated hs7) fun _ s8 hs8 => ?_
                exact Sat_bind (addIncoming_Allocated hs8) fun _ _ h => Sat_ret h
  | .ExprForAST _ Start End Step Body, s, K, hs => by
    rw [Codegen_ExprFor]
    refine Sat_bind (Codegen_Allocated Start s K hs) fun V s hs => ?_
    split
    · exact Sat_ret hs
    · split
      · rename_i TheFunction PreheaderBB hTheFunction hPre
        simp only [BasicBlock_Create_in, BasicBlock_Create]
        have h1 : Allocated K (Function_insert TheFunction.id ⟨s.fresh, .loop, []⟩
            { s with fresh := s.fresh + 1 }) :=
          Allocated_Function_insert (Allocated_fresh hs) _ _ (Nat.lt_succ_self _) rfl
        refine Sat_bind (Insert_Allocated h1) fun _ s2 hs2 => ?_
        refine Sat_bind (Insert_Allocated (Allocated_SetInsertPoint hs2 _)) fun Var s3 hs3 => ?_
        refine Sat_bind (addIncoming_Allocated hs3) fun _ s4 hs4 => ?_
        refine Sat_bind (Codegen_Allocated Body _ K (Allocated_Named_Values hs4 _))
          fun V s5 hs5 => ?_
        split
        · exact Sat_ret hs5
        · refine Sat_bind ?_ fun StepVal s6 hs6 => ?_
          · cases Step with
            | none => rw [Codegen_Step_none]; exact Sat_ret hs5
            | some Step => rw [Codegen_Step_some]; exact Codegen_Allocated Step s5 K hs5
          · split
            · exact Sat_ret hs6
            · refine Sat_bind (CreateBinOp_Allocated hs6) fun _ s7 hs7 => ?_
              refine Sat_bind (Codegen_Allocated End s7 K hs7) fun V s8 hs8 => ?_
              split
              · exact Sat_ret hs8
              · refine Sat_bind (CreateICmp_Allocated hs8) fun _ s9 hs9 => ?_
                split
                · intro _ _ e; cases e
                · refine Sat_bind (Insert_Allocated
                    (Allocated_Function_insert (Allocated_fresh hs9) _ _
                      (Nat.lt_succ_self _) rfl)) fun _ s10 hs10 => ?_
                  refine Sat_bind (addIncoming_Allocated
                    (Allocated_SetInsertPoint hs10 _)) fun _ s11 hs11 => ?_
                  split <;> exact Sat_ret (Allocated_Named_Values hs11 _)
      · intro _ _ e; cases e
  | .FunctionCallAST _ Function_Arguments, s, K, hs => by
    rw [Codegen_FunctionCall]
    refine Sat_bind (Codegen_args_Allocated Function_Arguments [] s K hs) fun V s hs => ?_
    split
    · exact Sat_ret hs
    · exact Sat_bind (CreateCall_Allocated hs) fun _ _ h => Sat_ret h

/-- Lowering the arguments of a call keeps the objects of the state distinct
and older than the counter. -/
theorem Codegen_args_Allocated : ∀ (args : List BaseAST) (ArgsV : List (Option Value))
    (s : State) (K : Nat), Allocated K s → (Codegen_args args ArgsV s).Sat (Allocated K)
  | [], _, s, K, hs => by
    rw [Codegen_args_nil]; exact Sat_ret hs
  | Arg :: rest, ArgsV, s, K, hs => by
    rw [Codegen_args_cons]
    refine Sat_bind (Codegen_Allocated Arg s K hs) fun V s hs => ?_
    split
    · exact Sat_ret hs
    · exact Codegen_args_Allocated rest _ s K hs

end

theorem wf_of_back {s s1 : State} (h : s1.back = s.back) (hwf : s.wf) : s1.wf := by
  simp only [State.back, Prod.mk.injEq] at h
  unfold State.wf at hwf ⊢
  rw [h.1, h.2.2.2]
  exact hwf

theorem FunctionDeclAST_Codegen_wf {d : FunctionDeclAST} {s : State} (hwf : s.wf) :
    (d.Codegen s).Sat fun s1 => s1.wf ∧ s.fresh ≤ s1.fresh := by
  intro r s1 h
  unfold FunctionDeclAST.Codegen at h
  split at h
  · split at h
    · cases h; exact ⟨hwf, le_refl _⟩
    · split at h
      · cases h; exact ⟨hwf, le_refl _⟩
      · cases h; exact ⟨hwf, le_refl _⟩
  · cases h
    refine ⟨⟨?_, fun G hG => ?_⟩, Nat.le_succ _⟩
    · show ((s.TheModule ++ [_]).map fun G : Function => G.id).Nodup
      rw [List.map_append, List.nodup_append]
      refine ⟨hwf.1, List.nodup_singleton _, ?_⟩
      intro a ha hb
      simp only [List.map_cons, List.map_nil, List.mem_singleton] at hb
      obtain ⟨G, hG, rfl⟩ := List.mem_map.mp ha
      have := (hwf.2 G hG).1
      omega
    · have hG2 : G ∈ s.TheModule ++ [⟨s.fresh, d.Func_Name, d.Arguments.length, []⟩] := hG
      rcases List.mem_append.mp hG2 with hG3 | hG3
      · exact below_mono (hwf.2 G hG3) (Nat.le_succ _)
      · simp only [List.mem_singleton] at hG3
        subst hG3
        exact ⟨Nat.lt_succ_self _, fun B hB => by cases hB⟩

theorem eraseFromParent_wf {F : Nat} {s : State} (hwf : s.wf) : (eraseFromParent F s).wf := by
  refine ⟨?_, fun G hG => hwf.2 G (List.mem_of_mem_filter hG)⟩
  exact List.Nodup.sublist (List.Sublist.map _ (List.filter_sublist _)) hwf.1

/-- Lowering a definition keeps the objects of the state distinct and older
than the counter. -/
theorem FunctionDefnAST_Codegen_wf {d : FunctionDefnAST} {s : State} (hwf : s.wf) :
    (d.Codegen s).Sat State.wf := by
  unfold FunctionDefnAST.Codegen
  refine Sat_bind (I := State.wf)
    (Sat_mono (FunctionDeclAST_Codegen_wf (s := { s with Named_Values := [] }) hwf)
      fun _ h => h.1) fun TheFunction sA hA => ?_
  split
  · exact Sat_ret hA
  · rename_i F
    refine Sat_bind (I := State.wf) ?_ fun _ sB hB => ?_
    · intro u sB hr
      obtain ⟨-, -, h3, -, -, h6, -⟩ := register_precedence_eq hr
      unfold State.wf
      rw [h3, h6]
      exact hA
    · simp only [BasicBlock_Create_in, BasicBlock_Create]
      have h1 : Allocated 0 (SetInsertPoint sB.fresh (Function_insert F ⟨sB.fresh, .entry, []⟩
          { sB with fresh := sB.fresh + 1 })) :=
        Allocated_SetInsertPoint (Allocated_Function_insert
          (Allocated_fresh ⟨hB, Nat.zero_le _⟩) _ _ (Nat.lt_succ_self _) rfl) _
      refine Sat_bind (I := State.wf) (Sat_mono (Codegen_Allocated d.Body _ 0 h1) fun _ h => h.1)
        fun RetVal sC hC => ?_
      split
      · exact Sat_bind (Sat_mono (Insert_Allocated (K := 0) ⟨hC, Nat.zero_le _⟩) fun _ h => h.1)
          fun _ _ h => Sat_ret h
      · exact Sat_ret (eraseFromParent_wf hC)

/-- Every state the driver returns has its objects distinct and older than
the counter, when the state it starts from has. -/
theorem Driver_wf : ∀ (n : Nat) (s : State), s.wf → (Driver n s).Sat State.wf := by
  have hnext : ∀ s : State, s.wf → (next_token s).Sat State.wf := fun s hs t s1 h =>
    wf_of_back ((parse_keeps_back s.back).1 s rfl t s1 h) hs
  have hget : ∀ s : State, s.wf → (getBinOpPrecedence s).2.wf := fun s hs =>
    wf_of_back ((parse_keeps_back s.back).2 s rfl) hs
  intro n
  induction n with
  | zero => intro s _; exact Sat_fuel
  | succ n ih =>
    intro s hs
    obtain ⟨-, hdefn, htop⟩ := decl_parse_inv State.wf hnext hget n
    rw [Driver]
    split
    · exact Sat_ret hs
    · split
      · exact Sat_bind (hnext s hs) fun _ s1 h1 => ih s1 h1
      · split
        · refine Sat_bind ?_ fun _ s1 h1 => ih s1 h1
          unfold HandleDefn
          refine Sat_bind (hdefn s hs) fun F s1 h1 => ?_
          split
          · exact Sat_bind (FunctionDefnAST_Codegen_wf h1) fun _ _ h => Sat_ret h
          · exact Sat_bind (hnext s1 h1) fun _ _ h => Sat_ret h
        · refine Sat_bind ?_ fun _ s1 h1 => ih s1 h1
          unfold HandleTopLevelExpression
          refine Sat_bind (htop s hs) fun F s1 h1 => ?_
          split
          · refine Sat_bind (FunctionDefnAST_Codegen_wf h1) fun _ _ h => ?_
            intro a s2 e
            split at e
            · split at e
              · cases e
                exact h
              · cases e
              · cases e
            · cases e
              exact h
          · exact Sat_bind (hnext s1 h1) fun _ _ h => Sat_ret h

/-- The state in which a run of the program ends has its objects distinct and
older than the counter. -/
theorem run_wf (n : Nat) (input : List Nat) : (run n input).Sat State.wf := by
  have h0 : (State.init input).wf := by
    unfold State.wf Function.below
    simp [State.init, init_operator_precedence]
  unfold run
  exact Sat_bind (fun t s1 h =>
    wf_of_back ((parse_keeps_back (State.init input).back).1 _ rfl t s1 h) h0)
    fun _ s1 h1 => Driver_wf n s1 h1

/-- C22: `getBinOpPrecedence` on an ASCII token returns the value the table
holds for it when the value is positive, and -1 when the table holds no entry
for it or a value that is not positive; on a token that is not ASCII it
returns -1; and the state it leaves gives, for every token, the result the
state it found gives. -/
theorem C22_precedence_lookup (s : State) :
    (s.Current_token < 128 →
      (∀ v, map_find s.Operator_Precedence s.Current_token = some v → 0 < v →
        (getBinOpPrecedence s).1 = v) ∧
      (∀ v, map_find s.Operator_Precedence s.Current_token = some v → v ≤ 0 →
        (getBinOpPrecedence s).1 = -1) ∧
      (map_find s.Operator_Precedence s.Current_token = none →
        (getBinOpPrecedence s).1 = -1)) ∧
    (128 ≤ s.Current_token → (getBinOpPrecedence s).1 = -1) ∧
    (∀ tok, (getBinOpPrecedence { (getBinOpPrecedence s).2 with Current_token := tok }).1 =
      (getBinOpPrecedence { s with Current_token := tok }).1) := by
  refine ⟨fun hasc => ⟨fun v hv hpos => ?_, fun v hv hneg => ?_, fun hv => ?_⟩, fun hna => ?_,
    fun tok => ?_⟩
  · rw [getBinOpPrecedence_fst]
    simp [binPrec, precOf, hv, hasc, hpos]
  · rw [getBinOpPrecedence_fst]
    simp [binPrec, precOf, hv, hasc, not_lt.mpr hneg]
  · rw [getBinOpPrecedence_fst]
    simp [binPrec, precOf, hv]
  · rw [getBinOpPrecedence_fst]
    simp [binPrec, not_lt.mpr hna]
  · obtain ⟨m, hm, hm2⟩ := getBinOpPrecedence_snd s
    rw [getBinOpPrecedence_fst, getBinOpPrecedence_fst, hm]
    simp only [binPrec, hm2]

/-- C26: when the tokens to come are `a0 op1 a1 ... opn an t`, each `ai` a
number or a bare identifier, each `opi` an ASCII character with a positive
precedence in the table, `t` no binary operator, `expression_parser` returns a
tree whose tokens from left to right are exactly `a0 op1 a1 ... opn an`, and
leaves `t` as the current token, the lexer having delivered nothing beyond
it. -/
theorem C26_parse_keeps_the_tokens (s : State) (a0 : Atom) (rest : List (Nat × Atom))
    (t : Nat) (l1 : Lexer) (fuel : Nat)
    (hat : At s (a0.tok :: flat rest t) l1)
    (hops : ∀ e ∈ rest, e.1 < 128 ∧ 0 < precOf s.Operator_Precedence e.1)
    (ht : binPrec (precOf s.Operator_Precedence) t = -1)
    (hbare : BareSeq a0 rest t)
    (hfuel : rest.length + 4 ≤ fuel) :
    ∃ tree s1, expression_parse fuel s = .ret (some tree) s1 ∧
      inorder tree = a0.tok :: flatToks rest ∧ s1.Current_token = t ∧ s1.lex = l1 := by
  obtain ⟨tree, s1, h1, -, h3, h4, h5, -⟩ :=
    expression_parse_flat s a0 rest t l1 fuel hat hops ht hbare hfuel
  exact ⟨tree, s1, h1, h3, h4, h5⟩

/-- The hypotheses of C26 hold of the input `x*2+y-4;`, and so does its
conclusion. -/
theorem C26_parse_keeps_the_tokens_witness :
    ∃ tree s1, expression_parse 7 (State.start [120, 42, 50, 43, 121, 45, 52, 59]) =
        .ret (some tree) s1 ∧
      inorder tree = [.ident [120], .other 42, .num 2, .other 43, .ident [121], .other 45,
        .num 4] ∧ s1.Current_token = 59 ∧ s1.lex = ⟨[], none, 4, [121]⟩ :=
  C26_parse_keeps_the_tokens (State.start [120, 42, 50, 43, 121, 45, 52, 59]) (.var [120])
    [(42, .num 2), (43, .var [121]), (45, .num 4)] 59 ⟨[], none, 4, [121]⟩ 7
    ⟨rfl, rfl, rfl⟩ (by decide) (by decide) (by simp [BareSeq, BareRest, Atom.bare, nextCode])
    (by decide)

/-- A sequence that returns has a first part that returns. -/
theorem Res.bind_eq_ret {σ α β : Type} {r : Res σ α} {f : α → σ → Res σ β} {b : β} {s1 : σ}
    (h : r.bind f = .ret b s1) : ∃ a s, r = .ret a s ∧ f a s = .ret b s1 := by
  cases r with
  | ret a s => exact ⟨a, s, rfl, h⟩
  | throws => cases h
  | ub => cases h
  | fuel => cases h

/-- The loop over the arguments of a call, when it is not left early, has
lowered every argument to a value. -/
theorem Codegen_args_some : ∀ (args : List BaseAST) (acc : List (Option Value)) (s : State)
    (vs : List (Option Value)) (s1 : State),
    Codegen_args args acc s = .ret (some vs) s1 → acc.all Option.isSome = true →
    vs.all Option.isSome = true ∧ vs.length = acc.length + args.length
  | [], acc, s, vs, s1, h, hacc => by
    rw [Codegen_args_nil] at h
    cases h
    exact ⟨hacc, rfl⟩
  | Arg :: rest, acc, s, vs, s1, h, hacc => by
    rw [Codegen_args_cons] at h
    obtain ⟨V, sA, -, h2⟩ := Res.bind_eq_ret h
    cases V with
    | none => cases h2
    | some V =>
      obtain ⟨h3, h4⟩ := Codegen_args_some rest (acc ++ [some V]) sA vs s1 h2
        (by simp [List.all_append, hacc])
      exact ⟨h3, by simp at h4 ⊢; omega⟩

/-- `FunctionCallAST::Codegen` when the callee is found and the arguments
lower: one call with all the arguments, whatever the number of parameters of
the callee. -/
theorem FunctionCallAST_Codegen_emits (Function_Callee : List Nat)
    (Function_Arguments : List BaseAST) (s s1 : State) (F : Function)
    (ArgsV : List (Option Value))
    (hF : getFunction s.TheModule Function_Callee = some F)
    (hA : Codegen_args Function_Arguments [] s = .ret (some ArgsV) s1) :
    Codegen (.FunctionCallAST Function_Callee Function_Arguments) s =
      (Insert (.Call F.id (ArgsV.filterMap id)) s1).bind (fun V s2 => .ret (some V) s2) ∧
    (ArgsV.filterMap id).length = Function_Arguments.length := by
  obtain ⟨hall, hlen⟩ := Codegen_args_some _ _ _ _ _ hA rfl
  constructor
  · rw [Codegen_FunctionCall, hA]
    simp only [Res.bind_ret, hF, CreateCall, hall, if_true]
  · have : ∀ l : List (Option Value), l.all Option.isSome = true →
        (l.filterMap id).length = l.length := by
      intro l
      induction l with
      | nil => intro _; rfl
      | cons a l ih =>
        intro h
        simp only [List.all_cons, Bool.and_eq_true] at h
        cases a with
        | none => simp at h
        | some a => simp [List.filterMap_cons, ih h.2]
    rw [this ArgsV hall, hlen]
    simp

/-- C28 (the code departs from it): `FunctionCallAST::Codegen` never compares
the number of arguments with `CalleeF->arg_size()`: whenever the callee is
found and the arguments lower, one call is emitted with all of them, whatever
the number of parameters. After `def f(a) a;` the expression `f(1,2)` is
lowered to a call of the function of one parameter with two arguments. -/
theorem C28_call_arity_unchecked :
    (∀ (Function_Callee : List Nat) (Function_Arguments : List BaseAST) (s s1 : State)
      (F : Function) (ArgsV : List (Option Value)),
      getFunction s.TheModule Function_Callee = some F →
      Codegen_args Function_Arguments [] s = .ret (some ArgsV) s1 →
      Codegen (.FunctionCallAST Function_Callee Function_Arguments) s =
        (Insert (.Call F.id (ArgsV.filterMap id)) s1).bind (fun V s2 => .ret (some V) s2) ∧
      (ArgsV.filterMap id).length = Function_Arguments.length) ∧
    (run 20 [100, 101, 102, 32, 102, 40, 97, 41, 32, 97, 59, 32, 102, 40, 49, 44, 50, 41,
      59]).state?.map State.TheModule =
      some [⟨0, [102], 1, [⟨1, .entry, [⟨2, .Ret (.Argument 0 0)⟩]⟩]⟩,
        ⟨3, [], 0, [⟨4, .entry, [⟨5, .Call 0 [.ConstantInt 32 1, .ConstantInt 32 2]⟩,
          ⟨6, .Ret (.Instruction 5)⟩]⟩]⟩] :=
  ⟨fun Function_Callee Function_Arguments s s1 F ArgsV hF hA =>
      FunctionCallAST_Codegen_emits Function_Callee Function_Arguments s s1 F ArgsV hF hA,
    by decide!⟩

theorem FoldBinOp_isSome (Opc : BinaryOps) (L R : Value) :
    (FoldBinOp Opc L R).isSome = (L.isConstant && R.isConstant) := by
  cases L <;> cases R <;> simp [FoldBinOp, Value.isConstant]
  split <;> rfl

theorem FoldCmp_cases (L R : Value) :
    (FoldCmp .ICMP_ULT L R = none ∧ (L.isConstant && R.isConstant) = false) ∨
    ((L.isConstant && R.isConstant) = true ∧
      (FoldCmp .ICMP_ULT L R = some (.ConstantInt 1 0) ∨
        FoldCmp .ICMP_ULT L R = some (.ConstantInt 1 1) ∨
        FoldCmp .ICMP_ULT L R = some (.Poison 1))) := by
  cases L <;> cases R <;> simp [FoldCmp, Value.isConstant]
  rename_i b1 x b2 y
  by_cases h : x < y <;> simp [h]
  omega

theorem Insert_value {inst : Inst} {s s1 : State} {v : Value} (h : Insert inst s = .ret v s1) :
    v = .Instruction s.fresh := by
  unfold Insert at h
  split at h
  · cases h; rfl
  · split at h
    · cases h
    · cases h; rfl

/-- `BinaryAST::Codegen` on one of the operators `+ - * /`, both operands
lowered. -/
theorem BinaryAST_Codegen_arith (op : Nat) (Opc : BinaryOps) (LHS RHS : BaseAST)
    (s sA sB : State) (L R : Value)
    (hop : (op, Opc) ∈ [(43, BinaryOps.Add), (45, .Sub), (42, .Mul), (47, .SDiv)])
    (hL : Codegen LHS s = .ret (some L) sA) (hR : Codegen RHS sA = .ret (some R) sB) :
    Codegen (.BinaryAST (to_string op) LHS RHS) s =
      match FoldBinOp Opc L R with
      | some C => .ret (some C) sB
      | none => (Insert (.BinaryOperator Opc L R) sB).bind fun V s2 => .ret (some V) s2 := by
  rw [Codegen_Binary, hL]
  simp only [Res.bind_ret, hR]
  simp only [List.mem_cons, Prod.mk.injEq, List.mem_singleton, List.not_mem_nil, or_false] at hop
  rcases hop with ⟨rfl, rfl⟩ | ⟨rfl, rfl⟩ | ⟨rfl, rfl⟩ | ⟨rfl, rfl⟩
  · rw [stoi_to_string _ (by decide)]
    cases hf : FoldBinOp .Add L R <;> simp [CreateBinOp, hf]
  · rw [stoi_to_string _ (by decide)]
    cases hf : FoldBinOp .Sub L R <;> simp [CreateBinOp, hf]
  · rw [stoi_to_string _ (by decide)]
    cases hf : FoldBinOp .Mul L R <;> simp [CreateBinOp, hf]
  · rw [stoi_to_string _ (by decide)]
    cases hf : FoldBinOp .SDiv L R <;> simp [CreateBinOp, hf]

/-- `BinaryAST::Codegen` on the operator `<`, both operands lowered. -/
theorem BinaryAST_Codegen_less (LHS RHS : BaseAST) (s sA sB : State) (L R : Value)
    (hL : Codegen LHS s = .ret (some L) sA) (hR : Codegen RHS sA = .ret (some R) sB) :
    ((L.isConstant && R.isConstant) = false →
      Codegen (.BinaryAST (to_string 60) LHS RHS) s =
        (Insert (.ICmp .ICMP_ULT L R) sB).bind fun C s2 =>
          (Insert (.ZExt C) s2).bind fun V s3 => .ret (some V) s3) ∧
    ((L.isConstant && R.isConstant) = true →
      ∃ V, Codegen (.BinaryAST (to_string 60) LHS RHS) s = .ret (some V) sB ∧
        (V = .ConstantInt 32 0 ∨ V = .ConstantInt 32 1 ∨ V = .Poison 32)) := by
  have h0 : Codegen (.BinaryAST (to_string 60) LHS RHS) s =
      (CreateICmp .ICMP_ULT (some L) (some R) sB).bind fun L s =>
        (CreateZExt L s).bind fun V s => .ret (some V) s := by
    rw [Codegen_Binary, hL]
    simp only [Res.bind_ret, hR]
    rw [stoi_to_string _ (by decide)]
    rfl
  rw [h0]
  rcases FoldCmp_cases L R with ⟨h1, h2⟩ | ⟨h2, h1 | h1 | h1⟩
  · refine ⟨fun _ => ?_, fun h => by rw [h2] at h; cases h⟩
    simp only [CreateICmp, h1]
    cases hi : Insert (.ICmp .ICMP_ULT L R) sB with
    | ret C s2 =>
      rw [Insert_value hi]
      rfl
    | throws => rfl
    | ub => rfl
    | fuel => rfl
  · refine ⟨fun h => (by rw [h2] at h; cases h), fun _ => ⟨.ConstantInt 32 0, ?_, Or.inl rfl⟩⟩
    simp only [CreateICmp, h1]
    rfl
  · refine ⟨fun h => (by rw [h2] at h; cases h), fun _ => ⟨.ConstantInt 32 1, ?_, Or.inr (Or.inl rfl)⟩⟩
    simp only [CreateICmp, h1]
    rfl
  · refine ⟨fun h => (by rw [h2] at h; cases h), fun _ => ⟨.Poison 32, ?_, Or.inr (Or.inr rfl)⟩⟩
    simp only [CreateICmp, h1]
    rfl

/-- C25, counterexample: the expression `1+2` is lowered to no instruction at
all: the constant folder of the builder returns the constant 3, and the
function emitted for `1+2;` is the return of that constant. -/
theorem C25_constants_emit_no_instruction :
    (run 20 [49, 43, 50, 59]).state?.map State.TheModule =
      some [⟨0, [], 0, [⟨1, .entry, [⟨2, .Ret (.ConstantInt 32 3)⟩]⟩]⟩] := by
  decide!

/-- C25, amended: in every state, whatever functions the module holds,
lowering `BinaryOp(op, l, r)` with `op` among `+ - * / <` whose operands lower
to values emits no call. For `+ - * /` it inserts exactly one add, subtract,
multiply or signed-divide instruction when an operand is no constant, and
inserts nothing and returns the folded constant when both are constants. For
`<` it inserts exactly one unsigned less-than comparison and then one
zero-extension of it when an operand is no constant, and inserts nothing when
both are constants, the value returned being the constant 0 or 1 of type
`i32` (or poison). -/
theorem C25_builtin_operators (LHS RHS : BaseAST) (s sA sB : State) (L R : Value)
    (hL : Codegen LHS s = .ret (some L) sA) (hR : Codegen RHS sA = .ret (some R) sB) :
    (∀ op Opc, (op, Opc) ∈ [(43, BinaryOps.Add), (45, .Sub), (42, .Mul), (47, .SDiv)] →
      ((L.isConstant && R.isConstant) = false →
        Codegen (.BinaryAST (to_string op) LHS RHS) s =
          (Insert (.BinaryOperator Opc L R) sB).bind fun V s2 => .ret (some V) s2) ∧
      ((L.isConstant && R.isConstant) = true →
        ∃ C, FoldBinOp Opc L R = some C ∧ C.isConstant = true ∧
          Codegen (.BinaryAST (to_string op) LHS RHS) s = .ret (some C) sB)) ∧
    ((L.isConstant && R.isConstant) = false →
      Codegen (.BinaryAST (to_string 60) LHS RHS) s =
        (Insert (.ICmp .ICMP_ULT L R) sB).bind fun C s2 =>
          (Insert (.ZExt C) s2).bind fun V s3 => .ret (some V) s3) ∧
    ((L.isConstant && R.isConstant) = true →
      ∃ V, Codegen (.BinaryAST (to_string 60) LHS RHS) s = .ret (some V) sB ∧
        (V = .ConstantInt 32 0 ∨ V = .ConstantInt 32 1 ∨ V = .Poison 32)) := by
  refine ⟨fun op Opc hop => ?_, (BinaryAST_Codegen_less LHS RHS s sA sB L R hL hR).1,
    (BinaryAST_Codegen_less LHS RHS s sA sB L R hL hR).2⟩
  have h := BinaryAST_Codegen_arith op Opc LHS RHS s sA sB L R hop hL hR
  have hs := FoldBinOp_isSome Opc L R
  cases hf : FoldBinOp Opc L R with
  | none =>
    rw [hf] at h hs
    refine ⟨fun _ => h, fun hc => ?_⟩
    rw [hc] at hs
    cases hs
  | some C =>
    rw [hf] at h hs
    refine ⟨fun hc => ?_, fun _ => ⟨C, rfl, ?_, h⟩⟩
    · rw [hc] at hs
      cases hs
    · cases L <;> cases R <;> simp [FoldBinOp] at hf
      all_goals first
        | (split at hf <;> cases hf <;> rfl)
        | (cases hf; rfl)

/-- The body `x+y` of `def f(x y) x+y`, lowered in a module that holds a
function `binary+`: one add instruction, and no call. -/
theorem C25_builtin_operators_witness :
    Codegen (.BinaryAST (to_string 43) (.VariableAST [120]) (.VariableAST [121]))
        { State.body with
          TheModule := [⟨0, [98, 105, 110, 97, 114, 121, 43], 2, [⟨1, .entry, []⟩]⟩]
          Named_Values := [([120], some (.Argument 0 0)), ([121], some (.Argument 0 1))] } =
      .ret (some (.Instruction 2))
        { State.body with
          TheModule := [⟨0, [98, 105, 110, 97, 114, 121, 43], 2,
            [⟨1, .entry, [⟨2, .BinaryOperator .Add (.Argument 0 0) (.Argument 0 1)⟩]⟩]⟩]
          Named_Values := [([120], some (.Argument 0 0)), ([121], some (.Argument 0 1))]
          fresh := 3 } := by
  rw [((C25_builtin_operators (.VariableAST [120]) (.VariableAST [121])
    { State.body with
      TheModule := [⟨0, [98, 105, 110, 97, 114, 121, 43], 2, [⟨1, .entry, []⟩]⟩]
      Named_Values := [([120], some (.Argument 0 0)), ([121], some (.Argument 0 1))] }
    { State.body with
      TheModule := [⟨0, [98, 105, 110, 97, 114, 121, 43], 2, [⟨1, .entry, []⟩]⟩]
      Named_Values := [([120], some (.Argument 0 0)), ([121], some (.Argument 0 1))] }
    { State.body with
      TheModule := [⟨0, [98, 105, 110, 97, 114, 121, 43], 2, [⟨1, .entry, []⟩]⟩]
      Named_Values := [([120], some (.Argument 0 0)), ([121], some (.Argument 0 1))] }
    (.Argument 0 0) (.Argument 0 1) (by decide!) (by decide!)).1 43 .Add (by decide)).1 rfl]
  decide!

theorem binding_eq (s : State) (x : List Nat) :
    s.binding x = (map_find s.Named_Values x).join := by
  unfold State.binding map_index
  cases map_find s.Named_Values x <;> rfl

theorem binding_map_index (s : State) (k x : List Nat) :
    State.binding { s with Named_Values := (map_index none s.Named_Values k).2 } x =
      s.binding x := by
  rw [binding_eq, binding_eq]
  simp only
  unfold map_index
  cases h : map_find s.Named_Values k with
  | some v => rfl
  | none =>
    simp only [map_find]
    by_cases hk : k = x
    · subst hk; simp [h]
    · simp [hk]

theorem binding_map_assign (s : State) (m : List (List Nat × Option Value)) (k x : List Nat)
    (v : Option Value) :
    State.binding { s with Named_Values := map_assign m k v } x =
      if k = x then v else (map_find m x).join := by
  rw [binding_eq]
  simp only [map_assign, map_find]
  by_cases hk : k = x
  · simp [hk]
  · simp [hk, map_find_erase_other m k x hk]

theorem binding_map_erase (s : State) (m : List (List Nat × Option Value)) (k x : List Nat) :
    State.binding { s with Named_Values := map_erase m k } x =
      if k = x then none else (map_find m x).join := by
  rw [binding_eq]
  simp only
  by_cases hk : k = x
  · subst hk; simp [map_find_erase_same]
  · simp [hk, map_find_erase_other m k x hk]

theorem SatSome_ret_none {α : Type} {I : State → Prop} {s : State} :
    (Res.ret (none : Option α) s).SatSome I := by
  intro a s1 e; cases e

theorem SatSome_ret {α : Type} {I : State → Prop} {v : Option α} {s : State} (h : I s) :
    (Res.ret v s).SatSome I := by
  intro a s1 e; cases e; exact h

theorem SatSome_bind_opt {α β : Type} {I J : State → Prop} {r : Res State (Option α)}
    {k : Option α → State → Res State (Option β)} (h1 : r.SatSome I)
    (h2 : ∀ s, (k none s).SatSome J) (h3 : ∀ a s, I s → (k (some a) s).SatSome J) :
    (r.bind k).SatSome J := by
  intro b s1 e
  cases r with
  | ret a s =>
    cases a with
    | none => exact h2 s b s1 e
    | some a => exact h3 a s (h1 a s rfl) b s1 e
  | throws => cases e
  | ub => cases e
  | fuel => cases e

theorem SatSome_bind {α β : Type} {I J : State → Prop} {r : Res State α}
    {k : α → State → Res State (Option β)} (h1 : r.Sat I)
    (h2 : ∀ a s, I s → (k a s).SatSome J) : (r.bind k).SatSome J := by
  intro b s1 e
  cases r with
  | ret a s => exact h2 a s (h1 a s rfl) b s1 e
  | throws => cases e
  | ub => cases e
  | fuel => cases e

theorem SatSome_ub {α : Type} {I : State → Prop} : (Res.ub : Res State (Option α)).SatSome I := by
  intro a s1 e; cases e

theorem SatSome_throws {α : Type} {I : State → Prop} :
    (Res.throws : Res State (Option α)).SatSome I := by
  intro a s1 e; cases e

/-- The builder leaves `Named_Values`. -/
theorem Insert_Named_Values {inst : Inst} {s s1 : State} {v : Value}
    (h : Insert inst s = .ret v s1) : s1.Named_Values = s.Named_Values := by
  unfold Insert at h
  split at h
  · cases h; rfl
  · split at h
    · cases h
    · cases h; rfl

theorem CreateBinOp_Named_Values {Opc : BinaryOps} {L R : Option Value} {s s1 : State}
    {v : Value} (h : CreateBinOp Opc L R s = .ret v s1) : s1.Named_Values = s.Named_Values := by
  unfold CreateBinOp at h
  split at h
  · split at h
    · cases h; rfl
    · exact Insert_Named_Values h
  · cases h

theorem CreateICmp_Named_Values {P : Predicate} {L R : Option Value} {s s1 : State}
    {v : Value} (h : CreateICmp P L R s = .ret v s1) : s1.Named_Values = s.Named_Values := by
  unfold CreateICmp at h
  split at h
  · split at h
    · cases h; rfl
    · exact Insert_Named_Values h
  · cases h

theorem CreateZExt_Named_Values {V : Value} {s s1 : State} {v : Value}
    (h : CreateZExt V s = .ret v s1) : s1.Named_Values = s.Named_Values := by
  unfold CreateZExt at h
  split at h
  · cases h; rfl
  · cases h; rfl
  · exact Insert_Named_Values h

theorem CreateCall_Named_Values {F : Option Function} {Args : List (Option Value)}
    {s s1 : State} {v : Value} (h : CreateCall F Args s = .ret v s1) :
    s1.Named_Values = s.Named_Values := by
  unfold CreateCall at h
  split at h
  · cases h
  · split at h
    · exact Insert_Named_Values h
    · cases h

theorem addIncoming_Named_Values {PN V : Value} {BB : Nat} {s s1 : State} {u : Unit}
    (h : addIncoming PN V BB s = .ret u s1) : s1.Named_Values = s.Named_Values := by
  unfold addIncoming at h
  split at h
  · cases h; rfl
  · cases h

theorem SatSome_bind_keep {α β : Type} {L0 : List Nat → Option Value} {r : Res State α}
    {k : α → State → Res State (Option β)} {s : State}
    (h1 : ∀ a s1, r = .ret a s1 → s1.Named_Values = s.Named_Values) (hs : Bound L0 s)
    (h2 : ∀ a s1, Bound L0 s1 → (k a s1).SatSome (Bound L0)) :
    (r.bind k).SatSome (Bound L0) :=
  SatSome_bind (I := Bound L0)
    (fun a s1 e x => by
      have := hs x
      unfold State.binding at this ⊢
      rw [h1 a s1 e]
      exact this) h2

theorem SatSome_bind_shadow {α β : Type} {L0 L1 : List Nat → Option Value} {r : Res State α}
    {k : α → State → Res State (Option β)} {s : State}
    (h1 : ∀ a s1, r = .ret a s1 → s1.Named_Values = s.Named_Values) (hs : Bound L1 s)
    (h2 : ∀ a s1, Bound L1 s1 → (k a s1).SatSome (Bound L0)) :
    (r.bind k).SatSome (Bound L0) :=
  SatSome_bind (I := Bound L1)
    (fun a s1 e x => by
      have := hs x
      unfold State.binding at this ⊢
      rw [h1 a s1 e]
      exact this) h2

/-- The end of `BinaryAST::Codegen` leaves the bindings; with a null operand
it does not return. -/
theorem Binary_tail_Bound (Bin_Operator : List Nat) (L R : Option Value) (s : State)
    (L0 : List Nat → Option Value) (hs : L = none ∨ R = none ∨ Bound L0 s) :
    (match stoi Bin_Operator with
      | none => (Res.throws : Res State (Option Value))
      | some op =>
        if op = 43 then (CreateBinOp .Add L R s).bind fun V s => .ret (some V) s
        else if op = 45 then (CreateBinOp .Sub L R s).bind fun V s => .ret (some V) s
        else if op = 42 then (CreateBinOp .Mul L R s).bind fun V s => .ret (some V) s
        else if op = 47 then (CreateBinOp .SDiv L R s).bind fun V s => .ret (some V) s
        else if op = 60 then
          (CreateICmp .ICMP_ULT L R s).bind fun L s =>
          (CreateZExt L s).bind fun V s => .ret (some V) s
        else
          let F := getFunction s.TheModule ([98, 105, 110, 97, 114, 121] ++ Bin_Operator)
          (CreateCall F [L, R] s).bind fun V s => .ret (some V) s).SatSome (Bound L0) := by
  by_cases hn : L = none ∨ R = none
  · have hB : ∀ Opc, CreateBinOp Opc L R s = .ub := by
      intro Opc
      cases L <;> cases R <;> first | rfl | simp at hn
    have hI : ∀ P, CreateICmp P L R s = .ub := by
      intro P
      cases L <;> cases R <;> first | rfl | simp at hn
    have hC : ∀ F, CreateCall F [L, R] s = .ub := by
      intro F
      cases F with
      | none => rfl
      | some F => cases L <;> cases R <;> first | rfl | simp at hn
    simp only [hB, hI, hC, Res.bind]
    intro a s1 e
    split at e
    · cases e
    · split_ifs at e
  · have hs2 : Bound L0 s := by
      rcases hs with h | h | h
      · exact absurd (Or.inl h) hn
      · exact absurd (Or.inr h) hn
      · exact h
    split
    · exact SatSome_throws
    · split
      · exact SatSome_bind_keep (fun _ _ h => CreateBinOp_Named_Values h) hs2 fun _ _ h => SatSome_ret h
      · split
        · exact SatSome_bind_keep (fun _ _ h => CreateBinOp_Named_Values h) hs2 fun _ _ h => SatSome_ret h
        · split
          · exact SatSome_bind_keep (fun _ _ h => CreateBinOp_Named_Values h) hs2 fun _ _ h => SatSome_ret h
          · split
            · exact SatSome_bind_keep (fun _ _ h => CreateBinOp_Named_Values h) hs2 fun _ _ h => SatSome_ret h
            · split
              · refine SatSome_bind_keep (fun _ _ h => CreateICmp_Named_Values h) hs2 fun _ s hs => ?_
                exact SatSome_bind_keep (fun _ _ h => CreateZExt_Named_Values h) hs fun _ _ h => SatSome_ret h
              · exact SatSome_bind_keep (fun _ _ h => CreateCall_Named_Values h) hs2 fun _ _ h => SatSome_ret h

mutual

/-- Lowering an expression to a value leaves every name with the value it
had. -/
theorem Codegen_Bound : ∀ (e : BaseAST) (s : State) (L0 : List Nat → Option Value),
    Bound L0 s → (Codegen e s).SatSome (Bound L0)
  | .NumericAST _, s, L0, hs => by
    rw [Codegen_Numeric]; exact SatSome_ret hs
  | .VariableAST Var_Name, s, L0, hs => by
    rw [Codegen_Variable]
    exact SatSome_ret fun x => (binding_map_index s Var_Name x).trans (hs x)
  | .ExprUnaryAST _ Operand, s, L0, hs => by
    rw [Codegen_ExprUnary]
    refine SatSome_bind_opt (Codegen_Bound Operand s L0 hs) (fun _ => SatSome_ret_none)
      fun V s hs => ?_
    simp only
    split
    · exact SatSome_ret_none
    · exact SatSome_bind_keep (fun _ _ h => CreateCall_Named_Values h) hs fun _ _ h => SatSome_ret h
  | .BinaryAST Bin_Operator LHS RHS, s, L0, hs => by
    rw [Codegen_Binary]
    refine SatSome_bind_opt (Codegen_Bound LHS s L0 hs) (fun s => ?_) fun L s hs => ?_
    · intro b s1 e
      obtain ⟨R, sB, -, h3⟩ := Res.bind_eq_ret e
      exact Binary_tail_Bound Bin_Operator none R sB L0 (Or.inl rfl) b s1 h3
    · refine SatSome_bind_opt (Codegen_Bound RHS s L0 hs) (fun s => ?_) fun R s hs => ?_
      · exact Binary_tail_Bound Bin_Operator (some L) none s L0 (Or.inr (Or.inl rfl))
      · exact Binary_tail_Bound Bin_Operator (some L) (some R) s L0 (Or.inr (Or.inr hs))
  | .ExprIfAST Cond Then Else, s, L0, hs => by
    rw [Codegen_ExprIf]
    refine SatSome_bind_opt (Codegen_Bound Cond s L0 hs) (fun _ => SatSome_ret_none)
      fun V s hs => ?_
    refine SatSome_bind_keep (fun _ _ h => CreateICmp_Named_Values h) hs fun _ s hs => ?_
    split
    · exact SatSome_ub
    · simp only [BasicBlock_Create_in, BasicBlock_Create]
      refine SatSome_bind_keep (fun _ _ h => Insert_Named_Values h) hs fun _ s2 hs2 => ?_
      refine SatSome_bind_opt (Codegen_Bound Then (SetInsertPoint _ s2) L0 hs2)
        (fun _ => SatSome_ret_none) fun V s3 hs3 => ?_
      refine SatSome_bind_keep (fun _ _ h => Insert_Named_Values h) hs3 fun _ s4 hs4 => ?_
      split
      · exact SatSome_ub
      · refine SatSome_bind_opt (Codegen_Bound Else
          (SetInsertPoint _ (Function_insert _ _ s4)) L0 hs4)
          (fun _ => SatSome_ret_none) fun V s5 hs5 => ?_
        refine SatSome_bind_keep (fun _ _ h => Insert_Named_Values h) hs5 fun _ s6 hs6 => ?_
        split
        · exact SatSome_ub
        · refine SatSome_bind_keep (s := SetInsertPoint _ (Function_insert _ _ s6))
            (fun _ _ h => Insert_Named_Values h) hs6 fun PN s7 hs7 => ?_
          refine SatSome_bind_keep (fun _ _ h => addIncoming_Named_Values h) hs7 fun _ s8 hs8 => ?_
          exact SatSome_bind_keep (fun _ _ h => addIncoming_Named_Values h) hs8 fun _ _ h =>
            SatSome_ret h
  | .ExprForAST Var_Name Start End Step Body, s, L0, hs => by
    rw [Codegen_ExprFor]
    refine SatSome_bind_opt (Codegen_Bound Start s L0 hs) (fun _ => SatSome_ret_none)
      fun V s hs => ?_
    simp only
    split
    · simp only [BasicBlock_Create_in, BasicBlock_Create]
      refine SatSome_bind_keep (fun _ _ h => Insert_Named_Values h) hs fun _ s2 hs2 => ?_
      refine SatSome_bind_keep (fun _ _ h => Insert_Named_Values h) hs2
        fun Var s3 hs3 => ?_
      refine SatSome_bind_keep (fun _ _ h => addIncoming_Named_Values h) hs3 fun _ s4 hs4 => ?_
      have h1 : Bound (fun x => if Var_Name = x then some Var else L0 x)
          { s4 with Named_Values :=
            map_assign (map_index none s4.Named_Values Var_Name).2 Var_Name (some Var) } := by
        intro x
        rw [binding_map_assign]
        by_cases hx : Var_Name = x
        · simp [hx]
        · simp only [hx, if_false]
          have := binding_map_index s4 Var_Name x
          rw [binding_eq] at this
          rw [this]
          exact hs4 x
      have hold : (map_index none s4.Named_Values Var_Name).1 = L0 Var_Name := hs4 Var_Name
      refine SatSome_bind_opt (Codegen_Bound Body _ _ h1) (fun _ => SatSome_ret_none)
        fun V s5 hs5 => ?_
      refine SatSome_bind_opt (I := Bound (fun x => if Var_Name = x then some Var else L0 x))
        (J := Bound L0) ?_ (fun _ => SatSome_ret_none) fun StepVal s6 hs6 => ?_
      · cases Step with
        | none => rw [Codegen_Step_none]; exact SatSome_ret hs5
        | some Step => rw [Codegen_Step_some]; exact Codegen_Bound Step s5 _ hs5
      · refine SatSome_bind_shadow (fun _ _ h => CreateBinOp_Named_Values h) hs6 fun _ s7 hs7 => ?_
        refine SatSome_bind_opt (Codegen_Bound End s7 _ hs7) (fun _ => SatSome_ret_none)
          fun V s8 hs8 => ?_
        refine SatSome_bind_shadow (fun _ _ h => CreateICmp_Named_Values h) hs8 fun _ s9 hs9 => ?_
        split
        · exact SatSome_ub
        · refine SatSome_bind_shadow (fun _ _ h => Insert_Named_Values h) hs9
            fun _ s10 hs10 => ?_
          refine SatSome_bind_shadow (fun _ _ h => addIncoming_Named_Values h) hs10
            fun _ s11 hs11 => ?_
          split
          · rename_i OldVal hOld
            refine SatSome_ret fun x => ?_
            rw [binding_map_assign]
            by_cases hx : Var_Name = x
            · subst hx
              simp only [if_true]
              rw [← hold, hOld]
            · have := hs11 x
              rw [binding_eq] at this
              simp only [hx, if_false] at this ⊢
              exact this
          · rename_i hOld
            refine SatSome_ret fun x => ?_
            rw [binding_map_erase]
            by_cases hx : Var_Name = x
            · subst hx
              simp only [if_true]
              rw [← hold, hOld]
            · have := hs11 x
              rw [binding_eq] at this
              simp only [hx, if_false] at this ⊢
              exact this
    · exact SatSome_ub
  | .FunctionCallAST _ Function_Arguments, s, L0, hs => by
    rw [Codegen_FunctionCall]
    refine SatSome_bind_opt (Codegen_args_Bound Function_Arguments [] s L0 hs)
      (fun _ => SatSome_ret_none) fun V s hs => ?_
    exact SatSome_bind_keep (fun _ _ h => CreateCall_Named_Values h) hs fun _ _ h => SatSome_ret h

/-- Lowering the arguments of a call to values leaves every name with the
value it had. -/
theorem Codegen_args_Bound : ∀ (args : List BaseAST) (ArgsV : List (Option Value))
    (s : State) (L0 : List Nat → Option Value),
    Bound L0 s → (Codegen_args args ArgsV s).SatSome (Bound L0)
  | [], _, s, L0, hs => by
    rw [Codegen_args_nil]; exact SatSome_ret hs
  | Arg :: rest, ArgsV, s, L0, hs => by
    rw [Codegen_args_cons]
    refine SatSome_bind_opt (Codegen_Bound Arg s L0 hs) (fun _ => SatSome_ret_none)
      fun V s hs => ?_
    exact Codegen_args_Bound rest _ s L0 hs

end

/-- C24: whenever lowering an expression returns a value, every name has in
`Named_Values` the value it had before (null for a name with no entry or a
null one): a loop gives its variable the value it had, or takes the entry
away when there was none. -/
theorem C24_environment_restored (e : BaseAST) (s s1 : State) (v : Value)
    (h : Codegen e s = .ret (some v) s1) : ∀ x, s1.binding x = s.binding x :=
  Codegen_Bound e s s.binding (fun _ => rfl) v s1 h

/-- The loop `for i = 0, 10 in i` lowered where `i` is the first parameter and
`j` is unbound: afterwards `i` is the parameter again, `j` is unbound, and the
map is the one from before. -/
theorem C24_environment_restored_witness :
    ∃ v s1, Codegen (.ExprForAST [105] (.NumericAST 0) (.NumericAST 10) none (.VariableAST [105]))
        { State.body with Named_Values := [([105], some (.Argument 0 0))] } = .ret (some v) s1 ∧
      s1.binding [105] = some (.Argument 0 0) ∧ s1.binding [106] = none ∧
      s1.Named_Values = [([105], some (.Argument 0 0))] := by
  have hv : ((Codegen (.ExprForAST [105] (.NumericAST 0) (.NumericAST 10) none
      (.VariableAST [105]))
        { State.body with Named_Values := [([105], some (.Argument 0 0))] }).val?.bind
          id).isSome = true ∧
      (Codegen (.ExprForAST [105] (.NumericAST 0) (.NumericAST 10) none (.VariableAST [105]))
        { State.body with Named_Values := [([105], some (.Argument 0 0))] }).state?.map
          State.Named_Values = some [([105], some (.Argument 0 0))] := by decide!
  cases hc : Codegen (.ExprForAST [105] (.NumericAST 0) (.NumericAST 10) none
      (.VariableAST [105]))
        { State.body with Named_Values := [([105], some (.Argument 0 0))] } with
  | ret v s1 =>
    rw [hc] at hv
    cases v with
    | none => simp [Res.val?] at hv
    | some v =>
      have h := C24_environment_restored _ _ s1 v hc
      refine ⟨v, s1, rfl, (h [105]).trans (by decide!), (h [106]).trans (by decide!), ?_⟩
      simpa [Res.state?] using hv.2
  | throws => rw [hc] at hv; simp [Res.val?] at hv
  | ub => rw [hc] at hv; simp [Res.val?] at hv
  | fuel => rw [hc] at hv; simp [Res.val?] at hv

/-- The loop over white space, on the characters to come. -/
theorem skip_space_rest : ∀ (f : List Nat) (lc : Nat),
    (skip_space (some lc) f).1 =
        ((lc :: f.map (· % 256)).dropWhile fun c => isspace (some c)).head? ∧
      (skip_space (some lc) f).2.map (· % 256) =
        ((lc :: f.map (· % 256)).dropWhile fun c => isspace (some c)).tail
  | [], lc => by
    by_cases h : isspace (some lc) = true <;> simp [skip_space, h, List.dropWhile]
  | x :: f, lc => by
    by_cases h : isspace (some lc) = true
    · have ih := skip_space_rest f (x % 256)
      simpa [skip_space, h, List.dropWhile] using ih
    · simp [skip_space, h, List.dropWhile]

/-- The loop that collects an identifier, on the characters to come. -/
theorem read_alnum_rest : ∀ (f acc : List Nat),
    (read_alnum f acc).1 = acc ++ (f.map (· % 256)).takeWhile isalnum ∧
    Lexer.pending ⟨(read_alnum f acc).2.2, (read_alnum f acc).2.1, 0, []⟩ =
      (f.map (· % 256)).dropWhile isalnum
  | [], acc => by simp [read_alnum, Lexer.pending]
  | x :: f, acc => by
    by_cases h : isalnum (x % 256) = true
    · have ih := read_alnum_rest f (acc ++ [x % 256])
      simpa [read_alnum, h, List.takeWhile, List.dropWhile] using ih
    · simp [read_alnum, h, List.takeWhile, List.dropWhile, Lexer.pending]

/-- The loop that collects a number, on the characters to come. -/
theorem read_digits_rest : ∀ (f acc : List Nat),
    (read_digits f acc).1 = acc ++ (f.map (· % 256)).takeWhile isdigit ∧
    Lexer.pending ⟨(read_digits f acc).2.2, (read_digits f acc).2.1, 0, []⟩ =
      (f.map (· % 256)).dropWhile isdigit
  | [], acc => by simp [read_digits, Lexer.pending]
  | x :: f, acc => by
    by_cases h : isdigit (x % 256) = true
    · have ih := read_digits_rest f (acc ++ [x % 256])
      simpa [read_digits, h, List.takeWhile, List.dropWhile] using ih
    · simp [read_digits, h, List.takeWhile, List.dropWhile, Lexer.pending]

/-- The loop over a comment, on the characters to come; it consumes a
character at least when it finds a line end. -/
theorem skip_comment_rest : ∀ (f : List Nat),
    Lexer.pending ⟨(skip_comment f).2, (skip_comment f).1, 0, []⟩ =
        (f.map (· % 256)).dropWhile (fun c => !decide (c = 10 ∨ c = 13)) ∧
      ((skip_comment f).1 ≠ none → (skip_comment f).2.length < f.length)
  | [] => by simp [skip_comment, Lexer.pending]
  | x :: f => by
    by_cases h : x % 256 = 10 ∨ x % 256 = 13
    · simp [skip_comment, h, List.dropWhile, Lexer.pending]
    · have ih := skip_comment_rest f
      simp only [skip_comment, h, if_false, List.map_cons, List.dropWhile, decide_False,
        Bool.not_false]
      exact ⟨ih.1, fun hne => Nat.lt_succ_of_lt (ih.2 hne)⟩

theorem skip_space_length : ∀ (f : List Nat) (lc : Option Nat),
    (skip_space lc f).2.length ≤ f.length
  | [], lc => by by_cases h : isspace lc = true <;> simp [skip_space, h]
  | x :: f, lc => by
    by_cases h : isspace lc = true
    · have ih := skip_space_length f (some (x % 256))
      simp only [skip_space, h, if_true, List.length_cons]
      omega
    · simp [skip_space, h]

/-- A budget above the number of unread bytes is as good as any other. -/
theorem get_token_aux_budget : ∀ (n m : Nat) (l : Lexer), l.file.length < n →
    l.file.length < m → get_token_aux n l = get_token_aux m l
  | 0, _, _, h, _ => by omega
  | _ + 1, 0, _, _, h => by omega
  | n + 1, m + 1, l, hn, hm => by
    have hsl := skip_space_length l.file l.LastChar
    rw [get_token_aux, get_token_aux]
    rcases hs : skip_space l.LastChar l.file with ⟨r, f1⟩
    rw [hs] at hsl
    simp only at hsl
    cases r with
    | none => rfl
    | some c =>
      simp only
      split
      · rfl
      · split
        · rfl
        · split
          · have hc := (skip_comment_rest f1).2
            rcases hsc : skip_comment f1 with ⟨r2, f2⟩
            rw [hsc] at hc
            cases r2 with
            | none => rfl
            | some lc =>
              simp only at hc ⊢
              have := hc (by simp)
              exact get_token_aux_budget n m _ (by simp only; omega) (by simp only; omega)
          · rfl

/-- The first character that is no white space, as `get_token` finds it. -/
theorem skip_space_of_rest (l : Lexer) :
    (l.rest = [] → ∃ f1, skip_space l.LastChar l.file = (none, f1)) ∧
    (∀ c tail, l.rest = c :: tail → ∃ f1, skip_space l.LastChar l.file = (some c, f1) ∧
      f1.map (· % 256) = tail ∧ f1.length ≤ l.file.length) := by
  have hsl := skip_space_length l.file l.LastChar
  cases hl : l.LastChar with
  | none =>
    refine ⟨fun _ => ⟨l.file, ?_⟩, fun c tail h => ?_⟩
    · cases l.file <;> simp [skip_space, isspace]
    · simp [Lexer.rest, Lexer.pending, hl] at h
  | some lc =>
    obtain ⟨h1, h2⟩ := skip_space_rest l.file lc
    have hr : l.rest = (lc :: l.file.map (· % 256)).dropWhile fun c => isspace (some c) := by
      simp [Lexer.rest, Lexer.pending, hl]
    rw [← hr] at h1 h2
    rw [hl] at hsl
    rcases hs : skip_space (some lc) l.file with ⟨r, f1⟩
    rw [hs] at h1 h2 hsl
    simp only at h1 h2 hsl
    refine ⟨fun h => ⟨f1, ?_⟩, fun c tail h => ⟨f1, ?_, ?_, hsl⟩⟩
    · rw [h] at h1
      simp at h1
      rw [h1]
    · rw [h] at h1
      simp at h1
      rw [h1]
    · rw [h] at h2
      simpa using h2

/-- `get_token` at the end of the text. -/
theorem get_token_end (l : Lexer) (h : l.rest = []) :
    ∃ l1, get_token l = .ret EOF_TOKEN l1 ∧ l1.pending = [] ∧
      l1.Numeric_Val = l.Numeric_Val ∧ l1.Identifier_string = l.Identifier_string := by
  obtain ⟨f1, hs⟩ := (skip_space_of_rest l).1 h
  exact ⟨{ l with LastChar := none, file := f1 }, by simp [get_token, get_token_aux, hs], rfl,
    rfl, rfl⟩

/-- `get_token` at a letter. -/
theorem get_token_letter (l : Lexer) (c : Nat) (tail : List Nat) (h : l.rest = c :: tail)
    (hc : isalpha c = true) :
    ∃ l1, get_token l = .ret (keyword (c :: tail.takeWhile isalnum)) l1 ∧
      l1.pending = tail.dropWhile isalnum ∧ l1.Numeric_Val = l.Numeric_Val ∧
      l1.Identifier_string = c :: tail.takeWhile isalnum := by
  obtain ⟨f1, hs, hf1, -⟩ := (skip_space_of_rest l).2 c tail h
  obtain ⟨h1, h2⟩ := read_alnum_rest f1 [c]
  rw [hf1] at h1 h2
  rcases hr : read_alnum f1 [c] with ⟨id, lc, f2⟩
  rw [hr] at h1 h2
  simp only [List.singleton_append] at h1 h2
  subst h1
  exact ⟨{ l with Identifier_string := c :: tail.takeWhile isalnum, LastChar := lc, file := f2 },
    by simp [get_token, get_token_aux, hs, hc, hr], h2, rfl, rfl⟩

/-- `get_token` at a digit. -/
theorem get_token_digit (l : Lexer) (c : Nat) (tail : List Nat) (h : l.rest = c :: tail)
    (hc : isalpha c = false) (hd : isdigit c = true) :
    (stoi (c :: tail.takeWhile isdigit) = none → get_token l = .throws) ∧
    (∀ v, stoi (c :: tail.takeWhile isdigit) = some v →
      ∃ l1, get_token l = .ret NUMERIC_TOKEN l1 ∧ l1.pending = tail.dropWhile isdigit ∧
        l1.Numeric_Val = v ∧ l1.Identifier_string = l.Identifier_string) := by
  obtain ⟨f1, hs, hf1, -⟩ := (skip_space_of_rest l).2 c tail h
  obtain ⟨h1, h2⟩ := read_digits_rest f1 [c]
  rw [hf1] at h1 h2
  rcases hr : read_digits f1 [c] with ⟨NumStr, lc, f2⟩
  rw [hr] at h1 h2
  simp only [List.singleton_append] at h1 h2
  subst h1
  refine ⟨fun hv => ?_, fun v hv => ⟨{ l with Numeric_Val := v, LastChar := lc, file := f2 }, ?_,
    h2, rfl, rfl⟩⟩
  · simp [get_token, get_token_aux, hs, hc, hd, hr, hv]
  · simp [get_token, get_token_aux, hs, hc, hd, hr, hv]

/-- `get_token` at a `#`: the end of the text when no line end follows, and
otherwise what `get_token` gives from the line end on. -/
theorem get_token_comment (l : Lexer) (tail : List Nat) (h : l.rest = 35 :: tail) :
    (tail.dropWhile (fun c => !decide (c = 10 ∨ c = 13)) = [] →
      ∃ l1, get_token l = .ret EOF_TOKEN l1 ∧ l1.pending = [] ∧
        l1.Numeric_Val = l.Numeric_Val ∧ l1.Identifier_string = l.Identifier_string) ∧
    (tail.dropWhile (fun c => !decide (c = 10 ∨ c = 13)) ≠ [] →
      ∃ l2, get_token l = get_token l2 ∧
        l2.pending = tail.dropWhile (fun c => !decide (c = 10 ∨ c = 13)) ∧
        l2.Numeric_Val = l.Numeric_Val ∧ l2.Identifier_string = l.Identifier_string) := by
  obtain ⟨f1, hs, hf1, hlen⟩ := (skip_space_of_rest l).2 35 tail h
  obtain ⟨h1, h2⟩ := skip_comment_rest f1
  rw [hf1] at h1
  rcases hr : skip_comment f1 with ⟨lc, f2⟩
  rw [hr] at h1 h2
  simp only at h1 h2
  have ha : isalpha 35 = false := by decide
  have hd : isdigit 35 = false := by decide
  cases lc with
  | none =>
    have hp : tail.dropWhile (fun c => !decide (c = 10 ∨ c = 13)) = [] := by
      rw [← h1]; rfl
    refine ⟨fun _ => ⟨{ l with LastChar := none, file := f2 }, ?_, rfl, rfl, rfl⟩,
      fun hne => absurd hp hne⟩
    simp [get_token, get_token_aux, hs, ha, hd, hr]
  | some lc =>
    have hp : tail.dropWhile (fun c => !decide (c = 10 ∨ c = 13)) =
        lc :: f2.map (· % 256) := by
      rw [← h1]; rfl
    have hlt := h2 (by simp)
    refine ⟨fun he => ?_, fun _ => ⟨{ l with LastChar := some lc, file := f2 }, ?_, ?_, rfl, rfl⟩⟩
    · rw [hp] at he; cases he
    · have : get_token l = get_token_aux l.file.length { l with LastChar := some lc, file := f2 } := by
        simp [get_token, get_token_aux, hs, ha, hd, hr]
      rw [this]
      exact get_token_aux_budget _ _ _ (by simp only; omega) (by simp only; omega)
    · rw [hp]; rfl

/-- `get_token` at any other character. -/
theorem get_token_char (l : Lexer) (c : Nat) (tail : List Nat) (h : l.rest = c :: tail)
    (ha : isalpha c = false) (hd : isdigit c = false) (hc : c ≠ 35) :
    ∃ l1, get_token l = .ret c l1 ∧ l1.pending = tail ∧
      l1.Numeric_Val = l.Numeric_Val ∧ l1.Identifier_string = l.Identifier_string := by
  obtain ⟨f1, hs, hf1, -⟩ := (skip_space_of_rest l).2 c tail h
  refine ⟨{ l with LastChar := (fgetc f1).1, file := (fgetc f1).2 }, ?_, ?_, rfl, rfl⟩
  · simp [get_token, get_token_aux, hs, ha, hd, hc]
  · cases f1 with
    | nil => simpa [Lexer.pending, fgetc] using hf1
    | cons x f => simpa [Lexer.pending, fgetc] using hf1

/-- What is left of a text that starts in a comment starts at a line end. -/
theorem strip_true_head : ∀ (x : List Nat),
    strip true x = [] ∨ ∃ e rest, strip true x = e :: rest ∧ (e = 10 ∨ e = 13)
  | [] => Or.inl rfl
  | c :: r => by
    by_cases h : c = 10 ∨ c = 13
    · exact Or.inr ⟨c, strip false r, by simp [strip, h], h⟩
    · have ih := strip_true_head r
      simpa [strip, h] using ih

theorem strip_true_eq : ∀ (x : List Nat),
    strip true x = strip false (x.dropWhile fun c => !decide (c = 10 ∨ c = 13))
  | [] => rfl
  | c :: r => by
    by_cases h : c = 10 ∨ c = 13
    · have h35 : c ≠ 35 := by rcases h with h | h <;> omega
      simp [strip, h, List.dropWhile, h35]
    · have ih := strip_true_eq r
      simpa [strip, h, List.dropWhile] using ih

/-- A run of characters that are neither `#` nor a line end is the same with
and without the comments. -/
theorem strip_takeWhile (p : Nat → Bool) (h35 : p 35 = false) (h10 : p 10 = false)
    (h13 : p 13 = false) : ∀ (x : List Nat),
    (strip false x).takeWhile p = x.takeWhile p ∧
      (strip false x).dropWhile p = strip false (x.dropWhile p)
  | [] => ⟨rfl, rfl⟩
  | c :: r => by
    by_cases hp : p c = true
    · have hc : c ≠ 35 := fun h => by rw [h, h35] at hp; cases hp
      have ih := strip_takeWhile p h35 h10 h13 r
      simp [strip, hc, List.takeWhile, List.dropWhile, hp, ih.1, ih.2]
    · by_cases hc : c = 35
      · subst hc
        rcases strip_true_head r with h | ⟨e, rest, h, he⟩
        · simp [strip, List.takeWhile, List.dropWhile, hp, h]
        · have hpe : p e = false := by rcases he with rfl | rfl <;> assumption
          simp [strip, List.takeWhile, List.dropWhile, hp, h, hpe]
      · simp [strip, hc, List.takeWhile, List.dropWhile, hp]

/-- White space in front of a text stays in front of it. -/
theorem strip_dropWhile_space : ∀ (x : List Nat),
    (strip false x).dropWhile (fun c => isspace (some c)) =
      (strip false (x.dropWhile fun c => isspace (some c))).dropWhile
        (fun c => isspace (some c))
  | [] => rfl
  | c :: r => by
    by_cases hp : isspace (some c) = true
    · have hc : c ≠ 35 := fun h => by rw [h] at hp; revert hp; decide
      have ih := strip_dropWhile_space r
      simp [strip, hc, List.dropWhile, hp, ih]
    · simp [List.dropWhile, hp]

theorem rest_head_not_space (l : Lexer) (c : Nat) (tail : List Nat) (h : l.rest = c :: tail) :
    isspace (some c) = false := by
  unfold Lexer.rest at h
  have := List.head_dropWhile_not (fun c => isspace (some c)) l.pending
    (by rw [h]; exact List.cons_ne_nil _ _)
  simpa [h] using this

theorem dropWhile_length {α : Type} (p : α → Bool) (x : List α) :
    (x.dropWhile p).length ≤ x.length :=
  (List.dropWhile_sublist p).length_le

theorem rest_length (l : Lexer) : l.rest.length ≤ l.pending.length :=
  dropWhile_length _ _

theorem rest_of_pending (l : Lexer) (q : List Nat) (h : l.pending = q) :
    l.rest = q.dropWhile fun c => isspace (some c) := by
  rw [Lexer.rest, h]

/-- One call of `get_token` in the text and in the text without comments:
both throw, or both return the same token and leave lexers at the same
place. -/
theorem get_token_uncommented : ∀ (n : Nat) (l l1 : Lexer), l.pending.length ≤ n →
    Uncommented l l1 →
    (get_token l = .throws ∧ get_token l1 = .throws) ∨
      ∃ t k k1, get_token l = .ret t k ∧ get_token l1 = .ret t k1 ∧ Uncommented k k1 := by
  intro n
  induction n with
  | zero =>
    intro l l1 hn ⟨hr, hv, hi⟩
    have hp : l.pending = [] := List.length_eq_zero.mp (Nat.le_zero.mp hn)
    rw [hp] at hr
    obtain ⟨k, hk, hkp, hkv, hki⟩ := get_token_end l (by rw [rest_of_pending l [] hp]; rfl)
    obtain ⟨k1, hk1, hk1p, hk1v, hk1i⟩ := get_token_end l1 hr
    exact Or.inr ⟨_, k, k1, hk, hk1, by rw [rest_of_pending k1 [] hk1p, hkp]; rfl,
      by rw [hk1v, hkv, hv], by rw [hk1i, hki, hi]⟩
  | succ n ih =>
    intro l l1 hn ⟨hr, hv, hi⟩
    have hr2 : l1.rest = (strip false l.rest).dropWhile (fun c => isspace (some c)) := by
      rw [hr, Lexer.rest]; exact strip_dropWhile_space l.pending
    cases hp : l.rest with
    | nil =>
      rw [hp] at hr2
      obtain ⟨k, hk, hkp, hkv, hki⟩ := get_token_end l hp
      obtain ⟨k1, hk1, hk1p, hk1v, hk1i⟩ := get_token_end l1 hr2
      exact Or.inr ⟨_, k, k1, hk, hk1, by rw [rest_of_pending k1 [] hk1p, hkp]; rfl,
        by rw [hk1v, hkv, hv], by rw [hk1i, hki, hi]⟩
    | cons c tail =>
      have hsp := rest_head_not_space l c tail hp
      rw [hp] at hr2
      by_cases hc : c = 35
      · subst hc
        have hN : l1.rest = (strip false (tail.dropWhile fun c => !decide (c = 10 ∨ c = 13))).dropWhile
            (fun c => isspace (some c)) := by
          rw [hr2]
          simp only [strip, if_true]
          rw [strip_true_eq]
        obtain ⟨hend, hgo⟩ := get_token_comment l tail hp
        cases hd : tail.dropWhile (fun c => !decide (c = 10 ∨ c = 13)) with
        | nil =>
          rw [hd] at hN
          obtain ⟨k, hk, hkp, hkv, hki⟩ := hend hd
          obtain ⟨k1, hk1, hk1p, hk1v, hk1i⟩ := get_token_end l1 hN
          exact Or.inr ⟨_, k, k1, hk, hk1, by rw [rest_of_pending k1 [] hk1p, hkp]; rfl,
            by rw [hk1v, hkv, hv], by rw [hk1i, hki, hi]⟩
        | cons e r =>
          obtain ⟨l2, hl2, hl2p, hl2v, hl2i⟩ := hgo (by rw [hd]; exact List.cons_ne_nil _ _)
          rw [hl2]
          refine ih l2 l1 ?_ ⟨by rw [hN, hl2p], by rw [hv, hl2v], by rw [hi, hl2i]⟩
          have h1 := rest_length l
          have h2 := dropWhile_length (fun c => !decide (c = 10 ∨ c = 13)) tail
          rw [hp] at h1
          rw [hl2p]
          simp only [List.length_cons] at h1
          omega
      · have hN : l1.rest = c :: strip false tail := by
          rw [hr2]
          simp [strip, hc, List.dropWhile, hsp]
        by_cases ha : isalpha c = true
        · obtain ⟨k, hk, hkp, hkv, hki⟩ := get_token_letter l c tail hp ha
          obtain ⟨k1, hk1, hk1p, hk1v, hk1i⟩ := get_token_letter l1 c _ hN ha
          obtain ⟨ht, hdr⟩ := strip_takeWhile isalnum (by decide) (by decide) (by decide) tail
          rw [ht] at hk1 hk1i
          rw [hdr] at hk1p
          exact Or.inr ⟨_, k, k1, hk, hk1, by rw [rest_of_pending k1 _ hk1p, hkp],
            by rw [hk1v, hkv, hv], by rw [hk1i, hki]⟩
        · have ha2 : isalpha c = false := by simpa using ha
          by_cases hd : isdigit c = true
          · obtain ⟨hth, hok⟩ := get_token_digit l c tail hp ha2 hd
            obtain ⟨hth1, hok1⟩ := get_token_digit l1 c _ hN ha2 hd
            obtain ⟨ht, hdr⟩ := strip_takeWhile isdigit (by decide) (by decide) (by decide) tail
            rw [ht] at hth1 hok1
            rw [hdr] at hok1
            cases hs : stoi (c :: tail.takeWhile isdigit) with
            | none => exact Or.inl ⟨hth hs, hth1 hs⟩
            | some v =>
              obtain ⟨k, hk, hkp, hkv, hki⟩ := hok v hs
              obtain ⟨k1, hk1, hk1p, hk1v, hk1i⟩ := hok1 v hs
              exact Or.inr ⟨_, k, k1, hk, hk1, by rw [rest_of_pending k1 _ hk1p, hkp],
                by rw [hk1v, hkv], by rw [hk1i, hki, hi]⟩
          · have hd2 : isdigit c = false := by simpa using hd
            obtain ⟨k, hk, hkp, hkv, hki⟩ := get_token_char l c tail hp ha2 hd2 hc
            obtain ⟨k1, hk1, hk1p, hk1v, hk1i⟩ := get_token_char l1 c _ hN ha2 hd2 hc
            exact Or.inr ⟨_, k, k1, hk, hk1, by rw [rest_of_pending k1 _ hk1p, hkp],
              by rw [hk1v, hkv, hv], by rw [hk1i, hki, hi]⟩

/-- The first `k` tokens in the text and in the text without comments. -/
theorem get_tokens_uncommented : ∀ (k : Nat) (l l1 : Lexer), Uncommented l l1 →
    (get_tokens k l = .throws ∧ get_tokens k l1 = .throws) ∨
      ∃ ts m m1, get_tokens k l = .ret ts m ∧ get_tokens k l1 = .ret ts m1 ∧ Uncommented m m1
  | 0, l, l1, h => Or.inr ⟨[], l, l1, rfl, rfl, h⟩
  | k + 1, l, l1, h => by
    rcases get_token_uncommented _ l l1 le_rfl h with ⟨h1, h2⟩ | ⟨t, a, a1, h1, h2, h3⟩
    · exact Or.inl ⟨by simp [get_tokens, h1, Res.bind], by simp [get_tokens, h2, Res.bind]⟩
    · rcases get_tokens_uncommented k a a1 h3 with ⟨h4, h5⟩ | ⟨ts, m, m1, h4, h5, h6⟩
      · exact Or.inl ⟨by simp [get_tokens, h1, h4, Res.bind], by simp [get_tokens, h2, h5, Res.bind]⟩
      · refine Or.inr ⟨(t, a.Numeric_Val, a.Identifier_string) :: ts, m, m1, ?_, ?_, h6⟩
        · simp [get_tokens, h1, h4, Res.bind]
        · simp [get_tokens, h2, h5, Res.bind, h3.2.1, h3.2.2]

theorem strip_mem : ∀ (b : Bool) (x : List Nat) (c : Nat), c ∈ strip b x → c ∈ x
  | true, [], c, h => by simp [strip] at h
  | false, [], c, h => by simp [strip] at h
  | true, d :: r, c, h => by
    by_cases hd : d = 10 ∨ d = 13
    · simp only [strip, hd, if_true, List.mem_cons] at h
      rcases h with h | h
      · exact h ▸ List.mem_cons_self _ _
      · exact List.mem_cons_of_mem _ (strip_mem false r c h)
    · simp only [strip, hd, if_false] at h
      exact List.mem_cons_of_mem _ (strip_mem true r c h)
  | false, d :: r, c, h => by
    by_cases hd : d = 35
    · simp only [strip, hd, if_true] at h
      exact List.mem_cons_of_mem _ (strip_mem true r c h)
    · simp only [strip, hd, if_false, List.mem_cons] at h
      rcases h with h | h
      · exact h ▸ List.mem_cons_self _ _
      · exact List.mem_cons_of_mem _ (strip_mem false r c h)

theorem map_mod_bytes (x : List Nat) (h : ∀ c ∈ x, c < 256) : x.map (· % 256) = x := by
  conv_rhs => rw [← List.map_id x]
  exact List.map_congr_left fun c hc => Nat.mod_eq_of_lt (h c hc)

/-- The lexers at the start of a text and of the text without comments. -/
theorem Uncommented_init (text : List Nat) (hbytes : ∀ c ∈ text, c < 256) :
    Uncommented (Lexer.init text) (Lexer.init (strip_comments text)) := by
  refine ⟨?_, rfl, rfl⟩
  have h1 := map_mod_bytes text hbytes
  have h2 := map_mod_bytes (strip false text) fun c hc => hbytes c (strip_mem false text c hc)
  simp only [Lexer.rest, Lexer.pending, Lexer.init, strip_comments, h1, h2, strip]
  simp [List.dropWhile, isspace]

/-- C21: for every text of bytes and every `k`, the first `k` calls of
`get_token` on the text and on the text with every comment deleted have the
same outcome: the same tokens with the same `Numeric_Val` and
`Identifier_string` after each, or the same exception of `std::stoi`; and
the calls do return or throw. -/
theorem C21_comments_invisible (text : List Nat) (hbytes : ∀ c ∈ text, c < 256) (k : Nat) :
    (get_tokens k (Lexer.init text)).result =
        (get_tokens k (Lexer.init (strip_comments text))).result ∧
      ((get_tokens k (Lexer.init text)).result = .throws ∨
        ∃ ts, (get_tokens k (Lexer.init text)).result = .ret ts ()) := by
  rcases get_tokens_uncommented k _ _ (Uncommented_init text hbytes) with
    ⟨h1, h2⟩ | ⟨ts, m, m1, h1, h2, -⟩
  · rw [h1, h2]
    exact ⟨rfl, Or.inl rfl⟩
  · rw [h1, h2]
    exact ⟨rfl, Or.inr ⟨ts, rfl⟩⟩

/-- The text `x1#if 2` / `+y#` (two lines) and the text `x1` / `+y` give the
same four tokens: the identifier `x1`, `+`, the identifier `y` and the end of
the text. -/
theorem C21_comments_invisible_witness :
    strip_comments [120, 49, 35, 105, 102, 32, 50, 10, 43, 121, 35] = [120, 49, 10, 43, 121] ∧
    (get_tokens 4 (Lexer.init [120, 49, 35, 105, 102, 32, 50, 10, 43, 121, 35])).result =
      (get_tokens 4 (Lexer.init [120, 49, 10, 43, 121])).result ∧
    (get_tokens 4 (Lexer.init [120, 49, 10, 43, 121])).result =
      .ret [(IDENTIFIER_TOKEN, 0, [120, 49]), (43, 0, [120, 49]), (IDENTIFIER_TOKEN, 0, [121]),
        (EOF_TOKEN, 0, [121])] () :=
  ⟨by decide, (C21_comments_invisible [120, 49, 35, 105, 102, 32, 50, 10, 43, 121, 35]
    (by decide) 4).1, by decide!⟩

theorem Has_append {BB : Nat} {i0 : Instr} {G : Function} {b : Nat} {i : Instr} :
    (G.append BB i0).Has b i ↔ G.Has b i ∨ (b = BB ∧ i = i0 ∧ G.hasBlock BB) := by
  unfold Function.Has Function.hasBlock Function.append
  simp only [List.mem_map]
  constructor
  · rintro ⟨B1, ⟨B, hB, rfl⟩, hid, hi⟩
    split_ifs at hid hi with h
    · simp only [List.mem_append, List.mem_singleton] at hid hi
      rcases hi with hi | rfl
      · exact .inl ⟨B, hB, hid, hi⟩
      · exact .inr ⟨by rw [← hid, h], rfl, B, hB, h⟩
    · exact .inl ⟨B, hB, hid, hi⟩
  · rintro (⟨B, hB, hid, hi⟩ | ⟨rfl, rfl, B, hB, hid⟩)
    · refine ⟨_, ⟨B, hB, rfl⟩, ?_, ?_⟩ <;> split_ifs <;> simp [hid, hi]
    · refine ⟨_, ⟨B, hB, rfl⟩, ?_, ?_⟩ <;> simp [hid]

theorem hasBlock_append {BB : Nat} {i0 : Instr} {G : Function} {b : Nat} :
    (G.append BB i0).hasBlock b ↔ G.hasBlock b := by
  unfold Function.hasBlock Function.append
  simp only [List.mem_map]
  constructor
  · rintro ⟨B1, ⟨B, hB, rfl⟩, hid⟩
    refine ⟨B, hB, ?_⟩
    split_ifs at hid <;> exact hid
  · rintro ⟨B, hB, hid⟩
    refine ⟨_, ⟨B, hB, rfl⟩, ?_⟩
    split_ifs <;> exact hid

theorem hasBlock_addBlock {B0 : BasicBlock} {G : Function} {b : Nat} :
    (G.addBlock B0).hasBlock b ↔ G.hasBlock b ∨ b = B0.id := by
  unfold Function.hasBlock Function.addBlock
  simp only [List.mem_append, List.mem_singleton]
  constructor
  · rintro ⟨B, hB | rfl, hid⟩
    · exact .inl ⟨B, hB, hid⟩
    · exact .inr hid.symm
  · rintro (⟨B, hB, hid⟩ | rfl)
    · exact ⟨B, .inl hB, hid⟩
    · exact ⟨B0, .inr rfl, rfl⟩

theorem Has_addBlock {k : Nat} {l : Label} {G : Function} {b : Nat} {i : Instr} :
    (G.addBlock ⟨k, l, []⟩).Has b i ↔ G.Has b i := by
  unfold Function.Has Function.addBlock
  simp only [List.mem_append, List.mem_singleton]
  constructor
  · rintro ⟨B, hB | rfl, hid, hi⟩
    · exact ⟨B, hB, hid, hi⟩
    · simp at hi
  · rintro ⟨B, hB, hid, hi⟩
    exact ⟨B, .inl hB, hid, hi⟩

theorem hasBlock_addIncoming {PN : Nat} {V : Value} {P : Nat} {G : Function} {b : Nat} :
    (G.addIncoming PN V P).hasBlock b ↔ G.hasBlock b := by
  unfold Function.hasBlock Function.addIncoming
  simp only [List.mem_map]
  constructor
  · rintro ⟨B1, ⟨B, hB, rfl⟩, hid⟩
    exact ⟨B, hB, hid⟩
  · rintro ⟨B, hB, hid⟩
    exact ⟨_, ⟨B, hB, rfl⟩, hid⟩

theorem Has_addIncoming {PN : Nat} {V : Value} {P : Nat} {G : Function} {b : Nat}
    {i1 : Instr} :
    (G.addIncoming PN V P).Has b i1 ↔ ∃ i, G.Has b i ∧ i1 = Instr.addIncoming PN V P i := by
  unfold Function.Has Function.addIncoming
  simp only [List.mem_map]
  constructor
  · rintro ⟨B1, ⟨B, hB, rfl⟩, hid, hi⟩
    simp only [List.mem_map] at hi
    obtain ⟨i, hi2, rfl⟩ := hi
    exact ⟨i, ⟨B, hB, hid, hi2⟩, rfl⟩
  · rintro ⟨i, ⟨B, hB, hid, hi⟩, rfl⟩
    exact ⟨_, ⟨B, hB, rfl⟩, hid, List.mem_map.2 ⟨i, hi, rfl⟩⟩

theorem Instr_addIncoming_id (PN : Nat) (V : Value) (P : Nat) (i : Instr) :
    (Instr.addIncoming PN V P i).id = i.id := by
  unfold Instr.addIncoming
  split_ifs
  · split <;> rfl
  · rfl

theorem Instr_addIncoming_of_ne {PN : Nat} (V : Value) (P : Nat) {i : Instr} (h : i.id ≠ PN) :
    Instr.addIncoming PN V P i = i := by
  unfold Instr.addIncoming
  rw [if_neg h]

theorem Instr_addIncoming_not_phi {PN : Nat} (V : Value) (P : Nat) {i : Instr}
    (h : i.inst.isPHI = false) : Instr.addIncoming PN V P i = i := by
  unfold Instr.addIncoming
  split_ifs
  · split
    · rename_i inc hi
      rw [hi] at h
      cases h
    · rfl
  · rfl

theorem Instr_addIncoming_phi {PN : Nat} (V : Value) (P : Nat) {i : Instr}
    {incoming : List (Value × Nat)} (h : i.inst = .PHI incoming) (hid : i.id = PN) :
    (Instr.addIncoming PN V P i).inst = .PHI (incoming ++ [(V, P)]) := by
  unfold Instr.addIncoming
  rw [if_pos hid, h]

theorem Instr_addIncoming_isTerminator (PN : Nat) (V : Value) (P : Nat) (i : Instr) :
    (Instr.addIncoming PN V P i).inst.isTerminator = i.inst.isTerminator := by
  unfold Instr.addIncoming
  split_ifs
  · split
    · rename_i inc hi
      rw [hi]
      rfl
    · rfl
  · rfl

theorem Instr_addIncoming_isPHI (PN : Nat) (V : Value) (P : Nat) (i : Instr) :
    (Instr.addIncoming PN V P i).inst.isPHI = i.inst.isPHI := by
  unfold Instr.addIncoming
  split_ifs
  · split
    · rename_i inc hi
      rw [hi]
      rfl
    · rfl
  · rfl

theorem Instr_addIncoming_successors (PN : Nat) (V : Value) (P : Nat) (i : Instr) :
    (Instr.addIncoming PN V P i).inst.successors = i.inst.successors := by
  unfold Instr.addIncoming
  split_ifs
  · split
    · rename_i inc hi
      rw [hi]
      rfl
    · rfl
  · rfl

theorem mem_preds {G : Function} {r P : Nat} :
    P ∈ G.preds r ↔ ∃ i, G.Has P i ∧ r ∈ i.inst.successors := by
  unfold Function.preds Function.Has
  simp only [List.mem_map, List.mem_filter, List.any_eq_true, decide_eq_true_eq]
  constructor
  · rintro ⟨B, ⟨hB, i, hi, hr⟩, rfl⟩
    exact ⟨i, ⟨B, hB, rfl, hi⟩, hr⟩
  · rintro ⟨i, ⟨B, hB, hid, hi⟩, hr⟩
    exact ⟨B, ⟨hB, i, hi, hr⟩, hid⟩

theorem phis_agree_iff {G : Function} : G.phis_agree ↔ G.phis_pending fun _ _ => False := by
  unfold Function.phis_agree Function.phis_pending Function.Has
  constructor
  · rintro h b i inc ⟨B, hB, rfl, hi⟩ hinc
    refine ⟨(h B hB i hi inc hinc).1, fun P hP => hP.elim, fun P => ?_⟩
    simpa using (h B hB i hi inc hinc).2 P
  · intro h B hB i hi inc hinc
    refine ⟨(h B.id i inc ⟨B, hB, rfl, hi⟩ hinc).1, fun P => ?_⟩
    simpa using (h B.id i inc ⟨B, hB, rfl, hi⟩ hinc).2.2 P

theorem older_mono {N N1 : Nat} {G : Function} (h : G.older N) (hN : N ≤ N1) : G.older N1 :=
  ⟨fun b hb => lt_of_lt_of_le (h.1 b hb) hN, fun b i hi =>
    ⟨lt_of_lt_of_le (h.2 b i hi).1 hN, fun d hd => lt_of_lt_of_le ((h.2 b i hi).2 d hd) hN⟩⟩

theorem older_append {N BB : Nat} {i0 : Instr} {G : Function} (h : G.older N)
    (hi : i0.id < N) (hs : ∀ d ∈ i0.inst.successors, d < N) : (G.append BB i0).older N := by
  refine ⟨fun b hb => h.1 b (hasBlock_append.1 hb), fun b i hi1 => ?_⟩
  rcases Has_append.1 hi1 with h1 | ⟨_, rfl, _⟩
  · exact h.2 b i h1
  · exact ⟨hi, hs⟩

theorem older_addBlock {N k : Nat} {l : Label} {G : Function} (h : G.older N) (hk : k < N) :
    (G.addBlock ⟨k, l, []⟩).older N := by
  refine ⟨fun b hb => ?_, fun b i hi1 => h.2 b i (Has_addBlock.1 hi1)⟩
  rcases hasBlock_addBlock.1 hb with h1 | rfl
  · exact h.1 b h1
  · exact hk

theorem older_addIncoming {N PN P : Nat} {V : Value} {G : Function} (h : G.older N) :
    (G.addIncoming PN V P).older N := by
  refine ⟨fun b hb => h.1 b (hasBlock_addIncoming.1 hb), fun b i hi1 => ?_⟩
  obtain ⟨i0, h0, rfl⟩ := Has_addIncoming.1 hi1
  rw [Instr_addIncoming_id, Instr_addIncoming_successors]
  exact h.2 b i0 h0

theorem grows_refl (K : Nat) (G : Function) : G.grows K G :=
  ⟨fun _ _ h => .inl h, fun _ _ h _ => h, fun _ h _ => h, fun _ _ h _ _ => h, fun _ h => h⟩

theorem grows_trans {K : Nat} {G G1 G2 : Function} (h1 : G.grows K G1) (h2 : G1.grows K G2) :
    G.grows K G2 := by
  obtain ⟨a1, b1, c1, d1, e1⟩ := h1
  obtain ⟨a2, b2, c2, d2, e2⟩ := h2
  refine ⟨fun b i h => ?_, fun b i h hi => b2 b i (b1 b i h hi) hi,
    fun b h hb => c1 b (c2 b h hb) hb, fun b i h hb hp => d1 b i (d2 b i h hb hp) hb hp,
    fun b h => e2 b (e1 b h)⟩
  rcases a2 b i h with h | h
  · exact a1 b i h
  · exact .inr h

theorem grows_mono {K K0 : Nat} {G G1 : Function} (h : G.grows K G1) (hK : K0 ≤ K) :
    G.grows K0 G1 := by
  obtain ⟨a1, b1, c1, d1, e1⟩ := h
  refine ⟨fun b i h => ?_, fun b i h hi => b1 b i h (lt_of_lt_of_le hi hK),
    fun b h hb => c1 b h (lt_of_lt_of_le hb hK),
    fun b i h hb hp => d1 b i h (lt_of_lt_of_le hb hK) hp, e1⟩
  rcases a1 b i h with h | h
  · exact .inl h
  · exact .inr ⟨le_trans hK h.1, fun d hd => le_trans hK (h.2 d hd)⟩

theorem grows_append {K BB : Nat} {i0 : Instr} {G : Function} (hi : K ≤ i0.id)
    (hs : ∀ d ∈ i0.inst.successors, K ≤ d) (hp : i0.inst.isPHI = true → K ≤ BB) :
    G.grows K (G.append BB i0) := by
  refine ⟨fun b i h => ?_, fun b i h _ => Has_append.2 (.inl h),
    fun b h _ => hasBlock_append.1 h, fun b i h hb hphi => ?_, fun b h => hasBlock_append.2 h⟩
  · rcases Has_append.1 h with h1 | ⟨_, rfl, _⟩
    · exact .inl h1
    · exact .inr ⟨hi, hs⟩
  · rcases Has_append.1 h with h1 | ⟨rfl, rfl, _⟩
    · exact h1
    · exact absurd (hp hphi) (by omega)

theorem grows_addBlock {K k : Nat} {l : Label} {G : Function} (hk : K ≤ k) :
    G.grows K (G.addBlock ⟨k, l, []⟩) := by
  refine ⟨fun b i h => .inl (Has_addBlock.1 h), fun b i h _ => Has_addBlock.2 h,
    fun b h hb => ?_, fun b i h _ _ => Has_addBlock.1 h, fun b h => hasBlock_addBlock.2 (.inl h)⟩
  rcases hasBlock_addBlock.1 h with h1 | rfl
  · exact h1
  · exact absurd hk (by omega)

theorem grows_addIncoming {K PN P : Nat} {V : Value} {G : Function} (hPN : K ≤ PN)
    (hb : ∀ b i, G.Has b i → i.id = PN → K ≤ b) : G.grows K (G.addIncoming PN V P) := by
  refine ⟨fun b i1 h => ?_, fun b i h hi => ?_, fun b h _ => hasBlock_addIncoming.1 h,
    fun b i1 h hlt hphi => ?_, fun b h => hasBlock_addIncoming.2 h⟩
  · obtain ⟨i, h0, rfl⟩ := Has_addIncoming.1 h
    by_cases hid : i.id = PN
    · cases hphi : i.inst.isPHI
      · rw [Instr_addIncoming_not_phi V P hphi]
        exact .inl h0
      · refine .inr ⟨by rw [Instr_addIncoming_id]; omega, ?_⟩
        rw [Instr_addIncoming_successors]
        cases hi : i.inst <;> rw [hi] at hphi <;> first | (intro d hd; cases hd; done) | cases hphi
    · rw [Instr_addIncoming_of_ne V P hid]
      exact .inl h0
  · refine Has_addIncoming.2 ⟨i, h, ?_⟩
    rw [Instr_addIncoming_of_ne V P (by omega)]
  · obtain ⟨i, h0, rfl⟩ := Has_addIncoming.1 h
    by_cases hid : i.id = PN
    · exact absurd (hb b i h0 hid) (by omega)
    · rw [Instr_addIncoming_of_ne V P hid]
      exact h0

/-! Facts that lowering started later leaves alone. -/

theorem grows_absent {K r : Nat} {G G1 : Function} (h : G.grows K G1) (hr : r < K)
    (ha : ¬ G.hasBlock r) : ¬ G1.hasBlock r := fun h1 => ha (h.2.2.1 r h1 hr)

theorem grows_preds {K r : Nat} {G G1 : Function} (h : G.grows K G1) (hr : r < K)
    (ho : G.older K) (P : Nat) : P ∈ G1.preds r ↔ P ∈ G.preds r := by
  rw [mem_preds, mem_preds]
  constructor
  · rintro ⟨i, hi, hs⟩
    rcases h.1 P i hi with h1 | h1
    · exact ⟨i, h1, hs⟩
    · exact absurd (h1.2 r hs) (by omega)
  · rintro ⟨i, hi, hs⟩
    exact ⟨i, h.2.1 P i hi (ho.2 P i hi).1, hs⟩

theorem grows_phi_of {K k Var : Nat} {G G1 : Function} (h : G.grows K G1) (hk : k < K)
    (hV : Var < K) (hp : G.phi_of k Var) : G1.phi_of k Var := by
  refine ⟨fun i hi hphi => hp.1 i (h.2.2.2.1 k i hi hk hphi) hphi, fun b i hi hid => ?_⟩
  rcases h.1 b i hi with h1 | h1
  · exact hp.2 b i h1 hid
  · exact absurd h1.1 (by omega)

theorem isPHI_of_isTerminator {i : Inst} (h : i.isTerminator = true) : i.isPHI = false := by
  cases i <;> first | rfl | cases h

theorem unterminated_snoc {B : BasicBlock} {i : Instr} (h : B.unterminated = true)
    (ht : i.inst.isTerminator = false) (hp : i.inst.isPHI = false ∨ B.insts = []) :
    ({ B with insts := B.insts ++ [i] } : BasicBlock).unterminated = true := by
  unfold BasicBlock.unterminated at h ⊢
  rcases hB : B.insts with _ | ⟨a, l⟩
  · simp [ht]
  · rw [hB] at h hp
    rcases hp with hp | hp
    · simp_all
    · cases hp

theorem terminated_snoc {B : BasicBlock} {i : Instr} (h : B.unterminated = true)
    (ht : i.inst.isTerminator = true) :
    ({ B with insts := B.insts ++ [i] } : BasicBlock).terminated = true := by
  have hp := isPHI_of_isTerminator ht
  unfold BasicBlock.unterminated at h
  unfold BasicBlock.terminated
  simp only [List.getLast?_concat, List.dropLast_concat, ht, Bool.true_and]
  rcases hB : B.insts with _ | ⟨a, l⟩
  · simp
  · rw [hB] at h
    simp_all

theorem unterminated_map {B : BasicBlock} {f : Instr → Instr}
    (ht : ∀ i, (f i).inst.isTerminator = i.inst.isTerminator)
    (hp : ∀ i, (f i).inst.isPHI = i.inst.isPHI) :
    ({ B with insts := B.insts.map f } : BasicBlock).unterminated = B.unterminated := by
  unfold BasicBlock.unterminated
  simp only [← List.map_tail, List.all_map]
  congr 2 <;> funext i <;> simp [ht, hp]

theorem terminated_map {B : BasicBlock} {f : Instr → Instr}
    (ht : ∀ i, (f i).inst.isTerminator = i.inst.isTerminator)
    (hp : ∀ i, (f i).inst.isPHI = i.inst.isPHI) :
    ({ B with insts := B.insts.map f } : BasicBlock).terminated = B.terminated := by
  unfold BasicBlock.terminated
  simp only [← List.map_tail, ← List.map_dropLast, List.all_map, List.getLast?_map]
  have e1 : ((fun i : Instr => !i.inst.isTerminator) ∘ f) = fun i => !i.inst.isTerminator := by
    funext i
    simp [ht]
  have e2 : ((fun i : Instr => !i.inst.isPHI) ∘ f) = fun i => !i.inst.isPHI := by
    funext i
    simp [hp]
  rw [e1, e2]
  cases B.insts.getLast? <;> simp [ht]

theorem mem_append_blocks {BB : Nat} {i0 : Instr} {G : Function} {B1 : BasicBlock}
    (h : B1 ∈ (G.append BB i0).blocks) :
    ∃ B ∈ G.blocks, B1.id = B.id ∧
      ((B.id = BB ∧ B1 = { B with insts := B.insts ++ [i0] }) ∨ (B.id ≠ BB ∧ B1 = B)) := by
  unfold Function.append at h
  simp only [List.mem_map] at h
  obtain ⟨B, hB, rfl⟩ := h
  refine ⟨B, hB, ?_, ?_⟩
  · split_ifs <;> rfl
  · by_cases hb : B.id = BB
    · exact .inl ⟨hb, by rw [if_pos hb]⟩
    · exact .inr ⟨hb, by rw [if_neg hb]⟩

theorem shaped_append_plain {O : Nat → Prop} {BB : Nat} {i0 : Instr} {G : Function}
    (h : G.shaped O) (hO : O BB) (ht : i0.inst.isTerminator = false)
    (hp : i0.inst.isPHI = false) : (G.append BB i0).shaped O := by
  intro B1 hB1
  obtain ⟨B, hB, hid, ⟨hb, rfl⟩ | ⟨hb, rfl⟩⟩ := mem_append_blocks hB1
  · exact ⟨fun _ => unterminated_snoc ((h B hB).1 (hb ▸ hO)) ht (.inl hp),
      fun hn => absurd (hb ▸ hO) hn⟩
  · exact h B1 hB

theorem shaped_append_phi {O : Nat → Prop} {BB : Nat} {i0 : Instr} {G : Function}
    (h : G.shaped O) (hO : O BB) (ht : i0.inst.isTerminator = false)
    (he : ∀ i, ¬ G.Has BB i) : (G.append BB i0).shaped O := by
  intro B1 hB1
  obtain ⟨B, hB, hid, ⟨hb, rfl⟩ | ⟨hb, rfl⟩⟩ := mem_append_blocks hB1
  · refine ⟨fun _ => unterminated_snoc ((h B hB).1 (hb ▸ hO)) ht (.inr ?_),
      fun hn => absurd (hb ▸ hO) hn⟩
    rcases hi : B.insts with _ | ⟨a, l⟩
    · rfl
    · exact absurd ⟨B, hB, hb, by rw [hi]; exact List.mem_cons_self _ _⟩ (he a)
  · exact h B1 hB

theorem shaped_append_term {O : Nat → Prop} {BB : Nat} {i0 : Instr} {G : Function}
    (h : G.shaped O) (hO : O BB) (ht : i0.inst.isTerminator = true) :
    (G.append BB i0).shaped fun b => O b ∧ b ≠ BB := by
  intro B1 hB1
  obtain ⟨B, hB, hid, ⟨hb, rfl⟩ | ⟨hb, rfl⟩⟩ := mem_append_blocks hB1
  · exact ⟨fun hn => absurd hb hn.2, fun _ => terminated_snoc ((h B hB).1 (hb ▸ hO)) ht⟩
  · exact ⟨fun hn => (h B1 hB).1 hn.1, fun hn => (h B1 hB).2 fun hO1 => hn ⟨hO1, hb⟩⟩

theorem shaped_addBlock {O : Nat → Prop} {k : Nat} {l : Label} {G : Function}
    (h : G.shaped O) (ha : ¬ G.hasBlock k) :
    (G.addBlock ⟨k, l, []⟩).shaped fun b => O b ∨ b = k := by
  intro B1 hB1
  unfold Function.addBlock at hB1
  simp only [List.mem_append, List.mem_singleton] at hB1
  rcases hB1 with hB | rfl
  · refine ⟨fun hn => ?_, fun hn => (h B1 hB).2 fun hO => hn (.inl hO)⟩
    rcases hn with hn | hn
    · exact (h B1 hB).1 hn
    · exact absurd ⟨B1, hB, hn⟩ ha
  · exact ⟨fun _ => rfl, fun hn => absurd (.inr rfl) hn⟩

theorem shaped_addIncoming {O : Nat → Prop} {PN P : Nat} {V : Value} {G : Function}
    (h : G.shaped O) : (G.addIncoming PN V P).shaped O := by
  intro B1 hB1
  unfold Function.addIncoming at hB1
  simp only [List.mem_map] at hB1
  obtain ⟨B, hB, rfl⟩ := hB1
  rw [unterminated_map (Instr_addIncoming_isTerminator PN V P) (Instr_addIncoming_isPHI PN V P),
    terminated_map (Instr_addIncoming_isTerminator PN V P) (Instr_addIncoming_isPHI PN V P)]
  exact h B hB

theorem shaped_congr {O O1 : Nat → Prop} {G : Function} (h : G.shaped O)
    (hc : ∀ b, G.hasBlock b → (O1 b ↔ O b)) : G.shaped O1 := by
  intro B hB
  have := hc B.id ⟨B, hB, rfl⟩
  exact ⟨fun hO => (h B hB).1 (this.1 hO), fun hO => (h B hB).2 fun hn => hO (this.2 hn)⟩

theorem preds_append {BB r P : Nat} {i0 : Instr} {G : Function} :
    P ∈ (G.append BB i0).preds r ↔
      P ∈ G.preds r ∨ (P = BB ∧ r ∈ i0.inst.successors ∧ G.hasBlock BB) := by
  rw [mem_preds, mem_preds]
  constructor
  · rintro ⟨i, hi, hs⟩
    rcases Has_append.1 hi with h1 | ⟨rfl, rfl, hb⟩
    · exact .inl ⟨i, h1, hs⟩
    · exact .inr ⟨rfl, hs, hb⟩
  · rintro (⟨i, hi, hs⟩ | ⟨rfl, hs, hb⟩)
    · exact ⟨i, Has_append.2 (.inl hi), hs⟩
    · exact ⟨i0, Has_append.2 (.inr ⟨rfl, rfl, hb⟩), hs⟩

theorem preds_addBlock {k r P : Nat} {l : Label} {G : Function} :
    P ∈ (G.addBlock ⟨k, l, []⟩).preds r ↔ P ∈ G.preds r := by
  rw [mem_preds, mem_preds]
  exact ⟨fun ⟨i, hi, hs⟩ => ⟨i, Has_addBlock.1 hi, hs⟩,
    fun ⟨i, hi, hs⟩ => ⟨i, Has_addBlock.2 hi, hs⟩⟩

theorem preds_addIncoming {PN P0 r P : Nat} {V : Value} {G : Function} :
    P ∈ (G.addIncoming PN V P0).preds r ↔ P ∈ G.preds r := by
  rw [mem_preds, mem_preds]
  constructor
  · rintro ⟨i1, hi, hs⟩
    obtain ⟨i, h0, rfl⟩ := Has_addIncoming.1 hi
    rw [Instr_addIncoming_successors] at hs
    exact ⟨i, h0, hs⟩
  · rintro ⟨i, hi, hs⟩
    exact ⟨_, Has_addIncoming.2 ⟨i, hi, rfl⟩, by rw [Instr_addIncoming_successors]; exact hs⟩

theorem isPHI_of_eq {i : Instr} {incoming : List (Value × Nat)} (h : i.inst = .PHI incoming) :
    i.inst.isPHI = true := by
  rw [h]
  rfl

/-- An unterminated block is the predecessor of no block. -/
theorem shaped_no_pred {O : Nat → Prop} {BB : Nat} {G : Function} (h : G.shaped O)
    (hO : O BB) (r : Nat) : BB ∉ G.preds r := by
  rw [mem_preds]
  rintro ⟨i, ⟨B, hB, hid, hi⟩, hs⟩
  have hu := (h B hB).1 (hid ▸ hO)
  unfold BasicBlock.unterminated at hu
  simp only [Bool.and_eq_true, List.all_eq_true, Bool.not_eq_true'] at hu
  have ht := hu.1 i hi
  cases hinst : i.inst <;> rw [hinst] at ht hs <;> first | (cases hs; done) | cases ht

theorem pending_append {D D1 : Nat → Nat → Prop} {BB : Nat} {i0 : Instr} {G : Function}
    (h : G.phis_pending D) (hp : i0.inst.isPHI = false) (hBB : ∀ r, BB ∉ G.preds r)
    (hD : ∀ b i, G.Has b i → i.inst.isPHI = true → ∀ P,
      D1 i.id P ↔ (D i.id P ∨ (P = BB ∧ b ∈ i0.inst.successors ∧ G.hasBlock BB))) :
    (G.append BB i0).phis_pending D1 := by
  intro b i inc hi hinc
  rcases Has_append.1 hi with h1 | ⟨_, rfl, _⟩
  · obtain ⟨hn, hd, ha⟩ := h b i inc h1 hinc
    refine ⟨hn, fun P hP hm => ?_, fun P => ?_⟩
    · rcases (hD b i h1 (isPHI_of_eq hinc) P).1 hP with h2 | ⟨rfl, _, _⟩
      · exact hd P h2 hm
      · exact hBB b ((ha P).1 (.inl hm))
    · rw [preds_append, ← ha P, hD b i h1 (isPHI_of_eq hinc) P]
      tauto
  · rw [isPHI_of_eq hinc] at hp
    cases hp

theorem pending_append_quiet {D : Nat → Nat → Prop} {BB : Nat} {i0 : Instr} {G : Function}
    (h : G.phis_pending D) (hp : i0.inst.isPHI = false)
    (hq : ∀ d ∈ i0.inst.successors, ∀ i, G.Has d i → i.inst.isPHI = false) :
    (G.append BB i0).phis_pending D := by
  intro b i inc hi hinc
  rcases Has_append.1 hi with h1 | ⟨_, rfl, _⟩
  · obtain ⟨hn, hd, ha⟩ := h b i inc h1 hinc
    refine ⟨hn, hd, fun P => ?_⟩
    rw [preds_append, ← ha P]
    constructor
    · exact .inl
    · rintro (h2 | ⟨_, hs, _⟩)
      · exact h2
      · have h3 := hq b hs i h1
        rw [isPHI_of_eq hinc] at h3
        cases h3
  · rw [isPHI_of_eq hinc] at hp
    cases hp

theorem pending_append_phi {N BB : Nat} {G : Function}
    (h : G.phis_pending fun _ _ => False) (ho : ∀ b i, G.Has b i → i.id ≠ N) :
    (G.append BB ⟨N, .PHI []⟩).phis_pending fun j P => j = N ∧ P ∈ G.preds BB := by
  intro b i inc hi hinc
  have hpr : ∀ P, P ∈ (G.append BB ⟨N, .PHI []⟩).preds b ↔ P ∈ G.preds b := by
    intro P
    rw [preds_append]
    constructor
    · rintro (h1 | ⟨_, h1, _⟩)
      · exact h1
      · cases h1
    · exact .inl
  rcases Has_append.1 hi with h1 | ⟨rfl, rfl, _⟩
  · obtain ⟨hn, -, ha⟩ := h b i inc h1 hinc
    have hne := ho b i h1
    refine ⟨hn, fun P hP => absurd hP.1 hne, fun P => ?_⟩
    rw [hpr, ← ha P]
    tauto
  · cases hinc
    refine ⟨List.nodup_nil, fun P _ hm => (by cases hm), fun P => ?_⟩
    rw [hpr]
    simp

theorem pending_addBlock {D : Nat → Nat → Prop} {k : Nat} {l : Label} {G : Function}
    (h : G.phis_pending D) : (G.addBlock ⟨k, l, []⟩).phis_pending D := by
  intro b i inc hi hinc
  obtain ⟨hn, hd, ha⟩ := h b i inc (Has_addBlock.1 hi) hinc
  refine ⟨hn, hd, fun P => ?_⟩
  rw [preds_addBlock]
  exact ha P

theorem pending_addIncoming {D : Nat → Nat → Prop} {PN P0 : Nat} {V : Value} {G : Function}
    (h : G.phis_pending D)
    (hP : ∀ b i, G.Has b i → i.id = PN → i.inst.isPHI = true → D PN P0) :
    (G.addIncoming PN V P0).phis_pending fun j P => D j P ∧ ¬ (j = PN ∧ P = P0) := by
  intro b i1 inc1 hi hinc
  obtain ⟨i, h0, rfl⟩ := Has_addIncoming.1 hi
  simp only [preds_addIncoming, Instr_addIncoming_id]
  by_cases hid : i.id = PN
  · have hphi : i.inst.isPHI = true := by
      rw [← Instr_addIncoming_isPHI PN V P0 i]
      exact isPHI_of_eq hinc
    cases hinst : i.inst <;> rw [hinst] at hphi <;> try cases hphi
    rename_i inc
    rw [Instr_addIncoming_phi V P0 hinst hid] at hinc
    cases hinc
    obtain ⟨hn, hd, ha⟩ := h b i inc h0 hinst
    have hD0 : D i.id P0 := hid ▸ hP b i h0 hid (isPHI_of_eq hinst)
    have hnot : P0 ∉ inc.map Prod.snd := hd P0 hD0
    simp only [List.map_append, List.mem_append, List.map_cons, List.map_nil,
      List.mem_singleton]
    refine ⟨?_, ?_, fun P => ?_⟩
    · refine List.Nodup.append hn (List.nodup_singleton _) ?_
      intro x hx hx2
      rw [List.mem_singleton] at hx2
      exact hnot (hx2 ▸ hx)
    · rintro P ⟨h3, h4⟩ (h5 | h5)
      · exact hd P h3 h5
      · exact h4 ⟨hid, h5⟩
    · constructor
      · rintro ((h3 | rfl) | h3)
        · exact (ha P).1 (.inl h3)
        · exact (ha P).1 (.inr hD0)
        · exact (ha P).1 (.inr h3.1)
      · intro h3
        by_cases hPP : P = P0
        · exact .inl (.inr hPP)
        · rcases (ha P).2 h3 with h4 | h4
          · exact .inl (.inl h4)
          · exact .inr ⟨h4, fun hn => hPP hn.2⟩
  · rw [Instr_addIncoming_of_ne V P0 hid] at hinc
    obtain ⟨hn, hd, ha⟩ := h b i inc1 h0 hinc
    refine ⟨hn, fun P hP => hd P hP.1, fun P => ?_⟩
    rw [← ha P]
    tauto

theorem pending_congr {D D1 : Nat → Nat → Prop} {G : Function} (h : G.phis_pending D)
    (hc : ∀ b i, G.Has b i → ∀ P, D1 i.id P ↔ D i.id P) : G.phis_pending D1 := by
  intro b i inc hi hinc
  obtain ⟨hn, hd, ha⟩ := h b i inc hi hinc
  refine ⟨hn, fun P hP => hd P ((hc b i hi P).1 hP), fun P => ?_⟩
  rw [← ha P, hc b i hi P]

theorem Has_hasBlock {G : Function} {b : Nat} {i : Instr} (h : G.Has b i) : G.hasBlock b := by
  obtain ⟨B, hB, hid, _⟩ := h
  exact ⟨B, hB, hid⟩

theorem older_not_hasBlock {N k : Nat} {G : Function} (h : G.older N) (hk : N ≤ k) :
    ¬ G.hasBlock k := fun hb => absurd (h.1 k hb) (by omega)

theorem older_not_Has {N k : Nat} {G : Function} (h : G.older N) (hk : N ≤ k) (i : Instr) :
    ¬ G.Has k i := fun hb => older_not_hasBlock h hk (Has_hasBlock hb)

theorem older_no_pred {N k : Nat} {G : Function} (h : G.older N) (hk : N ≤ k) (P : Nat) :
    P ∉ G.preds k := by
  rw [mem_preds]
  rintro ⟨i, hi, hs⟩
  exact absurd ((h.2 P i hi).2 k hs) (by omega)

/-- An instruction that is neither a terminator nor a phi node, at the end of
the insertion block. -/
theorem under_construction_append {N BB : Nat} {inst : Inst} {G : Function}
    (h : G.under_construction N BB) (ht : inst.isTerminator = false)
    (hp : inst.isPHI = false) :
    (G.append BB ⟨N, inst⟩).under_construction (N + 1) BB ∧
      G.grows N (G.append BB ⟨N, inst⟩) := by
  obtain ⟨ho, hb, hs, hphi⟩ := h
  have hsucc : inst.successors = [] := by
    cases inst <;> first | rfl | cases ht
  refine ⟨⟨older_append (older_mono ho (Nat.le_succ N)) (Nat.lt_succ_self N) ?_,
    hasBlock_append.2 hb, shaped_append_plain hs rfl ht hp, ?_⟩, grows_append le_rfl ?_ ?_⟩
  · simp [hsucc]
  · rw [phis_agree_iff] at hphi ⊢
    refine pending_append_quiet hphi hp ?_
    simp [hsucc]
  · simp [hsucc]
  · simp [hp]

/-- The start of a conditional: the block `then` at the end of the function
and the conditional branch at the end of the insertion block. -/
theorem under_construction_then {N BB : Nat} {c : Value} {l : Label} {G : Function}
    (h : G.under_construction N BB) :
    ((G.addBlock ⟨N, l, []⟩).append BB
        ⟨N + 3, .CondBr c N (N + 1)⟩).under_construction (N + 4) N ∧
      G.grows N ((G.addBlock ⟨N, l, []⟩).append BB ⟨N + 3, .CondBr c N (N + 1)⟩) ∧
      ¬ ((G.addBlock ⟨N, l, []⟩).append BB ⟨N + 3, .CondBr c N (N + 1)⟩).hasBlock (N + 1) ∧
      ¬ ((G.addBlock ⟨N, l, []⟩).append BB ⟨N + 3, .CondBr c N (N + 1)⟩).hasBlock (N + 2) ∧
      ∀ P, P ∉ ((G.addBlock ⟨N, l, []⟩).append BB
        ⟨N + 3, .CondBr c N (N + 1)⟩).preds (N + 2) := by
  obtain ⟨ho, hb, hs, hphi⟩ := h
  have hBB : BB < N := ho.1 BB hb
  have ho1 : (G.addBlock ⟨N, l, []⟩).older (N + 4) :=
    older_addBlock (older_mono ho (by omega)) (by omega)
  have ho2 : ((G.addBlock ⟨N, l, []⟩).append BB ⟨N + 3, .CondBr c N (N + 1)⟩).older (N + 4) := by
    refine older_append ho1 (by simp) ?_
    intro d hd
    simp only [Inst.successors, List.mem_cons, List.mem_singleton, List.mem_nil_iff,
      or_false] at hd
    omega
  refine ⟨⟨ho2, hasBlock_append.2 (hasBlock_addBlock.2 (.inr rfl)), ?_, ?_⟩, ?_, ?_, ?_, ?_⟩
  · refine shaped_congr (shaped_append_term
      (shaped_addBlock hs (older_not_hasBlock ho le_rfl)) (.inl rfl) rfl) fun b _ => ?_
    constructor
    · rintro rfl
      exact ⟨.inr rfl, by omega⟩
    · rintro ⟨h1 | h1, h2⟩
      · exact absurd h1 h2
      · exact h1
  · rw [phis_agree_iff] at hphi ⊢
    refine pending_append_quiet (pending_addBlock hphi) rfl fun d hd i hi => ?_
    simp only [Inst.successors, List.mem_cons, List.mem_singleton, List.mem_nil_iff,
      or_false] at hd
    exact absurd (Has_addBlock.1 hi) (older_not_Has ho (by omega) i)
  · refine grows_trans (grows_addBlock le_rfl) (grows_append (by simp) ?_ (by simp [Inst.isPHI]))
    intro d hd
    simp only [Inst.successors, List.mem_cons, List.mem_singleton, List.mem_nil_iff,
      or_false] at hd
    omega
  · intro h1
    rcases hasBlock_addBlock.1 (hasBlock_append.1 h1) with h2 | h2
    · exact older_not_hasBlock ho (by omega) h2
    · simp at h2
  · intro h1
    rcases hasBlock_addBlock.1 (hasBlock_append.1 h1) with h2 | h2
    · exact older_not_hasBlock ho (by omega) h2
    · simp at h2
  · intro P hP
    rcases preds_append.1 hP with h1 | ⟨_, h1, _⟩
    · exact older_no_pred ho (by omega) P (preds_addBlock.1 h1)
    · simp [Inst.successors] at h1

/-- The middle of a conditional: the branch to the merge block at the end of
the insertion block, and the block `else` at the end of the function. -/
theorem under_construction_else {K N BB E M : Nat} {l : Label} {G : Function}
    (h : G.under_construction N BB) (hE : E < N) (hM : M < N) (hEM : M ≠ E)
    (hKE : K ≤ E) (hKM : K ≤ M) (hKN : K ≤ N)
    (haE : ¬ G.hasBlock E) (haM : ¬ G.hasBlock M) (hpM : ∀ P, P ∉ G.preds M) :
    ((G.append BB ⟨N, .Br M⟩).addBlock ⟨E, l, []⟩).under_construction (N + 1) E ∧
      G.grows K ((G.append BB ⟨N, .Br M⟩).addBlock ⟨E, l, []⟩) ∧
      ¬ ((G.append BB ⟨N, .Br M⟩).addBlock ⟨E, l, []⟩).hasBlock M ∧
      ∀ P, P ∈ ((G.append BB ⟨N, .Br M⟩).addBlock ⟨E, l, []⟩).preds M ↔ P = BB := by
  obtain ⟨ho, hb, hs, hphi⟩ := h
  have ho1 : (G.append BB ⟨N, .Br M⟩).older (N + 1) := by
    refine older_append (older_mono ho (by omega)) (by simp) ?_
    intro d hd
    simp only [Inst.successors, List.mem_singleton] at hd
    omega
  have ha1 : ¬ (G.append BB ⟨N, .Br M⟩).hasBlock E := fun h1 => haE (hasBlock_append.1 h1)
  refine ⟨⟨older_addBlock ho1 (by omega), hasBlock_addBlock.2 (.inr rfl), ?_, ?_⟩, ?_, ?_, ?_⟩
  · refine shaped_congr (shaped_addBlock (shaped_append_term hs rfl rfl) ha1) fun b _ => ?_
    constructor
    · rintro rfl
      exact .inr rfl
    · rintro (⟨h1, h2⟩ | h1)
      · exact absurd h1 h2
      · exact h1
  · rw [phis_agree_iff] at hphi ⊢
    refine pending_addBlock (pending_append_quiet hphi rfl fun d hd i hi => ?_)
    simp only [Inst.successors, List.mem_singleton] at hd
    subst hd
    exact absurd (Has_hasBlock hi) haM
  · refine grows_trans (grows_append hKN ?_ (by simp [Inst.isPHI])) (grows_addBlock hKE)
    intro d hd
    simp only [Inst.successors, List.mem_singleton] at hd
    omega
  · intro h1
    rcases hasBlock_addBlock.1 h1 with h2 | h2
    · exact haM (hasBlock_append.1 h2)
    · exact hEM h2
  · intro P
    rw [preds_addBlock, preds_append]
    constructor
    · rintro (h1 | ⟨h1, _, _⟩)
      · exact absurd h1 (hpM P)
      · exact h1
    · rintro rfl
      exact .inr ⟨rfl, by simp [Inst.successors], hb⟩

/-- The end of a conditional: the branch to the merge block at the end of the
insertion block, the merge block at the end of the function, and in it the phi
node with its two incoming pairs. -/
theorem under_construction_merge {K N BB M TB : Nat} {l : Label} {a e : Value}
    {G : Function} (h : G.under_construction N BB) (hM : M < N) (hKM : K ≤ M) (hKN : K ≤ N)
    (haM : ¬ G.hasBlock M) (hpM : ∀ P, P ∈ G.preds M ↔ P = TB) :
    (((((G.append BB ⟨N, .Br M⟩).addBlock ⟨M, l, []⟩).append M ⟨N + 1, .PHI []⟩).addIncoming
        (N + 1) a TB).addIncoming (N + 1) e BB).under_construction (N + 2) M ∧
      G.grows K (((((G.append BB ⟨N, .Br M⟩).addBlock ⟨M, l, []⟩).append M
        ⟨N + 1, .PHI []⟩).addIncoming (N + 1) a TB).addIncoming (N + 1) e BB) := by
  obtain ⟨ho, hb, hs, hphi⟩ := h
  have hBM : BB ≠ M := fun e => haM (e ▸ hb)
  have ho1 : (G.append BB ⟨N, .Br M⟩).older (N + 1) := by
    refine older_append (older_mono ho (by omega)) (by simp) ?_
    intro d hd
    simp only [Inst.successors, List.mem_singleton] at hd
    omega
  have ho2 : ((G.append BB ⟨N, .Br M⟩).addBlock ⟨M, l, []⟩).older (N + 1) :=
    older_addBlock ho1 (by omega)
  have ho3 : (((G.append BB ⟨N, .Br M⟩).addBlock ⟨M, l, []⟩).append M
      ⟨N + 1, .PHI []⟩).older (N + 2) :=
    older_append (older_mono ho2 (by omega)) (by simp) (by simp [Inst.successors])
  have ha1 : ¬ (G.append BB ⟨N, .Br M⟩).hasBlock M := fun h1 => haM (hasBlock_append.1 h1)
  have he2 : ∀ i, ¬ ((G.append BB ⟨N, .Br M⟩).addBlock ⟨M, l, []⟩).Has M i := fun i hi =>
    ha1 (Has_hasBlock (Has_addBlock.1 hi))
  have hw3 : ∀ b i, (((G.append BB ⟨N, .Br M⟩).addBlock ⟨M, l, []⟩).append M
      ⟨N + 1, .PHI []⟩).Has b i → i.id = N + 1 → b = M := by
    intro b i hi hid
    rcases Has_append.1 hi with h1 | ⟨h1, _, _⟩
    · exact absurd (ho2.2 b i h1).1 (by omega)
    · exact h1
  have hw4 : ∀ b i, ((((G.append BB ⟨N, .Br M⟩).addBlock ⟨M, l, []⟩).append M
      ⟨N + 1, .PHI []⟩).addIncoming (N + 1) a TB).Has b i → i.id = N + 1 → b = M := by
    intro b i hi hid
    obtain ⟨i0, h0, rfl⟩ := Has_addIncoming.1 hi
    rw [Instr_addIncoming_id] at hid
    exact hw3 b i0 h0 hid
  have hp2 : ∀ P, P ∈ ((G.append BB ⟨N, .Br M⟩).addBlock ⟨M, l, []⟩).preds M ↔
      (P = TB ∨ P = BB) := by
    intro P
    rw [preds_addBlock, preds_append, hpM]
    constructor
    · rintro (h1 | ⟨h1, _, _⟩)
      · exact .inl h1
      · exact .inr h1
    · rintro (h1 | h1)
      · exact .inl h1
      · exact .inr ⟨h1, by simp [Inst.successors], hb⟩
  refine ⟨⟨older_addIncoming (older_addIncoming ho3), hasBlock_addIncoming.2
    (hasBlock_addIncoming.2 (hasBlock_append.2 (hasBlock_addBlock.2 (.inr rfl)))), ?_, ?_⟩, ?_⟩
  · refine shaped_addIncoming (shaped_addIncoming (shaped_append_phi (O := fun b => b = M)
      (shaped_congr (shaped_addBlock (shaped_append_term hs rfl rfl) ha1) fun b _ => ?_)
      rfl rfl he2))
    constructor
    · rintro rfl
      exact .inr rfl
    · rintro (⟨h1, h2⟩ | h1)
      · exact absurd h1 h2
      · exact h1
  · rw [phis_agree_iff] at hphi ⊢
    have q1 : (G.append BB ⟨N, .Br M⟩).phis_pending fun _ _ => False := by
      refine pending_append_quiet hphi rfl fun d hd i hi => ?_
      simp only [Inst.successors, List.mem_singleton] at hd
      subst hd
      exact absurd (Has_hasBlock hi) haM
    have q3 := @pending_append_phi (N + 1) M _ (pending_addBlock (k := M) (l := l) q1)
      fun b i hi e => absurd (ho2.2 b i hi).1 (by omega)
    have hBT : BB ≠ TB := fun hn =>
      shaped_no_pred hs rfl M (hn ▸ (hpM TB).2 rfl)
    have q4 := @pending_addIncoming _ (N + 1) TB a _ q3 fun b i hi hid _ =>
      ⟨rfl, (hp2 TB).2 (.inl rfl)⟩
    have q5 := @pending_addIncoming _ (N + 1) BB e _ q4 fun b i hi hid _ =>
      ⟨⟨rfl, (hp2 BB).2 (.inr rfl)⟩, fun hn => hBT hn.2⟩
    refine pending_congr q5 fun b i _ P => ?_
    simp only [hp2]
    tauto
  · refine grows_trans (grows_trans (grows_trans (grows_trans
      (grows_append hKN ?_ (by simp [Inst.isPHI])) (grows_addBlock hKM))
      (grows_append (by simp; omega) (by simp [Inst.successors]) fun _ => hKM))
      (grows_addIncoming (by omega) fun b i hi hid => by rw [hw3 b i hi hid]; exact hKM))
      (grows_addIncoming (by omega) fun b i hi hid => by rw [hw4 b i hi hid]; exact hKM)
    intro d hd
    simp only [Inst.successors, List.mem_singleton] at hd
    omega

/-- The start of a loop: the block `loop` at the end of the function, the
branch to it at the end of the insertion block, and in it the phi node with
its first incoming pair. -/
theorem under_construction_loop {N BB : Nat} {l : Label} {SV : Value} {G : Function}
    (h : G.under_construction N BB) :
    ((((G.addBlock ⟨N, l, []⟩).append BB ⟨N + 1, .Br N⟩).append N
        ⟨N + 2, .PHI []⟩).addIncoming (N + 2) SV BB).under_construction (N + 3) N ∧
      G.grows N ((((G.addBlock ⟨N, l, []⟩).append BB ⟨N + 1, .Br N⟩).append N
        ⟨N + 2, .PHI []⟩).addIncoming (N + 2) SV BB) ∧
      ((((G.addBlock ⟨N, l, []⟩).append BB ⟨N + 1, .Br N⟩).append N
        ⟨N + 2, .PHI []⟩).addIncoming (N + 2) SV BB).phi_of N (N + 2) := by
  obtain ⟨ho, hb, hs, hphi⟩ := h
  have hBB : BB < N := ho.1 BB hb
  have ho1 : (G.addBlock ⟨N, l, []⟩).older (N + 2) :=
    older_addBlock (older_mono ho (by omega)) (by omega)
  have ho2 : ((G.addBlock ⟨N, l, []⟩).append BB ⟨N + 1, .Br N⟩).older (N + 2) := by
    refine older_append ho1 (by simp) ?_
    intro d hd
    simp only [Inst.successors, List.mem_singleton] at hd
    omega
  have ho3 : (((G.addBlock ⟨N, l, []⟩).append BB ⟨N + 1, .Br N⟩).append N
      ⟨N + 2, .PHI []⟩).older (N + 3) :=
    older_append (older_mono ho2 (by omega)) (by simp) (by simp [Inst.successors])
  have he2 : ∀ i, ¬ ((G.addBlock ⟨N, l, []⟩).append BB ⟨N + 1, .Br N⟩).Has N i := by
    intro i hi
    rcases Has_append.1 hi with h1 | ⟨h1, _, _⟩
    · exact older_not_Has ho le_rfl i (Has_addBlock.1 h1)
    · omega
  have hw3 : ∀ b i, (((G.addBlock ⟨N, l, []⟩).append BB ⟨N + 1, .Br N⟩).append N
      ⟨N + 2, .PHI []⟩).Has b i → i.id = N + 2 → b = N := by
    intro b i hi hid
    rcases Has_append.1 hi with h1 | ⟨h1, _, _⟩
    · exact absurd (ho2.2 b i h1).1 (by omega)
    · exact h1
  have hp2 : ∀ P, P ∈ ((G.addBlock ⟨N, l, []⟩).append BB ⟨N + 1, .Br N⟩).preds N ↔
      P = BB := by
    intro P
    rw [preds_append, preds_addBlock]
    constructor
    · rintro (h1 | ⟨h1, _, _⟩)
      · exact absurd h1 (older_no_pred ho le_rfl P)
      · exact h1
    · rintro rfl
      exact .inr ⟨rfl, by simp [Inst.successors], hasBlock_addBlock.2 (.inl hb)⟩
  refine ⟨⟨older_addIncoming ho3, hasBlock_addIncoming.2 (hasBlock_append.2
    (hasBlock_append.2 (hasBlock_addBlock.2 (.inr rfl)))), ?_, ?_⟩, ?_, ?_, ?_⟩
  · refine shaped_addIncoming (shaped_append_phi (O := fun b => b = N)
      (shaped_congr (shaped_append_term (shaped_addBlock hs (older_not_hasBlock ho le_rfl))
        (.inl rfl) rfl) fun b _ => ?_) rfl rfl he2)
    constructor
    · rintro rfl
      exact ⟨.inr rfl, by omega⟩
    · rintro ⟨h1 | h1, h2⟩
      · exact absurd h1 h2
      · exact h1
  · rw [phis_agree_iff] at hphi ⊢
    have q2 : ((G.addBlock ⟨N, l, []⟩).append BB ⟨N + 1, .Br N⟩).phis_pending
        fun _ _ => False := by
      refine pending_append_quiet (pending_addBlock hphi) rfl fun d hd i hi => ?_
      simp only [Inst.successors, List.mem_singleton] at hd
      subst hd
      exact absurd (Has_addBlock.1 hi) (older_not_Has ho le_rfl i)
    have q3 := @pending_append_phi (N + 2) N _ q2
      fun b i hi e => absurd (ho2.2 b i hi).1 (by omega)
    have q4 := @pending_addIncoming _ (N + 2) BB SV _ q3 fun b i hi hid _ =>
      ⟨rfl, (hp2 BB).2 rfl⟩
    refine pending_congr q4 fun b i _ P => ?_
    simp only [hp2]
    tauto
  · refine grows_trans (grows_trans (grows_trans (grows_addBlock le_rfl)
      (grows_append (by simp) ?_ (by simp [Inst.isPHI])))
      (grows_append (by simp) (by simp [Inst.successors]) fun _ => le_rfl))
      (grows_addIncoming (by omega) fun b i hi hid => by rw [hw3 b i hi hid])
    intro d hd
    simp only [Inst.successors, List.mem_singleton] at hd
    omega
  · intro i1 hi _
    obtain ⟨i, h0, rfl⟩ := Has_addIncoming.1 hi
    rw [Instr_addIncoming_id]
    rcases Has_append.1 h0 with h1 | ⟨_, rfl, _⟩
    · exact absurd h1 (he2 i)
    · rfl
  · intro b i1 hi hid
    obtain ⟨i, h0, rfl⟩ := Has_addIncoming.1 hi
    rw [Instr_addIncoming_id] at hid
    exact hw3 b i h0 hid

/-- The end of a loop: the block `afterloop` at the end of the function, the
conditional branch at the end of the insertion block, and the second incoming
pair of the phi node of the loop. -/
theorem under_construction_afterloop {K N BB L Var : Nat} {l : Label} {c n : Value}
    {G : Function} (h : G.under_construction N BB) (hphi : G.phi_of L Var)
    (hL : L < N) (hV : Var < N) (hKL : K ≤ L) (hKV : K ≤ Var) (hKN : K ≤ N) :
    (((G.addBlock ⟨N, l, []⟩).append BB ⟨N + 1, .CondBr c L N⟩).addIncoming
        Var n BB).under_construction (N + 2) N ∧
      G.grows K (((G.addBlock ⟨N, l, []⟩).append BB ⟨N + 1, .CondBr c L N⟩).addIncoming
        Var n BB) := by
  obtain ⟨ho, hb, hs, hag⟩ := h
  have hBB : BB < N := ho.1 BB hb
  have ho1 : (G.addBlock ⟨N, l, []⟩).older (N + 2) :=
    older_addBlock (older_mono ho (by omega)) (by omega)
  have ho2 : ((G.addBlock ⟨N, l, []⟩).append BB ⟨N + 1, .CondBr c L N⟩).older (N + 2) := by
    refine older_append ho1 (by simp) ?_
    intro d hd
    simp only [Inst.successors, List.mem_cons, List.mem_singleton, List.mem_nil_iff,
      or_false] at hd
    omega
  have hw2 : ∀ b i, ((G.addBlock ⟨N, l, []⟩).append BB ⟨N + 1, .CondBr c L N⟩).Has b i →
      i.id = Var → b = L := by
    intro b i hi hid
    rcases Has_append.1 hi with h1 | ⟨_, rfl, _⟩
    · exact hphi.2 b i (Has_addBlock.1 h1) hid
    · simp only at hid
      omega
  refine ⟨⟨older_addIncoming ho2, hasBlock_addIncoming.2 (hasBlock_append.2
    (hasBlock_addBlock.2 (.inr rfl))), ?_, ?_⟩, ?_⟩
  · refine shaped_addIncoming (shaped_congr (shaped_append_term
      (shaped_addBlock hs (older_not_hasBlock ho le_rfl)) (.inl rfl) rfl) fun b _ => ?_)
    constructor
    · rintro rfl
      exact ⟨.inr rfl, by omega⟩
    · rintro ⟨h1 | h1, h2⟩
      · exact absurd h1 h2
      · exact h1
  · rw [phis_agree_iff] at hag ⊢
    have q2 : ((G.addBlock ⟨N, l, []⟩).append BB ⟨N + 1, .CondBr c L N⟩).phis_pending
        fun j P => j = Var ∧ P = BB := by
      refine pending_append (pending_addBlock hag) rfl
        (fun r hr => shaped_no_pred hs rfl r (preds_addBlock.1 hr)) fun b i hi hp P => ?_
      have hi0 := Has_addBlock.1 hi
      constructor
      · rintro ⟨h1, h2⟩
        refine .inr ⟨h2, ?_, hasBlock_addBlock.2 (.inl hb)⟩
        rw [hphi.2 b i hi0 h1]
        simp [Inst.successors]
      · rintro (h1 | ⟨h1, h2, _⟩)
        · exact absurd h1 id
        · simp only [Inst.successors, List.mem_cons, List.mem_singleton, List.mem_nil_iff,
            or_false] at h2
          rcases h2 with rfl | rfl
          · exact ⟨hphi.1 i hi0 hp, h1⟩
          · exact absurd hi0 (older_not_Has ho le_rfl i)
    have q3 := @pending_addIncoming _ Var BB n _ q2 fun b i hi hid _ => ⟨rfl, rfl⟩
    refine pending_congr q3 fun b i _ P => ?_
    tauto
  · refine grows_trans (grows_trans (grows_addBlock hKN)
      (grows_append (by simp; omega) ?_ (by simp [Inst.isPHI])))
      (grows_addIncoming hKV fun b i hi hid => by rw [hw2 b i hi hid]; exact hKL)
    intro d hd
    simp only [Inst.successors, List.mem_cons, List.mem_singleton, List.mem_nil_iff,
      or_false] at hd
    omega

/-- The block `entry` at the end of a function without blocks. -/
theorem under_construction_entry {N : Nat} {l : Label} {G : Function} (h : G.blocks = []) :
    (G.addBlock ⟨N, l, []⟩).under_construction (N + 1) N := by
  have hn : ∀ b, ¬ G.hasBlock b := by
    rintro b ⟨B, hB, _⟩
    rw [h] at hB
    cases hB
  have ho : G.older N := ⟨fun b hb => absurd hb (hn b), fun b i hi =>
    absurd (Has_hasBlock hi) (hn b)⟩
  have hs : G.shaped fun _ => False := by
    intro B hB
    rw [h] at hB
    cases hB
  have hp : G.phis_pending fun _ _ => False := fun b i _ hi =>
    absurd (Has_hasBlock hi) (hn b)
  refine ⟨older_addBlock (older_mono ho (by omega)) (by omega),
    hasBlock_addBlock.2 (.inr rfl), shaped_congr (shaped_addBlock hs (hn N)) fun b _ => ?_,
    phis_agree_iff.2 (pending_addBlock hp)⟩
  simp

/-- The instruction `ret` at the end of the insertion block completes the
function. -/
theorem under_construction_ret {N BB : Nat} {v : Value} {G : Function}
    (h : G.under_construction N BB) :
    (G.append BB ⟨N, .Ret v⟩).wellformed = true ∧ (G.append BB ⟨N, .Ret v⟩).phis_agree := by
  obtain ⟨ho, hb, hs, hphi⟩ := h
  constructor
  · unfold Function.wellformed
    rw [List.all_eq_true]
    intro B hB
    exact (@shaped_append_term _ BB ⟨N, .Ret v⟩ _ hs rfl rfl B hB).2 fun hn => hn.2 hn.1
  · rw [phis_agree_iff] at hphi ⊢
    exact pending_append_quiet hphi rfl (by simp [Inst.successors])

theorem Rebuilt_map {F : Nat} {s s1 : State} (g : Function → Function)
    (hid : ∀ G, (g G).id = G.id) (hm : s1.TheModule = s.TheModule.map g) :
    Rebuilt F (fun G G1 => G1 = g G) s s1 := by
  refine ⟨fun G1 hG1 hF => ?_, fun ⟨G, hG, hF⟩ => ⟨g G, ?_, (hid G).trans hF⟩⟩
  · rw [hm, List.mem_map] at hG1
    obtain ⟨G, hG, rfl⟩ := hG1
    exact ⟨G, hG, (hid G).symm.trans hF, rfl⟩
  · rw [hm]
    exact List.mem_map_of_mem g hG

theorem Rebuilt_same {F : Nat} {s s1 : State} (hm : s1.TheModule = s.TheModule) :
    Rebuilt F (fun G G1 => G1 = G) s s1 := by
  refine ⟨fun G1 hG1 hF => ?_, fun ⟨G, hG, hF⟩ => ⟨G, hm ▸ hG, hF⟩⟩
  rw [hm] at hG1
  exact ⟨G1, hG1, hF, rfl⟩

theorem Rebuilt_trans {F : Nat} {R1 R2 : Function → Function → Prop} {s s1 s2 : State}
    (h1 : Rebuilt F R1 s s1) (h2 : Rebuilt F R2 s1 s2) :
    Rebuilt F (fun G G2 => ∃ G1, R1 G G1 ∧ R2 G1 G2) s s2 := by
  refine ⟨fun G2 hG2 hF => ?_, fun h => h2.2 (h1.2 h)⟩
  obtain ⟨G1, hG1, hF1, r2⟩ := h2.1 G2 hG2 hF
  obtain ⟨G, hG, hF0, r1⟩ := h1.1 G1 hG1 hF1
  exact ⟨G, hG, hF0, G1, r1, r2⟩

theorem Rebuilt_mono {F : Nat} {R R1 : Function → Function → Prop} {P : Function → Prop}
    {s s1 : State} (h : Rebuilt F R s s1) (hP : s.each F P)
    (hR : ∀ G G1, P G → R G G1 → R1 G G1) : Rebuilt F R1 s s1 := by
  refine ⟨fun G1 hG1 hF => ?_, h.2⟩
  obtain ⟨G, hG, hF0, r⟩ := h.1 G1 hG1 hF
  exact ⟨G, hG, hF0, hR G G1 (hP G hG hF0) r⟩

theorem Rebuilt_each {F : Nat} {R : Function → Function → Prop} {P Q : Function → Prop}
    {s s1 : State} (h : Rebuilt F R s s1) (hP : s.each F P)
    (hR : ∀ G G1, P G → R G G1 → Q G1) : s1.each F Q := by
  intro G1 hG1 hF
  obtain ⟨G, hG, hF0, r⟩ := h.1 G1 hG1 hF
  exact hR G G1 (hP G hG hF0) r

theorem each_and {F : Nat} {P Q : Function → Prop} {s : State} (hP : s.each F P)
    (hQ : s.each F Q) : s.each F fun G => P G ∧ Q G :=
  fun G hG hF => ⟨hP G hG hF, hQ G hG hF⟩

theorem each_mono {F : Nat} {P Q : Function → Prop} {s : State} (hP : s.each F P)
    (h : ∀ G, P G → Q G) : s.each F Q := fun G hG hF => h G (hP G hG hF)

theorem Rebuilt_Function_insert (F : Nat) (BB : BasicBlock) (s : State) :
    Rebuilt F (fun G G1 => G1 = G.addBlock BB) s (Function_insert F BB s) := by
  refine ⟨fun G1 hG1 hF => ?_, fun ⟨G, hG, hF⟩ => ⟨G.addBlock BB, ?_, hF⟩⟩
  · simp only [Function_insert, List.mem_map] at hG1
    obtain ⟨G, hG, rfl⟩ := hG1
    by_cases h : G.id = F
    · rw [if_pos h]
      exact ⟨G, hG, h, rfl⟩
    · rw [if_neg h] at hF
      exact absurd hF h
  · simp only [Function_insert, List.mem_map]
    exact ⟨G, hG, by rw [if_pos hF]; rfl⟩

/-- What `Insert` does to the state when the builder is in a block. -/
theorem Insert_Rebuilt {F BB : Nat} {inst : Inst} {s s1 : State} {v : Value}
    (h : Insert inst s = .ret v s1) (hB : s.Builder = some BB) :
    s1.Builder = some BB ∧ s1.fresh = s.fresh + 1 ∧ v = .Instruction s.fresh ∧
      Rebuilt F (fun G G1 => G1 = G.append BB ⟨s.fresh, inst⟩) s s1 := by
  unfold Insert at h
  rw [hB] at h
  simp only at h
  split at h
  · cases h
  · cases h
    exact ⟨rfl, rfl, rfl, Rebuilt_map _ (fun _ => rfl) rfl⟩

/-- What `addIncoming` does to the state. -/
theorem addIncoming_Rebuilt {F PN BB : Nat} {V : Value} {s s1 : State} {u : Unit}
    (h : addIncoming (.Instruction PN) V BB s = .ret u s1) :
    s1.Builder = s.Builder ∧ s1.fresh = s.fresh ∧
      Rebuilt F (fun G G1 => G1 = G.addIncoming PN V BB) s s1 := by
  simp only [addIncoming] at h
  cases h
  exact ⟨rfl, rfl, Rebuilt_map _ (fun _ => rfl) rfl⟩

theorem Lowered_Ready {K F : Nat} {s s1 : State} (h : Lowered K F s s1) (hs : Ready F s) :
    Ready F s1 := by
  obtain ⟨BB1, hB1, _, hr⟩ := h
  obtain ⟨BB, _, hu⟩ := hs
  exact ⟨BB1, hB1, Rebuilt_each hr hu fun G G1 _ r => r.2⟩

theorem Lowered_grows {K F : Nat} {s s1 : State} (h : Lowered K F s s1) :
    Rebuilt F (fun G G1 => G.grows K G1) s s1 := by
  obtain ⟨BB1, hB1, _, hr⟩ := h
  refine ⟨fun G1 hG1 hF => ?_, hr.2⟩
  obtain ⟨G, hG, hF0, r⟩ := hr.1 G1 hG1 hF
  exact ⟨G, hG, hF0, r.1⟩

theorem Lowered_le {K F : Nat} {s s1 : State} (h : Lowered K F s s1) : s.fresh ≤ s1.fresh := by
  obtain ⟨BB1, hB1, hle, hr⟩ := h
  exact hle

theorem Lowered_trans {K K1 F : Nat} {s s1 s2 : State} (h1 : Lowered K F s s1)
    (h2 : Lowered K1 F s1 s2) (hK : K ≤ K1) : Lowered K F s s2 := by
  obtain ⟨BB1, hB1, hle1, hr1⟩ := h1
  obtain ⟨BB2, hB2, hle2, hr2⟩ := h2
  refine ⟨BB2, hB2, le_trans hle1 hle2, fun G2 hG2 hF => ?_, fun h => hr2.2 (hr1.2 h)⟩
  obtain ⟨G1, hG1, hF1, r2⟩ := hr2.1 G2 hG2 hF
  obtain ⟨G, hG, hF0, r1⟩ := hr1.1 G1 hG1 hF1
  exact ⟨G, hG, hF0, grows_trans r1.1 (grows_mono r2.1 hK), r2.2⟩

/-- A step that leaves the module, the counter and the builder alone. -/
theorem Lowered_same {K F : Nat} {s s1 : State} (hs : Ready F s)
    (hm : s1.TheModule = s.TheModule) (hf : s1.fresh = s.fresh) (hB : s1.Builder = s.Builder) :
    Lowered K F s s1 := by
  obtain ⟨BB, hBB, hu⟩ := hs
  refine ⟨BB, hB.trans hBB, by omega, fun G1 hG1 hF => ?_, fun ⟨G, hG, hF⟩ => ⟨G, hm ▸ hG, hF⟩⟩
  rw [hm] at hG1
  exact ⟨G1, hG1, hF, grows_refl K G1, by rw [hf]; exact hu G1 hG1 hF⟩

/-- A step given by what it does to the function that is lowered. -/
theorem Lowered_of_Rebuilt {K F BB BB1 : Nat} {g : Function → Function} {s s1 : State}
    {P : Function → Prop} (hu : s.each F fun G => G.under_construction s.fresh BB ∧ P G)
    (hr : Rebuilt F (fun G G1 => G1 = g G) s s1) (hB1 : s1.Builder = some BB1)
    (hle : s.fresh ≤ s1.fresh)
    (hg : ∀ G, G.under_construction s.fresh BB → P G →
      G.grows K (g G) ∧ (g G).under_construction s1.fresh BB1) : Lowered K F s s1 := by
  refine ⟨BB1, hB1, hle, fun G1 hG1 hF => ?_, hr.2⟩
  obtain ⟨G, hG, hF0, rfl⟩ := hr.1 G1 hG1 hF
  exact ⟨G, hG, hF0, hg G (hu G hG hF0).1 (hu G hG hF0).2⟩

/-- An instruction that is neither a terminator nor a phi node. -/
theorem Insert_Lowered {F : Nat} {inst : Inst} {s s1 : State} {v : Value}
    (h : Insert inst s = .ret v s1) (hs : Ready F s) (ht : inst.isTerminator = false)
    (hp : inst.isPHI = false) : Lowered s.fresh F s s1 := by
  obtain ⟨BB, hB, hu⟩ := hs
  obtain ⟨hB1, hf, _, hr⟩ := Insert_Rebuilt (F := F) h hB
  refine Lowered_of_Rebuilt (P := fun _ => True) (each_mono hu fun G hG => ⟨hG, trivial⟩) hr hB1
    (by omega) fun G hG _ => ?_
  rw [hf]
  exact ⟨(under_construction_append hG ht hp).2, (under_construction_append hG ht hp).1⟩

theorem CreateBinOp_Lowered {F : Nat} {Opc : BinaryOps} {L R : Option Value} {s s1 : State}
    {v : Value} (h : CreateBinOp Opc L R s = .ret v s1) (hs : Ready F s) :
    Lowered s.fresh F s s1 := by
  unfold CreateBinOp at h
  split at h
  · split at h
    · cases h
      exact Lowered_same hs rfl rfl rfl
    · exact Insert_Lowered h hs rfl rfl
  · cases h

theorem CreateICmp_Lowered {F : Nat} {P : Predicate} {L R : Option Value} {s s1 : State}
    {v : Value} (h : CreateICmp P L R s = .ret v s1) (hs : Ready F s) :
    Lowered s.fresh F s s1 := by
  unfold CreateICmp at h
  split at h
  · split at h
    · cases h
      exact Lowered_same hs rfl rfl rfl
    · exact Insert_Lowered h hs rfl rfl
  · cases h

theorem CreateZExt_Lowered {F : Nat} {V : Value} {s s1 : State}
    {v : Value} (h : CreateZExt V s = .ret v s1) (hs : Ready F s) :
    Lowered s.fresh F s s1 := by
  unfold CreateZExt at h
  split at h
  · cases h
    exact Lowered_same hs rfl rfl rfl
  · cases h
    exact Lowered_same hs rfl rfl rfl
  · exact Insert_Lowered h hs rfl rfl

theorem CreateCall_Lowered {F : Nat} {G : Option Function} {Args : List (Option Value)}
    {s s1 : State} {v : Value} (h : CreateCall G Args s = .ret v s1) (hs : Ready F s) :
    Lowered s.fresh F s s1 := by
  unfold CreateCall at h
  split at h
  · cases h
  · split at h
    · exact Insert_Lowered h hs rfl rfl
    · cases h

theorem Rebuilt_comp {F : Nat} {g1 g2 : Function → Function} {s s1 s2 : State}
    (h1 : Rebuilt F (fun G G1 => G1 = g1 G) s s1)
    (h2 : Rebuilt F (fun G G1 => G1 = g2 G) s1 s2) :
    Rebuilt F (fun G G2 => G2 = g2 (g1 G)) s s2 := by
  refine ⟨fun G2 hG2 hF => ?_, fun h => h2.2 (h1.2 h)⟩
  obtain ⟨G1, hG1, hF1, rfl⟩ := h2.1 G2 hG2 hF
  obtain ⟨G, hG, hF0, rfl⟩ := h1.1 G1 hG1 hF1
  exact ⟨G, hG, hF0, rfl⟩

/-- What `Insert` does to the state when the builder is in a block and the
counter at `N`. -/
theorem Insert_Rebuilt_at {F B N : Nat} {inst : Inst} {s s1 : State} {v : Value}
    (h : Insert inst s = .ret v s1) (hB : s.Builder = some B) (hN : s.fresh = N) :
    s1.Builder = some B ∧ s1.fresh = N + 1 ∧ v = .Instruction N ∧
      Rebuilt F (fun G G1 => G1 = G.append B ⟨N, inst⟩) s s1 := by
  subst hN
  exact Insert_Rebuilt h hB

/-- A step given by what it does to the function that is lowered, with what
it finds and what it leaves there. -/
theorem Lowered_step {K F N BB N1 BB1 : Nat} {g : Function → Function} {P Q : Function → Prop}
    {s t : State} (hu : s.each F fun G => G.under_construction N BB ∧ P G)
    (hr : Rebuilt F (fun G G1 => G1 = g G) s t) (hB1 : t.Builder = some BB1)
    (hf1 : t.fresh = N1) (hle : s.fresh ≤ t.fresh)
    (hg : ∀ G, G.under_construction N BB → P G →
      G.grows K (g G) ∧ (g G).under_construction N1 BB1 ∧ Q (g G)) :
    Lowered K F s t ∧ t.each F Q := by
  refine ⟨⟨BB1, hB1, hle, fun G1 hG1 hF => ?_, hr.2⟩, ?_⟩
  · obtain ⟨G, hG, hF0, rfl⟩ := hr.1 G1 hG1 hF
    have := hg G (hu G hG hF0).1 (hu G hG hF0).2
    exact ⟨G, hG, hF0, this.1, hf1 ▸ this.2.1⟩
  · intro G1 hG1 hF
    obtain ⟨G, hG, hF0, rfl⟩ := hr.1 G1 hG1 hF
    exact (hg G (hu G hG hF0).1 (hu G hG hF0).2).2.2

/-- The conditional, given what lowering does for its three parts. -/
theorem ExprIf_Lowered {F N0 : Nat} {M0 : List Function} (Cond Then Else : BaseAST)
    (ihC : ∀ s v s1, Building F N0 M0 s → Ready F s → Codegen Cond s = .ret (some v) s1 →
      Lowered s.fresh F s s1)
    (ihT : ∀ s v s1, Building F N0 M0 s → Ready F s → Codegen Then s = .ret (some v) s1 →
      Lowered s.fresh F s s1)
    (ihE : ∀ s v s1, Building F N0 M0 s → Ready F s → Codegen Else s = .ret (some v) s1 →
      Lowered s.fresh F s s1)
    (s : State) (v : Value) (s1 : State) (hb : Building F N0 M0 s) (hr : Ready F s)
    (h : Codegen (.ExprIfAST Cond Then Else) s = .ret (some v) s1) :
    Lowered s.fresh F s s1 := by
  rw [Codegen_ExprIf] at h
  obtain ⟨c, sA, hA, h⟩ := Res.bind_eq_ret h
  cases c with
  | none => cases h
  | some c =>
  simp only at h
  have lA := ihC s c sA hb hr hA
  have rA := Lowered_Ready lA hr
  have bA := Codegen_building Cond s F N0 M0 hb _ _ hA
  obtain ⟨c2, sB, hB, h⟩ := Res.bind_eq_ret h
  have lB := CreateICmp_Lowered hB rA
  have rB := Lowered_Ready lB rA
  have bB := CreateICmp_Sat bA _ _ hB
  obtain ⟨BB1, hBB1, uB⟩ := rB
  split at h
  · cases h
  rename_i TheFunc hTheFunc
  have hF : TheFunc.id = F := Building_parent bB hTheFunc
  simp only [BasicBlock_Create_in, BasicBlock_Create, hF] at h
  obtain ⟨x, sC, hC, h⟩ := Res.bind_eq_ret h
  obtain ⟨hBC, hfC, _, rC⟩ := Insert_Rebuilt (F := F) hC hBB1
  have RC := Rebuilt_comp (Rebuilt_Function_insert F ⟨sB.fresh, .then_, []⟩ sB) rC
  have bC : Building F N0 M0 (SetInsertPoint sB.fresh sC) :=
    Building_SetInsertPoint (Insert_building (Building_fresh
      (Building_fresh (Building_Function_insert (Building_fresh bB) _))) _ _ hC).1 bB.2.2.1
  have hfC : sC.fresh = sB.fresh + 4 := hfC
  obtain ⟨lC, eC⟩ := Lowered_step (K := sB.fresh) (t := SetInsertPoint sB.fresh sC)
    (P := fun _ => True)
    (Q := fun G => ¬ G.hasBlock (sB.fresh + 1) ∧ ¬ G.hasBlock (sB.fresh + 2) ∧
      ∀ P, P ∉ G.preds (sB.fresh + 2))
    (each_mono uB fun G hG => ⟨hG, trivial⟩) RC rfl hfC (by simp only [SetInsertPoint]; omega)
    fun G hG _ => ⟨(under_construction_then hG).2.1, (under_construction_then hG).1,
      (under_construction_then hG).2.2⟩
  have rC := Lowered_Ready lC ⟨BB1, hBB1, uB⟩
  obtain ⟨tv, sD, hD, h⟩ := Res.bind_eq_ret h
  cases tv with
  | none => cases h
  | some tv =>
  simp only at h
  have lD := ihT _ tv sD bC rC hD
  have bD := Codegen_building Then _ F N0 M0 bC _ _ hD
  have hleD : sB.fresh + 4 ≤ sD.fresh := hfC ▸ Lowered_le lD
  obtain ⟨BBc, hBBc, uC⟩ := rC
  have eD : sD.each F fun G => ¬ G.hasBlock (sB.fresh + 1) ∧ ¬ G.hasBlock (sB.fresh + 2) ∧
      ∀ P, P ∉ G.preds (sB.fresh + 2) := by
    refine Rebuilt_each (Lowered_grows lD) (each_and uC eC) fun G G1 hG hg => ?_
    have hg : G.grows (sB.fresh + 4) G1 := hfC ▸ hg
    have ho : G.older (sB.fresh + 4) := hfC ▸ hG.1.1
    exact ⟨grows_absent hg (by omega) hG.2.1, grows_absent hg (by omega) hG.2.2.1,
      fun P hP => hG.2.2.2 P ((grows_preds hg (by omega) ho P).1 hP)⟩
  obtain ⟨TB, hTB, uD⟩ := Lowered_Ready lD ⟨BBc, hBBc, uC⟩
  obtain ⟨x, sE, hE, h⟩ := Res.bind_eq_ret h
  obtain ⟨hBE, hfE, _, rE⟩ := Insert_Rebuilt (F := F) hE hTB
  have bE := (Insert_building bD _ _ hE).1
  rw [hBE] at h
  simp only at h
  have RE := Rebuilt_comp rE (Rebuilt_Function_insert F ⟨sB.fresh + 1, .else_, []⟩ sE)
  obtain ⟨lE, eE⟩ := Lowered_step (K := sB.fresh)
    (t := SetInsertPoint (sB.fresh + 1) (Function_insert F ⟨sB.fresh + 1, .else_, []⟩ sE))
    (Q := fun G => ¬ G.hasBlock (sB.fresh + 2) ∧ ∀ P, P ∈ G.preds (sB.fresh + 2) ↔ P = TB)
    (each_and uD eD) RE rfl hfE (by simp only [SetInsertPoint, Function_insert]; omega)
    fun G hG hP => by
      have t := under_construction_else (K := sB.fresh) (l := .else_) hG
        (show sB.fresh + 1 < sD.fresh by omega) (show sB.fresh + 2 < sD.fresh by omega)
        (by omega) (by omega) (by omega) (by omega) hP.1 hP.2.1 hP.2.2
      exact ⟨t.2.1, t.1, t.2.2⟩
  have bE1 : Building F N0 M0 (SetInsertPoint (sB.fresh + 1)
      (Function_insert F ⟨sB.fresh + 1, .else_, []⟩ sE)) :=
    Building_SetInsertPoint (Building_Function_insert bE _) (Nat.le_succ_of_le bB.2.2.1)
  have rE1 := Lowered_Ready lE ⟨TB, hTB, uD⟩
  obtain ⟨ev, sF, hF1, h⟩ := Res.bind_eq_ret h
  cases ev with
  | none => cases h
  | some ev =>
  simp only at h
  have lF := ihE _ ev sF bE1 rE1 hF1
  have bF := Codegen_building Else _ F N0 M0 bE1 _ _ hF1
  have hfE1 : (SetInsertPoint (sB.fresh + 1)
      (Function_insert F ⟨sB.fresh + 1, .else_, []⟩ sE)).fresh = sD.fresh + 1 := hfE
  have hleF : sD.fresh + 1 ≤ sF.fresh := hfE1 ▸ Lowered_le lF
  obtain ⟨BBe, hBBe, uE⟩ := rE1
  have eF : sF.each F fun G => ¬ G.hasBlock (sB.fresh + 2) ∧
      ∀ P, P ∈ G.preds (sB.fresh + 2) ↔ P = TB := by
    refine Rebuilt_each (Lowered_grows lF) (each_and uE eE) fun G G1 hG hg => ?_
    have hg : G.grows (sD.fresh + 1) G1 := hfE1 ▸ hg
    have ho : G.older (sD.fresh + 1) := hfE1 ▸ hG.1.1
    exact ⟨grows_absent hg (by omega) hG.2.1,
      fun P => (grows_preds hg (by omega) ho P).trans (hG.2.2 P)⟩
  obtain ⟨EB, hEB, uF⟩ := Lowered_Ready lF ⟨BBe, hBBe, uE⟩
  obtain ⟨x, sG, hG, h⟩ := Res.bind_eq_ret h
  obtain ⟨hBG, hfG, _, rG⟩ := Insert_Rebuilt (F := F) hG hEB
  rw [hBG] at h
  simp only at h
  obtain ⟨PN, sH, hH, h⟩ := Res.bind_eq_ret h
  obtain ⟨hBH, hfH, hPN, rH⟩ := Insert_Rebuilt_at (F := F) (B := sB.fresh + 2) hH rfl hfG
  subst hPN
  obtain ⟨u1, sI, hI, h⟩ := Res.bind_eq_ret h
  obtain ⟨hBI, hfI, rI⟩ := addIncoming_Rebuilt (F := F) hI
  obtain ⟨u2, sJ, hJ, h⟩ := Res.bind_eq_ret h
  obtain ⟨hBJ, hfJ, rJ⟩ := addIncoming_Rebuilt (F := F) hJ
  cases h
  have RJ := Rebuilt_comp (Rebuilt_comp (Rebuilt_comp (Rebuilt_comp rG
    (Rebuilt_Function_insert F ⟨sB.fresh + 2, .ifcont, []⟩ sG)) rH) rI) rJ
  obtain ⟨lG, _⟩ := Lowered_step (K := sB.fresh) (Q := fun _ => True) (each_and uF eF) RJ
    (hBJ.trans (hBI.trans hBH)) (hfJ.trans (hfI.trans hfH)) (by omega)
    fun G hG hP => by
      have t := under_construction_merge (K := sB.fresh) (l := .ifcont) (a := tv) (e := ev)
        hG (show sB.fresh + 2 < sF.fresh by omega) (by omega) (by omega) hP.1 hP.2
      exact ⟨t.2, t.1, trivial⟩
  exact Lowered_trans (Lowered_trans (Lowered_trans (Lowered_trans (Lowered_trans
    (Lowered_trans lA lB (Lowered_le lA)) lC (le_trans (Lowered_le lA) (Lowered_le lB)))
    lD (by simp only [SetInsertPoint]; have := Lowered_le lA; have := Lowered_le lB; omega))
    lE (le_trans (Lowered_le lA) (Lowered_le lB)))
    lF (by simp only [SetInsertPoint, Function_insert]; have := Lowered_le lA
           have := Lowered_le lB; omega))
    lG (le_trans (Lowered_le lA) (Lowered_le lB))

/-- The loop, given what lowering does for its parts. -/
theorem ExprFor_Lowered {F N0 : Nat} {M0 : List Function} (Var_Name : List Nat)
    (Start End : BaseAST) (Step : Option BaseAST) (Body : BaseAST)
    (ihS : ∀ s v s1, Building F N0 M0 s → Ready F s → Codegen Start s = .ret (some v) s1 →
      Lowered s.fresh F s s1)
    (ihE : ∀ s v s1, Building F N0 M0 s → Ready F s → Codegen End s = .ret (some v) s1 →
      Lowered s.fresh F s s1)
    (ihP : ∀ St, Step = some St → ∀ s v s1, Building F N0 M0 s → Ready F s →
      Codegen St s = .ret (some v) s1 → Lowered s.fresh F s s1)
    (ihB : ∀ s v s1, Building F N0 M0 s → Ready F s → Codegen Body s = .ret (some v) s1 →
      Lowered s.fresh F s s1)
    (s : State) (v : Value) (s1 : State) (hb : Building F N0 M0 s) (hr : Ready F s)
    (h : Codegen (.ExprForAST Var_Name Start End Step Body) s = .ret (some v) s1) :
    Lowered s.fresh F s s1 := by
  rw [Codegen_ExprFor] at h
  obtain ⟨sv, sA, hA, h⟩ := Res.bind_eq_ret h
  cases sv with
  | none => cases h
  | some sv =>
  simp only at h
  have lA := ihS s sv sA hb hr hA
  have bA := Codegen_building Start s F N0 M0 hb _ _ hA
  obtain ⟨PB, hPB, uA⟩ := Lowered_Ready lA hr
  split at h
  swap
  · cases h
  rename_i TheFunction PreheaderBB hTheFunction hPre
  have hF : TheFunction.id = F := Building_parent bA hTheFunction
  have hPP : PreheaderBB = PB := Option.some.inj (hPre.symm.trans hPB)
  subst hPP
  simp only [BasicBlock_Create_in, BasicBlock_Create, hF] at h
  obtain ⟨x, sB, hB, h⟩ := Res.bind_eq_ret h
  obtain ⟨hBB, hfB, _, rB⟩ := Insert_Rebuilt_at (F := F) (N := sA.fresh + 1) hB hPB rfl
  have bB := (Insert_building (Building_Function_insert (Building_fresh bA)
    ⟨sA.fresh, .loop, []⟩) _ _ hB).1
  obtain ⟨Var, sC, hC, h⟩ := Res.bind_eq_ret h
  have hfB : (SetInsertPoint sA.fresh sB).fresh = sA.fresh + 2 := hfB
  obtain ⟨hBC, hfC, hVar, rC⟩ := Insert_Rebuilt_at (F := F) (B := sA.fresh) hC rfl hfB
  have bC := Insert_building (Building_SetInsertPoint bB bA.2.2.1) _ _ hC
  subst hVar
  obtain ⟨u1, sD, hD, h⟩ := Res.bind_eq_ret h
  obtain ⟨hBD, hfD, rD⟩ := addIncoming_Rebuilt (F := F) hD
  have bD := addIncoming_Sat bC.1 ⟨_, rfl, Nat.le_add_right_of_le bA.2.2.1⟩ _ _ hD
  cases hmi : map_index none sD.Named_Values Var_Name with
  | mk OldVal m =>
  rw [hmi] at h
  simp only at h
  generalize map_assign m Var_Name (some (Value.Instruction (sA.fresh + 2))) = NV at h
  have RD := Rebuilt_comp (Rebuilt_comp (Rebuilt_comp
    (Rebuilt_Function_insert F ⟨sA.fresh, .loop, []⟩ sA) rB) rC) rD
  obtain ⟨lD, eD⟩ := Lowered_step (K := sA.fresh)
    (t := { sD with Named_Values := NV })
    (P := fun _ => True) (Q := fun G => G.phi_of sA.fresh (sA.fresh + 2))
    (each_mono uA fun G hG => ⟨hG, trivial⟩) RD (hBD.trans hBC) (hfD.trans hfC)
    (by simp only; omega)
    fun G hG _ => ⟨(under_construction_loop hG).2.1, (under_construction_loop hG).1,
      (under_construction_loop hG).2.2⟩
  have rD1 := Lowered_Ready lD ⟨PreheaderBB, hPB, uA⟩
  have bD1 := Building_Named_Values bD NV
  obtain ⟨bv, sE, hE, h⟩ := Res.bind_eq_ret h
  cases bv with
  | none => cases h
  | some bv =>
  simp only at h
  have lE := ihB _ bv sE bD1 rD1 hE
  have bE := Codegen_building Body _ F N0 M0 bD1 _ _ hE
  have rE := Lowered_Ready lE rD1
  obtain ⟨pv, sF, hP, h⟩ := Res.bind_eq_ret h
  cases pv with
  | none => cases h
  | some pv =>
  simp only at h
  have lbF : Lowered sE.fresh F sE sF ∧ Building F N0 M0 sF := by
    cases Step with
    | none =>
      rw [Codegen_Step_none] at hP
      cases hP
      exact ⟨Lowered_same rE rfl rfl rfl, bE⟩
    | some St =>
      rw [Codegen_Step_some] at hP
      exact ⟨ihP St rfl sE pv sF bE rE hP, Codegen_building St sE F N0 M0 bE _ _ hP⟩
  obtain ⟨lF, bF⟩ := lbF
  have rF := Lowered_Ready lF rE
  obtain ⟨nv, sG, hG, h⟩ := Res.bind_eq_ret h
  have lG := CreateBinOp_Lowered hG rF
  have bG := CreateBinOp_Sat bF _ _ hG
  have rG := Lowered_Ready lG rF
  obtain ⟨ec, sH, hH, h⟩ := Res.bind_eq_ret h
  cases ec with
  | none => cases h
  | some ec =>
  simp only at h
  have lH := ihE sG ec sH bG rG hH
  have rH := Lowered_Ready lH rG
  obtain ⟨ec2, sI, hI, h⟩ := Res.bind_eq_ret h
  have lI := CreateICmp_Lowered hI rH
  have hfD1 : ({ sD with Named_Values := NV } : State).fresh = sA.fresh + 3 := hfD.trans hfC
  have lEI0 :=
    Lowered_trans (Lowered_trans (Lowered_trans (Lowered_trans lE lF (Lowered_le lE))
      lG (le_trans (Lowered_le lE) (Lowered_le lF)))
      lH (le_trans (Lowered_le lE) (le_trans (Lowered_le lF) (Lowered_le lG))))
      lI (le_trans (Lowered_le lE) (le_trans (Lowered_le lF)
        (le_trans (Lowered_le lG) (Lowered_le lH))))
  have lEI : Lowered (sA.fresh + 3) F { sD with Named_Values := NV } sI := by
    rw [← hfD1]
    exact lEI0
  have hleI : sA.fresh + 3 ≤ sI.fresh := by
    have h1 : sD.fresh ≤ sI.fresh := Lowered_le lEI
    omega
  have eI : sI.each F fun G => G.phi_of sA.fresh (sA.fresh + 2) :=
    Rebuilt_each (Lowered_grows lEI) eD fun G G1 hG hg =>
      grows_phi_of hg (by omega) (by omega) hG
  obtain ⟨LE, hLE, uI⟩ := Lowered_Ready lEI rD1
  rw [hLE] at h
  simp only at h
  obtain ⟨x2, sJ, hJ, h⟩ := Res.bind_eq_ret h
  obtain ⟨hBJ, hfJ, _, rJ⟩ := Insert_Rebuilt_at (F := F) (B := LE) (N := sI.fresh + 1) hJ rfl rfl
  obtain ⟨u2, sK, hK, h⟩ := Res.bind_eq_ret h
  obtain ⟨hBK, hfK, rK⟩ := addIncoming_Rebuilt (F := F) hK
  have RK := Rebuilt_comp (Rebuilt_comp
    (Rebuilt_Function_insert F ⟨sI.fresh, .afterloop, []⟩ sI) rJ) rK
  have hfK1 : sK.fresh = sI.fresh + 2 := hfK.trans hfJ
  have key : ∀ t : State, t.TheModule = sK.TheModule → t.Builder = sK.Builder →
      t.fresh = sK.fresh → Lowered s.fresh F s t := by
    intro t hm hB2 hf2
    have RK1 : Rebuilt F (fun G G1 => G1 = ((G.addBlock ⟨sI.fresh, .afterloop, []⟩).append LE
        ⟨sI.fresh + 1, .CondBr ec2 sA.fresh sI.fresh⟩).addIncoming (sA.fresh + 2) nv LE)
        sI t := by
      refine ⟨fun G1 hG1 hF1 => ?_, fun hx => ?_⟩
      · rw [hm] at hG1
        exact RK.1 G1 hG1 hF1
      · rw [hm]
        exact RK.2 hx
    obtain ⟨lK, _⟩ := Lowered_step (K := sA.fresh) (Q := fun _ => True) (each_and uI eI) RK1
      (hB2.trans hBK) (hf2.trans hfK1) (by omega)
      fun G hG hP => by
        have q := under_construction_afterloop (K := sA.fresh) (l := .afterloop) (c := ec2)
          (n := nv) hG hP (by omega) (by omega) le_rfl (by omega) (by omega)
        exact ⟨q.2, q.1, trivial⟩
    exact Lowered_trans (Lowered_trans (Lowered_trans lA lD (Lowered_le lA))
      lEI (by have := Lowered_le lA; omega)) lK (Lowered_le lA)
  split at h <;> cases h <;> exact key _ rfl rfl rfl

/-- The end of `BinaryAST::Codegen` returns only with two operands. -/
theorem Binary_tail_operands {Bin_Operator : List Nat} {L R : Option Value} {s s1 : State}
    {v : Option Value}
    (h : (match stoi Bin_Operator with
      | none => (Res.throws : Res State (Option Value))
      | some op =>
        if op = 43 then (CreateBinOp .Add L R s).bind fun V s => .ret (some V) s
        else if op = 45 then (CreateBinOp .Sub L R s).bind fun V s => .ret (some V) s
        else if op = 42 then (CreateBinOp .Mul L R s).bind fun V s => .ret (some V) s
        else if op = 47 then (CreateBinOp .SDiv L R s).bind fun V s => .ret (some V) s
        else if op = 60 then
          (CreateICmp .ICMP_ULT L R s).bind fun L s =>
          (CreateZExt L s).bind fun V s => .ret (some V) s
        else
          let F := getFunction s.TheModule ([98, 105, 110, 97, 114, 121] ++ Bin_Operator)
          (CreateCall F [L, R] s).bind fun V s => .ret (some V) s) = .ret v s1) :
    ∃ l r, L = some l ∧ R = some r := by
  by_contra hn
  have hn : L = none ∨ R = none := by
    cases L with
    | none => exact .inl rfl
    | some l =>
      cases R with
      | none => exact .inr rfl
      | some r => exact absurd ⟨l, r, rfl, rfl⟩ hn
  have hB : ∀ Opc, CreateBinOp Opc L R s = .ub := by
    intro Opc
    cases L <;> cases R <;> first | rfl | simp at hn
  have hI : ∀ P, CreateICmp P L R s = .ub := by
    intro P
    cases L <;> cases R <;> first | rfl | simp at hn
  have hC : ∀ F, CreateCall F [L, R] s = .ub := by
    intro F
    cases F with
    | none => rfl
    | some F => cases L <;> cases R <;> first | rfl | simp at hn
  simp only [hB, hI, hC, Res.bind] at h
  split at h
  · cases h
  · split_ifs at h

/-- The end of `BinaryAST::Codegen` leaves the function under construction. -/
theorem Binary_tail_Lowered {F : Nat} {Bin_Operator : List Nat} {L R : Option Value}
    {s s1 : State} {v : Option Value} (hr : Ready F s)
    (h : (match stoi Bin_Operator with
      | none => (Res.throws : Res State (Option Value))
      | some op =>
        if op = 43 then (CreateBinOp .Add L R s).bind fun V s => .ret (some V) s
        else if op = 45 then (CreateBinOp .Sub L R s).bind fun V s => .ret (some V) s
        else if op = 42 then (CreateBinOp .Mul L R s).bind fun V s => .ret (some V) s
        else if op = 47 then (CreateBinOp .SDiv L R s).bind fun V s => .ret (some V) s
        else if op = 60 then
          (CreateICmp .ICMP_ULT L R s).bind fun L s =>
          (CreateZExt L s).bind fun V s => .ret (some V) s
        else
          let F := getFunction s.TheModule ([98, 105, 110, 97, 114, 121] ++ Bin_Operator)
          (CreateCall F [L, R] s).bind fun V s => .ret (some V) s) = .ret v s1) :
    Lowered s.fresh F s s1 := by
  split at h
  · cases h
  · split_ifs at h
    · obtain ⟨a, sA, hA, h⟩ := Res.bind_eq_ret h
      cases h
      exact CreateBinOp_Lowered hA hr
    · obtain ⟨a, sA, hA, h⟩ := Res.bind_eq_ret h
      cases h
      exact CreateBinOp_Lowered hA hr
    · obtain ⟨a, sA, hA, h⟩ := Res.bind_eq_ret h
      cases h
      exact CreateBinOp_Lowered hA hr
    · obtain ⟨a, sA, hA, h⟩ := Res.bind_eq_ret h
      cases h
      exact CreateBinOp_Lowered hA hr
    · obtain ⟨a, sA, hA, h⟩ := Res.bind_eq_ret h
      obtain ⟨b, sB, hB, h⟩ := Res.bind_eq_ret h
      cases h
      have lA := CreateICmp_Lowered hA hr
      exact Lowered_trans lA (CreateZExt_Lowered hB (Lowered_Ready lA hr)) (Lowered_le lA)
    · obtain ⟨a, sA, hA, h⟩ := Res.bind_eq_ret h
      cases h
      exact CreateCall_Lowered hA hr

mutual

/-- Lowering an expression into a function under construction, when it
succeeds, leaves the function under construction, and what it added is
new. -/
theorem Codegen_Lowered : ∀ (e : BaseAST) (F N0 : Nat) (M0 : List Function) (s : State)
    (v : Value) (s1 : State), Building F N0 M0 s → Ready F s →
    Codegen e s = .ret (some v) s1 → Lowered s.fresh F s s1
  | .NumericAST _, F, N0, M0, s, v, s1, hb, hr, h => by
    rw [Codegen_Numeric] at h
    cases h
    exact Lowered_same hr rfl rfl rfl
  | .VariableAST Var_Name, F, N0, M0, s, v, s1, hb, hr, h => by
    rw [Codegen_Variable] at h
    cases hmi : map_index none s.Named_Values Var_Name with
    | mk V m =>
      rw [hmi] at h
      cases h
      exact Lowered_same hr rfl rfl rfl
  | .ExprUnaryAST _ Operand, F, N0, M0, s, v, s1, hb, hr, h => by
    rw [Codegen_ExprUnary] at h
    obtain ⟨a, sA, hA, h⟩ := Res.bind_eq_ret h
    cases a with
    | none => cases h
    | some a =>
      simp only at h
      have lA := Codegen_Lowered Operand F N0 M0 s a sA hb hr hA
      split at h
      · cases h
      · obtain ⟨c, sB, hB, h⟩ := Res.bind_eq_ret h
        cases h
        exact Lowered_trans lA (CreateCall_Lowered hB (Lowered_Ready lA hr)) (Lowered_le lA)
  | .BinaryAST _ LHS RHS, F, N0, M0, s, v, s1, hb, hr, h => by
    rw [Codegen_Binary] at h
    obtain ⟨L, sA, hA, h⟩ := Res.bind_eq_ret h
    obtain ⟨R, sB, hB, h⟩ := Res.bind_eq_ret h
    obtain ⟨l, r, rfl, rfl⟩ := Binary_tail_operands h
    have lA := Codegen_Lowered LHS F N0 M0 s l sA hb hr hA
    have bA := Codegen_building LHS s F N0 M0 hb _ _ hA
    have rA := Lowered_Ready lA hr
    have lB := Codegen_Lowered RHS F N0 M0 sA r sB bA rA hB
    exact Lowered_trans (Lowered_trans lA lB (Lowered_le lA))
      (Binary_tail_Lowered (Lowered_Ready lB rA) h) (le_trans (Lowered_le lA) (Lowered_le lB))
  | .ExprIfAST Cond Then Else, F, N0, M0, s, v, s1, hb, hr, h =>
    ExprIf_Lowered Cond Then Else (fun s v s1 => Codegen_Lowered Cond F N0 M0 s v s1)
      (fun s v s1 => Codegen_Lowered Then F N0 M0 s v s1)
      (fun s v s1 => Codegen_Lowered Else F N0 M0 s v s1) s v s1 hb hr h
  | .ExprForAST Var_Name Start End Step Body, F, N0, M0, s, v, s1, hb, hr, h =>
    ExprFor_Lowered Var_Name Start End Step Body
      (fun s v s1 => Codegen_Lowered Start F N0 M0 s v s1)
      (fun s v s1 => Codegen_Lowered End F N0 M0 s v s1)
      (fun St hSt s v s1 => by
        subst hSt
        exact Codegen_Lowered St F N0 M0 s v s1)
      (fun s v s1 => Codegen_Lowered Body F N0 M0 s v s1) s v s1 hb hr h
  | .FunctionCallAST _ Function_Arguments, F, N0, M0, s, v, s1, hb, hr, h => by
    rw [Codegen_FunctionCall] at h
    obtain ⟨a, sA, hA, h⟩ := Res.bind_eq_ret h
    cases a with
    | none => cases h
    | some a =>
      simp only at h
      have lA := Codegen_args_Lowered Function_Arguments [] F N0 M0 s a sA hb hr hA
      obtain ⟨c, sB, hB, h⟩ := Res.bind_eq_ret h
      cases h
      exact Lowered_trans lA (CreateCall_Lowered hB (Lowered_Ready lA hr)) (Lowered_le lA)

/-- The same for the arguments of a call. -/
theorem Codegen_args_Lowered : ∀ (args : List BaseAST) (ArgsV : List (Option Value))
    (F N0 : Nat) (M0 : List Function) (s : State) (vs : List (Option Value)) (s1 : State),
    Building F N0 M0 s → Ready F s →
    Codegen_args args ArgsV s = .ret (some vs) s1 → Lowered s.fresh F s s1
  | [], ArgsV, F, N0, M0, s, vs, s1, hb, hr, h => by
    rw [Codegen_args_nil] at h
    cases h
    exact Lowered_same hr rfl rfl rfl
  | Arg :: rest, ArgsV, F, N0, M0, s, vs, s1, hb, hr, h => by
    rw [Codegen_args_cons] at h
    obtain ⟨a, sA, hA, h⟩ := Res.bind_eq_ret h
    cases a with
    | none => cases h
    | some a =>
      simp only at h
      have lA := Codegen_Lowered Arg F N0 M0 s a sA hb hr hA
      have bA := Codegen_building Arg s F N0 M0 hb _ _ hA
      exact Lowered_trans lA (Codegen_args_Lowered rest _ F N0 M0 sA vs s1 bA
        (Lowered_Ready lA hr) h) (Lowered_le lA)

end

/-- The function `FunctionDeclAST::Codegen` returns is in the module and has
no block. -/
theorem FunctionDeclAST_Codegen_empty {d : FunctionDeclAST} {s s1 : State} {F : Nat}
    (hwf : s.wf) (h : d.Codegen s = .ret (some F) s1) :
    (∃ G ∈ s1.TheModule, G.id = F) ∧ s1.each F fun G => G.blocks = [] := by
  unfold FunctionDeclAST.Codegen at h
  split at h
  · rename_i G hG
    have hmem : G ∈ s.TheModule := by
      unfold getFunction at hG
      split at hG
      · cases hG
      · exact List.mem_of_find?_eq_some hG
    split at h
    · cases h
    · rename_i hb
      split at h
      · cases h
      · cases h
        refine ⟨⟨G, hmem, rfl⟩, fun H hH hid => ?_⟩
        have : H = G := List.inj_on_of_nodup_map hwf.1 hH hmem hid
        subst this
        simpa using hb
  · cases h
    refine ⟨⟨_, List.mem_append_right _ (List.mem_singleton_self _), rfl⟩, fun H hH hid => ?_⟩
    have hH2 : H ∈ s.TheModule ++ [⟨s.fresh, d.Func_Name, d.Arguments.length, []⟩] := hH
    rcases List.mem_append.mp hH2 with hH3 | hH3
    · have h1 := (hwf.2 H hH3).1
      simp only at hid
      omega
    · simp only [List.mem_singleton] at hH3
      subst hH3
      rfl

/-- The function a successful `FunctionDefnAST::Codegen` returns is in the
module, every block of it holds exactly one terminator, at its end, and phi
nodes at its start only, and every phi node of it lists as incoming blocks
exactly the predecessors of its block. -/
theorem FunctionDefnAST_Codegen_cfg {d : FunctionDefnAST} {s s1 : State} {F : Nat}
    (hwf : s.wf) (h : d.Codegen s = .ret (some F) s1) :
    (∃ G ∈ s1.TheModule, G.id = F) ∧
      s1.each F fun G => G.wellformed = true ∧ G.phis_agree := by
  unfold FunctionDefnAST.Codegen at h
  obtain ⟨r, sA, hd, h⟩ := Res.bind_eq_ret h
  cases r with
  | none => cases h
  | some F1 =>
  simp only at h
  obtain ⟨-, hsome⟩ := FunctionDeclAST_Codegen_module (s := { s with Named_Values := [] })
    hwf hd
  obtain ⟨ho, hfr, -⟩ := hsome F1 rfl
  obtain ⟨hex, hem⟩ := FunctionDeclAST_Codegen_empty (s := { s with Named_Values := [] })
    hwf hd
  obtain ⟨u, sB, hR, h⟩ := Res.bind_eq_ret h
  obtain ⟨-, -, hB3, -, -, hB6, -⟩ := register_precedence_eq hR
  simp only [BasicBlock_Create_in, BasicBlock_Create] at h
  have hI : Building F1 s.fresh (others F1 s.TheModule)
      (SetInsertPoint sB.fresh (Function_insert F1 ⟨sB.fresh, .entry, []⟩
        { sB with fresh := sB.fresh + 1 })) := by
    refine ⟨fun G hG => hwf.2 G (List.mem_of_mem_filter hG), ?_, ?_, fun BB hBB => ?_⟩
    · show others F1 (Function_insert F1 _ _).TheModule = _
      rw [others_Function_insert]
      show others F1 sB.TheModule = _
      rw [hB3, ho]
    · show s.fresh ≤ sB.fresh + 1
      rw [hB6]
      exact Nat.le_succ_of_le hfr
    · simp only [SetInsertPoint, Option.some.injEq] at hBB
      rw [← hBB, hB6]
      exact hfr
  have hR1 : Rebuilt F1 (fun G G1 => G1 = G.addBlock ⟨sB.fresh, .entry, []⟩) sA
      (SetInsertPoint sB.fresh (Function_insert F1 ⟨sB.fresh, .entry, []⟩
        { sB with fresh := sB.fresh + 1 })) := by
    have q := Rebuilt_Function_insert F1 ⟨sB.fresh, .entry, []⟩ sB
    refine ⟨fun G1 hG1 hF => ?_, fun hx => q.2 (hB3 ▸ hx)⟩
    obtain ⟨G, hG, hF0, e⟩ := q.1 G1 hG1 hF
    exact ⟨G, hB3 ▸ hG, hF0, e⟩
  have hrdy : Ready F1 (SetInsertPoint sB.fresh (Function_insert F1 ⟨sB.fresh, .entry, []⟩
      { sB with fresh := sB.fresh + 1 })) :=
    ⟨sB.fresh, rfl, Rebuilt_each hR1 hem fun G G1 hG e => e ▸ under_construction_entry hG⟩
  obtain ⟨rv, sC, hC, h⟩ := Res.bind_eq_ret h
  cases rv with
  | none => cases h
  | some rv =>
  simp only at h
  have lC := Codegen_Lowered d.Body F1 _ _ _ rv sC hI hrdy hC
  obtain ⟨BB, hBB, uC⟩ := Lowered_Ready lC hrdy
  obtain ⟨x, sD, hD, h⟩ := Res.bind_eq_ret h
  cases h
  obtain ⟨-, -, -, rD⟩ := Insert_Rebuilt (F := F) hD hBB
  exact ⟨rD.2 ((Lowered_grows lC).2 (hR1.2 hex)),
    Rebuilt_each rD uC fun G G1 hG e => e ▸ under_construction_ret hG⟩

/-- C27: in a state whose objects are distinct and older than the counter (as
every state of a run is), whenever `FunctionDefnAST::Codegen` returns a
function, that function is in the module and every block of it holds
exactly one terminator (`ret`, `br` or the conditional `br`), which is its
last instruction, and no phi node after its first instruction. -/
theorem C27_lowered_function_is_wellformed (d : FunctionDefnAST) (s s1 : State) (F : Nat)
    (hwf : s.wf) (h : d.Codegen s = .ret (some F) s1) :
    (∃ G ∈ s1.TheModule, G.id = F) ∧ ∀ G ∈ s1.TheModule, G.id = F → G.wellformed = true :=
  ⟨(FunctionDefnAST_Codegen_cfg hwf h).1,
    fun G hG hF => ((FunctionDefnAST_Codegen_cfg hwf h).2 G hG hF).1⟩

/-- The definition `def f(a) if a then 1 else 2` lowered into the empty
module: the function returned, with its four blocks, each ended by its one
terminator, and the phi node first in the merge block. -/
theorem C27_lowered_function_is_wellformed_witness :
    ∃ s1, FunctionDefnAST.Codegen ⟨⟨[102], [[97]], false, 0⟩,
        .ExprIfAST (.VariableAST [97]) (.NumericAST 1) (.NumericAST 2)⟩ (State.init []) =
        .ret (some 0) s1 ∧
      ((∃ G ∈ s1.TheModule, G.id = 0) ∧
        ∀ G ∈ s1.TheModule, G.id = 0 → G.wellformed = true) ∧
      s1.TheModule = [⟨0, [102], 1,
        [⟨1, .entry, [⟨2, .ICmp .ICMP_NE (.Argument 0 0) (.ConstantInt 32 0)⟩,
            ⟨6, .CondBr (.Instruction 2) 3 4⟩]⟩,
          ⟨3, .then_, [⟨7, .Br 5⟩]⟩,
          ⟨4, .else_, [⟨8, .Br 5⟩]⟩,
          ⟨5, .ifcont, [⟨9, .PHI [(.ConstantInt 32 1, 3), (.ConstantInt 32 2, 4)]⟩,
            ⟨10, .Ret (.Instruction 9)⟩]⟩]⟩] := by
  have hwf : (State.init []).wf := by
    unfold State.wf Function.below
    simp [State.init, init_operator_precedence]
  have hv : (FunctionDefnAST.Codegen ⟨⟨[102], [[97]], false, 0⟩,
      .ExprIfAST (.VariableAST [97]) (.NumericAST 1) (.NumericAST 2)⟩
      (State.init [])).val? = some (some 0) := by decide!
  have hm : (FunctionDefnAST.Codegen ⟨⟨[102], [[97]], false, 0⟩,
      .ExprIfAST (.VariableAST [97]) (.NumericAST 1) (.NumericAST 2)⟩
      (State.init [])).state?.map State.TheModule = some [⟨0, [102], 1,
        [⟨1, .entry, [⟨2, .ICmp .ICMP_NE (.Argument 0 0) (.ConstantInt 32 0)⟩,
            ⟨6, .CondBr (.Instruction 2) 3 4⟩]⟩,
          ⟨3, .then_, [⟨7, .Br 5⟩]⟩,
          ⟨4, .else_, [⟨8, .Br 5⟩]⟩,
          ⟨5, .ifcont, [⟨9, .PHI [(.ConstantInt 32 1, 3), (.ConstantInt 32 2, 4)]⟩,
            ⟨10, .Ret (.Instruction 9)⟩]⟩]⟩] := by decide!
  cases hc : FunctionDefnAST.Codegen ⟨⟨[102], [[97]], false, 0⟩,
      .ExprIfAST (.VariableAST [97]) (.NumericAST 1) (.NumericAST 2)⟩ (State.init []) with
  | ret r s1 =>
    rw [hc] at hv hm
    simp only [Res.val?, Res.state?, Option.map, Option.some.injEq] at hv hm
    subst hv
    exact ⟨s1, rfl, C27_lowered_function_is_wellformed _ _ s1 0 hwf hc, hm⟩
  | throws => rw [hc] at hv; simp [Res.val?] at hv
  | ub => rw [hc] at hv; simp [Res.val?] at hv
  | fuel => rw [hc] at hv; simp [Res.val?] at hv

/-- C23: in a state whose objects are distinct and older than the counter (as
every state of a run is), whenever `FunctionDefnAST::Codegen` returns a
function, that function is in the module and every phi node of it, however
deep the conditional or the loop it was emitted for is nested, lists as its
incoming blocks exactly the predecessors of the block that holds it: no
block twice, and a block if and only if it holds a branch to the block of
the phi node. -/
theorem C23_phi_lists_the_predecessors (d : FunctionDefnAST) (s s1 : State) (F : Nat)
    (hwf : s.wf) (h : d.Codegen s = .ret (some F) s1) :
    (∃ G ∈ s1.TheModule, G.id = F) ∧ ∀ G ∈ s1.TheModule, G.id = F → G.phis_agree :=
  ⟨(FunctionDefnAST_Codegen_cfg hwf h).1,
    fun G hG hF => ((FunctionDefnAST_Codegen_cfg hwf h).2 G hG hF).2⟩

/-- The definition `def g(a) for i = 1, i < a in if i then 1 else 2` lowered
into the empty module: the phi node of the loop lists the block `entry`,
which branches into the loop, and the merge block of the conditional, which
holds the back-edge; the phi node of the conditional lists the blocks `then`
and `else`. -/
theorem C23_phi_lists_the_predecessors_witness :
    ∃ s1, FunctionDefnAST.Codegen ⟨⟨[103], [[97]], false, 0⟩,
        .ExprForAST [105] (.NumericAST 1)
          (.BinaryAST [54, 48] (.VariableAST [105]) (.VariableAST [97])) none
          (.ExprIfAST (.VariableAST [105]) (.NumericAST 1) (.NumericAST 2))⟩ (State.init []) =
        .ret (some 0) s1 ∧
      ((∃ G ∈ s1.TheModule, G.id = 0) ∧ ∀ G ∈ s1.TheModule, G.id = 0 → G.phis_agree) ∧
      s1.TheModule = [⟨0, [103], 1,
        [⟨1, .entry, [⟨3, .Br 2⟩]⟩,
          ⟨2, .loop, [⟨4, .PHI [(.ConstantInt 32 1, 1), (.Instruction 13, 8)]⟩,
            ⟨5, .ICmp .ICMP_NE (.Instruction 4) (.ConstantInt 32 0)⟩,
            ⟨9, .CondBr (.Instruction 5) 6 7⟩]⟩,
          ⟨6, .then_, [⟨10, .Br 8⟩]⟩,
          ⟨7, .else_, [⟨11, .Br 8⟩]⟩,
          ⟨8, .ifcont, [⟨12, .PHI [(.ConstantInt 32 1, 6), (.ConstantInt 32 2, 7)]⟩,
            ⟨13, .BinaryOperator .Add (.Instruction 4) (.ConstantInt 32 1)⟩,
            ⟨14, .ICmp .ICMP_ULT (.Instruction 4) (.Argument 0 0)⟩,
            ⟨15, .ZExt (.Instruction 14)⟩,
            ⟨16, .ICmp .ICMP_NE (.Instruction 15) (.ConstantInt 32 0)⟩,
            ⟨18, .CondBr (.Instruction 16) 2 17⟩]⟩,
          ⟨17, .afterloop, [⟨19, .Ret (.ConstantInt 32 0)⟩]⟩]⟩] := by
  have hwf : (State.init []).wf := by
    unfold State.wf Function.below
    simp [State.init, init_operator_precedence]
  have hv : (FunctionDefnAST.Codegen ⟨⟨[103], [[97]], false, 0⟩,
      .ExprForAST [105] (.NumericAST 1)
        (.BinaryAST [54, 48] (.VariableAST [105]) (.VariableAST [97])) none
        (.ExprIfAST (.VariableAST [105]) (.NumericAST 1) (.NumericAST 2))⟩
      (State.init [])).val? = some (some 0) := by decide!
  have hm : (FunctionDefnAST.Codegen ⟨⟨[103], [[97]], false, 0⟩,
      .ExprForAST [105] (.NumericAST 1)
        (.BinaryAST [54, 48] (.VariableAST [105]) (.VariableAST [97])) none
        (.ExprIfAST (.VariableAST [105]) (.NumericAST 1) (.NumericAST 2))⟩
      (State.init [])).state?.map State.TheModule = some [⟨0, [103], 1,
        [⟨1, .entry, [⟨3, .Br 2⟩]⟩,
          ⟨2, .loop, [⟨4, .PHI [(.ConstantInt 32 1, 1), (.Instruction 13, 8)]⟩,
            ⟨5, .ICmp .ICMP_NE (.Instruction 4) (.ConstantInt 32 0)⟩,
            ⟨9, .CondBr (.Instruction 5) 6 7⟩]⟩,
          ⟨6, .then_, [⟨10, .Br 8⟩]⟩,
          ⟨7, .else_, [⟨11, .Br 8⟩]⟩,
          ⟨8, .ifcont, [⟨12, .PHI [(.ConstantInt 32 1, 6), (.ConstantInt 32 2, 7)]⟩,
            ⟨13, .BinaryOperator .Add (.Instruction 4) (.ConstantInt 32 1)⟩,
            ⟨14, .ICmp .ICMP_ULT (.Instruction 4) (.Argument 0 0)⟩,
            ⟨15, .ZExt (.Instruction 14)⟩,
            ⟨16, .ICmp .ICMP_NE (.Instruction 15) (.ConstantInt 32 0)⟩,
            ⟨18, .CondBr (.Instruction 16) 2 17⟩]⟩,
          ⟨17, .afterloop, [⟨19, .Ret (.ConstantInt 32 0)⟩]⟩]⟩] := by decide!
  cases hc : FunctionDefnAST.Codegen ⟨⟨[103], [[97]], false, 0⟩,
      .ExprForAST [105] (.NumericAST 1)
        (.BinaryAST [54, 48] (.VariableAST [105]) (.VariableAST [97])) none
        (.ExprIfAST (.VariableAST [105]) (.NumericAST 1) (.NumericAST 2))⟩ (State.init []) with
  | ret r s1 =>
    rw [hc] at hv hm
    simp only [Res.val?, Res.state?, Option.map, Option.some.injEq] at hv hm
    subst hv
    exact ⟨s1, rfl, C23_phi_lists_the_predecessors _ _ s1 0 hwf hc, hm⟩
  | throws => rw [hc] at hv; simp [Res.val?] at hv
  | ub => rw [hc] at hv; simp [Res.val?] at hv
  | fuel => rw [hc] at hv; simp [Res.val?] at hv

/-- A function that is in the module after `FunctionDefnAST::Codegen` was in
it before, as it is, or is the function the call returns. -/
theorem FunctionDefnAST_Codegen_others {d : FunctionDefnAST} {s s1 : State} {r : Option Nat}
    (hwf : s.wf) (h : d.Codegen s = .ret r s1) :
    ∀ G ∈ s1.TheModule, G ∈ s.TheModule ∨ r = some G.id := by
  unfold FunctionDefnAST.Codegen at h
  obtain ⟨r1, sA, hd, h⟩ := Res.bind_eq_ret h
  obtain ⟨hnone, hsome⟩ := FunctionDeclAST_Codegen_module (s := { s with Named_Values := [] })
    hwf hd
  cases r1 with
  | none =>
    cases h
    rw [hnone rfl]
    exact fun G hG => .inl hG
  | some F =>
  simp only at h
  obtain ⟨ho, hfr, -⟩ := hsome F rfl
  obtain ⟨u, sB, hR, h⟩ := Res.bind_eq_ret h
  obtain ⟨-, -, hB3, -, -, hB6, -⟩ := register_precedence_eq hR
  simp only [BasicBlock_Create_in, BasicBlock_Create] at h
  have hI : Building F s.fresh (others F s.TheModule)
      (SetInsertPoint sB.fresh (Function_insert F ⟨sB.fresh, .entry, []⟩
        { sB with fresh := sB.fresh + 1 })) := by
    refine ⟨fun G hG => hwf.2 G (List.mem_of_mem_filter hG), ?_, ?_, fun BB hBB => ?_⟩
    · show others F (Function_insert F _ _).TheModule = _
      rw [others_Function_insert]
      show others F sB.TheModule = _
      rw [hB3, ho]
    · show s.fresh ≤ sB.fresh + 1
      rw [hB6]
      exact Nat.le_succ_of_le hfr
    · simp only [SetInsertPoint, Option.some.injEq] at hBB
      rw [← hBB, hB6]
      exact hfr
  obtain ⟨rv, sC, hC, h⟩ := Res.bind_eq_ret h
  have bC := Codegen_building d.Body _ F s.fresh _ hI rv sC hC
  cases rv with
  | none =>
    cases h
    intro G hG
    have hm : (eraseFromParent F sC).TheModule = others F s.TheModule := bC.2.1
    rw [hm] at hG
    exact .inl (List.mem_of_mem_filter hG)
  | some rv =>
    simp only at h
    obtain ⟨x, sD, hD, h⟩ := Res.bind_eq_ret h
    cases h
    have bD := (Insert_building bC _ _ hD).1
    intro G hG
    by_cases hF : G.id = F
    · exact .inr (congrArg some hF.symm)
    · have hm : others F s1.TheModule = others F s.TheModule := bD.2.1
      have hG2 : G ∈ others F s1.TheModule := by
        unfold others
        simp [List.mem_filter, hG, hF]
      rw [hm] at hG2
      exact .inl (List.mem_of_mem_filter hG2)

/-- Lowering a definition keeps every function of the module well formed,
with phi nodes that list the predecessors of their blocks. -/
theorem FunctionDefnAST_Codegen_sound {d : FunctionDefnAST} {s : State}
    (hs : s.wf ∧ ∀ G ∈ s.TheModule, G.wellformed = true ∧ G.phis_agree) :
    (d.Codegen s).Sat fun s1 =>
      s1.wf ∧ ∀ G ∈ s1.TheModule, G.wellformed = true ∧ G.phis_agree := by
  intro r s1 h
  refine ⟨FunctionDefnAST_Codegen_wf hs.1 r s1 h, fun G hG => ?_⟩
  rcases FunctionDefnAST_Codegen_others hs.1 h G hG with h1 | h1
  · exact hs.2 G h1
  · subst h1
    exact (FunctionDefnAST_Codegen_cfg hs.1 h).2 G hG rfl

/-- Every state the driver returns has every function of its module well
formed, with phi nodes that list the predecessors of their blocks, when the
state it starts from has. -/
theorem Driver_sound : ∀ (n : Nat) (s : State),
    (s.wf ∧ ∀ G ∈ s.TheModule, G.wellformed = true ∧ G.phis_agree) →
    (Driver n s).Sat fun s1 =>
      s1.wf ∧ ∀ G ∈ s1.TheModule, G.wellformed = true ∧ G.phis_agree := by
  have hback : ∀ s s1 : State, s1.back = s.back →
      (s.wf ∧ ∀ G ∈ s.TheModule, G.wellformed = true ∧ G.phis_agree) →
      s1.wf ∧ ∀ G ∈ s1.TheModule, G.wellformed = true ∧ G.phis_agree := by
    intro s s1 hb hs
    refine ⟨wf_of_back hb hs.1, ?_⟩
    simp only [State.back, Prod.mk.injEq] at hb
    rw [hb.1]
    exact hs.2
  have hnext : ∀ s : State,
      (s.wf ∧ ∀ G ∈ s.TheModule, G.wellformed = true ∧ G.phis_agree) →
      (next_token s).Sat fun s1 =>
        s1.wf ∧ ∀ G ∈ s1.TheModule, G.wellformed = true ∧ G.phis_agree :=
    fun s hs t s1 h => hback s s1 ((parse_keeps_back s.back).1 s rfl t s1 h) hs
  have hget : ∀ s : State,
      (s.wf ∧ ∀ G ∈ s.TheModule, G.wellformed = true ∧ G.phis_agree) →
      ((getBinOpPrecedence s).2.wf ∧
        ∀ G ∈ (getBinOpPrecedence s).2.TheModule, G.wellformed = true ∧ G.phis_agree) :=
    fun s hs => hback s _ ((parse_keeps_back s.back).2 s rfl) hs
  intro n
  induction n with
  | zero => intro s _; exact Sat_fuel
  | succ n ih =>
    intro s hs
    obtain ⟨-, hdefn, htop⟩ := decl_parse_inv
      (fun s => s.wf ∧ ∀ G ∈ s.TheModule, G.wellformed = true ∧ G.phis_agree) hnext hget n
    rw [Driver]
    split
    · exact Sat_ret hs
    · split
      · exact Sat_bind (hnext s hs) fun _ s1 h1 => ih s1 h1
      · split
        · refine Sat_bind ?_ fun _ s1 h1 => ih s1 h1
          unfold HandleDefn
          refine Sat_bind (hdefn s hs) fun F s1 h1 => ?_
          split
          · exact Sat_bind (FunctionDefnAST_Codegen_sound h1) fun _ _ h => Sat_ret h
          · exact Sat_bind (hnext s1 h1) fun _ _ h => Sat_ret h
        · refine Sat_bind ?_ fun _ s1 h1 => ih s1 h1
          unfold HandleTopLevelExpression
          refine Sat_bind (htop s hs) fun F s1 h1 => ?_
          split
          · refine Sat_bind (FunctionDefnAST_Codegen_sound h1) fun _ _ h => ?_
            intro a s2 e
            split at e
            · split at e
              · cases e
                exact h
              · cases e
              · cases e
            · cases e
              exact h
          · exact Sat_bind (hnext s1 h1) fun _ _ h => Sat_ret h

/-- In the state in which a run of the program ends every function of the
module is well formed: each block holds exactly one terminator, at its end,
and phi nodes at its start only, and every phi node lists as incoming blocks
exactly the predecessors of its block. -/
theorem run_sound (n : Nat) (input : List Nat) :
    (run n input).Sat fun s => ∀ G ∈ s.TheModule, G.wellformed = true ∧ G.phis_agree := by
  have h0 : (State.init input).wf ∧
      ∀ G ∈ (State.init input).TheModule, G.wellformed = true ∧ G.phis_agree := by
    refine ⟨?_, fun G hG => ?_⟩
    · unfold State.wf Function.below
      simp [State.init, init_operator_precedence]
    · simp [State.init, init_operator_precedence] at hG
  unfold run
  refine Sat_mono (Sat_bind (fun t s1 h => ?_) fun _ s1 h1 => Driver_sound n s1 h1)
    fun _ h => h.2
  have hb := (parse_keeps_back (State.init input).back).1 _ rfl t s1 h
  refine ⟨wf_of_back hb h0.1, ?_⟩
  simp only [State.back, Prod.mk.injEq] at hb
  rw [hb.1]
  exact h0.2

end Chapter3
